import Mathlib

/-!
# Verification of the exonum MerkleDB core

Shallow embedding of the Merkle Patricia proof map and the view layer of the
repository.  Byte strings are modelled as `List Nat` (each entry a byte value),
and the 32-byte key material of a `ProofPath` is modelled as its sequence of
256 bits (`List Bool`), where the bit at index `8*i + j` is bit `j` (LSB first)
of byte `i`, exactly the addressing used by `BitsRange::bit` in
`proof_map_index/key.rs`.
-/

namespace Exonum

set_option maxRecDepth 16384

/-- Byte strings (each entry is one byte). -/
abbrev Bytes := List Nat

/-- The bit sequence of a 32-byte key: index `8*i + j` is bit `j` (LSB first)
of byte `i`. -/
abbrev KeyBits := List Bool

/-- The numeric value of a byte given as (up to) 8 bits, LSB first. -/
def byteOfBits (bs : List Bool) : Nat :=
  bs.foldr (fun b acc => 2 * acc + cond b 1 0) 0

/-- Convert a bit sequence to `n` bytes (bit `8*i+j` of the sequence is bit `j`
of byte `i`), padding missing bits with `false`. -/
def bytesOfBits (bits : KeyBits) (n : Nat) : Bytes :=
  (List.range n).map (fun i => byteOfBits ((bits.drop (8 * i)).take 8))

/-- Convert a byte string to a 256-entry bit sequence (inverse of
`bytesOfBits · 32` on 32-byte strings). -/
def bitsOfBytes (bytes : Bytes) : KeyBits :=
  (List.range 256).map (fun j => (bytes.getD (j / 8) 0).testBit (j % 8))

/-! ## ProofPath (`proof_map_index/key.rs`)

The source stores a `ProofPath` as 34 raw bytes (1 kind byte, 32 key bytes,
1 length byte) plus a transient `start` offset.  The kind byte and length byte
jointly encode the right border of the bit range: `end() = 256` when the kind
byte is `LEAF_KEY_PREFIX` and the stored length otherwise, and `set_end`
maintains exactly this coupling.  We therefore carry the key material as its
bit sequence together with the decoded `end` border (`endp`, with
`endp = 256 ↔ leaf`) and the `start` offset. -/

/-- `ChildKind` from `proof_map_index/key.rs`. -/
inductive ChildKind where
  | left
  | right
deriving DecidableEq, Repr

/-- `impl Not for ChildKind`. -/
def ChildKind.flip : ChildKind → ChildKind
  | .left => .right
  | .right => .left

/-- The embedding of `ProofPath`: `key` is the bit sequence of the 32 key
bytes, `endp` the decoded right border (`256` for a leaf), `start` the
transient left border. -/
structure ProofPath where
  key : KeyBits
  endp : Nat
  start : Nat
deriving DecidableEq, Repr

namespace ProofPath

/-- `ProofPath::new`: the leaf path of a full 32-byte key. -/
def ofKey (k : KeyBits) : ProofPath := ⟨k, 256, 0⟩

/-- `ProofPath::is_leaf` (the kind byte equals `LEAF_KEY_PREFIX`). -/
def isLeaf (p : ProofPath) : Bool := p.endp == 256

/-- `BitsRange::len`. -/
def len (p : ProofPath) : Nat := p.endp - p.start

/-- The bit at absolute position `pos` of the key material. -/
def keyBit (p : ProofPath) (pos : Nat) : Bool := p.key.getD pos false

/-- `BitsRange::bit`: the child direction given by bit `start + idx`. -/
def bit (p : ProofPath) (idx : Nat) : ChildKind :=
  if p.keyBit (p.start + idx) then .right else .left

/-- `BitsRange::start_from`: same bytes, new left border. -/
def startFrom (p : ProofPath) (s : Nat) : ProofPath := ⟨p.key, p.endp, s⟩

/-- `BitsRange::suffix`. -/
def suffix (p : ProofPath) (pos : Nat) : ProofPath := p.startFrom (p.start + pos)

/-- `BitsRange::prefix`, implemented by `set_end (start + pos)`: `set_end`
turns the path into a leaf when the new border is 256 and into a branch with
that length otherwise, which our `endp` field records directly. -/
def prefixAt (p : ProofPath) (pos : Nat) : ProofPath := ⟨p.key, p.start + pos, p.start⟩

/-- First position `lo + i` with `i < fuel` at which the key bits of `a` and
`b` differ. -/
def firstDiffAux (a b : KeyBits) : Nat → Nat → Option Nat
  | _, 0 => none
  | lo, fuel + 1 =>
    if a.getD lo false != b.getD lo false then some lo
    else firstDiffAux a b (lo + 1) fuel

/-- First position in `[lo, hi)` at which the key bits of `a` and `b`
differ. -/
def firstDiff (a b : KeyBits) (lo hi : Nat) : Option Nat :=
  firstDiffAux a b lo (hi - lo)

/-- `BitsRange::common_prefix` for `ProofPath`.  The source scans whole bytes
from byte `start / 8` up to byte `min(⌈end_a/8⌉, ⌈end_b/8⌉)`, and on the first
byte with a nonzero xor returns `min(i*8 + trailing_zeros - start, max_len)`
(u16 arithmetic, wrapping).  Scanning bytes in increasing order and taking the
lowest differing bit of the first differing byte is the same as taking the
first differing bit position in `[8*(start/8), 8*to)`, so we phrase it via
`firstDiff`; the `% 65536` reproduces the wrapping subtraction when the first
differing bit lies below `start` inside the starting byte. -/
def commonPrefixLen (self other : ProofPath) : Nat :=
  if self.start ≠ other.start then 0
  else
    let s := self.start
    let lo := 8 * (s / 8)
    let hi := 8 * (min ((self.endp + 7) / 8) ((other.endp + 7) / 8))
    let maxLen := min self.len other.len
    match firstDiff self.key other.key lo hi with
    | none => maxLen
    | some p => min ((p + 65536 - s) % 65536) maxLen

/-- `BitsRange::starts_with`. -/
def startsWith (self other : ProofPath) : Bool :=
  self.commonPrefixLen other == other.len

/-- `impl PartialEq for ProofPath`. -/
def pathEq (self other : ProofPath) : Bool :=
  self.len == other.len && self.startsWith other

/-- The key bits surviving serialization of a path with right border `e`:
`StorageKey::write` zeroes every bit at position `≥ e` of the key material of
a branch and copies a leaf (where `e = 256`) verbatim, so the uniform mask
`j < e` describes both cases.  The result is normalized to 256 entries. -/
def maskBits (e : Nat) (bits : KeyBits) : KeyBits :=
  (List.range 256).map (fun j => decide (j < e) && bits.getD j false)

/-- `StorageKey::write` for `ProofPath`: 34 bytes — the kind byte, the
(masked) key material, the length byte. -/
def serialize (p : ProofPath) : Bytes :=
  (if p.endp = 256 then 1 else 0)
    :: bytesOfBits (maskBits p.endp p.key) 32
    ++ [if p.endp = 256 then 0 else p.endp]

end ProofPath

/-- `StorageKey::read` for `ProofPath` (34 bytes, `start = 0`). -/
def readPath (bs : Bytes) : ProofPath :=
  { key := bitsOfBytes ((bs.drop 1).take 32)
    endp := if bs.getD 0 0 = 1 then 256 else bs.getD 33 0
    start := 0 }

/-! ## BranchNode (`proof_map_index/node.rs`)

A `BranchNode` is a raw 132-byte record: left hash (32 bytes at offset 0),
right hash (32 bytes at offset 32), left path (34 bytes at offset 64), right
path (34 bytes at offset 98).  We model the four segments as fields; the wire
image is their concatenation. -/

structure BranchNode where
  leftHash : Bytes
  rightHash : Bytes
  leftPath : Bytes
  rightPath : Bytes
deriving DecidableEq, Repr

namespace BranchNode

/-- `BranchNode::empty` (132 zero bytes). -/
def empty : BranchNode :=
  ⟨List.replicate 32 0, List.replicate 32 0, List.replicate 34 0, List.replicate 34 0⟩

/-- `BranchNode::child_hash`. -/
def childHash (b : BranchNode) : ChildKind → Bytes
  | .left => b.leftHash
  | .right => b.rightHash

/-- `BranchNode::child_path` (reads the stored 34 bytes back as a path). -/
def childPath (b : BranchNode) : ChildKind → ProofPath
  | .left => readPath b.leftPath
  | .right => readPath b.rightPath

/-- `BranchNode::set_child_path` (stores the serialized 34 bytes). -/
def setChildPath (b : BranchNode) (kind : ChildKind) (p : ProofPath) : BranchNode :=
  match kind with
  | .left => { b with leftPath := p.serialize }
  | .right => { b with rightPath := p.serialize }

/-- `BranchNode::set_child_hash`. -/
def setChildHash (b : BranchNode) (kind : ChildKind) (h : Bytes) : BranchNode :=
  match kind with
  | .left => { b with leftHash := h }
  | .right => { b with rightHash := h }

/-- `BranchNode::set_child`. -/
def setChild (b : BranchNode) (kind : ChildKind) (p : ProofPath) (h : Bytes) : BranchNode :=
  (b.setChildPath kind p).setChildHash kind h

/-- The 132-byte wire image of the branch node. -/
def image (b : BranchNode) : Bytes :=
  b.leftHash ++ b.rightHash ++ b.leftPath ++ b.rightPath

/-- `UniqueHash for BranchNode`: the hash of the 132-byte image. -/
def nodeHash (hashFn : Bytes → Bytes) (b : BranchNode) : Bytes := hashFn b.image

end BranchNode

/-! ## The storage view of one ProofMap index

The index keeps all its data in one `View` over an ordered byte store
(`BTreeMap` semantics on a fork).  We model the view contents as an
association list sorted strictly by byte-lexicographic key order, so that the
head of the list is the first entry of ordered iteration.  Stored values are
either a leaf's 32-byte value hash, a 132-byte `BranchNode`, or a user value
(the three shapes the `ProofMapIndex` ever writes); the physical store holds
their byte encodings, which decode uniquely per key namespace. -/

/-- Strict byte-lexicographic order on byte strings (the `Ord` instance of
Rust byte slices: a proper prefix sorts first). -/
def bytesLt : Bytes → Bytes → Bool
  | [], [] => false
  | [], _ :: _ => true
  | _ :: _, [] => false
  | a :: as, b :: bs => a < b || (a == b && bytesLt as bs)

/-- A value stored in the view of a ProofMap index. -/
inductive StoredValue where
  | hashVal (h : Bytes)
  | branchVal (b : BranchNode)
  | userVal (v : Bytes)
deriving DecidableEq, Repr

/-- The contents of the index's view: an association list sorted strictly by
`bytesLt` on the keys. -/
abbrev Store := List (Bytes × StoredValue)

/-- Insert (or overwrite) a key, preserving sortedness (`BTreeMap::insert`). -/
def storeInsert (s : Store) (k : Bytes) (v : StoredValue) : Store :=
  match s with
  | [] => [(k, v)]
  | (k', v') :: rest =>
    if bytesLt k k' then (k, v) :: (k', v') :: rest
    else if k = k' then (k, v) :: rest
    else (k', v') :: storeInsert rest k v

/-- Remove a key (`BTreeMap::remove`; records a `Delete` on the fork). -/
def storeErase (s : Store) (k : Bytes) : Store :=
  match s with
  | [] => []
  | (k', v') :: rest => if k = k' then rest else (k', v') :: storeErase rest k

/-- Point lookup. -/
def storeLookup (s : Store) (k : Bytes) : Option StoredValue :=
  (s.find? (fun e => e.1 == k)).map (·.2)

/-! ## ProofMapIndex operations (`proof_map_index/mod.rs`)

Partial functions return `Option`: `none` models a panic (a failed `unwrap`
or an `unreachable!`), which cannot occur on well-formed states.  The
recursive `insert_branch` / `remove_node` walks take a fuel argument; the
walk deepens its `start` offset on every recursive call, so fuel 257 is
enough for every well-formed state. -/

/-- `Node` from `proof_map_index/node.rs` (leaf payloads of a ProofMap node
are the 32-byte value hash). -/
inductive Node where
  | leafN (h : Bytes)
  | branchN (b : BranchNode)
deriving DecidableEq, Repr

/-- `VALUE_KEY_PREFIX`: the tag byte of value keys.  Modelled from the spec:
the constant itself lives in the version of `proof_map_index/key.rs` that is
not part of this tree; the spec fixes it as "a distinct tag byte chosen so
the key space is disjoint from node keys", and node keys start with 0 or 1. -/
def VALUE_KEY_PREFIX : Nat := 2

/-- `ValuePath::to_value_path`: the user key prefixed with the tag byte. -/
def valuePath (k : KeyBits) : Bytes := VALUE_KEY_PREFIX :: bytesOfBits k 32

/-- `ProofMapIndex::get`: point lookup of the value key. -/
def mapGet (s : Store) (k : KeyBits) : Option Bytes :=
  match storeLookup s (valuePath k) with
  | some (.userVal v) => some v
  | _ => none

/-- `ProofMapIndex::get_root_path`: the first entry of ordered iteration over
the view, parsed back as a `ProofPath`. -/
def getRootPath (s : Store) : Option ProofPath :=
  s.head?.map (fun e => readPath e.1)

/-- `ProofMapIndex::get_node_unchecked` (the `unwrap` on a missing or
ill-typed node is a panic, modelled as `none`). -/
def getNodeUnchecked (s : Store) (p : ProofPath) : Option Node :=
  if p.isLeaf then
    match storeLookup s p.serialize with
    | some (.hashVal h) => some (.leafN h)
    | _ => none
  else
    match storeLookup s p.serialize with
    | some (.branchVal b) => some (.branchN b)
    | _ => none

/-- `ProofMapIndex::get_root_node`.  The outer `Option` is panic, the inner
the presence of a root. -/
def getRootNode (s : Store) : Option (Option (ProofPath × Node)) :=
  match s.head? with
  | none => some none
  | some (kb, _) =>
    match getNodeUnchecked s (readPath kb) with
    | none => none
    | some n => some (some (readPath kb, n))

/-- Byte string of 32 zero bytes (`Hash::zero`). -/
def zeroHash : Bytes := List.replicate 32 0

/-- `ProofMapIndex::merkle_root` (called `root_hash` in the specification):
zero for an empty map, `hash(path_bytes ‖ value_hash)` for a leaf root,
the branch node hash for a branch root. -/
def merkleRoot (hashFn : Bytes → Bytes) (s : Store) : Option Bytes :=
  match getRootNode s with
  | none => none
  | some none => some zeroHash
  | some (some (p, .leafN h)) => some (hashFn (p.serialize ++ h))
  | some (some (_, .branchN b)) => some (BranchNode.nodeHash hashFn b)

/-- `UniqueHash` of a stored value: the hash of its canonical encoded byte
form (values are modelled by their encodings). -/
def valueHash (hashFn : Bytes → Bytes) (v : Bytes) : Bytes := hashFn v

/-- `UniqueHash for Hash` is the identity (a hash is its own unique hash).
Modelled from the spec: the `UniqueHash` impls live outside this tree; the
spec requires the leaf root hash to be `hash(path_bytes ‖ value_hash)` and
root hashes to be insertion-order independent, which forces re-hashing a
stored value hash to return it unchanged. -/
def hashOfHash (h : Bytes) : Bytes := h

/-- `ProofMapIndex::insert_leaf`: store the value hash under the leaf's node
key and the value under its value key; returns the value hash. -/
def insertLeaf (hashFn : Bytes → Bytes) (s : Store) (p : ProofPath) (k : KeyBits)
    (v : Bytes) : Store × Bytes :=
  let h := valueHash hashFn v
  ((storeInsert (storeInsert s p.serialize (.hashVal h)) (valuePath k) (.userVal v)), h)

/-- `ProofMapIndex::remove_leaf`: delete the node key and the value key. -/
def removeLeaf (s : Store) (p : ProofPath) (k : KeyBits) : Store :=
  storeErase (storeErase s p.serialize) (valuePath k)

/-- `ProofMapIndex::insert_branch`.  Returns the updated store, the new key
length when the inserted node got a shorter key (`Some(i)` in the source) and
the updated hash. -/
def insertBranch (hashFn : Bytes → Bytes) : Nat → Store → BranchNode → ProofPath →
    KeyBits → Bytes → Option (Store × Option Nat × Bytes)
  | 0, _, _, _, _, _ => none
  | fuel + 1, s, parent, proofPath, k, v =>
    let childPath := (parent.childPath (proofPath.bit 0)).startFrom proofPath.start
    let i := childPath.commonPrefixLen proofPath
    if childPath.len = i then
      if childPath.isLeaf then
        let (s₁, h) := insertLeaf hashFn s proofPath k v
        some (s₁, none, h)
      else
        match getNodeUnchecked s childPath with
        | some (.branchN branch) =>
          match insertBranch hashFn fuel s branch (proofPath.suffix i) k v with
          | none => none
          | some (s₁, j, h) =>
            let branch' :=
              match j with
              | some j => branch.setChild (proofPath.bit i) ((proofPath.suffix i).prefixAt j) h
              | none => branch.setChildHash (proofPath.bit i) h
            some (storeInsert s₁ childPath.serialize (.branchVal branch'),
                  none, BranchNode.nodeHash hashFn branch')
        | _ => none
    else
      let suffixPath := proofPath.suffix i
      let (s₁, h) := insertLeaf hashFn s suffixPath k v
      let newBranch :=
        (BranchNode.empty.setChild (suffixPath.bit 0) suffixPath h).setChild
          (childPath.bit i) (childPath.suffix i) (parent.childHash (proofPath.bit 0))
      some (storeInsert s₁ (proofPath.prefixAt i).serialize (.branchVal newBranch),
            some i, BranchNode.nodeHash hashFn newBranch)

/-- `ProofMapIndex::put`. -/
def mapPut (hashFn : Bytes → Bytes) (s : Store) (k : KeyBits) (v : Bytes) :
    Option Store :=
  let proofPath := ProofPath.ofKey k
  match getRootNode s with
  | none => none
  | some none => some (insertLeaf hashFn s proofPath k v).1
  | some (some (prefixPath, .leafN prefixData)) =>
    let i := prefixPath.commonPrefixLen proofPath
    let (s₁, leafHash) := insertLeaf hashFn s proofPath k v
    if i < proofPath.len then
      let branch :=
        (BranchNode.empty.setChild (proofPath.bit i) (proofPath.suffix i) leafHash).setChild
          (prefixPath.bit i) (prefixPath.suffix i) (hashOfHash prefixData)
      some (storeInsert s₁ (proofPath.prefixAt i).serialize (.branchVal branch))
    else
      some s₁
  | some (some (prefixPath, .branchN branch)) =>
    let i := prefixPath.commonPrefixLen proofPath
    if i = prefixPath.len then
      let suffixPath := proofPath.suffix i
      match insertBranch hashFn 257 s branch suffixPath k v with
      | none => none
      | some (s₁, j, h) =>
        let branch' :=
          match j with
          | some j => branch.setChild (suffixPath.bit 0) (suffixPath.prefixAt j) h
          | none => branch.setChildHash (suffixPath.bit 0) h
        some (storeInsert s₁ prefixPath.serialize (.branchVal branch'))
    else
      let (s₁, h) := insertLeaf hashFn s proofPath k v
      let newBranch :=
        (BranchNode.empty.setChild (prefixPath.bit i) (prefixPath.suffix i)
            (BranchNode.nodeHash hashFn branch)).setChild
          (proofPath.bit i) (proofPath.suffix i) h
      some (storeInsert s₁ (prefixPath.prefixAt i).serialize (.branchVal newBranch))

/-- `RemoveAction` from `proof_map_index/mod.rs`. -/
inductive RemoveAction where
  | keyNotFound
  | leaf
  | branch (p : ProofPath) (h : Bytes)
  | updateHash (h : Bytes)
deriving Repr

/-- `ProofMapIndex::remove_node`. -/
def removeNode (hashFn : Bytes → Bytes) : Nat → Store → BranchNode → ProofPath →
    KeyBits → Option (Store × RemoveAction)
  | 0, _, _, _, _ => none
  | fuel + 1, s, parent, proofPath, k =>
    let childPath := (parent.childPath (proofPath.bit 0)).startFrom proofPath.start
    let i := childPath.commonPrefixLen proofPath
    if i = childPath.len then
      match getNodeUnchecked s childPath with
      | some (.leafN _) => some (removeLeaf s proofPath k, .leaf)
      | some (.branchN branch) =>
        let suffixPath := proofPath.suffix i
        match removeNode hashFn fuel s branch suffixPath k with
        | none => none
        | some (s₁, .leaf) =>
          let child := (suffixPath.bit 0).flip
          let key := branch.childPath child
          let hash := branch.childHash child
          some (storeErase s₁ childPath.serialize, .branch key hash)
        | some (s₁, .branch key hash) =>
          let newChildPath := key.startFrom suffixPath.start
          let branch' := branch.setChild (suffixPath.bit 0) newChildPath hash
          some (storeInsert s₁ childPath.serialize (.branchVal branch'),
                .updateHash (BranchNode.nodeHash hashFn branch'))
        | some (s₁, .updateHash hash) =>
          let branch' := branch.setChildHash (suffixPath.bit 0) hash
          some (storeInsert s₁ childPath.serialize (.branchVal branch'),
                .updateHash (BranchNode.nodeHash hashFn branch'))
        | some (s₁, .keyNotFound) => some (s₁, .keyNotFound)
      | none => none
    else
      some (s, .keyNotFound)

/-- `ProofMapIndex::remove`. -/
def mapRemove (hashFn : Bytes → Bytes) (s : Store) (k : KeyBits) : Option Store :=
  let proofPath := ProofPath.ofKey k
  match getRootNode s with
  | none => none
  | some none => some s
  | some (some (prefixPath, .leafN _)) =>
    if proofPath.pathEq prefixPath then some (removeLeaf s proofPath k) else some s
  | some (some (prefixPath, .branchN branch)) =>
    let i := prefixPath.commonPrefixLen proofPath
    if i = prefixPath.len then
      let suffixPath := proofPath.suffix i
      match removeNode hashFn 257 s branch suffixPath k with
      | none => none
      | some (s₁, .leaf) => some (storeErase s₁ prefixPath.serialize)
      | some (s₁, .branch key hash) =>
        let newChildPath := key.startFrom suffixPath.start
        let branch' := branch.setChild (suffixPath.bit 0) newChildPath hash
        some (storeInsert s₁ prefixPath.serialize (.branchVal branch'))
      | some (s₁, .updateHash hash) =>
        let branch' := branch.setChildHash (suffixPath.bit 0) hash
        some (storeInsert s₁ prefixPath.serialize (.branchVal branch'))
      | some (s₁, .keyNotFound) => some s₁
    else
      some s

/-! ## View reads on a Fork (`views/mod.rs`) -/

/-- `Change` from the database layer. -/
inductive Change where
  | put (v : Bytes)
  | delete
deriving DecidableEq, Repr

/-- `ViewChanges`.  Modelled from the spec: the struct itself lives in the
database module that is not part of this tree; per the spec it is an ordered
mapping from raw key bytes to `Change` plus an `emptied` flag set by `clear`
(the savepoint stack does not affect reads and is omitted); `is_empty()`
returns the flag. -/
structure ViewChanges where
  data : List (Bytes × Change)
  emptied : Bool
deriving DecidableEq, Repr

/-- `changes.data.get(key)`. -/
def changesGet (ch : ViewChanges) (key : Bytes) : Option Change :=
  (ch.data.find? (fun e => e.1 == key)).map (·.2)

/-- `IndexAddress::keyed`: the physical record key — family bytes (when
present) concatenated with the user key. -/
def keyedKey (addressBytes : Option Bytes) (key : Bytes) : Bytes :=
  match addressBytes with
  | none => key
  | some bytes => bytes ++ key

/-- `View::get_bytes`.  `changes = none` models a view over a plain
`Snapshot` (`ChangeSet for ()`), `changes = some ch` a view over a `Fork`;
`snap` is the underlying snapshot's point lookup within the view's name. -/
def getBytes (changes : Option ViewChanges) (addressBytes : Option Bytes)
    (snap : Bytes → Option Bytes) (key : Bytes) : Option Bytes :=
  match changes with
  | some ch =>
    match changesGet ch key with
    | some (.put v) => some v
    | some .delete => none
    | none =>
      if ch.emptied then none
      else snap (keyedKey addressBytes key)
  | none => snap (keyedKey addressBytes key)

/-- `View<&Fork>::put`: record a `Put` in the view's changes. -/
def viewPut (ch : ViewChanges) (key : Bytes) (value : Bytes) : ViewChanges :=
  { ch with data := (key, Change.put value) :: ch.data.filter (fun e => e.1 ≠ key) }

/-- `View<&Fork>::remove`: record a `Delete`. -/
def viewRemove (ch : ViewChanges) (key : Bytes) : ViewChanges :=
  { ch with data := (key, Change.delete) :: ch.data.filter (fun e => e.1 ≠ key) }

/-- `ViewChanges::clear` (reached through `View<&Fork>::clear`): drop all
pending changes and set the `emptied` flag. -/
def viewClear (_ : ViewChanges) : ViewChanges := ⟨[], true⟩

/-! ## Index metadata registry (`views/index_metadata.rs`) -/

/-- `IndexType`. -/
inductive IndexType where
  | map
  | list
  | entry
  | valueSet
  | keySet
  | sparseList
  | proofList
  | proofMap
deriving DecidableEq, Repr

/-- `IndexMetadata`: the kind of the index and whether it is in a family. -/
structure IndexMetadata where
  index_type : IndexType
  has_parent : Bool
deriving DecidableEq, Repr

/-- The metadata view of one index address: the two typed entries it stores
under its reserved sub-namespace. -/
structure MetadataStore where
  indexTypeEntry : Option IndexType
  hasParentEntry : Option Bool
deriving DecidableEq, Repr

/-- `IndexMetadataView::index_metadata`: `None` when no record exists; the
outer `none` models the `expect` panic when the record is half-present. -/
def indexMetadataGet (s : MetadataStore) : Option (Option IndexMetadata) :=
  match s.indexTypeEntry with
  | none => some none
  | some t =>
    match s.hasParentEntry with
    | none => none
    | some hp => some (some ⟨t, hp⟩)

/-- `IndexMetadataView::set_index_metadata`: write both entries. -/
def setIndexMetadata (s : MetadataStore) (m : IndexMetadata) : MetadataStore :=
  { s with indexTypeEntry := some m.index_type, hasParentEntry := some m.has_parent }

/-- `check_or_create_metadata`: read the saved record, panic (`assert_eq`)
when it exists and disagrees with the requested metadata, and (re)write the
record when the access is a `Fork`.  `none` models the panic. -/
def checkOrCreateMetadata (s : MetadataStore) (isFork : Bool) (metadata : IndexMetadata) :
    Option MetadataStore :=
  match indexMetadataGet s with
  | none => none
  | some (some savedMetadata) =>
    if metadata = savedMetadata then
      some (if isFork then setIndexMetadata s metadata else s)
    else none
  | some none => some (if isFork then setIndexMetadata s metadata else s)

/-- `IndexBuilder::build`: the requested metadata is the declared index type
together with `has_parent = address.bytes().is_some()`. -/
def buildIndex (s : MetadataStore) (isFork : Bool) (indexType : IndexType)
    (hasFamily : Bool) : Option MetadataStore :=
  checkOrCreateMetadata s isFork ⟨indexType, hasFamily⟩

/-! ## The canonical shape of a well-formed ProofMap state

A Merkle Patricia tree over a finite set of 256-bit keys has exactly one
shape: recursively split the key set at the length of its longest common
prefix.  We build that canonical tree, flatten it to the store entries the
implementation keeps, and characterize well-formed states as the stores so
obtained.  The correctness theorems below show `put` / `remove` map canonical
states to canonical states of the updated key set, which settles the
round-trip, frame and order-independence claims. -/

/-- The first bit position at which two 256-bit keys differ (256 when they
agree everywhere). -/
def keyDiverge (a b : KeyBits) : Nat := (ProofPath.firstDiff a b 0 256).getD 256

/-- The length of the longest common prefix of a set of keys (256 for at
most one key). -/
def lcpList : List KeyBits → Nat
  | [] => 256
  | k₀ :: rest => rest.foldl (fun acc k => min acc (keyDiverge k₀ k)) 256

/-- The canonical Patricia tree: leaves carry a full key and its value,
interior nodes the bit position at which their key sets split. -/
inductive CTree where
  | leaf (k : KeyBits) (v : Bytes)
  | node (e : Nat) (l r : CTree)
deriving DecidableEq, Repr

/-- Build the canonical tree of a nonempty set of distinct keys (fuel
recursion; `ks.length` fuel always suffices). -/
def buildTreeF (f : KeyBits → Bytes) : Nat → List KeyBits → CTree
  | 0, _ => .leaf [] []
  | _ + 1, [] => .leaf [] []
  | _ + 1, [k] => .leaf k (f k)
  | fuel + 1, ks@(_ :: _ :: _) =>
    let e := lcpList ks
    .node e (buildTreeF f fuel (ks.filter (fun k => !k.getD e false)))
      (buildTreeF f fuel (ks.filter (fun k => k.getD e false)))

/-- The canonical tree of a key set with its value assignment. -/
def buildTree (f : KeyBits → Bytes) (ks : List KeyBits) : CTree :=
  buildTreeF f ks.length ks

namespace CTree

/-- The leftmost key of a tree (a representative of its common prefix). -/
def firstKey : CTree → KeyBits
  | .leaf k _ => k
  | .node _ l _ => l.firstKey

/-- The path under which a subtree's node is stored (offset 0). -/
def nodePath : CTree → ProofPath
  | .leaf k _ => ⟨k, 256, 0⟩
  | .node e l _ => ⟨l.firstKey, e, 0⟩

/-- The hash a subtree contributes to its parent slot: the value hash for a
leaf, the branch node hash for an interior node. -/
def hashOf (hashFn : Bytes → Bytes) : CTree → Bytes
  | .leaf _ v => hashFn v
  | .node _ l r =>
    hashFn (l.hashOf hashFn ++ r.hashOf hashFn
      ++ l.nodePath.serialize ++ r.nodePath.serialize)

/-- The `BranchNode` record of an interior node. -/
def branchOf (hashFn : Bytes → Bytes) (l r : CTree) : BranchNode :=
  ⟨l.hashOf hashFn, r.hashOf hashFn, l.nodePath.serialize, r.nodePath.serialize⟩

/-- All node-key entries of a subtree. -/
def nodeEntries (hashFn : Bytes → Bytes) : CTree → List (Bytes × StoredValue)
  | .leaf k v => [(ProofPath.serialize ⟨k, 256, 0⟩, .hashVal (hashFn v))]
  | .node e l r =>
    (ProofPath.serialize ⟨l.firstKey, e, 0⟩, .branchVal (branchOf hashFn l r))
      :: (l.nodeEntries hashFn ++ r.nodeEntries hashFn)

end CTree

/-- The value-key entries of a state. -/
def valueEntries (f : KeyBits → Bytes) (ks : List KeyBits) : List (Bytes × StoredValue) :=
  ks.map (fun k => (valuePath k, .userVal (f k)))

/-- The canonical store of a key set: all node entries of the canonical tree
plus all value entries, in sorted association-list form. -/
def buildState (hashFn : Bytes → Bytes) (f : KeyBits → Bytes) (ks : List KeyBits) : Store :=
  match ks with
  | [] => []
  | _ :: _ =>
    ((buildTree f ks).nodeEntries hashFn ++ valueEntries f ks).foldl
      (fun s e => storeInsert s e.1 e.2) []


/-- Strict order on 256-bit keys: the key with bit `false` at the first
diverging position comes first. -/
def keyLt (a b : KeyBits) : Bool :=
  match ProofPath.firstDiff a b 0 256 with
  | none => false
  | some p => !a.getD p false

/-- A canonical key list: strictly sorted 32-byte keys. -/
def SortedKeys (ks : List KeyBits) : Prop :=
  List.Chain' (fun a b => keyLt a b = true) ks ∧ ∀ k ∈ ks, k.length = 256

/-- Sorted insertion of a key (the key-set effect of `put`). -/
def insortKey (k : KeyBits) : List KeyBits → List KeyBits
  | [] => [k]
  | k' :: rest =>
    if keyLt k k' then k :: k' :: rest
    else if k = k' then k' :: rest
    else k' :: insortKey k rest

/-- Pointwise update of a value assignment. -/
def updateF (f : KeyBits → Bytes) (k : KeyBits) (v : Bytes) : KeyBits → Bytes :=
  fun k' => if k' = k then v else f k'

/-- Well-formed ProofMap states: canonical stores of sorted key sets. -/
def WFStore (hashFn : Bytes → Bytes) (s : Store) : Prop :=
  ∃ ks f, SortedKeys ks ∧ s = buildState hashFn f ks

/-- States reachable from an empty ProofMap index through `put` and `remove`
on 32-byte keys. -/
inductive Reachable (hashFn : Bytes → Bytes) : Store → Prop
  | empty : Reachable hashFn []
  | putStep {s s' : Store} {k : KeyBits} {v : Bytes} : Reachable hashFn s →
      k.length = 256 → mapPut hashFn s k v = some s' → Reachable hashFn s'
  | removeStep {s s' : Store} {k : KeyBits} : Reachable hashFn s →
      k.length = 256 → mapRemove hashFn s k = some s' → Reachable hashFn s'

/-- Insert a list of key/value pairs left to right through `put` (`none` as
soon as one insertion panics). -/
def putAll (hashFn : Bytes → Bytes) : Store → List (KeyBits × Bytes) → Option Store
  | s, [] => some s
  | s, (k, v) :: rest =>
    match mapPut hashFn s k v with
    | none => none
    | some s' => putAll hashFn s' rest

/-! ## Auxiliary notions used by the statements and proofs -/

/-- Sortedness of a store: keys strictly ascending in byte order. -/
def storeSorted (s : Store) : Prop :=
  List.Chain' (fun x y => bytesLt x.1 y.1 = true) s

/-- Two keys agree on all bit positions below `d`. -/
def agreeBelow (d : Nat) (a b : KeyBits) : Prop :=
  ∀ j, j < d → a.getD j false = b.getD j false

/-- The keys of all leaves of a tree, left to right. -/
def CTree.keysOf : CTree → List KeyBits
  | .leaf k _ => [k]
  | .node _ l r => l.keysOf ++ r.keysOf

/-- Structural well-formedness of a canonical tree hanging at bit depth `d`:
keys are 32 bytes, interior nodes split strictly below 256 at a position of
genuine divergence, all keys agree below the split, and the split positions
strictly increase. -/
inductive TWF : Nat → CTree → Prop
  | leaf {d : Nat} {k : KeyBits} {v : Bytes} : k.length = 256 → d ≤ 256 →
      TWF d (.leaf k v)
  | node {d e : Nat} {l r : CTree} : d ≤ e → e < 256 →
      TWF (e + 1) l → TWF (e + 1) r →
      (∀ k ∈ l.keysOf ++ r.keysOf, agreeBelow e k l.firstKey) →
      (∀ k ∈ l.keysOf, k.getD e false = false) →
      (∀ k ∈ r.keysOf, k.getD e false = true) →
      TWF d (.node e l r)

/-- Canonical insertion of key `k` with value `v` into a (nonempty) canonical
tree: replace a leaf with the same key, split an edge at the position of
divergence, or descend by the bit at the node's split position. -/
def treeInsert (k : KeyBits) (v : Bytes) : CTree → CTree
  | .leaf k₀ v₀ =>
    let d := keyDiverge k k₀
    if d = 256 then .leaf k₀ v
    else if k.getD d false then .node d (.leaf k₀ v₀) (.leaf k v)
    else .node d (.leaf k v) (.leaf k₀ v₀)
  | .node e l r =>
    let d := keyDiverge k (CTree.node e l r).firstKey
    if d < e then
      if k.getD d false then .node d (.node e l r) (.leaf k v)
      else .node d (.leaf k v) (.node e l r)
    else if k.getD e false then .node e l (treeInsert k v r)
    else .node e (treeInsert k v l) r

/-- Canonical removal of key `k`: `none` when the tree becomes empty; a
branch both of whose children survive keeps its split, a branch losing a
child collapses to the survivor. -/
def treeRemove (k : KeyBits) : CTree → Option CTree
  | .leaf k₀ v₀ => if k = k₀ then none else some (.leaf k₀ v₀)
  | .node e l r =>
    if k.getD e false then
      match treeRemove k r with
      | none => some l
      | some r' => some (.node e l r')
    else
      match treeRemove k l with
      | none => some r
      | some l' => some (.node e l' r)

/-- The stored value of a subtree's own node. -/
def CTree.rootValue (hashFn : Bytes → Bytes) : CTree → StoredValue
  | .leaf _ v => .hashVal (hashFn v)
  | .node _ l r => .branchVal (CTree.branchOf hashFn l r)

/-- Every leaf of the tree carries the value assigned to its key. -/
def CTree.valuesFrom (f : KeyBits → Bytes) : CTree → Prop
  | .leaf k v => v = f k
  | .node _ l r => l.valuesFrom f ∧ r.valuesFrom f

/-- Two bit sequences agree on every position in `[lo, hi)`. -/
def agreeOn (a b : KeyBits) (lo hi : Nat) : Prop :=
  ∀ j, lo ≤ j → j < hi → a.getD j false = b.getD j false

/-- The first position at or after `s` where two keys differ (256 when they
agree from `s` on). -/
def divergeFrom (a b : KeyBits) (s : Nat) : Nat :=
  (ProofPath.firstDiff a b s 256).getD 256

/-- The end border of the node path of a subtree. -/
def CTree.endOf : CTree → Nat
  | .leaf _ _ => 256
  | .node e _ _ => e

/-- The lookup function obtained by letting a list of entries shadow a base
lookup function. -/
def overrideWith (upd : List (Bytes × StoredValue)) (base : Bytes → Option StoredValue)
    (b : Bytes) : Option StoredValue :=
  match storeLookup upd b with
  | some v => some v
  | none => base b

/-- The sorted store holding exactly the given entries. -/
def storeOfEntries (entries : List (Bytes × StoredValue)) : Store :=
  entries.foldl (fun s e => storeInsert s e.1 e.2) []

/-- The `Node` read back from a subtree's stored root entry. -/
def CTree.nodeOf (hashFn : Bytes → Bytes) : CTree → Node
  | .leaf _ v => .leafN (hashFn v)
  | .node _ l r => .branchN (CTree.branchOf hashFn l r)

/-! ## Byte and bit lemmas -/

/-- `buildState` is the canonical store of its entry list. -/
theorem buildState_def (hashFn : Bytes → Bytes) (f : KeyBits → Bytes) (ks : List KeyBits)
    (h : ks ≠ []) :
    buildState hashFn f ks =
      storeOfEntries ((buildTree f ks).nodeEntries hashFn ++ valueEntries f ks) := by
  cases ks with
  | nil => exact absurd rfl h
  | cons a rest => rfl


theorem byteOfBits_testBit (bs : List Bool) (j : Nat) :
    (byteOfBits bs).testBit j = bs.getD j false := by
  induction bs generalizing j with
  | nil => simp [byteOfBits, Nat.zero_testBit]
  | cons b rest ih =>
    have hb : byteOfBits (b :: rest) = 2 * byteOfBits rest + cond b 1 0 := rfl
    cases j with
    | zero =>
      rw [hb, Nat.testBit_zero]
      cases b <;> (simp; try omega)
    | succ j =>
      rw [hb, Nat.testBit_succ]
      have h2 : (2 * byteOfBits rest + cond b 1 0) / 2 = byteOfBits rest := by
        cases b <;> (simp; try omega)
      rw [h2, ih]
      rfl

theorem byteOfBits_lt (bs : List Bool) : byteOfBits bs < 2 ^ bs.length := by
  induction bs with
  | nil => simp [byteOfBits]
  | cons b rest ih =>
    have hb : byteOfBits (b :: rest) = 2 * byteOfBits rest + cond b 1 0 := rfl
    rw [hb]
    cases b <;> (simp [pow_succ]; try omega)

theorem getD_map_range {α : Type} (n j : Nat) (f : Nat → α) (d : α) :
    ((List.range n).map f).getD j d = if j < n then f j else d := by
  rcases lt_or_ge j n with h | h
  · rw [List.getD_eq_getElem?_getD, List.getElem?_map, List.getElem?_range h]
    simp [h]
  · rw [List.getD_eq_getElem?_getD, List.getElem?_map]
    rw [List.getElem?_eq_none (by simpa using h)]
    simp [Nat.not_lt.mpr h]

theorem length_bytesOfBits (bits : KeyBits) (n : Nat) :
    (bytesOfBits bits n).length = n := by simp [bytesOfBits]

theorem length_bitsOfBytes (bytes : Bytes) : (bitsOfBytes bytes).length = 256 := by
  simp [bitsOfBytes]

theorem length_maskBits (e : Nat) (k : KeyBits) :
    (ProofPath.maskBits e k).length = 256 := by simp [ProofPath.maskBits]

theorem getD_bytesOfBits (bits : KeyBits) (n i : Nat) :
    (bytesOfBits bits n).getD i 0 =
      if i < n then byteOfBits ((bits.drop (8 * i)).take 8) else 0 :=
  getD_map_range n i _ 0

theorem getD_bitsOfBytes (bytes : Bytes) (j : Nat) :
    (bitsOfBytes bytes).getD j false =
      if j < 256 then (bytes.getD (j / 8) 0).testBit (j % 8) else false :=
  getD_map_range 256 j _ false

theorem maskBits_getD (e : Nat) (k : KeyBits) (j : Nat) :
    (ProofPath.maskBits e k).getD j false =
      if j < 256 then decide (j < e) && k.getD j false else false :=
  getD_map_range 256 j _ false

theorem getD_take_drop (l : List Bool) (a r : Nat) (hr : r < 8) :
    ((l.drop a).take 8).getD r false = l.getD (a + r) false := by
  rw [List.getD_eq_getElem?_getD, List.getD_eq_getElem?_getD]
  rw [List.getElem?_take, List.getElem?_drop]
  simp [hr]

theorem bitsOfBytes_bytesOfBits_getD (bits : KeyBits) (j : Nat) :
    (bitsOfBytes (bytesOfBits bits 32)).getD j false =
      if j < 256 then bits.getD j false else false := by
  rw [getD_bitsOfBytes]
  rcases lt_or_ge j 256 with h | h
  · have hdiv : j / 8 < 32 := by omega
    rw [if_pos h, if_pos h, getD_bytesOfBits, if_pos hdiv, byteOfBits_testBit,
      getD_take_drop _ _ _ (Nat.mod_lt _ (by norm_num))]
    congr 1
    omega
  · simp [Nat.not_lt.mpr h]

theorem getD_ext_of_length {α : Type} {l₁ l₂ : List α} (d : α)
    (hlen : l₁.length = l₂.length) (h : ∀ j, l₁.getD j d = l₂.getD j d) : l₁ = l₂ := by
  apply List.ext_getElem hlen
  intro i h₁ h₂
  have := h i
  rwa [List.getD_eq_getElem?_getD, List.getD_eq_getElem?_getD,
    List.getElem?_eq_getElem h₁, List.getElem?_eq_getElem h₂, Option.getD_some,
    Option.getD_some] at this

theorem bitsOfBytes_bytesOfBits (bits : KeyBits) (h : bits.length = 256) :
    bitsOfBytes (bytesOfBits bits 32) = bits := by
  apply getD_ext_of_length false (by rw [length_bitsOfBytes, h])
  intro j
  rw [bitsOfBytes_bytesOfBits_getD]
  rcases lt_or_ge j 256 with hj | hj
  · simp [hj]
  · rw [if_neg (Nat.not_lt.mpr hj), List.getD_eq_getElem?_getD,
      List.getElem?_eq_none (by omega)]
    rfl

theorem maskBits_full (k : KeyBits) (h : k.length = 256) :
    ProofPath.maskBits 256 k = k := by
  apply getD_ext_of_length false (by rw [length_maskBits, h])
  intro j
  rw [maskBits_getD]
  rcases lt_or_ge j 256 with hj | hj
  · simp [hj]
  · rw [if_neg (Nat.not_lt.mpr hj), List.getD_eq_getElem?_getD,
      List.getElem?_eq_none (by omega)]
    rfl

theorem maskBits_norm (e : Nat) (k : KeyBits) :
    ProofPath.maskBits 256 (ProofPath.maskBits e k) = ProofPath.maskBits e k :=
  maskBits_full _ (length_maskBits e k)

/-! ## First-difference scans -/

theorem firstDiffAux_eq_none_iff (a b : KeyBits) (fuel lo : Nat) :
    ProofPath.firstDiffAux a b lo fuel = none ↔
      ∀ j, lo ≤ j → j < lo + fuel → a.getD j false = b.getD j false := by
  induction fuel generalizing lo with
  | zero =>
    simp only [ProofPath.firstDiffAux]
    constructor
    · intro _ j h1 h2
      omega
    · intro _
      trivial
  | succ n ih =>
    simp only [ProofPath.firstDiffAux]
    by_cases h : (a.getD lo false != b.getD lo false) = true
    · rw [if_pos h]
      constructor
      · intro hcontra
        exact absurd hcontra (by simp)
      · intro hall
        exact absurd (hall lo le_rfl (by omega)) (by simpa using h)
    · rw [if_neg h]
      rw [ih (lo + 1)]
      have hagree : a.getD lo false = b.getD lo false := by
        have h' : ¬(a.getD lo false ≠ b.getD lo false) := fun hne => h (bne_iff_ne.mpr hne)
        exact not_not.mp h'
      constructor
      · intro hall j h1 h2
        rcases Nat.eq_or_lt_of_le h1 with rfl | hlt
        · exact hagree
        · exact hall j hlt (by omega)
      · intro hall j h1 h2
        exact hall j (by omega) (by omega)

theorem firstDiffAux_eq_some_iff (a b : KeyBits) (fuel lo p : Nat) :
    ProofPath.firstDiffAux a b lo fuel = some p ↔
      (lo ≤ p ∧ p < lo + fuel ∧ a.getD p false ≠ b.getD p false ∧
        ∀ j, lo ≤ j → j < p → a.getD j false = b.getD j false) := by
  induction fuel generalizing lo with
  | zero =>
    simp only [ProofPath.firstDiffAux]
    constructor
    · intro hcontra
      exact absurd hcontra (by simp)
    · intro ⟨h1, h2, _, _⟩
      omega
  | succ n ih =>
    simp only [ProofPath.firstDiffAux]
    by_cases h : (a.getD lo false != b.getD lo false) = true
    · rw [if_pos h]
      constructor
      · intro hsome
        have hp : p = lo := by
          cases hsome
          rfl
        subst hp
        exact ⟨le_rfl, by omega, by simpa using h, by intro j h1 h2; omega⟩
      · intro ⟨h1, _, hdiff, hall⟩
        rcases Nat.eq_or_lt_of_le h1 with rfl | hlt
        · rfl
        · exact absurd (hall lo le_rfl hlt) (by simpa using h)
    · rw [if_neg h]
      rw [ih (lo + 1)]
      have hagree : a.getD lo false = b.getD lo false := by
        have h' : ¬(a.getD lo false ≠ b.getD lo false) := fun hne => h (bne_iff_ne.mpr hne)
        exact not_not.mp h'
      constructor
      · intro ⟨h1, h2, hdiff, hall⟩
        refine ⟨by omega, by omega, hdiff, ?_⟩
        intro j hj1 hj2
        rcases Nat.eq_or_lt_of_le hj1 with rfl | hlt
        · exact hagree
        · exact hall j hlt hj2
      · intro ⟨h1, h2, hdiff, hall⟩
        have hpne : p ≠ lo := by
          intro hcontra
          subst hcontra
          exact hdiff hagree
        exact ⟨by omega, by omega, hdiff, fun j hj1 hj2 => hall j (by omega) hj2⟩

theorem firstDiff_eq_none_iff (a b : KeyBits) (lo hi : Nat) (h : lo ≤ hi) :
    ProofPath.firstDiff a b lo hi = none ↔ agreeOn a b lo hi := by
  unfold ProofPath.firstDiff agreeOn
  rw [firstDiffAux_eq_none_iff]
  have : lo + (hi - lo) = hi := by omega
  rw [this]

theorem firstDiff_eq_some_iff (a b : KeyBits) (lo hi p : Nat) (h : lo ≤ hi) :
    ProofPath.firstDiff a b lo hi = some p ↔
      (lo ≤ p ∧ p < hi ∧ a.getD p false ≠ b.getD p false ∧ agreeOn a b lo p) := by
  unfold ProofPath.firstDiff agreeOn
  rw [firstDiffAux_eq_some_iff]
  have : lo + (hi - lo) = hi := by omega
  rw [this]

/-! ## Divergence positions -/

theorem divergeFrom_eq_iff (a b : KeyBits) (s d : Nat) (hs : s ≤ d) (hd : d ≤ 256) :
    divergeFrom a b s = d ↔
      (agreeOn a b s d ∧ (d < 256 → a.getD d false ≠ b.getD d false)) := by
  have hs' : s ≤ 256 := le_trans hs hd
  unfold divergeFrom
  constructor
  · intro heq
    rcases hfd : ProofPath.firstDiff a b s 256 with _ | p
    · rw [hfd] at heq
      simp at heq
      subst heq
      have hag := (firstDiff_eq_none_iff a b s 256 hs').mp hfd
      exact ⟨hag, by omega⟩
    · rw [hfd] at heq
      simp at heq
      subst heq
      obtain ⟨h1, h2, h3, h4⟩ := (firstDiff_eq_some_iff a b s 256 p hs').mp hfd
      exact ⟨h4, fun _ => h3⟩
  · intro ⟨hag, hdiff⟩
    rcases Nat.lt_or_ge d 256 with hd' | hd'
    · have : ProofPath.firstDiff a b s 256 = some d :=
        (firstDiff_eq_some_iff a b s 256 d hs').mpr ⟨hs, hd', hdiff hd', hag⟩
      rw [this]
      rfl
    · have hd256 : d = 256 := by omega
      subst hd256
      have : ProofPath.firstDiff a b s 256 = none :=
        (firstDiff_eq_none_iff a b s 256 hs').mpr hag
      rw [this]
      rfl

theorem divergeFrom_ge (a b : KeyBits) (s : Nat) (hs : s ≤ 256) :
    s ≤ divergeFrom a b s := by
  unfold divergeFrom
  rcases hfd : ProofPath.firstDiff a b s 256 with _ | p
  · simp
    omega
  · obtain ⟨h1, _, _, _⟩ := (firstDiff_eq_some_iff a b s 256 p hs).mp hfd
    simpa using h1

theorem divergeFrom_le (a b : KeyBits) (s : Nat) (hs : s ≤ 256) :
    divergeFrom a b s ≤ 256 := by
  unfold divergeFrom
  rcases hfd : ProofPath.firstDiff a b s 256 with _ | p
  · simp
  · obtain ⟨_, h2, _, _⟩ := (firstDiff_eq_some_iff a b s 256 p hs).mp hfd
    simp
    omega

theorem divergeFrom_spec (a b : KeyBits) (s : Nat) (hs : s ≤ 256) :
    agreeOn a b s (divergeFrom a b s) ∧
      (divergeFrom a b s < 256 →
        a.getD (divergeFrom a b s) false ≠ b.getD (divergeFrom a b s) false) :=
  (divergeFrom_eq_iff a b s (divergeFrom a b s) (divergeFrom_ge a b s hs)
    (divergeFrom_le a b s hs)).mp rfl

theorem divergeFrom_symm (a b : KeyBits) (s : Nat) (hs : s ≤ 256) :
    divergeFrom a b s = divergeFrom b a s := by
  symm
  rw [divergeFrom_eq_iff b a s _ (divergeFrom_ge a b s hs) (divergeFrom_le a b s hs)]
  obtain ⟨hag, hdiff⟩ := divergeFrom_spec a b s hs
  exact ⟨fun j h1 h2 => (hag j h1 h2).symm, fun h => fun heq => hdiff h heq.symm⟩

/-- Starting the scan later inside a region of agreement does not change the
divergence position. -/
theorem divergeFrom_shift (a b : KeyBits) (s s' : Nat) (hss : s ≤ s') (hs' : s' ≤ 256)
    (hag : agreeOn a b s s') : divergeFrom a b s = divergeFrom a b s' := by
  have h1 := divergeFrom_ge a b s' hs'
  have h2 := divergeFrom_le a b s' hs'
  rw [divergeFrom_eq_iff a b s _ (by omega) h2]
  obtain ⟨hag', hdiff⟩ := divergeFrom_spec a b s' hs'
  refine ⟨?_, hdiff⟩
  intro j hj1 hj2
  rcases Nat.lt_or_ge j s' with h | h
  · exact hag j hj1 h
  · exact hag' j h hj2

theorem keyDiverge_eq (a b : KeyBits) : keyDiverge a b = divergeFrom a b 0 := rfl

theorem keyDiverge_eq_256_iff (a b : KeyBits) (ha : a.length = 256) (hb : b.length = 256) :
    keyDiverge a b = 256 ↔ a = b := by
  rw [keyDiverge_eq]
  constructor
  · intro h
    have hag := ((divergeFrom_eq_iff a b 0 256 (by omega) le_rfl).mp h).1
    apply getD_ext_of_length false (by omega)
    intro j
    rcases Nat.lt_or_ge j 256 with hj | hj
    · exact hag j (by omega) hj
    · rw [List.getD_eq_getElem?_getD, List.getD_eq_getElem?_getD,
        List.getElem?_eq_none (by omega), List.getElem?_eq_none (by omega)]
  · intro h
    subst h
    rw [divergeFrom_eq_iff a a 0 256 (by omega) le_rfl]
    exact ⟨fun j _ _ => rfl, by omega⟩

theorem keyDiverge_symm (a b : KeyBits) : keyDiverge a b = keyDiverge b a := by
  rw [keyDiverge_eq, keyDiverge_eq]
  exact divergeFrom_symm a b 0 (by omega)

/-! ## The specification of `common_prefix` -/

/-- On paths whose key bits agree on the partial byte below `start`, the
byte-chunked scan of `common_prefix` computes the genuine common prefix
length: the distance from `start` to the first diverging bit, capped by both
range lengths. -/
theorem commonPrefixLen_spec (a b : ProofPath) (hs : a.start = b.start)
    (hbelow : agreeOn a.key b.key (8 * (a.start / 8)) a.start)
    (hsa : a.start ≤ a.endp) (hsb : a.start ≤ b.endp)
    (hA : a.endp ≤ 256) (hB : b.endp ≤ 256) :
    a.commonPrefixLen b =
      min (min a.len b.len) (divergeFrom a.key b.key a.start - a.start) := by
  unfold ProofPath.commonPrefixLen
  rw [if_neg (by simp [hs])]
  have hlen_a : a.len = a.endp - a.start := rfl
  have hlen_b : b.len = b.endp - b.start := rfl
  have hs256 : a.start ≤ 256 := by omega
  have hd_ge_s := divergeFrom_ge a.key b.key a.start hs256
  have hd_le := divergeFrom_le a.key b.key a.start hs256
  rcases hfd : ProofPath.firstDiff a.key b.key (8 * (a.start / 8))
      (8 * (min ((a.endp + 7) / 8) ((b.endp + 7) / 8))) with _ | p
  · simp only [hfd]
    have hag := (firstDiff_eq_none_iff a.key b.key _ _ (by omega)).mp hfd
    have hd_ge : 8 * (min ((a.endp + 7) / 8) ((b.endp + 7) / 8))
        ≤ divergeFrom a.key b.key a.start := by
      by_contra hcon
      push_neg at hcon
      have hdiff := (divergeFrom_spec a.key b.key a.start hs256).2 (by omega)
      exact hdiff (hag _ (by omega) (by omega))
    omega
  · simp only [hfd]
    obtain ⟨hp_lo, hp_hi, hp_diff, hp_ag⟩ :=
      (firstDiff_eq_some_iff a.key b.key _ _ p (by omega)).mp hfd
    have hp_ge_s : a.start ≤ p := by
      by_contra hcon
      push_neg at hcon
      exact hp_diff (hbelow p hp_lo hcon)
    have hd_eq : divergeFrom a.key b.key a.start = p := by
      rw [divergeFrom_eq_iff a.key b.key a.start p hp_ge_s (by omega)]
      exact ⟨fun j hj1 hj2 => hp_ag j (by omega) hj2, fun _ => hp_diff⟩
    rw [hd_eq]
    omega

/-- `common_prefix` for two paths starting at offset 0 (the shape of all
root-level comparisons). -/
theorem commonPrefixLen_start0 (a b : ProofPath) (ha0 : a.start = 0) (hb0 : b.start = 0)
    (hA : a.endp ≤ 256) (hB : b.endp ≤ 256) :
    a.commonPrefixLen b = min (min a.endp b.endp) (divergeFrom a.key b.key 0) := by
  rw [commonPrefixLen_spec a b (by omega) (by intro j h1 h2; omega) (by omega) (by omega)
    hA hB]
  rw [ha0]
  have h1 : a.len = a.endp := by
    unfold ProofPath.len
    omega
  have h2 : b.len = b.endp := by
    unfold ProofPath.len
    omega
  have hd := divergeFrom_le a.key b.key 0 (by omega)
  rw [h1, h2]
  omega

/-! ## Byte order -/

theorem bytesLt_irrefl (a : Bytes) : bytesLt a a = false := by
  induction a with
  | nil => rfl
  | cons x xs ih => simp [bytesLt, ih]

theorem bytesLt_asymm : ∀ {a b : Bytes}, bytesLt a b = true → bytesLt b a = false
  | [], [], h => by simp [bytesLt] at h
  | [], _ :: _, _ => rfl
  | _ :: _, [], h => by simp [bytesLt] at h
  | x :: xs, y :: ys, h => by
    simp only [bytesLt, Bool.or_eq_true, Bool.and_eq_true, beq_iff_eq,
      decide_eq_true_eq] at h
    rcases h with h | ⟨rfl, h⟩
    · show (decide (y < x) || (y == x && bytesLt ys xs)) = false
      rw [decide_eq_false (by omega : ¬ y < x), beq_eq_false_iff_ne.mpr (by omega : y ≠ x)]
      rfl
    · show (decide (x < x) || (x == x && bytesLt ys xs)) = false
      rw [decide_eq_false (lt_irrefl x), beq_self_eq_true, bytesLt_asymm h]
      rfl

theorem bytesLt_trans : ∀ {a b c : Bytes}, bytesLt a b = true → bytesLt b c = true →
    bytesLt a c = true
  | [], [], _, h, _ => by simp [bytesLt] at h
  | [], _ :: _, [], _, h => by simp [bytesLt] at h
  | [], _ :: _, _ :: _, _, _ => rfl
  | _ :: _, [], _, h, _ => by simp [bytesLt] at h
  | _ :: _, _ :: _, [], _, h => by simp [bytesLt] at h
  | x :: xs, y :: ys, z :: zs, h1, h2 => by
    simp only [bytesLt, Bool.or_eq_true, Bool.and_eq_true, beq_iff_eq,
      decide_eq_true_eq] at h1 h2 ⊢
    rcases h1 with h1 | ⟨rfl, h1⟩
    · rcases h2 with h2 | ⟨rfl, h2⟩
      · left
        omega
      · left
        exact h1
    · rcases h2 with h2 | ⟨rfl, h2⟩
      · left
        exact h2
      · right
        exact ⟨rfl, bytesLt_trans h1 h2⟩

theorem bytesLt_total : ∀ (a b : Bytes), a = b ∨ bytesLt a b = true ∨ bytesLt b a = true
  | [], [] => Or.inl rfl
  | [], _ :: _ => Or.inr (Or.inl rfl)
  | _ :: _, [] => Or.inr (Or.inr rfl)
  | x :: xs, y :: ys => by
    rcases Nat.lt_trichotomy x y with h | rfl | h
    · exact Or.inr (Or.inl (by simp [bytesLt, h]))
    · rcases bytesLt_total xs ys with h | h | h
      · exact Or.inl (by rw [h])
      · exact Or.inr (Or.inl (by simp [bytesLt, h]))
      · exact Or.inr (Or.inr (by simp [bytesLt, h]))
    · exact Or.inr (Or.inr (by simp [bytesLt, h]))

/-! ## Store lookup, insert, erase -/

theorem storeLookup_nil (b : Bytes) : storeLookup [] b = none := rfl

theorem storeLookup_cons (k : Bytes) (v : StoredValue) (rest : Store) (b : Bytes) :
    storeLookup ((k, v) :: rest) b = if k = b then some v else storeLookup rest b := by
  simp only [storeLookup, List.find?_cons]
  by_cases h : k = b
  · simp [h]
  · simp [h, beq_eq_false_iff_ne.mpr h]

theorem storeLookup_insert (s : Store) (k : Bytes) (v : StoredValue) (b : Bytes) :
    storeLookup (storeInsert s k v) b = if k = b then some v else storeLookup s b := by
  induction s with
  | nil => simp [storeInsert, storeLookup_cons]
  | cons e rest ih =>
    obtain ⟨k', v'⟩ := e
    unfold storeInsert
    by_cases h1 : bytesLt k k' = true
    · rw [if_pos h1, storeLookup_cons]
    · rw [if_neg h1]
      by_cases h2 : k = k'
      · rw [if_pos h2, storeLookup_cons, storeLookup_cons]
        subst h2
        by_cases h3 : k = b <;> simp [h3]
      · rw [if_neg h2, storeLookup_cons, storeLookup_cons, ih]
        by_cases h3 : k' = b <;> by_cases h4 : k = b <;> simp_all

theorem storeLookup_mem_of_some {s : Store} {b : Bytes} {v : StoredValue}
    (h : storeLookup s b = some v) : b ∈ s.map Prod.fst := by
  induction s with
  | nil => simp [storeLookup] at h
  | cons e rest ih =>
    obtain ⟨k', v'⟩ := e
    rw [storeLookup_cons] at h
    by_cases h1 : k' = b
    · simp [h1]
    · rw [if_neg h1] at h
      simpa using Or.inr (by simpa using ih h)

theorem storeLookup_eq_none_of_not_mem {s : Store} {b : Bytes}
    (h : b ∉ s.map Prod.fst) : storeLookup s b = none := by
  rcases hl : storeLookup s b with _ | v
  · rfl
  · exact absurd (storeLookup_mem_of_some hl) h

theorem storeErase_sublist (s : Store) (k : Bytes) : (storeErase s k).Sublist s := by
  induction s with
  | nil => simp [storeErase]
  | cons e rest ih =>
    obtain ⟨k', v'⟩ := e
    unfold storeErase
    by_cases h : k = k'
    · rw [if_pos h]
      exact List.sublist_cons_of_sublist _ (List.Sublist.refl rest)
    · rw [if_neg h]
      exact List.Sublist.cons₂ _ ih

theorem storeLookup_erase (s : Store) (k b : Bytes)
    (hnd : (s.map Prod.fst).Nodup) :
    storeLookup (storeErase s k) b = if k = b then none else storeLookup s b := by
  induction s with
  | nil => simp [storeErase, storeLookup]
  | cons e rest ih =>
    obtain ⟨k', v'⟩ := e
    simp only [List.map_cons, List.nodup_cons] at hnd
    obtain ⟨hq, hnd'⟩ := hnd
    unfold storeErase
    by_cases h1 : k = k'
    · subst h1
      rw [if_pos rfl]
      by_cases h2 : k = b
      · subst h2
        rw [if_pos rfl]
        exact storeLookup_eq_none_of_not_mem hq
      · rw [if_neg h2, storeLookup_cons, if_neg (fun hc => h2 hc)]
    · rw [if_neg h1, storeLookup_cons, ih hnd', storeLookup_cons]
      by_cases h2 : k = b
      · subst h2
        rw [if_pos rfl, if_pos rfl, if_neg (fun hc => h1 hc.symm)]
      · rw [if_neg h2, if_neg h2]

/-! ## Sorted stores -/

theorem storeSorted_tail {e : Bytes × StoredValue} {rest : Store}
    (h : storeSorted (e :: rest)) : storeSorted rest := by
  rw [storeSorted, List.chain'_cons'] at h
  exact h.2

theorem storeSorted_rel_of_mem : ∀ {e : Bytes × StoredValue} {rest : Store},
    storeSorted (e :: rest) → ∀ x ∈ rest, bytesLt e.1 x.1 = true
  | _, [], _, x, hx => absurd hx (by simp)
  | e, f :: rest, h, x, hx => by
    rw [storeSorted, List.chain'_cons] at h
    obtain ⟨hef, hrest⟩ := h
    rcases List.mem_cons.mp hx with rfl | hx'
    · exact hef
    · exact bytesLt_trans hef (storeSorted_rel_of_mem hrest x hx')

theorem storeSorted_pairwise {s : Store} (h : storeSorted s) :
    s.Pairwise (fun x y => bytesLt x.1 y.1 = true) := by
  induction s with
  | nil => exact List.Pairwise.nil
  | cons e rest ih =>
    rw [List.pairwise_cons]
    exact ⟨fun x hx => storeSorted_rel_of_mem h x hx, ih (storeSorted_tail h)⟩

theorem storeSorted_nodup {s : Store} (h : storeSorted s) : (s.map Prod.fst).Nodup := by
  induction s with
  | nil => simp
  | cons e rest ih =>
    rw [List.map_cons, List.nodup_cons]
    refine ⟨?_, ih (storeSorted_tail h)⟩
    intro hc
    obtain ⟨x, hx, hxe⟩ := List.exists_of_mem_map hc
    have hr := storeSorted_rel_of_mem h x hx
    rw [hxe, bytesLt_irrefl] at hr
    exact absurd hr (by simp)

theorem storeInsert_head (s : Store) (k : Bytes) (v : StoredValue) :
    (storeInsert s k v).head? = some (k, v) ∨ (storeInsert s k v).head? = s.head? := by
  cases s with
  | nil => exact Or.inl rfl
  | cons e rest =>
    obtain ⟨k', v'⟩ := e
    unfold storeInsert
    by_cases h1 : bytesLt k k' = true
    · rw [if_pos h1]
      exact Or.inl rfl
    · rw [if_neg h1]
      by_cases h2 : k = k'
      · rw [if_pos h2]
        exact Or.inl rfl
      · rw [if_neg h2]
        exact Or.inr rfl

theorem storeInsert_sorted (s : Store) (k : Bytes) (v : StoredValue)
    (h : storeSorted s) : storeSorted (storeInsert s k v) := by
  induction s with
  | nil => exact List.chain'_singleton _
  | cons e rest ih =>
    obtain ⟨k', v'⟩ := e
    rw [storeSorted, List.chain'_cons'] at h
    obtain ⟨hhead, htail⟩ := h
    unfold storeInsert
    by_cases h1 : bytesLt k k' = true
    · rw [if_pos h1]
      rw [storeSorted, List.chain'_cons']
      refine ⟨?_, ?_⟩
      · intro x hx
        simp at hx
        subst hx
        exact h1
      · rw [List.chain'_cons']
        exact ⟨hhead, htail⟩
    · rw [if_neg h1]
      by_cases h2 : k = k'
      · rw [if_pos h2]
        rw [storeSorted, List.chain'_cons']
        subst h2
        exact ⟨hhead, htail⟩
      · rw [if_neg h2]
        rw [storeSorted, List.chain'_cons']
        refine ⟨?_, ih htail⟩
        have hk'k : bytesLt k' k = true := by
          rcases bytesLt_total k k' with h3 | h3 | h3
          · exact absurd h3 h2
          · exact absurd h3 h1
          · exact h3
        intro x hx
        rcases storeInsert_head rest k v with hh | hh
        · rw [hh] at hx
          simp at hx
          subst hx
          exact hk'k
        · rw [hh] at hx
          exact hhead x hx

theorem storeErase_sorted : ∀ (s : Store) (k : Bytes), storeSorted s →
    storeSorted (storeErase s k)
  | [], _, _ => List.chain'_nil
  | (k', v') :: rest, k, h => by
    unfold storeErase
    by_cases h1 : k = k'
    · rw [if_pos h1]
      exact storeSorted_tail h
    · rw [if_neg h1]
      rw [storeSorted, List.chain'_cons']
      refine ⟨?_, storeErase_sorted rest k (storeSorted_tail h)⟩
      intro x hx
      have hxmem : x ∈ rest := by
        have hsub := storeErase_sublist rest k
        have : x ∈ storeErase rest k := by
          cases he : storeErase rest k with
          | nil => rw [he] at hx; exact absurd hx (by simp)
          | cons y ys =>
            rw [he] at hx
            simp at hx
            subst hx
            simp
        exact hsub.mem this
      exact storeSorted_rel_of_mem h x hxmem

theorem storeSorted_head_lt {k : Bytes} {v : StoredValue} {rest : Store}
    (h : storeSorted ((k, v) :: rest)) :
    ∀ e ∈ rest, bytesLt k e.1 = true := by
  have hp := storeSorted_pairwise h
  rw [List.pairwise_cons] at hp
  exact fun e he => hp.1 e he

theorem storeExt : ∀ {s₁ s₂ : Store}, storeSorted s₁ → storeSorted s₂ →
    (∀ b, storeLookup s₁ b = storeLookup s₂ b) → s₁ = s₂
  | [], [], _, _, _ => rfl
  | [], (k, v) :: _, _, _, h => by
    have := h k
    rw [storeLookup_nil, storeLookup_cons, if_pos rfl] at this
    exact absurd this (by simp)
  | (k, v) :: _, [], _, _, h => by
    have := h k
    rw [storeLookup_nil, storeLookup_cons, if_pos rfl] at this
    exact absurd this (by simp)
  | (k, v) :: rest, (k', v') :: rest', h₁, h₂, h => by
    have hkk' : k = k' := by
      by_contra hne
      have hv := h k
      rw [storeLookup_cons, if_pos rfl, storeLookup_cons,
        if_neg (fun hc => hne hc.symm)] at hv
      have hv' := h k'
      rw [storeLookup_cons, if_neg hne, storeLookup_cons, if_pos rfl] at hv'
      have hmem : k ∈ rest'.map Prod.fst := storeLookup_mem_of_some hv.symm
      have hmem' : k' ∈ rest.map Prod.fst := storeLookup_mem_of_some hv'
      obtain ⟨e, he, hek⟩ := List.exists_of_mem_map hmem
      obtain ⟨e', he', hek'⟩ := List.exists_of_mem_map hmem'
      have hlt : bytesLt k' k = true := by
        have := storeSorted_head_lt h₂ e he
        rwa [hek] at this
      have hlt' : bytesLt k k' = true := by
        have := storeSorted_head_lt h₁ e' he'
        rwa [hek'] at this
      rw [bytesLt_asymm hlt'] at hlt
      exact absurd hlt (by simp)
    subst hkk'
    have hvv' : v = v' := by
      have hv := h k
      rw [storeLookup_cons, if_pos rfl, storeLookup_cons, if_pos rfl] at hv
      exact Option.some.inj hv
    subst hvv'
    have htails : rest = rest' := by
      apply storeExt (storeSorted_tail h₁) (storeSorted_tail h₂)
      intro b
      by_cases hb : k = b
      · subst hb
        have h1 : k ∉ rest.map Prod.fst := by
          intro hc
          obtain ⟨e, he, hek⟩ := List.exists_of_mem_map hc
          have := storeSorted_head_lt h₁ e he
          rw [hek, bytesLt_irrefl] at this
          exact absurd this (by simp)
        have h2 : k ∉ rest'.map Prod.fst := by
          intro hc
          obtain ⟨e, he, hek⟩ := List.exists_of_mem_map hc
          have := storeSorted_head_lt h₂ e he
          rw [hek, bytesLt_irrefl] at this
          exact absurd this (by simp)
        rw [storeLookup_eq_none_of_not_mem h1, storeLookup_eq_none_of_not_mem h2]
      · have := h b
        rwa [storeLookup_cons, if_neg hb, storeLookup_cons, if_neg hb] at this
    rw [htails]

theorem foldl_storeInsert_sorted (entries : List (Bytes × StoredValue)) (s₀ : Store)
    (h : storeSorted s₀) :
    storeSorted (entries.foldl (fun s e => storeInsert s e.1 e.2) s₀) := by
  induction entries generalizing s₀ with
  | nil => exact h
  | cons e rest ih => exact ih _ (storeInsert_sorted _ _ _ h)

theorem storeOfEntries_sorted (entries : List (Bytes × StoredValue)) :
    storeSorted (storeOfEntries entries) :=
  foldl_storeInsert_sorted entries [] (List.chain'_nil)

theorem foldl_storeInsert_lookup (entries : List (Bytes × StoredValue)) (s₀ : Store)
    (b : Bytes) (hnd : (entries.map Prod.fst).Nodup) :
    storeLookup (entries.foldl (fun s e => storeInsert s e.1 e.2) s₀) b =
      match storeLookup entries b with
      | some v => some v
      | none => storeLookup s₀ b := by
  induction entries generalizing s₀ with
  | nil => simp [storeLookup]
  | cons e rest ih =>
    obtain ⟨k, v⟩ := e
    simp only [List.map_cons, List.nodup_cons] at hnd
    obtain ⟨hq, hnd'⟩ := hnd
    rw [List.foldl_cons, ih _ hnd', storeLookup_cons]
    by_cases hb : k = b
    · subst hb
      rw [if_pos rfl]
      have : storeLookup rest k = none := storeLookup_eq_none_of_not_mem hq
      rw [this, storeLookup_insert, if_pos rfl]
    · rw [if_neg hb]
      rcases hr : storeLookup rest b with _ | w
      · rw [storeLookup_insert, if_neg hb]
      · rfl

theorem storeOfEntries_lookup (entries : List (Bytes × StoredValue)) (b : Bytes)
    (hnd : (entries.map Prod.fst).Nodup) :
    storeLookup (storeOfEntries entries) b = storeLookup entries b := by
  rw [storeOfEntries, foldl_storeInsert_lookup entries [] b hnd]
  rcases storeLookup entries b with _ | v
  · rfl
  · rfl

/-! ## Serialization round trip -/

theorem serialize_parts (p : ProofPath) :
    p.serialize.getD 0 0 = (if p.endp = 256 then 1 else 0) ∧
    (p.serialize.drop 1).take 32 = bytesOfBits (ProofPath.maskBits p.endp p.key) 32 ∧
    p.serialize.getD 33 0 = (if p.endp = 256 then 0 else p.endp) := by
  refine ⟨rfl, ?_, ?_⟩
  · show ((bytesOfBits (ProofPath.maskBits p.endp p.key) 32 ++ _).take 32) = _
    rw [List.take_append_of_le_length (by rw [length_bytesOfBits])]
    rw [List.take_of_length_le (by rw [length_bytesOfBits])]
  · show (bytesOfBits (ProofPath.maskBits p.endp p.key) 32 ++ [_]).getD 32 0 = _
    rw [List.getD_eq_getElem?_getD, List.getElem?_append_right (by rw [length_bytesOfBits])]
    rw [length_bytesOfBits]
    rfl

theorem readPath_serialize (p : ProofPath) :
    readPath p.serialize = ⟨ProofPath.maskBits p.endp p.key, p.endp, 0⟩ := by
  obtain ⟨h0, h1, h33⟩ := serialize_parts p
  unfold readPath
  rw [h0, h1, h33, bitsOfBytes_bytesOfBits _ (length_maskBits _ _)]
  by_cases he : p.endp = 256 <;> simp [he]

theorem readPath_serialize_leaf (p : ProofPath) (hleaf : p.isLeaf = true)
    (hlen : p.key.length = 256) : readPath p.serialize = p.startFrom 0 := by
  have he : p.endp = 256 := by simpa [ProofPath.isLeaf] using hleaf
  rw [readPath_serialize, he, maskBits_full _ hlen]
  simp [ProofPath.startFrom, he]

/-! ## Serialized key properties -/

theorem maskBits_congr (e : Nat) (a b : KeyBits) (h : agreeOn a b 0 e) :
    ProofPath.maskBits e a = ProofPath.maskBits e b := by
  apply getD_ext_of_length false (by rw [length_maskBits, length_maskBits])
  intro j
  rw [maskBits_getD, maskBits_getD]
  by_cases hj : j < 256
  · rw [if_pos hj, if_pos hj]
    by_cases hje : j < e
    · rw [h j (by omega) hje]
    · simp [hje]
  · rw [if_neg hj, if_neg hj]

theorem serialize_congr (p q : ProofPath) (he : p.endp = q.endp)
    (h : agreeOn p.key q.key 0 p.endp) : p.serialize = q.serialize := by
  unfold ProofPath.serialize
  rw [he, maskBits_congr q.endp p.key q.key (he ▸ h)]

theorem bytesOfBits_inj (a b : KeyBits) (ha : a.length = 256) (hb : b.length = 256)
    (h : bytesOfBits a 32 = bytesOfBits b 32) : a = b := by
  have h2 := congrArg bitsOfBytes h
  rwa [bitsOfBytes_bytesOfBits a ha, bitsOfBytes_bytesOfBits b hb] at h2

theorem serialize_inj {p q : ProofPath} (h : p.serialize = q.serialize) :
    p.endp = q.endp ∧
      ProofPath.maskBits p.endp p.key = ProofPath.maskBits q.endp q.key := by
  unfold ProofPath.serialize at h
  injection h with h0 h1
  obtain ⟨hkey, hlast⟩ := List.append_inj h1
    (by rw [length_bytesOfBits, length_bytesOfBits])
  have hmask := bytesOfBits_inj _ _ (length_maskBits _ _) (length_maskBits _ _) hkey
  have hend : p.endp = q.endp := by
    by_cases hp256 : p.endp = 256 <;> by_cases hq256 : q.endp = 256
    · omega
    · rw [if_pos hp256, if_neg hq256] at h0
      omega
    · rw [if_neg hp256, if_pos hq256] at h0
      omega
    · rw [if_neg hp256, if_neg hq256] at hlast
      exact List.singleton_inj.mp hlast
  exact ⟨hend, hend ▸ hmask⟩

theorem valuePath_inj {a b : KeyBits} (ha : a.length = 256) (hb : b.length = 256)
    (h : valuePath a = valuePath b) : a = b := by
  unfold valuePath at h
  injection h with _ h1
  exact bytesOfBits_inj a b ha hb h1

theorem serialize_ne_valuePath (p : ProofPath) (k : KeyBits) :
    p.serialize ≠ valuePath k := by
  intro h
  unfold ProofPath.serialize valuePath VALUE_KEY_PREFIX at h
  injection h with h0 _
  by_cases h256 : p.endp = 256
  · rw [if_pos h256] at h0
    omega
  · rw [if_neg h256] at h0
    omega

/-- The bit of a serialized path below its end border, recovered through the
mask. -/
theorem maskBits_getD_lt (e : Nat) (k : KeyBits) (j : Nat) (hj : j < e) (hj' : j < 256) :
    (ProofPath.maskBits e k).getD j false = k.getD j false := by
  rw [maskBits_getD, if_pos hj', decide_eq_true hj, Bool.true_and]

theorem maskBits_getD_ge (e : Nat) (k : KeyBits) (j : Nat) (hj : e ≤ j) :
    (ProofPath.maskBits e k).getD j false = false := by
  rw [maskBits_getD]
  by_cases hj' : j < 256
  · rw [if_pos hj', decide_eq_false (by omega : ¬ j < e), Bool.false_and]
  · rw [if_neg hj']

/-! ## The canonical key order -/

theorem keyLt_iff (a b : KeyBits) :
    keyLt a b = true ↔
      keyDiverge a b < 256 ∧ a.getD (keyDiverge a b) false = false := by
  unfold keyLt keyDiverge
  rcases hfd : ProofPath.firstDiff a b 0 256 with _ | p
  · simp [hfd]
  · simp only [hfd, Option.getD_some]
    obtain ⟨_, h2, _, _⟩ := (firstDiff_eq_some_iff a b 0 256 p (by omega)).mp hfd
    simp [h2]

theorem keyLt_of_diverge (a b : KeyBits) (d : Nat) (hd : d < 256)
    (hag : agreeOn a b 0 d) (ha : a.getD d false = false) (hb : b.getD d false = true) :
    keyLt a b = true := by
  have hkd : keyDiverge a b = d := by
    rw [keyDiverge_eq, divergeFrom_eq_iff a b 0 d (by omega) (by omega)]
    refine ⟨hag, fun _ => ?_⟩
    rw [ha, hb]
    simp
  rw [keyLt_iff, hkd]
  exact ⟨hd, ha⟩

theorem diverge_of_keyLt (a b : KeyBits) (h : keyLt a b = true) :
    a.getD (keyDiverge a b) false = false ∧ b.getD (keyDiverge a b) false = true ∧
      keyDiverge a b < 256 ∧ agreeOn a b 0 (keyDiverge a b) := by
  rw [keyLt_iff] at h
  obtain ⟨h1, h2⟩ := h
  have hsp := divergeFrom_spec a b 0 (by omega)
  have hdiff := hsp.2 h1
  rw [← keyDiverge_eq] at hdiff
  refine ⟨h2, ?_, h1, ?_⟩
  · rcases hbv : b.getD (keyDiverge a b) false with _ | _
    · rw [h2, hbv] at hdiff
      exact absurd rfl hdiff
    · rfl
  · have := hsp.1
    rwa [← keyDiverge_eq] at this

theorem keyLt_trans {a b c : KeyBits} (h1 : keyLt a b = true) (h2 : keyLt b c = true) :
    keyLt a c = true := by
  obtain ⟨ha1, hb1, hd1, hag1⟩ := diverge_of_keyLt a b h1
  obtain ⟨hb2, hc2, hd2, hag2⟩ := diverge_of_keyLt b c h2
  rcases Nat.lt_trichotomy (keyDiverge a b) (keyDiverge b c) with h | h | h
  · apply keyLt_of_diverge a c (keyDiverge a b) hd1
    · intro j hj1 hj2
      exact (hag1 j hj1 hj2).trans (hag2 j hj1 (by omega))
    · exact ha1
    · rw [← hag2 (keyDiverge a b) (by omega) h]
      exact hb1
  · exfalso
    rw [h] at hb1
    rw [hb2] at hb1
    exact Bool.noConfusion hb1
  · apply keyLt_of_diverge a c (keyDiverge b c) hd2
    · intro j hj1 hj2
      exact (hag1 j hj1 (by omega)).trans (hag2 j hj1 hj2)
    · rw [hag1 (keyDiverge b c) (by omega) h]
      exact hb2
    · exact hc2

theorem keyLt_irrefl (a : KeyBits) : keyLt a a = false := by
  unfold keyLt
  rcases hfd : ProofPath.firstDiff a a 0 256 with _ | p
  · rfl
  · obtain ⟨_, _, h3, _⟩ := (firstDiff_eq_some_iff a a 0 256 p (by omega)).mp hfd
    exact absurd rfl h3

theorem keyLt_asymm {a b : KeyBits} (h : keyLt a b = true) : keyLt b a = false := by
  rcases hba : keyLt b a with _ | _
  · rfl
  · have := keyLt_trans h hba
    rw [keyLt_irrefl] at this
    exact absurd this (by simp)

theorem keyLt_total (a b : KeyBits) (ha : a.length = 256) (hb : b.length = 256) :
    a = b ∨ keyLt a b = true ∨ keyLt b a = true := by
  rcases Nat.lt_or_ge (keyDiverge a b) 256 with hd | hd
  · have hsp := divergeFrom_spec a b 0 (by omega)
    have hdiff := hsp.2 hd
    rw [← keyDiverge_eq] at hdiff
    rcases hav : a.getD (keyDiverge a b) false with _ | _
    · exact Or.inr (Or.inl ((keyLt_iff a b).mpr ⟨hd, hav⟩))
    · right
      right
      rw [keyLt_iff, ← keyDiverge_symm a b]
      refine ⟨hd, ?_⟩
      rcases hbv : b.getD (keyDiverge a b) false with _ | _
      · rfl
      · rw [hav, hbv] at hdiff
        exact absurd rfl hdiff
  · left
    have h256 : keyDiverge a b = 256 := by
      have := divergeFrom_le a b 0 (by omega)
      rw [← keyDiverge_eq] at this
      omega
    exact (keyDiverge_eq_256_iff a b ha hb).mp h256

theorem keyLt_ne {a b : KeyBits} (h : keyLt a b = true) : a ≠ b := by
  intro hc
  subst hc
  rw [keyLt_irrefl] at h
  exact absurd h (by simp)

/-! ## Sorted key lists -/

theorem sortedKeys_rel_of_mem : ∀ {k₀ : KeyBits} {rest : List KeyBits},
    List.Chain' (fun a b => keyLt a b = true) (k₀ :: rest) →
    ∀ k ∈ rest, keyLt k₀ k = true
  | _, [], _, k, hk => absurd hk (by simp)
  | k₀, k₁ :: rest, h, k, hk => by
    rw [List.chain'_cons] at h
    obtain ⟨h01, hrest⟩ := h
    rcases List.mem_cons.mp hk with rfl | hk'
    · exact h01
    · exact keyLt_trans h01 (sortedKeys_rel_of_mem hrest k hk')

theorem sortedKeys_pairwise {ks : List KeyBits} (h : SortedKeys ks) :
    ks.Pairwise (fun a b => keyLt a b = true) := by
  obtain ⟨hchain, -⟩ := h
  induction ks with
  | nil => exact List.Pairwise.nil
  | cons k₀ rest ih =>
    rw [List.pairwise_cons]
    refine ⟨sortedKeys_rel_of_mem hchain, ih ?_⟩
    rw [List.chain'_cons'] at hchain
    exact hchain.2

theorem sortedKeys_nodup {ks : List KeyBits} (h : SortedKeys ks) : ks.Nodup := by
  have hp := sortedKeys_pairwise h
  exact hp.imp (fun hab => keyLt_ne hab)

theorem sortedKeys_tail {k₀ : KeyBits} {rest : List KeyBits}
    (h : SortedKeys (k₀ :: rest)) : SortedKeys rest := by
  obtain ⟨hchain, hlen⟩ := h
  rw [List.chain'_cons'] at hchain
  exact ⟨hchain.2, fun k hk => hlen k (List.mem_cons_of_mem _ hk)⟩

theorem insortKey_mem (k : KeyBits) : ∀ (ks : List KeyBits) (a : KeyBits),
    a ∈ insortKey k ks ↔ a = k ∨ a ∈ ks
  | [], a => by simp [insortKey]
  | k' :: rest, a => by
    unfold insortKey
    by_cases h1 : keyLt k k' = true
    · rw [if_pos h1]
      exact List.mem_cons
    · rw [if_neg h1]
      by_cases h2 : k = k'
      · rw [if_pos h2]
        subst h2
        constructor
        · exact fun ha => Or.inr ha
        · rintro (rfl | ha)
          · exact List.mem_cons_self _ _
          · exact ha
      · rw [if_neg h2]
        simp only [List.mem_cons, insortKey_mem k rest a]
        tauto

theorem insortKey_head (k : KeyBits) (ks : List KeyBits) :
    (insortKey k ks).head? = some k ∨ (insortKey k ks).head? = ks.head? := by
  cases ks with
  | nil => exact Or.inl rfl
  | cons k' rest =>
    unfold insortKey
    by_cases h1 : keyLt k k' = true
    · rw [if_pos h1]
      exact Or.inl rfl
    · rw [if_neg h1]
      by_cases h2 : k = k'
      · rw [if_pos h2]
        exact Or.inr rfl
      · rw [if_neg h2]
        exact Or.inr rfl

theorem insortKey_sorted (k : KeyBits) (hk : k.length = 256) :
    ∀ (ks : List KeyBits), SortedKeys ks → SortedKeys (insortKey k ks)
  | [], _ => ⟨List.chain'_singleton _, by
      intro a ha
      simp only [insortKey, List.mem_singleton] at ha
      rw [ha]
      exact hk⟩
  | k' :: rest, h => by
    have hlen' : ∀ a ∈ insortKey k (k' :: rest), a.length = 256 := by
      intro a ha
      rcases (insortKey_mem k (k' :: rest) a).mp ha with rfl | ha'
      · exact hk
      · exact h.2 a ha'
    unfold insortKey
    by_cases h1 : keyLt k k' = true
    · rw [if_pos h1]
      refine ⟨?_, ?_⟩
      · rw [List.chain'_cons]
        exact ⟨h1, h.1⟩
      · intro a ha
        rcases List.mem_cons.mp ha with rfl | ha'
        · exact hk
        · exact h.2 a ha'
    · rw [if_neg h1]
      by_cases h2 : k = k'
      · rw [if_pos h2]
        exact h
      · rw [if_neg h2]
        have hk'k : keyLt k' k = true := by
          rcases keyLt_total k k' hk (h.2 k' (by simp)) with h3 | h3 | h3
          · exact absurd h3 h2
          · exact absurd h3 h1
          · exact h3
        have htail := insortKey_sorted k hk rest (sortedKeys_tail h)
        refine ⟨?_, ?_⟩
        · rw [List.chain'_cons']
          refine ⟨?_, htail.1⟩
          intro x hx
          rcases insortKey_head k rest with hh | hh
          · rw [hh] at hx
            simp at hx
            subst hx
            exact hk'k
          · rw [hh] at hx
            cases rest with
            | nil => exact absurd hx (by simp)
            | cons y ys =>
              simp at hx
              subst hx
              rw [(List.chain'_cons.mp h.1).1]
        · intro a ha
          rcases List.mem_cons.mp ha with rfl | ha'
          · exact h.2 a (by simp)
          · rcases (insortKey_mem k rest a).mp ha' with rfl | ha''
            · exact hk
            · exact h.2 a (List.mem_cons_of_mem _ ha'')

theorem insortKey_of_mem (k : KeyBits) :
    ∀ (ks : List KeyBits), SortedKeys ks → k ∈ ks → insortKey k ks = ks
  | [], _, hmem => absurd hmem (by simp)
  | k' :: rest, h, hmem => by
    unfold insortKey
    rcases List.mem_cons.mp hmem with rfl | hmem'
    · rw [if_neg (by rw [keyLt_irrefl]; simp), if_pos rfl]
    · have hk'k : keyLt k' k = true := sortedKeys_rel_of_mem h.1 k hmem'
      have h1 : ¬ keyLt k k' = true := by
        rw [keyLt_asymm hk'k]
        simp
      have h2 : k ≠ k' := fun hc => by
        subst hc
        rw [keyLt_irrefl] at hk'k
        exact absurd hk'k (by simp)
      rw [if_neg h1, if_neg h2, insortKey_of_mem k rest (sortedKeys_tail h) hmem']

theorem erase_sorted (k : KeyBits) {ks : List KeyBits} (h : SortedKeys ks) :
    SortedKeys (ks.erase k) := by
  have hsub := List.erase_sublist k ks
  constructor
  · exact ((sortedKeys_pairwise h).sublist hsub).chain'
  · exact fun a ha => h.2 a (hsub.mem ha)

/-! ## Longest common prefixes of key sets -/

theorem foldl_min_le_init {α : Type} (l : List α) (f : α → Nat) (init : Nat) :
    l.foldl (fun acc x => min acc (f x)) init ≤ init := by
  induction l generalizing init with
  | nil => simp
  | cons a rest ih => exact le_trans (ih _) (by simp)

theorem foldl_min_le_elem {α : Type} (l : List α) (f : α → Nat) (init : Nat) :
    ∀ x ∈ l, l.foldl (fun acc x => min acc (f x)) init ≤ f x := by
  induction l generalizing init with
  | nil => simp
  | cons a rest ih =>
    intro x hx
    rcases List.mem_cons.mp hx with rfl | hx'
    · exact le_trans (foldl_min_le_init rest f _) (by simp)
    · exact ih _ x hx'

theorem foldl_min_achieved {α : Type} (l : List α) (f : α → Nat) (init : Nat) :
    l.foldl (fun acc x => min acc (f x)) init = init ∨
      ∃ x ∈ l, l.foldl (fun acc x => min acc (f x)) init = f x := by
  induction l generalizing init with
  | nil => exact Or.inl rfl
  | cons a rest ih =>
    rcases ih (min init (f a)) with h | ⟨x, hx, h⟩
    · rcases Nat.le_total init (f a) with hle | hle
      · left
        rw [List.foldl_cons, h]
        omega
      · right
        refine ⟨a, by simp, ?_⟩
        rw [List.foldl_cons, h]
        omega
    · right
      exact ⟨x, by simp [hx], by rw [List.foldl_cons, h]⟩

theorem lcpList_le_diverge (k₀ : KeyBits) (rest : List KeyBits) :
    ∀ k ∈ rest, lcpList (k₀ :: rest) ≤ keyDiverge k₀ k :=
  fun k hk => foldl_min_le_elem rest (keyDiverge k₀) 256 k hk

theorem lcpList_le_256 : ∀ ks : List KeyBits, lcpList ks ≤ 256
  | [] => le_rfl
  | _ :: rest => foldl_min_le_init rest (keyDiverge _) 256

theorem lcpList_achieved (k₀ : KeyBits) (rest : List KeyBits) (h : rest ≠ []) :
    ∃ k ∈ rest, lcpList (k₀ :: rest) = keyDiverge k₀ k := by
  rcases foldl_min_achieved rest (keyDiverge k₀) 256 with h256 | hx
  · cases rest with
    | nil => exact absurd rfl h
    | cons k rest' =>
      refine ⟨k, by simp, ?_⟩
      have hle := lcpList_le_diverge k₀ (k :: rest') k (by simp)
      have hd := divergeFrom_le k₀ k 0 (by omega)
      rw [← keyDiverge_eq] at hd
      have h256' : lcpList (k₀ :: k :: rest') = 256 := h256
      omega
  · exact hx

theorem lcpList_agree (k₀ : KeyBits) (rest : List KeyBits) :
    ∀ k ∈ k₀ :: rest, agreeOn k₀ k 0 (lcpList (k₀ :: rest)) := by
  intro k hk j hj1 hj2
  rcases List.mem_cons.mp hk with rfl | hk'
  · rfl
  · have hle := lcpList_le_diverge k₀ rest k hk'
    have hag := (divergeFrom_spec k₀ k 0 (by omega)).1
    rw [← keyDiverge_eq] at hag
    exact hag j hj1 (by omega)

theorem lcpList_pair_agree (ks : List KeyBits) :
    ∀ a ∈ ks, ∀ b ∈ ks, agreeOn a b 0 (lcpList ks) := by
  cases ks with
  | nil =>
    intro a ha
    exact absurd ha (by simp)
  | cons k₀ rest =>
    intro a ha b hb j hj1 hj2
    have h1 := lcpList_agree k₀ rest a ha j hj1 hj2
    have h2 := lcpList_agree k₀ rest b hb j hj1 hj2
    exact h1.symm.trans h2

theorem lcpList_lt_256 {ks : List KeyBits} (hs : SortedKeys ks) (h2 : 2 ≤ ks.length) :
    lcpList ks < 256 := by
  cases ks with
  | nil => simp at h2
  | cons k₀ rest =>
    cases rest with
    | nil => simp at h2
    | cons k₁ rest' =>
      have hne : k₀ ≠ k₁ :=
        keyLt_ne (sortedKeys_rel_of_mem hs.1 k₁ (by simp))
      have hd : keyDiverge k₀ k₁ < 256 := by
        have hle := divergeFrom_le k₀ k₁ 0 (by omega)
        rw [← keyDiverge_eq] at hle
        rcases Nat.lt_or_ge (keyDiverge k₀ k₁) 256 with h | h
        · exact h
        · exact absurd ((keyDiverge_eq_256_iff k₀ k₁ (hs.2 k₀ (by simp))
            (hs.2 k₁ (by simp))).mp (by omega)) hne
      have hle := lcpList_le_diverge k₀ (k₁ :: rest') k₁ (by simp)
      omega

/-- In a sorted key list agreeing below `e`, the keys with bit `e` clear form
a prefix: filtering splits the list without reordering. -/
theorem sorted_filter_split (e : Nat) : ∀ (ks : List KeyBits),
    List.Chain' (fun a b => keyLt a b = true) ks →
    (∀ a ∈ ks, ∀ b ∈ ks, agreeOn a b 0 e) →
    ks.filter (fun k => !k.getD e false) ++ ks.filter (fun k => k.getD e false) = ks
  | [], _, _ => rfl
  | k₀ :: rest, hchain, hagree => by
    have hchain' : List.Chain' (fun a b => keyLt a b = true) rest := by
      rw [List.chain'_cons'] at hchain
      exact hchain.2
    rcases hbit : k₀.getD e false with _ | _
    · have hF : (k₀ :: rest).filter (fun k => !k.getD e false)
          = k₀ :: rest.filter (fun k => !k.getD e false) :=
        List.filter_cons_of_pos (show (!List.getD k₀ e false) = true by rw [hbit]; rfl)
      have hT : (k₀ :: rest).filter (fun k => k.getD e false)
          = rest.filter (fun k => k.getD e false) :=
        List.filter_cons_of_neg (show ¬(List.getD k₀ e false) = true by rw [hbit]; simp)
      rw [hF, hT, List.cons_append, sorted_filter_split e rest hchain'
        (fun a ha b hb => hagree a (by simp [ha]) b (by simp [hb]))]
    · have hall : ∀ k ∈ rest, k.getD e false = true := by
        intro k hk
        rcases hkbit : k.getD e false with _ | _
        · exfalso
          have hlt := sortedKeys_rel_of_mem hchain k hk
          obtain ⟨h1, h2, h3, hag⟩ := diverge_of_keyLt k₀ k hlt
          rcases Nat.lt_trichotomy (keyDiverge k₀ k) e with h | h | h
          · have heq := hagree k₀ (by simp) k (by simp [hk]) _ (by omega) h
            rw [heq, h2] at h1
            exact Bool.noConfusion h1
          · rw [h, hbit] at h1
            exact Bool.noConfusion h1
          · have heq := hag e (by omega) h
            rw [hbit, hkbit] at heq
            exact Bool.noConfusion heq
        · rfl
      have hfF : (k₀ :: rest).filter (fun k => !k.getD e false) = [] := by
        rw [List.filter_eq_nil_iff]
        intro k hk
        have hbitk : k.getD e false = true := by
          rcases List.mem_cons.mp hk with rfl | hk'
          · exact hbit
          · exact hall k hk'
        show ¬(!List.getD k e false) = true
        rw [hbitk]
        simp
      have hfT : (k₀ :: rest).filter (fun k => k.getD e false) = k₀ :: rest := by
        rw [List.filter_eq_self]
        intro k hk
        rcases List.mem_cons.mp hk with rfl | hk'
        · exact hbit
        · exact hall k hk'
      rw [hfF, hfT]
      rfl

/-! ## Canonical tree structure -/

theorem keysOf_ne_nil : ∀ t : CTree, t.keysOf ≠ []
  | .leaf _ _ => by simp [CTree.keysOf]
  | .node _ l r => by
    simp only [CTree.keysOf, ne_eq, List.append_eq_nil]
    intro ⟨h, _⟩
    exact keysOf_ne_nil l h

theorem firstKey_mem : ∀ t : CTree, t.firstKey ∈ t.keysOf
  | .leaf _ _ => by simp [CTree.keysOf, CTree.firstKey]
  | .node _ l r => by
    simp only [CTree.keysOf, CTree.firstKey, List.mem_append]
    exact Or.inl (firstKey_mem l)

theorem nodePath_eq (t : CTree) : t.nodePath = ⟨t.firstKey, t.endOf, 0⟩ := by
  cases t <;> rfl

theorem agreeBelow_iff (d : Nat) (a b : KeyBits) : agreeBelow d a b ↔ agreeOn a b 0 d := by
  unfold agreeBelow agreeOn
  constructor
  · exact fun h j _ hj => h j hj
  · exact fun h j hj => h j (by omega) hj

theorem TWF_le {d' d : Nat} {t : CTree} (h : TWF d t) (hle : d' ≤ d) : TWF d' t := by
  cases h with
  | leaf hk hd => exact TWF.leaf hk (by omega)
  | node hde he hl hr hag hbl hbr => exact TWF.node (by omega) he hl hr hag hbl hbr

theorem TWF_endOf_ge {d : Nat} {t : CTree} (h : TWF d t) : d ≤ t.endOf := by
  cases h with
  | leaf hk hd => exact hd
  | node hde he hl hr hag hbl hbr => exact hde

theorem TWF_endOf_le {d : Nat} {t : CTree} (h : TWF d t) : t.endOf ≤ 256 := by
  cases h with
  | leaf hk hd => exact le_rfl
  | node hde he hl hr hag hbl hbr => exact le_of_lt he

theorem TWF_key_len {d : Nat} {t : CTree} (h : TWF d t) :
    ∀ k ∈ t.keysOf, k.length = 256 := by
  induction h with
  | leaf hk _ =>
    intro k hkm
    simp only [CTree.keysOf, List.mem_singleton] at hkm
    subst hkm
    assumption
  | node _ _ _ _ _ _ _ ihl ihr =>
    intro k hkm
    rcases List.mem_append.mp hkm with hm | hm
    · exact ihl k hm
    · exact ihr k hm

theorem TWF_agree {d : Nat} {t : CTree} (h : TWF d t) :
    ∀ k ∈ t.keysOf, agreeOn k t.firstKey 0 t.endOf := by
  cases h with
  | leaf hk _ =>
    intro k hkm
    simp only [CTree.keysOf, List.mem_singleton] at hkm
    subst hkm
    exact fun j _ _ => rfl
  | node _ _ _ _ hag _ _ =>
    intro k hkm
    exact (agreeBelow_iff _ _ _).mp (hag k hkm)

theorem TWF_pairwise {d : Nat} {t : CTree} (h : TWF d t) :
    t.keysOf.Pairwise (fun a b => keyLt a b = true) := by
  induction h with
  | leaf _ _ => exact List.pairwise_singleton _ _
  | node hde he hl hr hag hbl hbr ihl ihr =>
    rw [CTree.keysOf, List.pairwise_append]
    refine ⟨ihl, ihr, ?_⟩
    intro a ha b hb
    apply keyLt_of_diverge a b _ he
    · intro j hj1 hj2
      have h1 := (agreeBelow_iff _ _ _).mp (hag a (List.mem_append_left _ ha)) j hj1 hj2
      have h2 := (agreeBelow_iff _ _ _).mp (hag b (List.mem_append_right _ hb)) j hj1 hj2
      exact h1.trans h2.symm
    · exact hbl a ha
    · exact hbr b hb

theorem TWF_keys_nodup {d : Nat} {t : CTree} (h : TWF d t) : t.keysOf.Nodup :=
  (TWF_pairwise h).imp (fun hab => keyLt_ne hab)

/-! ## Building the canonical tree -/

theorem foldl_min_ge {α : Type} (l : List α) (f : α → Nat) (init d : Nat)
    (hinit : d ≤ init) (hall : ∀ x ∈ l, d ≤ f x) :
    d ≤ l.foldl (fun acc x => min acc (f x)) init := by
  induction l generalizing init with
  | nil => exact hinit
  | cons a rest ih =>
    rw [List.foldl_cons]
    exact ih _ (by have := hall a (by simp); omega)
      (fun x hx => hall x (by simp [hx]))

theorem le_keyDiverge_of_agree (a b : KeyBits) (d : Nat) (hd : d ≤ 256)
    (hag : agreeOn a b 0 d) : d ≤ keyDiverge a b := by
  by_contra hcon
  push_neg at hcon
  have hge := divergeFrom_ge a b 0 (by omega)
  have hdiff := (divergeFrom_spec a b 0 (by omega)).2 (by rw [← keyDiverge_eq] at *; omega)
  rw [← keyDiverge_eq] at hdiff
  exact hdiff (hag _ (by omega) hcon)

theorem le_lcpList_of_agree (ks : List KeyBits) (d : Nat) (hd : d ≤ 256)
    (hag : ∀ a ∈ ks, ∀ b ∈ ks, agreeOn a b 0 d) : d ≤ lcpList ks := by
  cases ks with
  | nil => simp [lcpList]; omega
  | cons k₀ rest =>
    unfold lcpList
    apply foldl_min_ge rest (keyDiverge k₀) 256 d hd
    intro k hk
    exact le_keyDiverge_of_agree k₀ k d hd (hag k₀ (by simp) k (by simp [hk]))

theorem buildTreeF_spec (f : KeyBits → Bytes) :
    ∀ (fuel : Nat) (ks : List KeyBits) (d : Nat),
    ks.length ≤ fuel → ks ≠ [] → SortedKeys ks →
    (∀ a ∈ ks, ∀ b ∈ ks, agreeOn a b 0 d) → d ≤ 256 →
    (buildTreeF f fuel ks).keysOf = ks ∧ TWF d (buildTreeF f fuel ks) ∧
      (buildTreeF f fuel ks).valuesFrom f
  | 0, ks, d, hfuel, hne, _, _, _ => by
    cases ks with
    | nil => exact absurd rfl hne
    | cons a rest => simp at hfuel
  | fuel + 1, [], _, _, hne, _, _, _ => absurd rfl hne
  | fuel + 1, [k], d, _, _, hsort, _, hd => by
    refine ⟨rfl, TWF.leaf (hsort.2 k (by simp)) hd, rfl⟩
  | fuel + 1, k₀ :: k₁ :: rest, d, hfuel, _, hsort, hagd, hd => by
    have hlen2 : 2 ≤ (k₀ :: k₁ :: rest).length := by simp
    have he_lt : lcpList (k₀ :: k₁ :: rest) < 256 := lcpList_lt_256 hsort hlen2
    have he_ge : d ≤ lcpList (k₀ :: k₁ :: rest) := le_lcpList_of_agree _ d hd hagd
    have hpag := lcpList_pair_agree (k₀ :: k₁ :: rest)
    set ks := k₀ :: k₁ :: rest with hks
    set e := lcpList ks with he
    have hsplit : ks.filter (fun k => !k.getD e false) ++ ks.filter (fun k => k.getD e false)
        = ks := sorted_filter_split e ks hsort.1 hpag
    -- both sides of the split are nonempty
    have hboth : (ks.filter (fun k => !k.getD e false)) ≠ [] ∧
        (ks.filter (fun k => k.getD e false)) ≠ [] := by
      obtain ⟨km, hkm, hkd⟩ := lcpList_achieved k₀ (k₁ :: rest) (by simp)
      have hdiff : k₀.getD e false ≠ km.getD e false := by
        have := (divergeFrom_spec k₀ km 0 (by omega)).2
        rw [← keyDiverge_eq] at this
        rw [← hks] at hkd
        rw [he, hkd]
        exact this (by omega)
      rcases h0 : k₀.getD e false with _ | _
      · constructor
        · intro hc
          have : k₀ ∈ ks.filter (fun k => !k.getD e false) :=
            List.mem_filter.mpr ⟨by simp [hks], by rw [h0]; rfl⟩
          rw [hc] at this
          exact absurd this (by simp)
        · intro hc
          have hkmbit : km.getD e false = true := by
            rcases hv : km.getD e false with _ | _
            · rw [h0, hv] at hdiff
              exact absurd rfl hdiff
            · rfl
          have : km ∈ ks.filter (fun k => k.getD e false) :=
            List.mem_filter.mpr ⟨by simp [hks, hkm], hkmbit⟩
          rw [hc] at this
          exact absurd this (by simp)
      · constructor
        · intro hc
          have hkmbit : km.getD e false = false := by
            rcases hv : km.getD e false with _ | _
            · rfl
            · rw [h0, hv] at hdiff
              exact absurd rfl hdiff
          have : km ∈ ks.filter (fun k => !k.getD e false) :=
            List.mem_filter.mpr ⟨by simp [hks, hkm], by rw [hkmbit]; rfl⟩
          rw [hc] at this
          exact absurd this (by simp)
        · intro hc
          have : k₀ ∈ ks.filter (fun k => k.getD e false) :=
            List.mem_filter.mpr ⟨by simp [hks], h0⟩
          rw [hc] at this
          exact absurd this (by simp)
    have hlenF : (ks.filter (fun k => !k.getD e false)).length
          + (ks.filter (fun k => k.getD e false)).length = ks.length := by
      have := congrArg List.length hsplit
      simpa using this
    have hlenF_lt : (ks.filter (fun k => !k.getD e false)).length ≤ fuel := by
      have h1 : 1 ≤ (ks.filter (fun k => k.getD e false)).length :=
        List.length_pos.mpr hboth.2
      have h2 : ks.length ≤ fuel + 1 := hfuel
      omega
    have hlenT_lt : (ks.filter (fun k => k.getD e false)).length ≤ fuel := by
      have h1 : 1 ≤ (ks.filter (fun k => !k.getD e false)).length :=
        List.length_pos.mpr hboth.1
      have h2 : ks.length ≤ fuel + 1 := hfuel
      omega
    have hsortF : SortedKeys (ks.filter (fun k => !k.getD e false)) := by
      refine ⟨((sortedKeys_pairwise hsort).sublist (List.filter_sublist _)).chain', ?_⟩
      exact fun k hk => hsort.2 k (List.mem_of_mem_filter hk)
    have hsortT : SortedKeys (ks.filter (fun k => k.getD e false)) := by
      refine ⟨((sortedKeys_pairwise hsort).sublist (List.filter_sublist _)).chain', ?_⟩
      exact fun k hk => hsort.2 k (List.mem_of_mem_filter hk)
    have hagF : ∀ a ∈ ks.filter (fun k => !k.getD e false),
        ∀ b ∈ ks.filter (fun k => !k.getD e false), agreeOn a b 0 (e + 1) := by
      intro a ha b hb j hj1 hj2
      rcases Nat.lt_or_ge j e with hj | hj
      · exact hpag a (List.mem_of_mem_filter ha) b (List.mem_of_mem_filter hb) j hj1 hj
      · have hje : j = e := by omega
        have h1 : a.getD e false = false := by simpa using (List.mem_filter.mp ha).2
        have h2 : b.getD e false = false := by simpa using (List.mem_filter.mp hb).2
        rw [hje, h1, h2]
    have hagT : ∀ a ∈ ks.filter (fun k => k.getD e false),
        ∀ b ∈ ks.filter (fun k => k.getD e false), agreeOn a b 0 (e + 1) := by
      intro a ha b hb j hj1 hj2
      rcases Nat.lt_or_ge j e with hj | hj
      · exact hpag a (List.mem_of_mem_filter ha) b (List.mem_of_mem_filter hb) j hj1 hj
      · have hje : j = e := by omega
        have h1 : a.getD e false = true := by simpa using (List.mem_filter.mp ha).2
        have h2 : b.getD e false = true := by simpa using (List.mem_filter.mp hb).2
        rw [hje, h1, h2]
    obtain ⟨hkF, hwF, hvF⟩ := buildTreeF_spec f fuel (ks.filter (fun k => !k.getD e false))
      (e + 1) hlenF_lt hboth.1 hsortF hagF (by omega)
    obtain ⟨hkT, hwT, hvT⟩ := buildTreeF_spec f fuel (ks.filter (fun k => k.getD e false))
      (e + 1) hlenT_lt hboth.2 hsortT hagT (by omega)
    have hstep : buildTreeF f (fuel + 1) ks =
        .node e (buildTreeF f fuel (ks.filter (fun k => !k.getD e false)))
          (buildTreeF f fuel (ks.filter (fun k => k.getD e false))) := by
      rw [hks]
      rfl
    rw [hstep]
    refine ⟨?_, ?_, hvF, hvT⟩
    · rw [CTree.keysOf, hkF, hkT]
      exact hsplit
    · refine TWF.node he_ge he_lt hwF hwT ?_ ?_ ?_
      · intro k hk
        rw [agreeBelow_iff]
        rw [hkF, hkT] at hk
        have hkm : k ∈ ks := by
          rw [← hsplit]
          exact hk
        have hfm : (buildTreeF f fuel (ks.filter (fun k => !k.getD e false))).firstKey
            ∈ ks := by
          have := firstKey_mem (buildTreeF f fuel (ks.filter (fun k => !k.getD e false)))
          rw [hkF] at this
          exact List.mem_of_mem_filter this
        exact hpag k hkm _ hfm
      · intro k hk
        rw [hkF] at hk
        simpa using (List.mem_filter.mp hk).2
      · intro k hk
        rw [hkT] at hk
        simpa using (List.mem_filter.mp hk).2

theorem buildTree_spec (f : KeyBits → Bytes) (ks : List KeyBits) (hne : ks ≠ [])
    (hsort : SortedKeys ks) :
    (buildTree f ks).keysOf = ks ∧ TWF 0 (buildTree f ks) ∧
      (buildTree f ks).valuesFrom f := by
  apply buildTreeF_spec f ks.length ks 0 le_rfl hne hsort
  · intro a _ b _ j hj1 hj2
    omega
  · omega

/-! ## Lookups in canonical node entries -/

theorem storeLookup_append (l₁ l₂ : List (Bytes × StoredValue)) (b : Bytes) :
    storeLookup (l₁ ++ l₂) b =
      match storeLookup l₁ b with
      | some v => some v
      | none => storeLookup l₂ b := by
  induction l₁ with
  | nil => rfl
  | cons e rest ih =>
    obtain ⟨k, v⟩ := e
    rw [List.cons_append, storeLookup_cons, storeLookup_cons]
    by_cases h : k = b
    · rw [if_pos h, if_pos h]
    · rw [if_neg h, if_neg h, ih]

theorem maskBits_idem (e : Nat) (k : KeyBits) :
    ProofPath.maskBits e (ProofPath.maskBits e k) = ProofPath.maskBits e k := by
  apply getD_ext_of_length false (by rw [length_maskBits, length_maskBits])
  intro j
  rcases Nat.lt_or_ge j 256 with hj | hj
  · rcases Nat.lt_or_ge j e with hje | hje
    · rw [maskBits_getD_lt _ _ _ hje hj]
    · rw [maskBits_getD_ge _ _ _ hje, maskBits_getD_ge _ _ _ hje]
  · rw [maskBits_getD, maskBits_getD, if_neg (by omega), if_neg (by omega)]

theorem serialize_readPath_serialize (p : ProofPath) (hp : p.endp ≤ 256) :
    (readPath p.serialize).serialize = p.serialize := by
  rw [readPath_serialize]
  exact serialize_congr _ _ rfl
    (fun j _ hj2 => maskBits_getD_lt p.endp p.key j hj2 (lt_of_lt_of_le hj2 hp))

theorem nodeEntries_self (hashFn : Bytes → Bytes) (t : CTree) :
    storeLookup (t.nodeEntries hashFn) t.nodePath.serialize
      = some (t.rootValue hashFn) := by
  cases t with
  | leaf k v =>
    rw [CTree.nodeEntries, storeLookup_cons, if_pos
      (show ProofPath.serialize ⟨k, 256, 0⟩ = (CTree.leaf k v).nodePath.serialize from rfl)]
    rfl
  | node e l r =>
    rw [CTree.nodeEntries, storeLookup_cons, if_pos
      (show ProofPath.serialize ⟨l.firstKey, e, 0⟩
        = (CTree.node e l r).nodePath.serialize from rfl)]
    rfl

/-- Every node entry key of a subtree is the serialization of a path whose
end border extends the subtree's own and whose bits agree with the subtree's
keys below that border. -/
theorem nodeEntries_shape (hashFn : Bytes → Bytes) {d : Nat} {t : CTree} (h : TWF d t) :
    ∀ p ∈ t.nodeEntries hashFn, ∃ ep β,
      p.1 = ProofPath.serialize ⟨β, ep, 0⟩ ∧ t.endOf ≤ ep ∧ ep ≤ 256 ∧ β.length = 256 ∧
        agreeOn β t.firstKey 0 t.endOf := by
  induction h with
  | leaf hk hd =>
    intro p hp
    simp only [CTree.nodeEntries, List.mem_singleton] at hp
    subst hp
    exact ⟨256, _, rfl, le_rfl, le_rfl, hk, fun j _ _ => rfl⟩
  | node hde he hl hr hag hbl hbr ihl ihr =>
    intro p hp
    rename_i d' e l r
    rw [CTree.nodeEntries] at hp
    rcases List.mem_cons.mp hp with rfl | hp'
    · refine ⟨e, l.firstKey, rfl, le_rfl, by omega, ?_, fun j _ _ => rfl⟩
      exact TWF_key_len hl _ (firstKey_mem l)
    · have hchild : ∀ (c : CTree), TWF (e + 1) c →
          (∀ k ∈ c.keysOf, agreeBelow e k l.firstKey) →
          p ∈ c.nodeEntries hashFn →
          (∀ q ∈ c.nodeEntries hashFn, ∃ ep β,
            q.1 = ProofPath.serialize ⟨β, ep, 0⟩ ∧ c.endOf ≤ ep ∧ ep ≤ 256 ∧
              β.length = 256 ∧ agreeOn β c.firstKey 0 c.endOf) →
          ∃ ep β, p.1 = ProofPath.serialize ⟨β, ep, 0⟩ ∧
            (CTree.node e l r).endOf ≤ ep ∧ ep ≤ 256 ∧ β.length = 256 ∧
            agreeOn β (CTree.node e l r).firstKey 0 (CTree.node e l r).endOf := by
        intro c hc hcag hpc ihc
        obtain ⟨ep, β, h1, h2, h3, h4, h5⟩ := ihc p hpc
        have hce : e + 1 ≤ c.endOf := TWF_endOf_ge hc
        refine ⟨ep, β, h1, by show e ≤ ep; omega, h3, h4, ?_⟩
        show agreeOn β l.firstKey 0 e
        intro j hj1 hj2
        have hfc := hcag c.firstKey (firstKey_mem c)
        rw [agreeBelow_iff] at hfc
        exact (h5 j hj1 (by omega)).trans (hfc j hj1 hj2)
      rcases List.mem_append.mp hp' with hm | hm
      · exact hchild l hl (fun k hk => hag k (List.mem_append_left _ hk)) hm ihl
      · exact hchild r hr (fun k hk => hag k (List.mem_append_right _ hk)) hm ihr

theorem storeLookup_eq_none_of_forall_ne (l : List (Bytes × StoredValue)) (b : Bytes)
    (h : ∀ p ∈ l, p.1 ≠ b) : storeLookup l b = none := by
  induction l with
  | nil => rfl
  | cons e rest ih =>
    obtain ⟨k, v⟩ := e
    rw [storeLookup_cons, if_neg (h (k, v) (by simp))]
    exact ih (fun p hp => h p (by simp [hp]))

/-- The masked bit at a position below every entry's end border equals the
subtree's common bit there. -/
theorem nodeEntries_key_bit (hashFn : Bytes → Bytes) {d : Nat} {t : CTree} (h : TWF d t)
    {e : Nat} (he : e < t.endOf) (he' : e < 256) :
    ∀ p ∈ t.nodeEntries hashFn, ∀ (q : ProofPath), p.1 = q.serialize →
      (ProofPath.maskBits q.endp q.key).getD e false = t.firstKey.getD e false := by
  intro p hp q hq
  obtain ⟨ep, β, h1, h2, h3, h4, h5⟩ := nodeEntries_shape hashFn h p hp
  rw [h1] at hq
  obtain ⟨hend, hmask⟩ := serialize_inj hq.symm
  rw [hmask]
  show (ProofPath.maskBits ep β).getD e false = _
  rw [maskBits_getD_lt ep β e (by omega) he']
  exact h5 e (by omega) he

theorem nodeEntries_disjoint (hashFn : Bytes → Bytes) {d e : Nat} {l r : CTree}
    (h : TWF d (CTree.node e l r)) (b : Bytes) :
    storeLookup (l.nodeEntries hashFn) b = none ∨
      storeLookup (r.nodeEntries hashFn) b = none := by
  cases h with
  | node hde he hl hr hag hbl hbr =>
    by_contra hcon
    push_neg at hcon
    obtain ⟨h₁, h₂⟩ := hcon
    rcases hv₁ : storeLookup (l.nodeEntries hashFn) b with _ | v₁
    · exact h₁ hv₁
    rcases hv₂ : storeLookup (r.nodeEntries hashFn) b with _ | v₂
    · exact h₂ hv₂
    obtain ⟨p₁, hp₁, hb₁⟩ := List.mem_map.mp (storeLookup_mem_of_some hv₁)
    obtain ⟨p₂, hp₂, hb₂⟩ := List.mem_map.mp (storeLookup_mem_of_some hv₂)
    obtain ⟨ep₁, β₁, e1, e2, e3, e4, e5⟩ := nodeEntries_shape hashFn hl p₁ hp₁
    obtain ⟨ep₂, β₂, f1, f2, f3, f4, f5⟩ := nodeEntries_shape hashFn hr p₂ hp₂
    have hbb : ProofPath.serialize ⟨β₁, ep₁, 0⟩ = ProofPath.serialize ⟨β₂, ep₂, 0⟩ := by
      rw [← e1, ← f1, hb₁, hb₂]
    obtain ⟨hend, hmask⟩ := serialize_inj hbb
    have hle : e + 1 ≤ l.endOf := TWF_endOf_ge hl
    have hre : e + 1 ≤ r.endOf := TWF_endOf_ge hr
    have hb₁e : β₁.getD e false = false := by
      rw [e5 e (by omega) (by omega)]
      exact hbl l.firstKey (firstKey_mem l)
    have hb₂e : β₂.getD e false = true := by
      rw [f5 e (by omega) (by omega)]
      exact hbr r.firstKey (firstKey_mem r)
    have hme := congrArg (fun m => m.getD e false) hmask
    simp only at hme
    rw [maskBits_getD_lt ep₁ β₁ e (by omega) he,
      maskBits_getD_lt ep₂ β₂ e (by omega) he, hb₁e, hb₂e] at hme
    exact Bool.false_ne_true hme

theorem storeLookup_isSome_of_mem {s : Store} {b : Bytes}
    (h : b ∈ s.map Prod.fst) : (storeLookup s b).isSome := by
  induction s with
  | nil => simp at h
  | cons e rest ih =>
    obtain ⟨k, v⟩ := e
    rw [storeLookup_cons]
    by_cases hk : k = b
    · rw [if_pos hk]
      rfl
    · rw [if_neg hk]
      apply ih
      simp only [List.map_cons, List.mem_cons] at h
      rcases h with h | h
      · exact absurd h.symm hk
      · exact h

/-- Left and right node-entry keys of a well-formed branch are distinct. -/
theorem nodeEntries_keys_disjoint (hashFn : Bytes → Bytes) {d e : Nat} {l r : CTree}
    (h : TWF d (CTree.node e l r)) :
    ∀ b ∈ (l.nodeEntries hashFn).map Prod.fst,
      b ∉ (r.nodeEntries hashFn).map Prod.fst := by
  intro b hb₁ hb₂
  rcases nodeEntries_disjoint hashFn h b with hn | hn
  · have hs := storeLookup_isSome_of_mem hb₁
    rw [hn] at hs
    exact absurd hs (by simp)
  · have hs := storeLookup_isSome_of_mem hb₂
    rw [hn] at hs
    exact absurd hs (by simp)

/-- A serialized path whose end border is shorter than the subtree's is not a
node-entry key of the subtree. -/
theorem nodeEntries_root_fresh (hashFn : Bytes → Bytes) {d : Nat} {c : CTree}
    (h : TWF d c) (β : KeyBits) (ep : Nat) (hep : ep < c.endOf) :
    ProofPath.serialize ⟨β, ep, 0⟩ ∉ (c.nodeEntries hashFn).map Prod.fst := by
  intro hmem
  obtain ⟨p, hp, hb⟩ := List.mem_map.mp hmem
  obtain ⟨ep', β', h1, h2, _, _, _⟩ := nodeEntries_shape hashFn h p hp
  rw [h1] at hb
  obtain ⟨hend, _⟩ := serialize_inj hb
  have hend' : ep' = ep := hend
  omega

theorem nodeEntries_keys_nodup (hashFn : Bytes → Bytes) {d : Nat} {t : CTree}
    (h : TWF d t) : ((t.nodeEntries hashFn).map Prod.fst).Nodup := by
  induction h with
  | leaf hk hd => simp [CTree.nodeEntries]
  | node hde he hl hr hag hbl hbr ihl ihr =>
    rename_i d' e l r
    rw [CTree.nodeEntries, List.map_cons, List.nodup_cons]
    refine ⟨?_, ?_⟩
    · intro hmem
      rw [List.map_append] at hmem
      rcases List.mem_append.mp hmem with hm | hm
      · exact nodeEntries_root_fresh hashFn hl _ e
          (by have := TWF_endOf_ge hl; omega) hm
      · exact nodeEntries_root_fresh hashFn hr _ e
          (by have := TWF_endOf_ge hr; omega) hm
    · rw [List.map_append]
      exact List.Nodup.append ihl ihr
        (nodeEntries_keys_disjoint hashFn (TWF.node hde he hl hr hag hbl hbr))

theorem valueEntries_keys_nodup (f : KeyBits → Bytes) (ks : List KeyBits)
    (hnd : ks.Nodup) (hlen : ∀ k ∈ ks, k.length = 256) :
    ((valueEntries f ks).map Prod.fst).Nodup := by
  unfold valueEntries
  rw [List.map_map]
  exact List.Nodup.map_on
    (fun x hx y hy hxy => valuePath_inj (hlen x hx) (hlen y hy) hxy) hnd

theorem valueEntries_lookup (f : KeyBits → Bytes) (ks : List KeyBits) (k : KeyBits)
    (hk : k.length = 256) (hlen : ∀ k₀ ∈ ks, k₀.length = 256) :
    storeLookup (valueEntries f ks) (valuePath k) =
      if k ∈ ks then some (.userVal (f k)) else none := by
  induction ks with
  | nil => simp [valueEntries, storeLookup]
  | cons a rest ih =>
    have hstep : storeLookup (valueEntries f (a :: rest)) (valuePath k)
        = if valuePath a = valuePath k then some (.userVal (f a))
          else storeLookup (valueEntries f rest) (valuePath k) :=
      storeLookup_cons _ _ _ _
    rw [hstep]
    by_cases hak : valuePath a = valuePath k
    · have hek : a = k := valuePath_inj (hlen a (List.mem_cons_self a rest)) hk hak
      subst hek
      rw [if_pos hak, if_pos (List.mem_cons_self a rest)]
    · rw [if_neg hak, ih (fun k₀ hk₀ => hlen k₀ (List.mem_cons_of_mem a hk₀))]
      have hne : k ≠ a := fun he => hak (by rw [he])
      by_cases hmem : k ∈ rest
      · rw [if_pos hmem, if_pos (List.mem_cons_of_mem a hmem)]
      · rw [if_neg hmem, if_neg (by
          intro hc
          rcases List.mem_cons.mp hc with h | h
          · exact hne h
          · exact hmem h)]

theorem valueEntries_lookup_serialize (f : KeyBits → Bytes) (ks : List KeyBits)
    (p : ProofPath) :
    storeLookup (valueEntries f ks) p.serialize = none := by
  apply storeLookup_eq_none_of_forall_ne
  intro q hq
  obtain ⟨k, hk, rfl⟩ := List.mem_map.mp hq
  exact fun hc => serialize_ne_valuePath p k hc.symm

theorem nodeEntries_lookup_valuePath (hashFn : Bytes → Bytes) {d : Nat} {t : CTree}
    (h : TWF d t) (k : KeyBits) :
    storeLookup (t.nodeEntries hashFn) (valuePath k) = none := by
  apply storeLookup_eq_none_of_forall_ne
  intro p hp
  obtain ⟨ep, β, h1, _, _, _, _⟩ := nodeEntries_shape hashFn h p hp
  rw [h1]
  exact serialize_ne_valuePath _ k

theorem buildState_keys_nodup (hashFn : Bytes → Bytes) (f : KeyBits → Bytes)
    {ks : List KeyBits} (hsort : SortedKeys ks) (hne : ks ≠ []) :
    ((((buildTree f ks).nodeEntries hashFn) ++ valueEntries f ks).map Prod.fst).Nodup := by
  obtain ⟨hk, htwf, _⟩ := buildTree_spec f ks hne hsort
  rw [List.map_append]
  refine List.Nodup.append (nodeEntries_keys_nodup hashFn htwf)
    (valueEntries_keys_nodup f ks (sortedKeys_nodup hsort) hsort.2) ?_
  intro b hbn hbv
  obtain ⟨p, hp, hb⟩ := List.mem_map.mp hbn
  obtain ⟨q, hq, hqb⟩ := List.mem_map.mp hbv
  obtain ⟨k, hkm, rfl⟩ := List.mem_map.mp hq
  obtain ⟨ep, β, h1, _, _, _, _⟩ := nodeEntries_shape hashFn htwf p hp
  refine serialize_ne_valuePath (⟨β, ep, 0⟩ : ProofPath) k ?_
  rw [← h1, hb, ← hqb]

theorem buildState_lookup (hashFn : Bytes → Bytes) (f : KeyBits → Bytes)
    {ks : List KeyBits} (hsort : SortedKeys ks) (hne : ks ≠ []) (b : Bytes) :
    storeLookup (buildState hashFn f ks) b =
      match storeLookup ((buildTree f ks).nodeEntries hashFn) b with
      | some v => some v
      | none => storeLookup (valueEntries f ks) b := by
  rw [buildState_def hashFn f ks hne,
    storeOfEntries_lookup _ b (buildState_keys_nodup hashFn f hsort hne),
    storeLookup_append]

theorem buildState_lookup_valuePath (hashFn : Bytes → Bytes) (f : KeyBits → Bytes)
    {ks : List KeyBits} (hsort : SortedKeys ks) (hne : ks ≠ []) (k : KeyBits)
    (hk : k.length = 256) :
    storeLookup (buildState hashFn f ks) (valuePath k) =
      if k ∈ ks then some (.userVal (f k)) else none := by
  obtain ⟨_, htwf, _⟩ := buildTree_spec f ks hne hsort
  rw [buildState_lookup hashFn f hsort hne, nodeEntries_lookup_valuePath hashFn htwf]
  exact valueEntries_lookup f ks k hk hsort.2

/-! ## Byte order of serialized keys -/

theorem byteOfBits_cons (b : Bool) (rest : List Bool) :
    byteOfBits (b :: rest) = 2 * byteOfBits rest + cond b 1 0 := rfl

theorem byteOfBits_eq_zero (bs : List Bool) (h : ∀ j, bs.getD j false = false) :
    byteOfBits bs = 0 := by
  induction bs with
  | nil => rfl
  | cons b rest ih =>
    rw [byteOfBits_cons]
    have hb : b = false := by simpa using h 0
    have ht := ih (fun j => by simpa using h (j + 1))
    simp [hb, ht]

theorem byteOfBits_mono (a : List Bool) :
    ∀ (b : List Bool), (∀ j, a.getD j false = true → b.getD j false = true) →
      byteOfBits a ≤ byteOfBits b := by
  induction a with
  | nil =>
    intro b _
    exact Nat.zero_le _
  | cons x xs ih =>
    intro b h
    cases b with
    | nil =>
      have h0 : byteOfBits (x :: xs) = 0 := byteOfBits_eq_zero _ (fun j => by
        cases hxv : (x :: xs).getD j false with
        | false => rfl
        | true =>
          have := h j hxv
          simp at this)
      rw [h0]
      exact Nat.zero_le _
    | cons y ys =>
      have h0 : x = true → y = true := fun hx => by
        have := h 0 (by simpa using hx)
        simpa using this
      have ht := ih ys (fun j hj => by
        have := h (j + 1) (by simpa using hj)
        simpa using this)
      rw [byteOfBits_cons, byteOfBits_cons]
      have hc : cond x 1 0 ≤ cond y 1 0 := by
        cases x with
        | false => simp
        | true =>
          rw [h0 rfl]
      omega

theorem bytesLt_of_pointwise : ∀ (a b : Bytes), a.length = b.length →
    (∀ i, a.getD i 0 ≤ b.getD i 0) → a ≠ b → bytesLt a b = true
  | [], [], _, _, hne => absurd rfl hne
  | [], _ :: _, hlen, _, _ => by simp at hlen
  | _ :: _, [], hlen, _, _ => by simp at hlen
  | x :: xs, y :: ys, hlen, hle, hne => by
    have hxy : x ≤ y := by simpa using hle 0
    simp only [bytesLt, Bool.or_eq_true, Bool.and_eq_true, beq_iff_eq,
      decide_eq_true_eq]
    rcases Nat.lt_or_ge x y with h | h
    · exact Or.inl h
    · have heq : x = y := by omega
      subst heq
      refine Or.inr ⟨rfl, ?_⟩
      exact bytesLt_of_pointwise xs ys (by simpa using hlen)
        (fun i => by simpa using hle (i + 1))
        (fun hc => hne (by rw [hc]))

theorem getD_append_lt {α : Type} (d : α) (A B : List α) (i : Nat) (h : i < A.length) :
    (A ++ B).getD i d = A.getD i d := by
  rw [List.getD_eq_getElem?_getD, List.getD_eq_getElem?_getD,
    List.getElem?_append, if_pos h]

theorem getD_append_ge {α : Type} (d : α) (A B : List α) (i : Nat) (h : A.length ≤ i) :
    (A ++ B).getD i d = B.getD (i - A.length) d := by
  rw [List.getD_eq_getElem?_getD, List.getD_eq_getElem?_getD,
    List.getElem?_append, if_neg (by omega)]

theorem bytesOfBits_mono (a b : KeyBits)
    (h : ∀ j, a.getD j false = true → b.getD j false = true) (n i : Nat) :
    (bytesOfBits a n).getD i 0 ≤ (bytesOfBits b n).getD i 0 := by
  rw [getD_bytesOfBits, getD_bytesOfBits]
  by_cases hi : i < n
  · rw [if_pos hi, if_pos hi]
    apply byteOfBits_mono
    intro j hj
    by_cases hj8 : j < 8
    · rw [getD_take_drop _ _ _ hj8] at hj ⊢
      exact h _ hj
    · rw [List.getD_eq_default] at hj
      · exact absurd hj (by simp)
      · exact le_trans (List.length_take_le _ _) (by omega)
  · rw [if_neg hi, if_neg hi]

/-- A path whose border extends another path's border while agreeing with it
below the shorter border serializes strictly later in byte order: a branch key
precedes all keys of its subtree. -/
theorem bytesLt_serialize_extend (p q : ProofPath) (hpe : p.endp < q.endp)
    (hqe : q.endp ≤ 256) (hag : agreeOn q.key p.key 0 p.endp) :
    bytesLt p.serialize q.serialize = true := by
  have hp256 : p.endp ≠ 256 := by omega
  by_cases hq256 : q.endp = 256
  · unfold ProofPath.serialize
    rw [if_neg hp256, if_pos hq256]
    simp [bytesLt]
  · apply bytesLt_of_pointwise
    · simp [ProofPath.serialize, length_bytesOfBits]
    · intro i
      unfold ProofPath.serialize
      rw [if_neg hp256, if_neg hq256]
      match i with
      | 0 => simp
      | i + 1 =>
        rw [List.cons_append, List.cons_append, List.getD_cons_succ,
          List.getD_cons_succ]
        by_cases hi : i < 32
        · rw [getD_append_lt _ _ _ i (by rw [length_bytesOfBits]; omega),
            getD_append_lt _ _ _ i (by rw [length_bytesOfBits]; omega)]
          apply bytesOfBits_mono
          intro j hj
          rw [maskBits_getD] at hj ⊢
          by_cases hj256 : j < 256
          · rw [if_pos hj256] at hj ⊢
            simp only [Bool.and_eq_true, decide_eq_true_eq] at hj
            rw [decide_eq_true (by omega : j < q.endp), Bool.true_and,
              hag j (by omega) hj.1]
            exact hj.2
          · rw [if_neg hj256] at hj
            exact absurd hj (by simp)
        · by_cases hi2 : i = 32
          · subst hi2
            rw [getD_append_ge _ _ _ 32 (by rw [length_bytesOfBits]),
              getD_append_ge _ _ _ 32 (by rw [length_bytesOfBits]),
              length_bytesOfBits, length_bytesOfBits]
            simp only [Nat.sub_self, List.getD_cons_zero]
            rw [if_neg hp256, if_neg hq256]
            omega
          · rw [List.getD_eq_default, List.getD_eq_default]
            · simp [length_bytesOfBits]
              omega
            · simp [length_bytesOfBits]
              omega
    · intro hc
      exact absurd (serialize_inj hc).1 (by omega)

/-- Node keys precede all value keys. -/
theorem bytesLt_serialize_valuePath (p : ProofPath) (k : KeyBits) :
    bytesLt p.serialize (valuePath k) = true := by
  unfold ProofPath.serialize valuePath VALUE_KEY_PREFIX
  by_cases h : p.endp = 256
  · rw [if_pos h]
    simp [bytesLt]
  · rw [if_neg h]
    simp [bytesLt]

/-! ## The head of a canonical store -/

theorem storeLookup_some_iff_mem {s : Store} (hnd : (s.map Prod.fst).Nodup)
    (b : Bytes) (v : StoredValue) :
    storeLookup s b = some v ↔ (b, v) ∈ s := by
  induction s with
  | nil => simp [storeLookup]
  | cons e rest ih =>
    obtain ⟨k, w⟩ := e
    simp only [List.map_cons, List.nodup_cons] at hnd
    rw [storeLookup_cons]
    constructor
    · intro h
      by_cases hk : k = b
      · rw [if_pos hk] at h
        subst hk
        injection h with h
        rw [h]
        exact List.mem_cons_self _ _
      · rw [if_neg hk] at h
        exact List.mem_cons.mpr (Or.inr ((ih hnd.2 ).mp h))
    · intro h
      rcases List.mem_cons.mp h with he | hm
      · have hb : b = k := congrArg Prod.fst he
        have hv : v = w := congrArg Prod.snd he
        rw [if_pos hb.symm, hv]
      · have hk : k ≠ b := by
          intro hc
          exact hnd.1 (by
            subst hc
            exact List.mem_map.mpr ⟨(k, v), hm, rfl⟩)
        rw [if_neg hk]
        exact (ih hnd.2).mpr hm

theorem head_eq_of_min {s : Store} (hs : storeSorted s) {b : Bytes} {v : StoredValue}
    (hmem : (b, v) ∈ s)
    (hmin : ∀ q ∈ s, q.1 = b ∨ bytesLt b q.1 = true) :
    s.head? = some (b, v) := by
  cases s with
  | nil => simp at hmem
  | cons e rest =>
    obtain ⟨k, w⟩ := e
    rcases List.mem_cons.mp hmem with he | hm
    · rw [List.head?_cons, ← he]
    · have h1 : bytesLt k b = true := storeSorted_head_lt hs (b, v) hm
      rcases hmin (k, w) (List.mem_cons_self _ _) with h2 | h2
      · rw [show (k, w).1 = k from rfl] at h2
        rw [h2, bytesLt_irrefl] at h1
        simp at h1
      · rw [show (k, w).1 = k from rfl] at h2
        rw [bytesLt_asymm h2] at h1
        simp at h1

/-- The subtree's own node key is the byte-least of all its node-entry
keys. -/
theorem nodeEntries_key_min (hashFn : Bytes → Bytes) {d : Nat} {t : CTree}
    (h : TWF d t) :
    ∀ p ∈ t.nodeEntries hashFn, p.1 = t.nodePath.serialize ∨
      bytesLt t.nodePath.serialize p.1 = true := by
  intro p hp
  obtain ⟨ep, β, h1, h2, h3, h4, h5⟩ := nodeEntries_shape hashFn h p hp
  rcases Nat.eq_or_lt_of_le h2 with heq | hlt
  · left
    rw [h1, nodePath_eq]
    exact serialize_congr ⟨β, ep, 0⟩ ⟨t.firstKey, t.endOf, 0⟩ heq.symm
      (fun j hj1 hj2 => h5 j hj1 (by
        have hj2' : j < ep := hj2
        omega))
  · right
    rw [h1, nodePath_eq]
    exact bytesLt_serialize_extend ⟨t.firstKey, t.endOf, 0⟩ ⟨β, ep, 0⟩ hlt h3 h5

theorem buildState_sorted (hashFn : Bytes → Bytes) (f : KeyBits → Bytes)
    (ks : List KeyBits) : storeSorted (buildState hashFn f ks) := by
  cases ks with
  | nil => exact List.chain'_nil
  | cons a rest => exact foldl_storeInsert_sorted _ [] List.chain'_nil

theorem buildState_head (hashFn : Bytes → Bytes) (f : KeyBits → Bytes)
    {ks : List KeyBits} (hsort : SortedKeys ks) (hne : ks ≠ []) :
    (buildState hashFn f ks).head? =
      some ((buildTree f ks).nodePath.serialize,
        (buildTree f ks).rootValue hashFn) := by
  obtain ⟨hkeys, htwf, hvals⟩ := buildTree_spec f ks hne hsort
  have hsorted := buildState_sorted hashFn f ks
  have hnd : ((buildState hashFn f ks).map Prod.fst).Nodup := storeSorted_nodup hsorted
  have hlook : storeLookup (buildState hashFn f ks)
      (buildTree f ks).nodePath.serialize
      = some ((buildTree f ks).rootValue hashFn) := by
    rw [buildState_lookup hashFn f hsort hne, nodeEntries_self]
  have hmem := (storeLookup_some_iff_mem hnd _ _).mp hlook
  apply head_eq_of_min hsorted hmem
  intro q hq
  have hql : storeLookup (buildState hashFn f ks) q.1 = some q.2 :=
    (storeLookup_some_iff_mem hnd _ _).mpr hq
  rw [buildState_lookup hashFn f hsort hne] at hql
  rcases hn : storeLookup ((buildTree f ks).nodeEntries hashFn) q.1 with _ | w
  · rw [hn] at hql
    have hql' : storeLookup (valueEntries f ks) q.1 = some q.2 := hql
    have hqm := storeLookup_mem_of_some hql'
    obtain ⟨e, he, hee⟩ := List.mem_map.mp hqm
    obtain ⟨k', hk', rfl⟩ := List.mem_map.mp he
    right
    rw [← hee]
    exact bytesLt_serialize_valuePath _ _
  · have hqm := storeLookup_mem_of_some hn
    obtain ⟨e, he, hee⟩ := List.mem_map.mp hqm
    rw [← hee]
    exact nodeEntries_key_min hashFn htwf e he

theorem getRootPath_buildState (hashFn : Bytes → Bytes) (f : KeyBits → Bytes)
    {ks : List KeyBits} (hsort : SortedKeys ks) (hne : ks ≠ []) :
    getRootPath (buildState hashFn f ks) =
      some (readPath ((buildTree f ks).nodePath.serialize)) := by
  unfold getRootPath
  rw [buildState_head hashFn f hsort hne]
  rfl

theorem getRootNode_buildState (hashFn : Bytes → Bytes) (f : KeyBits → Bytes)
    {ks : List KeyBits} (hsort : SortedKeys ks) (hne : ks ≠ []) :
    getRootNode (buildState hashFn f ks) =
      some (some (readPath ((buildTree f ks).nodePath.serialize),
        (buildTree f ks).nodeOf hashFn)) := by
  obtain ⟨hkeys, htwf, hvals⟩ := buildTree_spec f ks hne hsort
  have hser : (readPath ((buildTree f ks).nodePath.serialize)).serialize
      = (buildTree f ks).nodePath.serialize :=
    serialize_readPath_serialize _ (by
      rw [nodePath_eq]
      exact TWF_endOf_le htwf)
  have hlook : storeLookup (buildState hashFn f ks)
      (buildTree f ks).nodePath.serialize
      = some ((buildTree f ks).rootValue hashFn) := by
    rw [buildState_lookup hashFn f hsort hne, nodeEntries_self]
  have hgn : getNodeUnchecked (buildState hashFn f ks)
      (readPath ((buildTree f ks).nodePath.serialize))
      = some ((buildTree f ks).nodeOf hashFn) := by
    unfold getNodeUnchecked
    rw [hser]
    cases hc : buildTree f ks with
    | leaf k₀ v₀ =>
      rw [hc] at hlook
      have hleaf : (readPath ((CTree.leaf k₀ v₀).nodePath.serialize)).isLeaf
          = true := by
        rw [readPath_serialize]
        rfl
      rw [if_pos hleaf, hlook]
      rfl
    | node e l r =>
      rw [hc] at hlook htwf
      have he : e < 256 := by
        cases htwf with
        | node hde he2 hl2 hr2 hag2 hbl2 hbr2 => exact he2
      have hleaf : (readPath ((CTree.node e l r).nodePath.serialize)).isLeaf
          = false := by
        rw [readPath_serialize]
        show (((CTree.node e l r).endOf : Nat) == 256) = false
        exact beq_eq_false_iff_ne.mpr (by
          show e ≠ 256
          omega)
      rw [if_neg (by rw [hleaf]; exact Bool.false_ne_true), hlook]
      rfl
  unfold getRootNode
  rw [buildState_head hashFn f hsort hne]
  show (match getNodeUnchecked (buildState hashFn f ks)
      (readPath ((buildTree f ks).nodePath.serialize)) with
    | none => none
    | some n => some (some (readPath ((buildTree f ks).nodePath.serialize), n))) = _
  rw [hgn]

/-! ## Insertion-sort algebra and uniqueness of the canonical tree -/

theorem insortKey_cons (k x : KeyBits) (L : List KeyBits) :
    insortKey k (x :: L) =
      if keyLt k x then k :: x :: L
      else if k = x then x :: L
      else x :: insortKey k L := rfl

theorem insortKey_all_lt (k : KeyBits) : ∀ (ks : List KeyBits),
    (∀ x ∈ ks, keyLt x k = true) → insortKey k ks = ks ++ [k]
  | [], _ => rfl
  | x :: rest, h => by
    have hx : keyLt x k = true := h x (List.mem_cons_self _ _)
    rw [insortKey_cons,
      if_neg (fun hc => by
        rw [keyLt_asymm hx] at hc
        exact Bool.false_ne_true hc),
      if_neg (fun hc => keyLt_ne hx hc.symm),
      insortKey_all_lt k rest (fun y hy => h y (List.mem_cons_of_mem _ hy)),
      List.cons_append]

theorem insortKey_append_right (k : KeyBits) : ∀ (l₁ l₂ : List KeyBits),
    (∀ x ∈ l₁, keyLt x k = true) →
    insortKey k (l₁ ++ l₂) = l₁ ++ insortKey k l₂
  | [], _, _ => rfl
  | x :: rest, l₂, h => by
    have hx : keyLt x k = true := h x (List.mem_cons_self _ _)
    rw [List.cons_append, insortKey_cons,
      if_neg (fun hc => by
        rw [keyLt_asymm hx] at hc
        exact Bool.false_ne_true hc),
      if_neg (fun hc => keyLt_ne hx hc.symm),
      insortKey_append_right k rest l₂
        (fun y hy => h y (List.mem_cons_of_mem _ hy)),
      List.cons_append]

theorem insortKey_append_left (k : KeyBits) : ∀ (l₁ l₂ : List KeyBits),
    (∀ y ∈ l₂, keyLt k y = true) →
    insortKey k (l₁ ++ l₂) = insortKey k l₁ ++ l₂
  | [], l₂, h => by
    cases l₂ with
    | nil => rfl
    | cons y ys =>
      show insortKey k (y :: ys) = k :: y :: ys
      rw [insortKey_cons, if_pos (h y (List.mem_cons_self _ _))]
  | x :: rest, l₂, h => by
    rw [List.cons_append, insortKey_cons, insortKey_cons]
    by_cases h1 : keyLt k x = true
    · rw [if_pos h1, if_pos h1, List.cons_append, List.cons_append]
    · rw [if_neg h1, if_neg h1]
      by_cases h2 : k = x
      · rw [if_pos h2, if_pos h2, List.cons_append]
      · rw [if_neg h2, if_neg h2, insortKey_append_left k rest l₂ h,
          List.cons_append]

theorem keysOf_head : ∀ t : CTree, t.keysOf.head? = some t.firstKey
  | .leaf k v => rfl
  | .node e l r => by
    show (l.keysOf ++ r.keysOf).head? = some l.firstKey
    have ihl := keysOf_head l
    rcases hl : l.keysOf with _ | ⟨x, xs⟩
    · exact absurd hl (keysOf_ne_nil l)
    · rw [hl] at ihl
      rw [List.cons_append, List.head?_cons]
      rw [List.head?_cons] at ihl
      exact ihl

theorem keyDiverge_le_of_ne (a b : KeyBits) (j : Nat)
    (h : a.getD j false ≠ b.getD j false) : keyDiverge a b ≤ j := by
  by_contra hc
  push_neg at hc
  have hag := (divergeFrom_spec a b 0 (by omega)).1
  rw [← keyDiverge_eq] at hag
  exact h (hag j (by omega) hc)

theorem keysOf_filter_split {d e : Nat} {l r : CTree} (h : TWF d (CTree.node e l r)) :
    (CTree.node e l r).keysOf.filter (fun k => !k.getD e false) = l.keysOf ∧
    (CTree.node e l r).keysOf.filter (fun k => k.getD e false) = r.keysOf := by
  cases h with
  | node hde he hl hr hag hbl hbr =>
    constructor
    · show (l.keysOf ++ r.keysOf).filter _ = l.keysOf
      rw [List.filter_append,
        List.filter_eq_self.mpr (fun a ha => by rw [hbl a ha]; rfl),
        List.filter_eq_nil_iff.mpr (fun a ha => by rw [hbr a ha]; simp),
        List.append_nil]
    · show (l.keysOf ++ r.keysOf).filter _ = r.keysOf
      rw [List.filter_append,
        List.filter_eq_nil_iff.mpr (fun a ha => by rw [hbl a ha]; simp),
        List.filter_eq_self.mpr (fun a ha => by rw [hbr a ha]),
        List.nil_append]

theorem TWF_node_split {d e : Nat} {l r : CTree} (h : TWF d (CTree.node e l r)) :
    lcpList ((CTree.node e l r).keysOf) = e := by
  have hagall : ∀ a ∈ (CTree.node e l r).keysOf, ∀ b ∈ (CTree.node e l r).keysOf,
      agreeOn a b 0 e := by
    cases h with
    | node hde he hl hr hag hbl hbr =>
      intro a ha b hb j hj1 hj2
      have h1 := (agreeBelow_iff _ _ _).mp (hag a ha) j hj1 hj2
      have h2 := (agreeBelow_iff _ _ _).mp (hag b hb) j hj1 hj2
      exact h1.trans h2.symm
  have he256 : e < 256 := by
    cases h with
    | node hde he2 hl hr hag hbl hbr => exact he2
  have hge : e ≤ lcpList ((CTree.node e l r).keysOf) :=
    le_lcpList_of_agree _ e (by omega) hagall
  have hfk : (CTree.node e l r).keysOf.head? = some l.firstKey := keysOf_head _
  rcases hks : (CTree.node e l r).keysOf with _ | ⟨k₀, rest⟩
  · exact absurd hks (keysOf_ne_nil _)
  · rw [hks, List.head?_cons] at hfk
    injection hfk with hfk
    have hbit₀ : k₀.getD e false = false := by
      rw [hfk]
      cases h with
      | node hde he2 hl hr hag hbl hbr => exact hbl l.firstKey (firstKey_mem l)
    have hrmem : r.firstKey ∈ (CTree.node e l r).keysOf :=
      List.mem_append_right _ (firstKey_mem r)
    have hbit₁ : r.firstKey.getD e false = true := by
      cases h with
      | node hde he2 hl hr hag hbl hbr => exact hbr r.firstKey (firstKey_mem r)
    have hrrest : r.firstKey ∈ rest := by
      rw [hks] at hrmem
      rcases List.mem_cons.mp hrmem with hc | hc
      · rw [hc, hbit₀] at hbit₁
        exact absurd hbit₁ (by simp)
      · exact hc
    have hle : lcpList (k₀ :: rest) ≤ e :=
      le_trans (lcpList_le_diverge k₀ rest r.firstKey hrrest)
        (keyDiverge_le_of_ne _ _ e (by rw [hbit₀, hbit₁]; simp))
    rw [hks] at hge
    omega

theorem valuesFrom_congr {f g : KeyBits → Bytes} : ∀ {t : CTree},
    (∀ x ∈ t.keysOf, f x = g x) → t.valuesFrom f → t.valuesFrom g
  | .leaf k v, h, hv => by
    show v = g k
    rw [show v = f k from hv]
    exact h k (by simp [CTree.keysOf])
  | .node e l r, h, hv =>
    ⟨valuesFrom_congr (fun x hx => h x (List.mem_append_left _ hx)) hv.1,
     valuesFrom_congr (fun x hx => h x (List.mem_append_right _ hx)) hv.2⟩

/-- Two structurally well-formed trees with the same keys and the same value
assignment are equal: the canonical tree of a key set is unique. -/
theorem TWF_unique (f : KeyBits → Bytes) (t₁ : CTree) : ∀ (t₂ : CTree) {d₁ d₂ : Nat},
    TWF d₁ t₁ → TWF d₂ t₂ → t₁.keysOf = t₂.keysOf →
    t₁.valuesFrom f → t₂.valuesFrom f → t₁ = t₂ := by
  induction t₁ with
  | leaf k v =>
    intro t₂ d₁ d₂ h₁ h₂ hk hv₁ hv₂
    cases t₂ with
    | leaf k₂ v₂ =>
      have hkk : k = k₂ := by
        have : [k] = [k₂] := hk
        injection this
      subst hkk
      have hvv : v = v₂ := by
        rw [show v = f k from hv₁, show v₂ = f k from hv₂]
      rw [hvv]
    | node e₂ l₂ r₂ =>
      have hlen := congrArg List.length hk
      have h1 : 1 ≤ l₂.keysOf.length := List.length_pos.mpr (keysOf_ne_nil l₂)
      have h2 : 1 ≤ r₂.keysOf.length := List.length_pos.mpr (keysOf_ne_nil r₂)
      simp only [CTree.keysOf, List.length_append, List.length_singleton] at hlen
      omega
  | node e₁ l₁ r₁ ihl ihr =>
    intro t₂ d₁ d₂ h₁ h₂ hk hv₁ hv₂
    cases t₂ with
    | leaf k₂ v₂ =>
      have hlen := congrArg List.length hk
      have h1 : 1 ≤ l₁.keysOf.length := List.length_pos.mpr (keysOf_ne_nil l₁)
      have h2 : 1 ≤ r₁.keysOf.length := List.length_pos.mpr (keysOf_ne_nil r₁)
      simp only [CTree.keysOf, List.length_append, List.length_singleton] at hlen
      omega
    | node e₂ l₂ r₂ =>
      have he : e₁ = e₂ := by
        have s₁ := TWF_node_split h₁
        have s₂ := TWF_node_split h₂
        rw [hk] at s₁
        omega
      subst he
      obtain ⟨hf₁, ht₁⟩ := keysOf_filter_split h₁
      obtain ⟨hf₂, ht₂⟩ := keysOf_filter_split h₂
      rw [hk] at hf₁ ht₁
      have hkl : l₁.keysOf = l₂.keysOf := by rw [← hf₁, hf₂]
      have hkr : r₁.keysOf = r₂.keysOf := by rw [← ht₁, ht₂]
      cases h₁ with
      | node hde₁ he₁ hl₁ hr₁ hag₁ hbl₁ hbr₁ =>
        cases h₂ with
        | node hde₂ he₂ hl₂ hr₂ hag₂ hbl₂ hbr₂ =>
          rw [ihl l₂ hl₁ hl₂ hkl hv₁.1 hv₂.1, ihr r₂ hr₁ hr₂ hkr hv₁.2 hv₂.2]

/-! ## Canonical insertion -/

theorem insortKey_all_gt (k : KeyBits) (ks : List KeyBits)
    (h : ∀ y ∈ ks, keyLt k y = true) : insortKey k ks = k :: ks := by
  cases ks with
  | nil => rfl
  | cons y ys => rw [insortKey_cons, if_pos (h y (List.mem_cons_self _ _))]

theorem TWF_set {d d' : Nat} {t : CTree} (h : TWF d t) (hle : d' ≤ t.endOf) :
    TWF d' t := by
  cases h with
  | leaf hk hd => exact TWF.leaf hk hle
  | node hde he hl hr hag hbl hbr => exact TWF.node hle he hl hr hag hbl hbr

theorem keyDiverge_lt_of_ne (k k₀ : KeyBits) (h : keyDiverge k k₀ ≠ 256) :
    keyDiverge k k₀ < 256 := by
  have := divergeFrom_le k k₀ 0 (by omega)
  rw [← keyDiverge_eq] at this
  omega

theorem bit_eq_false_of_diff {a b : KeyBits} {j : Nat}
    (hdiff : a.getD j false ≠ b.getD j false) (ha : a.getD j false = true) :
    b.getD j false = false := by
  cases hb : b.getD j false
  · rfl
  · rw [ha, hb] at hdiff
    exact absurd rfl hdiff

theorem bit_eq_true_of_diff {a b : KeyBits} {j : Nat}
    (hdiff : a.getD j false ≠ b.getD j false) (ha : a.getD j false = false) :
    b.getD j false = true := by
  cases hb : b.getD j false
  · rw [ha, hb] at hdiff
    exact absurd rfl hdiff
  · rfl

theorem treeInsert_keysOf (k : KeyBits) (v : Bytes) (hk : k.length = 256) :
    ∀ {d : Nat} {c : CTree}, TWF d c →
    (treeInsert k v c).keysOf = insortKey k c.keysOf := by
  intro d c h
  induction h with
  | leaf hk₀ hd =>
    rename_i d' k₀ v₀
    simp only [treeInsert]
    by_cases h256 : keyDiverge k k₀ = 256
    · rw [if_pos h256]
      have hkk : k = k₀ := (keyDiverge_eq_256_iff k k₀ hk hk₀).mp h256
      show [k₀] = insortKey k [k₀]
      rw [insortKey_cons,
        if_neg (fun hc => by
          rw [hkk, keyLt_irrefl] at hc
          exact Bool.false_ne_true hc),
        if_pos hkk]
    · rw [if_neg h256]
      have hD : keyDiverge k k₀ < 256 := keyDiverge_lt_of_ne k k₀ h256
      have hspec := divergeFrom_spec k k₀ 0 (by omega)
      rw [← keyDiverge_eq] at hspec
      obtain ⟨hag, hdiff⟩ := hspec
      have hdiff' := hdiff hD
      cases hbit : k.getD (keyDiverge k k₀) false
      · rw [if_neg Bool.false_ne_true]
        show [k] ++ [k₀] = insortKey k [k₀]
        rw [insortKey_all_gt k [k₀] (fun y hy => by
          rw [List.mem_singleton] at hy
          subst hy
          exact keyLt_of_diverge k y _ hD (fun j h1 h2 => hag j h1 h2) hbit
            (bit_eq_true_of_diff hdiff' hbit))]
        rfl
      · rw [if_pos rfl]
        show [k₀] ++ [k] = insortKey k [k₀]
        rw [insortKey_all_lt k [k₀] (fun y hy => by
          rw [List.mem_singleton] at hy
          subst hy
          exact keyLt_of_diverge y k _ hD
            (fun j h1 h2 => (hag j h1 h2).symm)
            (bit_eq_false_of_diff hdiff' hbit) hbit)]
  | node hde he hl hr hag hbl hbr ihl ihr =>
    rename_i d' e l r
    simp only [treeInsert, CTree.firstKey]
    by_cases hDe : keyDiverge k l.firstKey < e
    · rw [if_pos hDe]
      have hD : keyDiverge k l.firstKey < 256 := by omega
      have hspec := divergeFrom_spec k l.firstKey 0 (by omega)
      rw [← keyDiverge_eq] at hspec
      obtain ⟨hag', hdiff⟩ := hspec
      have hdiff' := hdiff hD
      have hagkx : ∀ x ∈ l.keysOf ++ r.keysOf,
          agreeOn x k 0 (keyDiverge k l.firstKey) := by
        intro x hx j hj1 hj2
        have h1 := (agreeBelow_iff _ _ _).mp (hag x hx) j hj1 (by omega)
        have h2 := hag' j hj1 hj2
        exact h1.trans h2.symm
      have hbitx : ∀ x ∈ l.keysOf ++ r.keysOf,
          x.getD (keyDiverge k l.firstKey) false
            = l.firstKey.getD (keyDiverge k l.firstKey) false := by
        intro x hx
        exact (agreeBelow_iff _ _ _).mp (hag x hx) _ (by omega) hDe
      cases hbit : k.getD (keyDiverge k l.firstKey) false
      · rw [if_neg Bool.false_ne_true]
        show [k] ++ (l.keysOf ++ r.keysOf) = insortKey k (l.keysOf ++ r.keysOf)
        rw [insortKey_all_gt k _ (fun y hy =>
          keyLt_of_diverge k y _ hD
            (fun j h1 h2 => (hagkx y hy j h1 h2).symm) hbit
            (by rw [hbitx y hy]; exact bit_eq_true_of_diff hdiff' hbit))]
        rfl
      · rw [if_pos rfl]
        show (l.keysOf ++ r.keysOf) ++ [k] = insortKey k (l.keysOf ++ r.keysOf)
        rw [insortKey_all_lt k _ (fun y hy =>
          keyLt_of_diverge y k _ hD (fun j h1 h2 => hagkx y hy j h1 h2)
            (by rw [hbitx y hy]; exact bit_eq_false_of_diff hdiff' hbit) hbit)]
    · rw [if_neg hDe]
      have hDge : e ≤ keyDiverge k l.firstKey := by omega
      have hagke : agreeOn k l.firstKey 0 e := by
        have hspec := (divergeFrom_spec k l.firstKey 0 (by omega)).1
        rw [← keyDiverge_eq] at hspec
        exact fun j h1 h2 => hspec j h1 (by omega)
      cases hbit : k.getD e false
      · rw [if_neg Bool.false_ne_true]
        show (treeInsert k v l).keysOf ++ r.keysOf
          = insortKey k (l.keysOf ++ r.keysOf)
        rw [ihl, insortKey_append_left k l.keysOf r.keysOf (fun y hy =>
          keyLt_of_diverge k y e he
            (fun j h1 h2 => by
              have h3 := hagke j h1 h2
              have h4 := (agreeBelow_iff _ _ _).mp
                (hag y (List.mem_append_right _ hy)) j h1 h2
              exact h3.trans h4.symm)
            hbit (hbr y hy))]
      · rw [if_pos rfl]
        show l.keysOf ++ (treeInsert k v r).keysOf
          = insortKey k (l.keysOf ++ r.keysOf)
        rw [ihr, insortKey_append_right k l.keysOf r.keysOf (fun x hx =>
          keyLt_of_diverge x k e he
            (fun j h1 h2 => by
              have h3 := hagke j h1 h2
              have h4 := (agreeBelow_iff _ _ _).mp
                (hag x (List.mem_append_left _ hx)) j h1 h2
              exact h4.trans h3.symm)
            (hbl x hx) hbit)]

theorem treeInsert_TWF (k : KeyBits) (v : Bytes) (hk : k.length = 256) :
    ∀ {d : Nat} {c : CTree}, TWF d c → agreeBelow d k c.firstKey →
    TWF d (treeInsert k v c) := by
  intro d c h
  induction h with
  | leaf hk₀ hd =>
    rename_i d' k₀ v₀
    intro hagd
    simp only [treeInsert]
    by_cases h256 : keyDiverge k k₀ = 256
    · rw [if_pos h256]
      exact TWF.leaf hk₀ hd
    · rw [if_neg h256]
      have hD : keyDiverge k k₀ < 256 := keyDiverge_lt_of_ne k k₀ h256
      have hge : d' ≤ keyDiverge k k₀ :=
        le_keyDiverge_of_agree k k₀ d' hd ((agreeBelow_iff _ _ _).mp hagd)
      have hspec := divergeFrom_spec k k₀ 0 (by omega)
      rw [← keyDiverge_eq] at hspec
      obtain ⟨hag, hdiff⟩ := hspec
      have hdiff' := hdiff hD
      cases hbit : k.getD (keyDiverge k k₀) false
      · rw [if_neg Bool.false_ne_true]
        refine TWF.node hge hD (TWF.leaf hk (by omega)) (TWF.leaf hk₀ (by omega))
          ?_ ?_ ?_
        · intro x hx
          simp only [CTree.keysOf, List.singleton_append, CTree.firstKey] at hx ⊢
          rcases List.mem_cons.mp hx with rfl | hx'
          · exact fun j hj => rfl
          · rw [List.mem_singleton] at hx'
            subst hx'
            exact fun j hj => (hag j (by omega) hj).symm
        · intro x hx
          simp only [CTree.keysOf, List.mem_singleton] at hx
          subst hx
          exact hbit
        · intro x hx
          simp only [CTree.keysOf, List.mem_singleton] at hx
          subst hx
          exact bit_eq_true_of_diff hdiff' hbit
      · rw [if_pos rfl]
        refine TWF.node hge hD (TWF.leaf hk₀ (by omega)) (TWF.leaf hk (by omega))
          ?_ ?_ ?_
        · intro x hx
          simp only [CTree.keysOf, List.singleton_append, CTree.firstKey] at hx ⊢
          rcases List.mem_cons.mp hx with rfl | hx'
          · exact fun j hj => rfl
          · rw [List.mem_singleton] at hx'
            subst hx'
            exact fun j hj => hag j (by omega) hj
        · intro x hx
          simp only [CTree.keysOf, List.mem_singleton] at hx
          subst hx
          exact bit_eq_false_of_diff hdiff' hbit
        · intro x hx
          simp only [CTree.keysOf, List.mem_singleton] at hx
          subst hx
          exact hbit
  | node hde he hl hr hag hbl hbr ihl ihr =>
    rename_i d' e l r
    intro hagd
    have hagd' : agreeBelow d' k l.firstKey := hagd
    simp only [treeInsert, CTree.firstKey]
    by_cases hDe : keyDiverge k l.firstKey < e
    · rw [if_pos hDe]
      have hD : keyDiverge k l.firstKey < 256 := by omega
      have hge : d' ≤ keyDiverge k l.firstKey :=
        le_keyDiverge_of_agree k l.firstKey d' (by omega)
          ((agreeBelow_iff _ _ _).mp hagd')
      have hspec := divergeFrom_spec k l.firstKey 0 (by omega)
      rw [← keyDiverge_eq] at hspec
      obtain ⟨hag', hdiff⟩ := hspec
      have hdiff' := hdiff hD
      have hagx : ∀ x ∈ l.keysOf ++ r.keysOf,
          agreeBelow (keyDiverge k l.firstKey) x l.firstKey :=
        fun x hx j hj => hag x hx j (by omega)
      have hbitx : ∀ x ∈ l.keysOf ++ r.keysOf,
          x.getD (keyDiverge k l.firstKey) false
            = l.firstKey.getD (keyDiverge k l.firstKey) false :=
        fun x hx => hag x hx _ hDe
      have hTWFold : TWF (keyDiverge k l.firstKey + 1) (CTree.node e l r) :=
        TWF.node (by show _ ≤ e; omega) he hl hr hag hbl hbr
      cases hbit : k.getD (keyDiverge k l.firstKey) false
      · rw [if_neg Bool.false_ne_true]
        refine TWF.node hge hD (TWF.leaf hk (by omega)) hTWFold ?_ ?_ ?_
        · intro x hx
          simp only [CTree.keysOf, List.singleton_append, CTree.firstKey] at hx ⊢
          rcases List.mem_cons.mp hx with rfl | hx'
          · exact fun j hj => rfl
          · intro j hj
            have h1 := hagx x hx' j hj
            have h2 := hag' j (by omega) hj
            exact h1.trans h2.symm
        · intro x hx
          simp only [CTree.keysOf, List.mem_singleton] at hx
          subst hx
          exact hbit
        · intro x hx
          rw [hbitx x hx]
          exact bit_eq_true_of_diff hdiff' hbit
      · rw [if_pos rfl]
        refine TWF.node hge hD hTWFold (TWF.leaf hk (by omega)) ?_ ?_ ?_
        · intro x hx
          simp only [CTree.keysOf, CTree.firstKey] at hx ⊢
          rcases List.mem_append.mp hx with hx' | hx'
          · exact fun j hj => hagx x hx' j hj
          · rw [List.mem_singleton] at hx'
            subst hx'
            exact fun j hj => hag' j (by omega) hj
        · intro x hx
          rw [hbitx x hx]
          exact bit_eq_false_of_diff hdiff' hbit
        · intro x hx
          simp only [CTree.keysOf, List.mem_singleton] at hx
          subst hx
          exact hbit
    · rw [if_neg hDe]
      have hDge : e ≤ keyDiverge k l.firstKey := by omega
      have hagke : agreeOn k l.firstKey 0 e := by
        have hspec := (divergeFrom_spec k l.firstKey 0 (by omega)).1
        rw [← keyDiverge_eq] at hspec
        exact fun j h1 h2 => hspec j h1 (by omega)
      cases hbit : k.getD e false
      · rw [if_neg Bool.false_ne_true]
        have hagkl : agreeBelow (e + 1) k l.firstKey := by
          intro j hj
          rcases Nat.lt_or_ge j e with hje | hje
          · exact hagke j (by omega) hje
          · have hje' : j = e := by omega
            subst hje'
            rw [hbit, hbl l.firstKey (firstKey_mem l)]
        have hTl := ihl hagkl
        have hkeys := treeInsert_keysOf k v hk hl
        refine TWF.node hde he hTl hr ?_ ?_ ?_
        · intro x hx
          simp only [CTree.keysOf, CTree.firstKey] at hx ⊢
          have hfk' : (treeInsert k v l).firstKey ∈ insortKey k l.keysOf := by
            rw [← hkeys]
            exact firstKey_mem _
          have hfkagree : agreeBelow e (treeInsert k v l).firstKey l.firstKey := by
            rcases (insortKey_mem k _ _).mp hfk' with hfe | hfm
            · rw [hfe]
              exact fun j hj => hagke j (by omega) hj
            · exact fun j hj => hag _ (List.mem_append_left _ hfm) j hj
          intro j hj
          rcases List.mem_append.mp hx with hx' | hx'
          · rw [hkeys] at hx'
            rcases (insortKey_mem k _ _).mp hx' with hfe | hfm
            · subst hfe
              exact (hagke j (by omega) hj).trans (hfkagree j hj).symm
            · exact (hag _ (List.mem_append_left _ hfm) j hj).trans
                (hfkagree j hj).symm
          · exact (hag _ (List.mem_append_right _ hx') j hj).trans
              (hfkagree j hj).symm
        · intro x hx
          rw [hkeys] at hx
          rcases (insortKey_mem k _ _).mp hx with hfe | hfm
          · subst hfe
            exact hbit
          · exact hbl x hfm
        · exact hbr
      · rw [if_pos rfl]
        have hagkr : agreeBelow (e + 1) k r.firstKey := by
          intro j hj
          rcases Nat.lt_or_ge j e with hje | hje
          · have h1 := hagke j (by omega) hje
            have h2 := hag r.firstKey
              (List.mem_append_right _ (firstKey_mem r)) j hje
            exact h1.trans h2.symm
          · have hje' : j = e := by omega
            subst hje'
            rw [hbit, hbr r.firstKey (firstKey_mem r)]
        have hTr := ihr hagkr
        have hkeys := treeInsert_keysOf k v hk hr
        refine TWF.node hde he hl hTr ?_ ?_ ?_
        · intro x hx
          simp only [CTree.keysOf, CTree.firstKey] at hx ⊢
          intro j hj
          rcases List.mem_append.mp hx with hx' | hx'
          · exact hag _ (List.mem_append_left _ hx') j hj
          · rw [hkeys] at hx'
            rcases (insortKey_mem k _ _).mp hx' with hfe | hfm
            · subst hfe
              exact hagke j (by omega) hj
            · exact hag _ (List.mem_append_right _ hfm) j hj
        · exact hbl
        · intro x hx
          rw [hkeys] at hx
          rcases (insortKey_mem k _ _).mp hx with hfe | hfm
          · subst hfe
            exact hbit
          · exact hbr x hfm

theorem treeInsert_endOf (k : KeyBits) (v : Bytes) :
    ∀ (c : CTree), (treeInsert k v c).endOf = min c.endOf (keyDiverge k c.firstKey)
  | .leaf k₀ v₀ => by
    simp only [treeInsert, CTree.firstKey, CTree.endOf]
    by_cases h256 : keyDiverge k k₀ = 256
    · rw [if_pos h256]
      show (256 : Nat) = min 256 (keyDiverge k k₀)
      omega
    · rw [if_neg h256]
      have hD : keyDiverge k k₀ < 256 := keyDiverge_lt_of_ne k k₀ h256
      cases hbit : k.getD (keyDiverge k k₀) false
      · rw [if_neg Bool.false_ne_true]
        show keyDiverge k k₀ = min 256 (keyDiverge k k₀)
        omega
      · rw [if_pos rfl]
        show keyDiverge k k₀ = min 256 (keyDiverge k k₀)
        omega
  | .node e l r => by
    simp only [treeInsert, CTree.firstKey, CTree.endOf]
    by_cases hDe : keyDiverge k l.firstKey < e
    · rw [if_pos hDe]
      cases hbit : k.getD (keyDiverge k l.firstKey) false
      · rw [if_neg Bool.false_ne_true]
        show keyDiverge k l.firstKey = min e (keyDiverge k l.firstKey)
        omega
      · rw [if_pos rfl]
        show keyDiverge k l.firstKey = min e (keyDiverge k l.firstKey)
        omega
    · rw [if_neg hDe]
      cases hbit : k.getD e false
      · rw [if_neg Bool.false_ne_true]
        show e = min e (keyDiverge k l.firstKey)
        omega
      · rw [if_pos rfl]
        show e = min e (keyDiverge k l.firstKey)
        omega

theorem treeInsert_valuesFrom (k : KeyBits) (v : Bytes) (hk : k.length = 256)
    (f : KeyBits → Bytes) :
    ∀ {d : Nat} {c : CTree}, TWF d c → c.valuesFrom f →
    (treeInsert k v c).valuesFrom (updateF f k v) := by
  have hkeep : ∀ (t₀ : CTree), k ∉ t₀.keysOf → t₀.valuesFrom f →
      t₀.valuesFrom (updateF f k v) := by
    intro t₀ hnm hv₀
    refine valuesFrom_congr ?_ hv₀
    intro x hx
    show f x = if x = k then v else f x
    rw [if_neg (fun hc => hnm (by
      rw [← hc]
      exact hx))]
  intro d c h
  induction h with
  | leaf hk₀ hd =>
    rename_i d' k₀ v₀
    intro hv
    simp only [treeInsert]
    by_cases h256 : keyDiverge k k₀ = 256
    · rw [if_pos h256]
      have hkk : k = k₀ := (keyDiverge_eq_256_iff k k₀ hk hk₀).mp h256
      show v = if k₀ = k then v else f k₀
      rw [if_pos hkk.symm]
    · rw [if_neg h256]
      have hne : k ≠ k₀ := fun hc => h256 ((keyDiverge_eq_256_iff k k₀ hk hk₀).mpr hc)
      have hold : v₀ = updateF f k v k₀ := by
        show v₀ = if k₀ = k then v else f k₀
        rw [if_neg (fun hc => hne hc.symm)]
        exact hv
      have hnew : v = updateF f k v k := by
        show v = if k = k then v else f k
        rw [if_pos rfl]
      cases hbit : k.getD (keyDiverge k k₀) false
      · rw [if_neg Bool.false_ne_true]
        exact ⟨hnew, hold⟩
      · rw [if_pos rfl]
        exact ⟨hold, hnew⟩
  | node hde he hl hr hag hbl hbr ihl ihr =>
    rename_i d' e l r
    intro hv
    simp only [treeInsert, CTree.firstKey]
    have hnew : v = updateF f k v k := by
      show v = if k = k then v else f k
      rw [if_pos rfl]
    by_cases hDe : keyDiverge k l.firstKey < e
    · rw [if_pos hDe]
      have hD : keyDiverge k l.firstKey < 256 := by omega
      have hspec := divergeFrom_spec k l.firstKey 0 (by omega)
      rw [← keyDiverge_eq] at hspec
      have hdiff' := hspec.2 hD
      have hknot : k ∉ (CTree.node e l r).keysOf := by
        intro hmem
        exact hdiff' (hag k hmem _ hDe)
      cases hbit : k.getD (keyDiverge k l.firstKey) false
      · rw [if_neg Bool.false_ne_true]
        exact ⟨hnew, hkeep _ hknot hv⟩
      · rw [if_pos rfl]
        exact ⟨hkeep _ hknot hv, hnew⟩
    · rw [if_neg hDe]
      cases hbit : k.getD e false
      · rw [if_neg Bool.false_ne_true]
        refine ⟨ihl hv.1, hkeep r ?_ hv.2⟩
        intro hmem
        have hb := hbr k hmem
        rw [hbit] at hb
        exact Bool.false_ne_true hb
      · rw [if_pos rfl]
        refine ⟨hkeep l ?_ hv.1, ihr hv.2⟩
        intro hmem
        have hb := hbl k hmem
        rw [hbit] at hb
        exact Bool.false_ne_true hb.symm

theorem treeInsert_firstKey_agree (k : KeyBits) (v : Bytes) (hk : k.length = 256)
    {d : Nat} {c : CTree} (h : TWF d c) (hagd : agreeBelow d k c.firstKey) :
    agreeOn (treeInsert k v c).firstKey c.firstKey 0 (treeInsert k v c).endOf := by
  have h' := treeInsert_TWF k v hk h hagd
  have hmem : c.firstKey ∈ (treeInsert k v c).keysOf := by
    rw [treeInsert_keysOf k v hk h]
    exact (insortKey_mem k _ _).mpr (Or.inr (firstKey_mem c))
  have hh := TWF_agree h' c.firstKey hmem
  exact fun j hj1 hj2 => (hh j hj1 hj2).symm

theorem treeInsert_mem_self (k : KeyBits) (v : Bytes) (hk : k.length = 256)
    {d : Nat} {c : CTree} (h : TWF d c) :
    k ∈ (treeInsert k v c).keysOf := by
  rw [treeInsert_keysOf k v hk h]
  exact (insortKey_mem k _ _).mpr (Or.inl rfl)

/-! ## Canonical removal -/

theorem treeRemove_not_mem (k : KeyBits) : ∀ (c : CTree), k ∉ c.keysOf →
    treeRemove k c = some c
  | .leaf k₀ v₀, h => by
    simp only [CTree.keysOf, List.mem_singleton] at h
    simp only [treeRemove]
    rw [if_neg h]
  | .node e l r, h => by
    simp only [CTree.keysOf, List.mem_append] at h
    push_neg at h
    simp only [treeRemove]
    cases hbit : k.getD e false
    · rw [if_neg Bool.false_ne_true, treeRemove_not_mem k l h.1]
    · rw [if_pos rfl, treeRemove_not_mem k r h.2]

theorem treeRemove_keysOf (k : KeyBits) :
    ∀ {d : Nat} {c : CTree}, TWF d c →
      (∀ c', treeRemove k c = some c' → c'.keysOf = c.keysOf.erase k) ∧
      (treeRemove k c = none → c.keysOf = [k]) := by
  intro d c h
  induction h with
  | leaf hk₀ hd =>
    rename_i d' k₀ v₀
    constructor
    · intro c' hc'
      simp only [treeRemove] at hc'
      by_cases hkk : k = k₀
      · rw [if_pos hkk] at hc'
        exact absurd hc' (by simp)
      · rw [if_neg hkk] at hc'
        injection hc' with hc'
        rw [← hc']
        show [k₀] = [k₀].erase k
        rw [List.erase_of_not_mem (by
          rw [List.mem_singleton]
          exact hkk)]
    · intro hc
      simp only [treeRemove] at hc
      by_cases hkk : k = k₀
      · rw [hkk]
        rfl
      · rw [if_neg hkk] at hc
        exact absurd hc (by simp)
  | node hde he hl hr hag hbl hbr ihl ihr =>
    rename_i d' e l r
    constructor
    · intro c' hc'
      simp only [treeRemove] at hc'
      show c'.keysOf = (l.keysOf ++ r.keysOf).erase k
      cases hbit : k.getD e false
      · rw [hbit, if_neg Bool.false_ne_true] at hc'
        have hknr : k ∉ r.keysOf := by
          intro hmem
          have hb := hbr k hmem
          rw [hbit] at hb
          exact Bool.false_ne_true hb
        rcases hrm : treeRemove k l with _ | l'
        · rw [hrm] at hc'
          injection hc' with hc'
          have hkey : l.keysOf = [k] := ihl.2 hrm
          rw [← hc', hkey, List.singleton_append, List.erase_cons_head]
        · rw [hrm] at hc'
          injection hc' with hc'
          rw [← hc']
          show l'.keysOf ++ r.keysOf = (l.keysOf ++ r.keysOf).erase k
          by_cases hmem : k ∈ l.keysOf
          · rw [List.erase_append_left _ hmem, ihl.1 l' hrm]
          · rw [List.erase_append_right _ hmem, List.erase_of_not_mem hknr,
              ihl.1 l' hrm, List.erase_of_not_mem hmem]
      · rw [hbit, if_pos rfl] at hc'
        have hknl : k ∉ l.keysOf := by
          intro hmem
          have hb := hbl k hmem
          rw [hbit] at hb
          exact Bool.false_ne_true hb.symm
        rcases hrm : treeRemove k r with _ | r'
        · rw [hrm] at hc'
          injection hc' with hc'
          have hkey : r.keysOf = [k] := ihr.2 hrm
          rw [← hc', hkey, List.erase_append_right _ hknl, List.erase_cons_head,
            List.append_nil]
        · rw [hrm] at hc'
          injection hc' with hc'
          rw [← hc']
          show l.keysOf ++ r'.keysOf = (l.keysOf ++ r.keysOf).erase k
          rw [List.erase_append_right _ hknl, ihr.1 r' hrm]
    · intro hc
      simp only [treeRemove] at hc
      cases hbit : k.getD e false
      · rw [hbit, if_neg Bool.false_ne_true] at hc
        rcases hrm : treeRemove k l with _ | l' <;> rw [hrm] at hc <;>
          exact absurd hc (by simp)
      · rw [hbit, if_pos rfl] at hc
        rcases hrm : treeRemove k r with _ | r' <;> rw [hrm] at hc <;>
          exact absurd hc (by simp)

theorem treeRemove_TWF (k : KeyBits) :
    ∀ {d : Nat} {c : CTree}, TWF d c → ∀ {c' : CTree},
      treeRemove k c = some c' → TWF d c' := by
  intro d c h
  induction h with
  | leaf hk₀ hd =>
    rename_i d' k₀ v₀
    intro c' hc'
    simp only [treeRemove] at hc'
    by_cases hkk : k = k₀
    · rw [if_pos hkk] at hc'
      exact absurd hc' (by simp)
    · rw [if_neg hkk] at hc'
      injection hc' with hc'
      rw [← hc']
      exact TWF.leaf hk₀ hd
  | node hde he hl hr hag hbl hbr ihl ihr =>
    rename_i d' e l r
    intro c' hc'
    simp only [treeRemove] at hc'
    cases hbit : k.getD e false
    · rw [hbit, if_neg Bool.false_ne_true] at hc'
      rcases hrm : treeRemove k l with _ | l'
      · rw [hrm] at hc'
        injection hc' with hc'
        rw [← hc']
        exact TWF_le hr (by omega)
      · rw [hrm] at hc'
        injection hc' with hc'
        rw [← hc']
        have hkeys := (treeRemove_keysOf k hl).1 l' hrm
        have hsub : ∀ x ∈ l'.keysOf, x ∈ l.keysOf := by
          intro x hx
          rw [hkeys] at hx
          exact (List.erase_sublist k l.keysOf).subset hx
        have hfk : l'.firstKey ∈ l.keysOf := hsub _ (firstKey_mem l')
        have hfkag : agreeBelow e l'.firstKey l.firstKey :=
          hag _ (List.mem_append_left _ hfk)
        refine TWF.node hde he (ihl hrm) hr ?_ ?_ hbr
        · intro x hx
          intro j hj
          have hx' : x ∈ l.keysOf ++ r.keysOf := by
            rcases List.mem_append.mp hx with hm | hm
            · exact List.mem_append_left _ (hsub x hm)
            · exact List.mem_append_right _ hm
          exact (hag x hx' j hj).trans (hfkag j hj).symm
        · intro x hx
          exact hbl x (hsub x hx)
    · rw [hbit, if_pos rfl] at hc'
      rcases hrm : treeRemove k r with _ | r'
      · rw [hrm] at hc'
        injection hc' with hc'
        rw [← hc']
        exact TWF_le hl (by omega)
      · rw [hrm] at hc'
        injection hc' with hc'
        rw [← hc']
        have hkeys := (treeRemove_keysOf k hr).1 r' hrm
        have hsub : ∀ x ∈ r'.keysOf, x ∈ r.keysOf := by
          intro x hx
          rw [hkeys] at hx
          exact (List.erase_sublist k r.keysOf).subset hx
        refine TWF.node hde he hl (ihr hrm) ?_ hbl ?_
        · intro x hx
          rcases List.mem_append.mp hx with hm | hm
          · exact hag x (List.mem_append_left _ hm)
          · exact hag x (List.mem_append_right _ (hsub x hm))
        · intro x hx
          exact hbr x (hsub x hx)

theorem treeRemove_valuesFrom (k : KeyBits) (f : KeyBits → Bytes) :
    ∀ (c : CTree), c.valuesFrom f → ∀ {c' : CTree},
      treeRemove k c = some c' → c'.valuesFrom f
  | .leaf k₀ v₀, hv, c', hc' => by
    simp only [treeRemove] at hc'
    by_cases hkk : k = k₀
    · rw [if_pos hkk] at hc'
      exact absurd hc' (by simp)
    · rw [if_neg hkk] at hc'
      injection hc' with hc'
      rw [← hc']
      exact hv
  | .node e l r, hv, c', hc' => by
    simp only [treeRemove] at hc'
    cases hbit : k.getD e false
    · rw [hbit, if_neg Bool.false_ne_true] at hc'
      rcases hrm : treeRemove k l with _ | l'
      · rw [hrm] at hc'
        injection hc' with hc'
        rw [← hc']
        exact hv.2
      · rw [hrm] at hc'
        injection hc' with hc'
        rw [← hc']
        exact ⟨treeRemove_valuesFrom k f l hv.1 hrm, hv.2⟩
    · rw [hbit, if_pos rfl] at hc'
      rcases hrm : treeRemove k r with _ | r'
      · rw [hrm] at hc'
        injection hc' with hc'
        rw [← hc']
        exact hv.1
      · rw [hrm] at hc'
        injection hc' with hc'
        rw [← hc']
        exact ⟨hv.1, treeRemove_valuesFrom k f r hv.2 hrm⟩

/-! ## Canonical operations against `buildTree` -/

theorem buildTree_insort (f : KeyBits → Bytes) (k : KeyBits) (v : Bytes)
    (hk : k.length = 256) {ks : List KeyBits} (hsort : SortedKeys ks)
    (hne : ks ≠ []) :
    buildTree (updateF f k v) (insortKey k ks) = treeInsert k v (buildTree f ks) := by
  obtain ⟨hkeys, htwf, hvals⟩ := buildTree_spec f ks hne hsort
  have hsort' : SortedKeys (insortKey k ks) := insortKey_sorted k hk ks hsort
  have hne' : insortKey k ks ≠ [] := by
    intro hc
    have hmm := (insortKey_mem k ks k).mpr (Or.inl rfl)
    rw [hc] at hmm
    simp at hmm
  obtain ⟨hkeys', htwf', hvals'⟩ := buildTree_spec (updateF f k v) _ hne' hsort'
  have hT := treeInsert_TWF k v hk htwf (fun j hj => absurd hj (by omega))
  have hTK := treeInsert_keysOf k v hk htwf
  have hTV := treeInsert_valuesFrom k v hk f htwf hvals
  exact TWF_unique (updateF f k v) _ _ htwf' hT (by rw [hkeys', hTK, hkeys])
    hvals' hTV

theorem buildTree_erase (f : KeyBits → Bytes) (k : KeyBits)
    {ks : List KeyBits} (hsort : SortedKeys ks) (hne : ks ≠ [])
    {c' : CTree} (hrm : treeRemove k (buildTree f ks) = some c') :
    c' = buildTree f (ks.erase k) := by
  obtain ⟨hkeys, htwf, hvals⟩ := buildTree_spec f ks hne hsort
  have hkeysc : c'.keysOf = ks.erase k := by
    rw [(treeRemove_keysOf k htwf).1 c' hrm, hkeys]
  have hTc : TWF 0 c' := treeRemove_TWF k htwf hrm
  have hvc : c'.valuesFrom f := treeRemove_valuesFrom k f _ hvals hrm
  have hne'' : ks.erase k ≠ [] := by
    intro hc
    rw [hc] at hkeysc
    exact keysOf_ne_nil c' hkeysc
  have hsort'' := erase_sorted k hsort
  obtain ⟨hkeys', htwf', hvals'⟩ := buildTree_spec f _ hne'' hsort''
  exact TWF_unique f c' _ hTc htwf' (by rw [hkeysc, hkeys']) hvc hvals'

theorem buildTree_remove_none (f : KeyBits → Bytes) (k : KeyBits)
    {ks : List KeyBits} (hsort : SortedKeys ks) (hne : ks ≠ [])
    (hrm : treeRemove k (buildTree f ks) = none) : ks = [k] := by
  obtain ⟨hkeys, htwf, hvals⟩ := buildTree_spec f ks hne hsort
  have := (treeRemove_keysOf k htwf).2 hrm
  rw [hkeys] at this
  exact this

/-! ## Plumbing for the walk over stored nodes -/

theorem serialize_start (k : KeyBits) (e s₁ s₂ : Nat) :
    ProofPath.serialize ⟨k, e, s₁⟩ = ProofPath.serialize ⟨k, e, s₂⟩ := rfl

theorem len_mk (k : KeyBits) (e s : Nat) : (⟨k, e, s⟩ : ProofPath).len = e - s := rfl

theorem suffix_mk (k : KeyBits) (e s i : Nat) :
    (⟨k, e, s⟩ : ProofPath).suffix i = ⟨k, e, s + i⟩ := rfl

theorem prefixAt_mk (k : KeyBits) (e s i : Nat) :
    (⟨k, e, s⟩ : ProofPath).prefixAt i = ⟨k, s + i, s⟩ := rfl

theorem bit_mk (k : KeyBits) (e s i : Nat) :
    (⟨k, e, s⟩ : ProofPath).bit i
      = if k.getD (s + i) false then ChildKind.right else ChildKind.left := rfl

theorem startFrom_mk (k : KeyBits) (e s s' : Nat) :
    (⟨k, e, s⟩ : ProofPath).startFrom s' = ⟨k, e, s'⟩ := rfl

theorem isLeaf_mk (k : KeyBits) (e s : Nat) :
    (⟨k, e, s⟩ : ProofPath).isLeaf = (e == 256) := rfl

theorem serialize_member {d : Nat} {t : CTree} (h : TWF d t) {k : KeyBits}
    (hk : k ∈ t.keysOf) (s : Nat) :
    ProofPath.serialize ⟨k, t.endOf, s⟩ = t.nodePath.serialize := by
  rw [nodePath_eq]
  exact serialize_congr ⟨k, t.endOf, s⟩ ⟨t.firstKey, t.endOf, 0⟩ rfl
    (fun j hj1 hj2 => TWF_agree h k hk j hj1 hj2)

theorem serialize_mask_self (fk : KeyBits) (e s s' : Nat) (he : e ≤ 256) :
    ProofPath.serialize ⟨ProofPath.maskBits e fk, e, s⟩
      = ProofPath.serialize ⟨fk, e, s'⟩ :=
  serialize_congr _ _ rfl
    (fun j _ hj2 => maskBits_getD_lt e fk j hj2 (lt_of_lt_of_le hj2 he))

theorem branchOf_childPath_left (hashFn : Bytes → Bytes) (l r : CTree) :
    (CTree.branchOf hashFn l r).childPath .left = readPath (l.nodePath.serialize) := rfl

theorem branchOf_childPath_right (hashFn : Bytes → Bytes) (l r : CTree) :
    (CTree.branchOf hashFn l r).childPath .right = readPath (r.nodePath.serialize) := rfl

theorem branchOf_childHash_left (hashFn : Bytes → Bytes) (l r : CTree) :
    (CTree.branchOf hashFn l r).childHash .left = l.hashOf hashFn := rfl

theorem branchOf_childHash_right (hashFn : Bytes → Bytes) (l r : CTree) :
    (CTree.branchOf hashFn l r).childHash .right = r.hashOf hashFn := rfl

theorem hashOf_node (hashFn : Bytes → Bytes) (e : Nat) (l r : CTree) :
    (CTree.node e l r).hashOf hashFn
      = BranchNode.nodeHash hashFn (CTree.branchOf hashFn l r) := rfl

theorem nodeEntries_node (hashFn : Bytes → Bytes) (e : Nat) (l r : CTree) :
    (CTree.node e l r).nodeEntries hashFn
      = (ProofPath.serialize ⟨l.firstKey, e, 0⟩,
          .branchVal (CTree.branchOf hashFn l r))
        :: (l.nodeEntries hashFn ++ r.nodeEntries hashFn) := rfl

theorem readPath_nodePath {d : Nat} {t : CTree} (h : TWF d t) :
    readPath (t.nodePath.serialize)
      = ⟨ProofPath.maskBits t.endOf t.firstKey, t.endOf, 0⟩ := by
  rw [nodePath_eq, readPath_serialize]

theorem getNode_child (hashFn : Bytes → Bytes) (s : Store) {d : Nat} {ch : CTree}
    (hTW : TWF d ch)
    (hs : storeLookup s (ch.nodePath.serialize) = some (ch.rootValue hashFn))
    (e : Nat) :
    getNodeUnchecked s ⟨ProofPath.maskBits ch.endOf ch.firstKey, ch.endOf, e⟩
      = some (ch.nodeOf hashFn) := by
  have hser : ProofPath.serialize
      ⟨ProofPath.maskBits ch.endOf ch.firstKey, ch.endOf, e⟩
      = ch.nodePath.serialize := by
    rw [nodePath_eq]
    exact serialize_mask_self ch.firstKey ch.endOf e 0 (TWF_endOf_le hTW)
  unfold getNodeUnchecked
  cases hc : ch with
  | leaf k₀ v₀ =>
    rw [hc] at hser hs
    have hleaf : (⟨ProofPath.maskBits (CTree.leaf k₀ v₀).endOf
        (CTree.leaf k₀ v₀).firstKey, (CTree.leaf k₀ v₀).endOf, e⟩
          : ProofPath).isLeaf = true := rfl
    rw [if_pos hleaf, hser, hs]
    rfl
  | node e₀ l r =>
    rw [hc] at hser hs hTW
    have he₀ : e₀ < 256 := by
      cases hTW with
      | node hde he2 hl hr hag hbl hbr => exact he2
    have hleaf : (⟨ProofPath.maskBits (CTree.node e₀ l r).endOf
        (CTree.node e₀ l r).firstKey, (CTree.node e₀ l r).endOf, e⟩
          : ProofPath).isLeaf = false := by
      show ((e₀ : Nat) == 256) = false
      exact beq_eq_false_iff_ne.mpr (by omega)
    rw [if_neg (by rw [hleaf]; exact Bool.false_ne_true), hser, hs]
    rfl

theorem le_divergeFrom_of_agree (a b : KeyBits) (s d : Nat) (hd : d ≤ 256)
    (hs : s ≤ d) (hag : agreeOn a b s d) : d ≤ divergeFrom a b s := by
  by_contra hc
  push_neg at hc
  have hge := divergeFrom_ge a b s (by omega)
  have hdiff := (divergeFrom_spec a b s (by omega)).2 (by omega)
  exact hdiff (hag _ (by omega) hc)

theorem divergeFrom_mask_lt (fk k : KeyBits) (e chEnd : Nat) (he : e ≤ 256)
    (hch : chEnd ≤ 256) (hlt : divergeFrom k fk e < chEnd) :
    divergeFrom (ProofPath.maskBits chEnd fk) k e = divergeFrom k fk e := by
  have hge := divergeFrom_ge k fk e he
  have hle := divergeFrom_le k fk e he
  obtain ⟨hag, hdiff⟩ := divergeFrom_spec k fk e he
  rw [divergeFrom_eq_iff _ _ e _ hge hle]
  constructor
  · intro j hj1 hj2
    rw [maskBits_getD_lt chEnd fk j (by omega) (by omega)]
    exact (hag j hj1 hj2).symm
  · intro h256
    rw [maskBits_getD_lt chEnd fk _ (by omega) (by omega)]
    exact fun hc => (hdiff h256) hc.symm

theorem divergeFrom_mask_ge (fk k : KeyBits) (e chEnd : Nat) (he : e ≤ chEnd)
    (hch : chEnd ≤ 256) (hge : chEnd ≤ divergeFrom k fk e) :
    chEnd ≤ divergeFrom (ProofPath.maskBits chEnd fk) k e := by
  apply le_divergeFrom_of_agree _ _ e chEnd hch he
  intro j hj1 hj2
  rw [maskBits_getD_lt chEnd fk j hj2 (by omega)]
  exact ((divergeFrom_spec k fk e (by omega)).1 j hj1 (by omega)).symm

theorem keyDiverge_eq_from (k fk : KeyBits) (e : Nat) (he : e ≤ 256)
    (hag : agreeOn k fk 0 e) : keyDiverge k fk = divergeFrom k fk e := by
  rw [keyDiverge_eq]
  exact divergeFrom_shift k fk 0 e (by omega) he hag

/-- `common_prefix` of a stored child path (masked key, start moved to the
parent's split) against the remaining proof path. -/
theorem child_cpl (k : KeyBits) (ch : CTree) (e : Nat) (hTW : TWF (e + 1) ch)
    (hk : k.length = 256) (hag : agreeBelow (e + 1) k ch.firstKey) :
    (⟨ProofPath.maskBits ch.endOf ch.firstKey, ch.endOf, e⟩
        : ProofPath).commonPrefixLen ⟨k, 256, e⟩
      = min (ch.endOf - e) (divergeFrom k ch.firstKey e - e) := by
  have hech : e + 1 ≤ ch.endOf := TWF_endOf_ge hTW
  have hch : ch.endOf ≤ 256 := TWF_endOf_le hTW
  have hbelow : agreeOn (ProofPath.maskBits ch.endOf ch.firstKey) k
      (8 * (e / 8)) e := by
    intro j hj1 hj2
    rw [maskBits_getD_lt ch.endOf ch.firstKey j (by omega) (by omega)]
    exact (hag j (by omega)).symm
  have hcpl := commonPrefixLen_spec
    ⟨ProofPath.maskBits ch.endOf ch.firstKey, ch.endOf, e⟩ ⟨k, 256, e⟩ rfl hbelow
    (by show e ≤ ch.endOf; omega) (by show e ≤ 256; omega)
    (by show ch.endOf ≤ 256; omega) le_rfl
  have hcpl' : (⟨ProofPath.maskBits ch.endOf ch.firstKey, ch.endOf, e⟩
      : ProofPath).commonPrefixLen ⟨k, 256, e⟩
      = min (min (ch.endOf - e) (256 - e))
        (divergeFrom (ProofPath.maskBits ch.endOf ch.firstKey) k e - e) := hcpl
  rw [hcpl']
  rcases Nat.lt_or_ge (divergeFrom k ch.firstKey e) ch.endOf with hdv | hdv
  · rw [divergeFrom_mask_lt ch.firstKey k e ch.endOf (by omega) hch hdv]
    omega
  · have hmge := divergeFrom_mask_ge ch.firstKey k e ch.endOf (by omega) hch hdv
    have hmle := divergeFrom_le (ProofPath.maskBits ch.endOf ch.firstKey) k e
      (by omega)
    omega

theorem mem_keys_side {d e : Nat} {l r : CTree} (h : TWF d (CTree.node e l r))
    {k : KeyBits} (hm : k ∈ (CTree.node e l r).keysOf) :
    (k.getD e false = true → k ∈ r.keysOf) ∧
    (k.getD e false = false → k ∈ l.keysOf) := by
  cases h with
  | node hde he hl hr hag hbl hbr =>
    rcases List.mem_append.mp hm with hm' | hm'
    · constructor
      · intro hbit
        rw [hbl k hm'] at hbit
        exact absurd hbit (by simp)
      · intro _
        exact hm'
    · constructor
      · intro _
        exact hm'
      · intro hbit
        rw [hbr k hm'] at hbit
        exact absurd hbit (by simp)

theorem not_mem_of_diverge {d : Nat} {t : CTree} (h : TWF d t) {k : KeyBits}
    (hdv : divergeFrom k t.firstKey 0 < t.endOf) : k ∉ t.keysOf := by
  intro hmem
  have hag := TWF_agree h k hmem
  have hdiff := (divergeFrom_spec k t.firstKey 0 (by omega)).2
    (lt_of_lt_of_le hdv (TWF_endOf_le h))
  exact hdiff (hag _ (by omega) hdv)

theorem setChild_comp_rl (p p' : ProofPath) (h h' : Bytes) :
    (BranchNode.empty.setChild .right p h).setChild .left p' h'
      = ⟨h', h, p'.serialize, p.serialize⟩ := rfl

theorem setChild_comp_lr (p p' : ProofPath) (h h' : Bytes) :
    (BranchNode.empty.setChild .left p h).setChild .right p' h'
      = ⟨h, h', p.serialize, p'.serialize⟩ := rfl

theorem branchOf_setChild_left (hashFn : Bytes → Bytes) (l r l₂ : CTree)
    (p : ProofPath) (h : Bytes) (hp : p.serialize = l₂.nodePath.serialize)
    (hh : h = l₂.hashOf hashFn) :
    (CTree.branchOf hashFn l r).setChild .left p h = CTree.branchOf hashFn l₂ r := by
  show (⟨h, r.hashOf hashFn, p.serialize, r.nodePath.serialize⟩ : BranchNode) = _
  rw [hp, hh]
  rfl

theorem branchOf_setChild_right (hashFn : Bytes → Bytes) (l r r₂ : CTree)
    (p : ProofPath) (h : Bytes) (hp : p.serialize = r₂.nodePath.serialize)
    (hh : h = r₂.hashOf hashFn) :
    (CTree.branchOf hashFn l r).setChild .right p h = CTree.branchOf hashFn l r₂ := by
  show (⟨l.hashOf hashFn, h, l.nodePath.serialize, p.serialize⟩ : BranchNode) = _
  rw [hp, hh]
  rfl

theorem branchOf_setChildHash_left (hashFn : Bytes → Bytes) (l r l₂ : CTree)
    (h : Bytes) (hh : h = l₂.hashOf hashFn)
    (hp : l.nodePath.serialize = l₂.nodePath.serialize) :
    (CTree.branchOf hashFn l r).setChildHash .left h = CTree.branchOf hashFn l₂ r := by
  show (⟨h, r.hashOf hashFn, l.nodePath.serialize, r.nodePath.serialize⟩ : BranchNode) = _
  rw [hp, hh]
  rfl

theorem branchOf_setChildHash_right (hashFn : Bytes → Bytes) (l r r₂ : CTree)
    (h : Bytes) (hh : h = r₂.hashOf hashFn)
    (hp : r.nodePath.serialize = r₂.nodePath.serialize) :
    (CTree.branchOf hashFn l r).setChildHash .right h = CTree.branchOf hashFn l r₂ := by
  show (⟨l.hashOf hashFn, h, l.nodePath.serialize, r.nodePath.serialize⟩ : BranchNode) = _
  rw [hp, hh]
  rfl

theorem entries_key_ne_diverged (hashFn : Bytes → Bytes) {d : Nat} {ch : CTree}
    (h : TWF d ch) {k : KeyBits} {D : Nat} (hD : D < ch.endOf) (hD' : D < 256)
    (hdiff : k.getD D false ≠ ch.firstKey.getD D false) (ep' : Nat) (hep' : D < ep') :
    ∀ p ∈ ch.nodeEntries hashFn, p.1 ≠ ProofPath.serialize ⟨k, ep', 0⟩ := by
  intro p hp hc
  obtain ⟨ep, β, h1, h2, h3, h4, h5⟩ := nodeEntries_shape hashFn h p hp
  rw [h1] at hc
  obtain ⟨hend, hmask⟩ := serialize_inj hc
  have hend' : ep = ep' := hend
  have hmD := congrArg (fun m => m.getD D false) hmask
  simp only at hmD
  rw [maskBits_getD_lt ep β D (by omega) hD',
    maskBits_getD_lt ep' k D hep' hD'] at hmD
  rw [h5 D (by omega) hD] at hmD
  exact hdiff hmD.symm

theorem lookup_entries_node (hashFn : Bytes → Bytes) (e' : Nat) (a b' : CTree)
    (bb : Bytes) :
    storeLookup ((CTree.node e' a b').nodeEntries hashFn) bb
      = if ProofPath.serialize ⟨a.firstKey, e', 0⟩ = bb
        then some (.branchVal (CTree.branchOf hashFn a b'))
        else match storeLookup (a.nodeEntries hashFn) bb with
          | some w => some w
          | none => storeLookup (b'.nodeEntries hashFn) bb := by
  rw [nodeEntries_node, storeLookup_cons, storeLookup_append]

theorem storeLookup_find {s : Store} {b : Bytes} {w : StoredValue}
    (h : storeLookup s b = some w) : ∃ p ∈ s, p.1 = b ∧ p.2 = w := by
  induction s with
  | nil => simp [storeLookup] at h
  | cons e rest ih =>
    obtain ⟨k', v'⟩ := e
    rw [storeLookup_cons] at h
    by_cases hk : k' = b
    · rw [if_pos hk] at h
      injection h with h
      exact ⟨(k', v'), List.mem_cons_self _ _, hk, h⟩
    · rw [if_neg hk] at h
      obtain ⟨p, hp, h1, h2⟩ := ih h
      exact ⟨p, List.mem_cons_of_mem _ hp, h1, h2⟩

theorem entries_key_ne_short (hashFn : Bytes → Bytes) {d : Nat} {ch : CTree}
    (h : TWF d ch) (β : KeyBits) (ep' : Nat) (hep : ep' < ch.endOf) :
    ∀ p ∈ ch.nodeEntries hashFn, p.1 ≠ ProofPath.serialize ⟨β, ep', 0⟩ := by
  intro p hp hc
  obtain ⟨ep, β₀, h1, h2, _, _, _⟩ := nodeEntries_shape hashFn h p hp
  rw [h1] at hc
  have hend : ep = ep' := (serialize_inj hc).1
  omega

/-- One step of `insert_branch` when the stored child is a leaf: either the
whole remaining path matches (overwrite) or the edge splits. -/
theorem insertBranch_correct_leaf (hashFn : Bytes → Bytes) (k : KeyBits)
    (v : Bytes) (hk : k.length = 256) (fuel e : Nat) (k₀ : KeyBits) (v₀ : Bytes)
    (B : BranchNode) (s : Store)
    (hTW : TWF (e + 1) (CTree.leaf k₀ v₀)) (he : e < 256)
    (hagk : agreeBelow (e + 1) k (CTree.leaf k₀ v₀).firstKey)
    (hcp : B.childPath ((⟨k, 256, e⟩ : ProofPath).bit 0)
      = readPath ((CTree.leaf k₀ v₀).nodePath.serialize))
    (hch : B.childHash ((⟨k, 256, e⟩ : ProofPath).bit 0)
      = (CTree.leaf k₀ v₀).hashOf hashFn)
    (hstore : ∀ p ∈ (CTree.leaf k₀ v₀).nodeEntries hashFn,
      storeLookup s p.1 = some p.2)
    (hsort : storeSorted s) :
    ∃ s',
      insertBranch hashFn (fuel + 1) s B ⟨k, 256, e⟩ k v
        = some (s',
            (if (treeInsert k v (CTree.leaf k₀ v₀)).endOf
                < (CTree.leaf k₀ v₀).endOf
             then some ((treeInsert k v (CTree.leaf k₀ v₀)).endOf - e)
             else none),
            (treeInsert k v (CTree.leaf k₀ v₀)).hashOf hashFn) ∧
      storeSorted s' ∧
      (∀ b, storeLookup s' b =
        if b = valuePath k then some (.userVal v)
        else match storeLookup
            ((treeInsert k v (CTree.leaf k₀ v₀)).nodeEntries hashFn) b with
          | some w => some w
          | none => storeLookup s b) := by
  have hk₀ : k₀.length = 256 := by
    cases hTW with
    | leaf hh _ => exact hh
  have hagk' : agreeBelow (e + 1) k k₀ := hagk
  have hDge : e ≤ divergeFrom k k₀ e := divergeFrom_ge k k₀ e (by omega)
  have hDle : divergeFrom k k₀ e ≤ 256 := divergeFrom_le k k₀ e (by omega)
  have hspec := divergeFrom_spec k k₀ e (by omega)
  have hag0 : agreeOn k k₀ 0 e := fun j hj1 hj2 => hagk' j (by omega)
  have hkd : keyDiverge k k₀ = divergeFrom k k₀ e :=
    keyDiverge_eq_from k k₀ e (by omega) hag0
  have hchildPath : (B.childPath ((⟨k, 256, e⟩ : ProofPath).bit 0)).startFrom e
      = ⟨ProofPath.maskBits 256 k₀, 256, e⟩ := by
    rw [hcp, readPath_nodePath hTW]
    rfl
  have hcpl : (⟨ProofPath.maskBits 256 k₀, 256, e⟩ : ProofPath).commonPrefixLen
      ⟨k, 256, e⟩ = min (256 - e) (divergeFrom k k₀ e - e) :=
    child_cpl k (CTree.leaf k₀ v₀) e hTW hk hagk
  have hstore' : storeLookup s (ProofPath.serialize ⟨k₀, 256, 0⟩)
      = some (.hashVal (hashFn v₀)) :=
    hstore _ (List.mem_singleton_self _)
  simp only [insertBranch, insertLeaf, valueHash]
  rw [hchildPath, hcpl, len_mk]
  by_cases hsp : 256 ≤ divergeFrom k k₀ e
  · rw [if_pos (by omega : 256 - e = min (256 - e) (divergeFrom k k₀ e - e))]
    rw [if_pos (show (⟨ProofPath.maskBits 256 k₀, 256, e⟩ : ProofPath).isLeaf
      = true from rfl)]
    have hkk : k = k₀ := by
      apply getD_ext_of_length false (by omega)
      intro j
      rcases Nat.lt_or_ge j e with hj | hj
      · exact hag0 j (by omega) hj
      · rcases Nat.lt_or_ge j 256 with hj2 | hj2
        · exact hspec.1 j hj (by omega)
        · rw [List.getD_eq_default, List.getD_eq_default]
          · omega
          · omega
    subst hkk
    have hTI : treeInsert k v (CTree.leaf k v₀) = CTree.leaf k v := by
      simp only [treeInsert]
      rw [if_pos (show keyDiverge k k = 256 by rw [hkd]; omega)]
    rw [hTI, if_neg (show ¬(CTree.leaf k v).endOf < (CTree.leaf k v₀).endOf by
      show ¬(256 : Nat) < 256
      omega)]
    rw [show (⟨k, 256, e⟩ : ProofPath).serialize
      = ProofPath.serialize ⟨k, 256, 0⟩ from serialize_start k 256 e 0]
    refine ⟨_, rfl, storeInsert_sorted _ _ _ (storeInsert_sorted _ _ _ hsort), ?_⟩
    intro b
    rw [storeLookup_insert, storeLookup_insert]
    by_cases h1 : valuePath k = b
    · rw [if_pos h1, if_pos h1.symm]
    · rw [if_neg h1,
        if_neg (show ¬(b = valuePath k) from fun hc => h1 hc.symm),
        show (CTree.leaf k v).nodeEntries hashFn
          = [(ProofPath.serialize ⟨k, 256, 0⟩, .hashVal (hashFn v))] from rfl,
        storeLookup_cons, storeLookup_nil]
      by_cases h2 : ProofPath.serialize ⟨k, 256, 0⟩ = b
      · rw [if_pos h2, if_pos h2]
      · rw [if_neg h2, if_neg h2]
  · push_neg at hsp
    have hdiff' := hspec.2 hsp
    rw [if_neg (by omega
      : ¬ 256 - e = min (256 - e) (divergeFrom k k₀ e - e))]
    rw [show min (256 - e) (divergeFrom k k₀ e - e)
        = divergeFrom k k₀ e - e from by omega]
    rw [suffix_mk, suffix_mk, prefixAt_mk, bit_mk, bit_mk, hch]
    simp only [Nat.add_zero]
    rw [show e + (divergeFrom k k₀ e - e) = divergeFrom k k₀ e from by omega]
    rw [maskBits_getD_lt 256 k₀ (divergeFrom k k₀ e) (by omega) (by omega)]
    rw [show (CTree.leaf k₀ v₀).hashOf hashFn = hashFn v₀ from rfl]
    have hkne : ProofPath.serialize ⟨k, 256, 0⟩
        ≠ ProofPath.serialize ⟨k₀, 256, 0⟩ := by
      intro hc
      obtain ⟨-, hmask⟩ := serialize_inj hc
      have hmD := congrArg (fun m => m.getD (divergeFrom k k₀ e) false) hmask
      simp only at hmD
      rw [maskBits_getD_lt 256 k (divergeFrom k k₀ e) (by omega) (by omega),
        maskBits_getD_lt 256 k₀ (divergeFrom k k₀ e) (by omega) (by omega)] at hmD
      exact hdiff' hmD
    have hsplitkey : ProofPath.serialize ⟨k, divergeFrom k k₀ e, 0⟩
        = ProofPath.serialize ⟨k₀, divergeFrom k k₀ e, 0⟩ :=
      serialize_congr ⟨k, divergeFrom k k₀ e, 0⟩ ⟨k₀, divergeFrom k k₀ e, 0⟩ rfl
        (by
          intro j hj1 hj2
          have hj2' : j < divergeFrom k k₀ e := hj2
          rcases Nat.lt_or_ge j e with hj | hj
          · exact hag0 j (by omega) hj
          · exact hspec.1 j hj hj2')
    rcases (Bool.eq_false_or_eq_true (k.getD (divergeFrom k k₀ e) false)).symm
      with hbD | hbD
    · have hb0 : k₀.getD (divergeFrom k k₀ e) false = true :=
        bit_eq_true_of_diff hdiff' hbD
      rw [if_neg (show ¬(k.getD (divergeFrom k k₀ e) false = true) from
          fun hc => by
            rw [hbD] at hc
            exact Bool.false_ne_true hc),
        if_pos hb0, setChild_comp_lr]
      have hTI : treeInsert k v (CTree.leaf k₀ v₀)
          = CTree.node (divergeFrom k k₀ e) (CTree.leaf k v)
              (CTree.leaf k₀ v₀) := by
        simp only [treeInsert]
        rw [hkd, if_neg (by omega : ¬ divergeFrom k k₀ e = 256), hbD,
          if_neg Bool.false_ne_true]
      rw [hTI, serialize_mask_self k₀ 256 (divergeFrom k k₀ e) 0 (by omega),
        serialize_start k 256 (divergeFrom k k₀ e) 0,
        serialize_start k (divergeFrom k k₀ e) e 0]
      rw [if_pos (show (CTree.node (divergeFrom k k₀ e) (CTree.leaf k v)
          (CTree.leaf k₀ v₀)).endOf < (CTree.leaf k₀ v₀).endOf by
        show divergeFrom k k₀ e < 256
        omega)]
      refine ⟨_, rfl, storeInsert_sorted _ _ _ (storeInsert_sorted _ _ _
        (storeInsert_sorted _ _ _ hsort)), ?_⟩
      intro b
      rw [storeLookup_insert, storeLookup_insert, storeLookup_insert]
      rw [lookup_entries_node,
        show (CTree.leaf k v).firstKey = k from rfl,
        show (CTree.leaf k v).nodeEntries hashFn
          = [(ProofPath.serialize ⟨k, 256, 0⟩, .hashVal (hashFn v))] from rfl,
        show (CTree.leaf k₀ v₀).nodeEntries hashFn
          = [(ProofPath.serialize ⟨k₀, 256, 0⟩, .hashVal (hashFn v₀))] from rfl,
        storeLookup_cons, storeLookup_cons, storeLookup_nil]
      rw [show CTree.branchOf hashFn (CTree.leaf k v) (CTree.leaf k₀ v₀)
          = ⟨hashFn v, hashFn v₀, ProofPath.serialize ⟨k, 256, 0⟩,
              ProofPath.serialize ⟨k₀, 256, 0⟩⟩ from rfl]
      by_cases h1 : b = valuePath k
      · rw [if_pos h1,
          if_neg (show ¬(ProofPath.serialize ⟨k, divergeFrom k k₀ e, 0⟩ = b)
            from fun hc => serialize_ne_valuePath _ k (hc.trans h1)),
          if_pos h1.symm]
      · rw [if_neg h1]
        by_cases h2 : ProofPath.serialize ⟨k, divergeFrom k k₀ e, 0⟩ = b
        · rw [if_pos h2, if_pos h2]
        · rw [if_neg h2, if_neg h2,
            if_neg (show ¬(valuePath k = b) from fun hc => h1 hc.symm)]
          by_cases h3 : ProofPath.serialize ⟨k, 256, 0⟩ = b
          · rw [if_pos h3, if_pos h3]
          · rw [if_neg h3, if_neg h3]
            by_cases h4 : ProofPath.serialize ⟨k₀, 256, 0⟩ = b
            · rw [if_pos h4, ← h4, hstore']
            · rw [if_neg h4]
    · have hb0 : k₀.getD (divergeFrom k k₀ e) false = false :=
        bit_eq_false_of_diff hdiff' hbD
      rw [if_pos hbD,
        if_neg (show ¬(k₀.getD (divergeFrom k k₀ e) false = true) from
          fun hc => by
            rw [hb0] at hc
            exact Bool.false_ne_true hc),
        setChild_comp_rl]
      have hTI : treeInsert k v (CTree.leaf k₀ v₀)
          = CTree.node (divergeFrom k k₀ e) (CTree.leaf k₀ v₀)
              (CTree.leaf k v) := by
        simp only [treeInsert]
        rw [hkd, if_neg (by omega : ¬ divergeFrom k k₀ e = 256), hbD,
          if_pos rfl]
      rw [hTI, serialize_mask_self k₀ 256 (divergeFrom k k₀ e) 0 (by omega),
        serialize_start k 256 (divergeFrom k k₀ e) 0,
        serialize_start k (divergeFrom k k₀ e) e 0]
      rw [if_pos (show (CTree.node (divergeFrom k k₀ e) (CTree.leaf k₀ v₀)
          (CTree.leaf k v)).endOf < (CTree.leaf k₀ v₀).endOf by
        show divergeFrom k k₀ e < 256
        omega)]
      refine ⟨_, rfl, storeInsert_sorted _ _ _ (storeInsert_sorted _ _ _
        (storeInsert_sorted _ _ _ hsort)), ?_⟩
      intro b
      rw [storeLookup_insert, storeLookup_insert, storeLookup_insert]
      rw [lookup_entries_node,
        show (CTree.leaf k₀ v₀).firstKey = k₀ from rfl,
        show (CTree.leaf k v).nodeEntries hashFn
          = [(ProofPath.serialize ⟨k, 256, 0⟩, .hashVal (hashFn v))] from rfl,
        show (CTree.leaf k₀ v₀).nodeEntries hashFn
          = [(ProofPath.serialize ⟨k₀, 256, 0⟩, .hashVal (hashFn v₀))] from rfl,
        storeLookup_cons, storeLookup_cons, storeLookup_nil]
      rw [show CTree.branchOf hashFn (CTree.leaf k₀ v₀) (CTree.leaf k v)
          = ⟨hashFn v₀, hashFn v, ProofPath.serialize ⟨k₀, 256, 0⟩,
              ProofPath.serialize ⟨k, 256, 0⟩⟩ from rfl]
      by_cases h1 : b = valuePath k
      · rw [if_pos h1,
          if_neg (show ¬(ProofPath.serialize ⟨k, divergeFrom k k₀ e, 0⟩ = b)
            from fun hc => serialize_ne_valuePath _ k (hc.trans h1)),
          if_pos h1.symm]
      · rw [if_neg h1]
        by_cases h2 : ProofPath.serialize ⟨k, divergeFrom k k₀ e, 0⟩ = b
        · rw [if_pos h2, if_pos (hsplitkey.symm.trans h2)]
        · rw [if_neg h2,
            if_neg (show ¬(ProofPath.serialize ⟨k₀, divergeFrom k k₀ e, 0⟩ = b)
              from fun hc => h2 (hsplitkey.trans hc)),
            if_neg (show ¬(valuePath k = b) from fun hc => h1 hc.symm)]
          by_cases h3 : ProofPath.serialize ⟨k, 256, 0⟩ = b
          · rw [if_pos h3, if_pos h3,
              if_neg (show ¬(ProofPath.serialize ⟨k₀, 256, 0⟩ = b)
                from fun hc => hkne ((hc.trans h3.symm)).symm)]
          · rw [if_neg h3, if_neg h3]
            by_cases h4 : ProofPath.serialize ⟨k₀, 256, 0⟩ = b
            · rw [if_pos h4, ← h4, hstore']
            · rw [if_neg h4]

/-- One step of `insert_branch` when the stored child is an interior node and
the proof path diverges inside its edge: a new branch is created at the
divergence position. -/
theorem insertBranch_correct_split (hashFn : Bytes → Bytes) (k : KeyBits)
    (v : Bytes) (hk : k.length = 256) (fuel e ce : Nat) (cl cr : CTree)
    (B : BranchNode) (s : Store)
    (hTW : TWF (e + 1) (CTree.node ce cl cr)) (he : e < 256)
    (hagk : agreeBelow (e + 1) k (CTree.node ce cl cr).firstKey)
    (hcp : B.childPath ((⟨k, 256, e⟩ : ProofPath).bit 0)
      = readPath ((CTree.node ce cl cr).nodePath.serialize))
    (hch : B.childHash ((⟨k, 256, e⟩ : ProofPath).bit 0)
      = (CTree.node ce cl cr).hashOf hashFn)
    (hstore : ∀ p ∈ (CTree.node ce cl cr).nodeEntries hashFn,
      storeLookup s p.1 = some p.2)
    (hsort : storeSorted s)
    (hsp : divergeFrom k cl.firstKey e < ce) :
    ∃ s',
      insertBranch hashFn (fuel + 1) s B ⟨k, 256, e⟩ k v
        = some (s',
            (if (treeInsert k v (CTree.node ce cl cr)).endOf
                < (CTree.node ce cl cr).endOf
             then some ((treeInsert k v (CTree.node ce cl cr)).endOf - e)
             else none),
            (treeInsert k v (CTree.node ce cl cr)).hashOf hashFn) ∧
      storeSorted s' ∧
      (∀ b, storeLookup s' b =
        if b = valuePath k then some (.userVal v)
        else match storeLookup
            ((treeInsert k v (CTree.node ce cl cr)).nodeEntries hashFn) b with
          | some w => some w
          | none => storeLookup s b) := by
  have hce : ce < 256 := by
    cases hTW with
    | node hde he2 hl hr hag hbl hbr => exact he2
  have hece : e + 1 ≤ ce := TWF_endOf_ge hTW
  have hfk256 : cl.firstKey.length = 256 :=
    TWF_key_len hTW _ (List.mem_append_left _ (firstKey_mem cl))
  have hagk' : agreeBelow (e + 1) k cl.firstKey := hagk
  have hDge : e ≤ divergeFrom k cl.firstKey e :=
    divergeFrom_ge k cl.firstKey e (by omega)
  have hspec := divergeFrom_spec k cl.firstKey e (by omega)
  have hdiff' : k.getD (divergeFrom k cl.firstKey e) false
      ≠ cl.firstKey.getD (divergeFrom k cl.firstKey e) false :=
    hspec.2 (by omega)
  have hag0 : agreeOn k cl.firstKey 0 e := fun j hj1 hj2 => hagk' j (by omega)
  have hkd : keyDiverge k cl.firstKey = divergeFrom k cl.firstKey e :=
    keyDiverge_eq_from k cl.firstKey e (by omega) hag0
  have hchildPath : (B.childPath ((⟨k, 256, e⟩ : ProofPath).bit 0)).startFrom e
      = ⟨ProofPath.maskBits ce cl.firstKey, ce, e⟩ := by
    rw [hcp, readPath_nodePath hTW]
    rfl
  have hcpl : (⟨ProofPath.maskBits ce cl.firstKey, ce, e⟩
      : ProofPath).commonPrefixLen ⟨k, 256, e⟩
      = min (ce - e) (divergeFrom k cl.firstKey e - e) :=
    child_cpl k (CTree.node ce cl cr) e hTW hk hagk
  simp only [insertBranch, insertLeaf, valueHash]
  rw [hchildPath, hcpl, len_mk]
  rw [if_neg (by omega
    : ¬ ce - e = min (ce - e) (divergeFrom k cl.firstKey e - e))]
  rw [show min (ce - e) (divergeFrom k cl.firstKey e - e)
      = divergeFrom k cl.firstKey e - e from by omega]
  rw [suffix_mk, suffix_mk, prefixAt_mk, bit_mk, bit_mk, hch]
  simp only [Nat.add_zero]
  rw [show e + (divergeFrom k cl.firstKey e - e) = divergeFrom k cl.firstKey e
    from by omega]
  rw [maskBits_getD_lt ce cl.firstKey (divergeFrom k cl.firstKey e)
    (by omega) (by omega)]
  have hsplitkey : ProofPath.serialize ⟨k, divergeFrom k cl.firstKey e, 0⟩
      = ProofPath.serialize ⟨cl.firstKey, divergeFrom k cl.firstKey e, 0⟩ :=
    serialize_congr ⟨k, divergeFrom k cl.firstKey e, 0⟩
      ⟨cl.firstKey, divergeFrom k cl.firstKey e, 0⟩ rfl
      (by
        intro j hj1 hj2
        have hj2' : j < divergeFrom k cl.firstKey e := hj2
        rcases Nat.lt_or_ge j e with hj | hj
        · exact hag0 j (by omega) hj
        · exact hspec.1 j hj hj2')
  have hknotin : ∀ p ∈ (CTree.node ce cl cr).nodeEntries hashFn,
      p.1 ≠ ProofPath.serialize ⟨k, 256, 0⟩ :=
    entries_key_ne_diverged hashFn hTW (by
      show divergeFrom k cl.firstKey e < (CTree.node ce cl cr).endOf
      exact hsp) (by omega) hdiff' 256 (by omega)
  rcases (Bool.eq_false_or_eq_true
      (k.getD (divergeFrom k cl.firstKey e) false)).symm with hbD | hbD
  · have hb0 : cl.firstKey.getD (divergeFrom k cl.firstKey e) false = true :=
      bit_eq_true_of_diff hdiff' hbD
    rw [if_neg (show ¬(k.getD (divergeFrom k cl.firstKey e) false = true) from
        fun hc => by
          rw [hbD] at hc
          exact Bool.false_ne_true hc),
      if_pos hb0, setChild_comp_lr]
    have hTI : treeInsert k v (CTree.node ce cl cr)
        = CTree.node (divergeFrom k cl.firstKey e) (CTree.leaf k v)
            (CTree.node ce cl cr) := by
      simp only [treeInsert, CTree.firstKey]
      rw [hkd, if_pos hsp, hbD, if_neg Bool.false_ne_true]
    rw [hTI, serialize_mask_self cl.firstKey ce (divergeFrom k cl.firstKey e) 0
        (by omega),
      serialize_start k 256 (divergeFrom k cl.firstKey e) 0,
      serialize_start k (divergeFrom k cl.firstKey e) e 0]
    rw [if_pos (show (CTree.node (divergeFrom k cl.firstKey e) (CTree.leaf k v)
        (CTree.node ce cl cr)).endOf < (CTree.node ce cl cr).endOf by
      show divergeFrom k cl.firstKey e < ce
      omega)]
    refine ⟨_, rfl, storeInsert_sorted _ _ _ (storeInsert_sorted _ _ _
      (storeInsert_sorted _ _ _ hsort)), ?_⟩
    intro b
    rw [storeLookup_insert, storeLookup_insert, storeLookup_insert]
    rw [lookup_entries_node,
      show (CTree.leaf k v).firstKey = k from rfl,
      show (CTree.leaf k v).nodeEntries hashFn
        = [(ProofPath.serialize ⟨k, 256, 0⟩, .hashVal (hashFn v))] from rfl,
      storeLookup_cons, storeLookup_nil]
    rw [show CTree.branchOf hashFn (CTree.leaf k v) (CTree.node ce cl cr)
        = ⟨hashFn v, (CTree.node ce cl cr).hashOf hashFn,
            ProofPath.serialize ⟨k, 256, 0⟩,
            ProofPath.serialize ⟨cl.firstKey, ce, 0⟩⟩ from rfl]
    by_cases h1 : b = valuePath k
    · rw [if_pos h1,
        if_neg (show ¬(ProofPath.serialize ⟨k, divergeFrom k cl.firstKey e, 0⟩
            = b) from fun hc => serialize_ne_valuePath _ k (hc.trans h1)),
        if_pos h1.symm]
    · rw [if_neg h1]
      by_cases h2 : ProofPath.serialize ⟨k, divergeFrom k cl.firstKey e, 0⟩ = b
      · rw [if_pos h2, if_pos h2]
      · rw [if_neg h2, if_neg h2,
          if_neg (show ¬(valuePath k = b) from fun hc => h1 hc.symm)]
        by_cases h3 : ProofPath.serialize ⟨k, 256, 0⟩ = b
        · rw [if_pos h3, if_pos h3]
        · rw [if_neg h3, if_neg h3]
          rcases hlk : storeLookup ((CTree.node ce cl cr).nodeEntries hashFn) b
            with _ | w
          · rfl
          · obtain ⟨p, hp, hp1, hp2⟩ := storeLookup_find hlk
            have hval := hstore p hp
            rw [hp1, hp2] at hval
            exact hval
  · have hb0 : cl.firstKey.getD (divergeFrom k cl.firstKey e) false = false :=
      bit_eq_false_of_diff hdiff' hbD
    rw [if_pos hbD,
      if_neg (show ¬(cl.firstKey.getD (divergeFrom k cl.firstKey e) false
          = true) from fun hc => by
        rw [hb0] at hc
        exact Bool.false_ne_true hc),
      setChild_comp_rl]
    have hTI : treeInsert k v (CTree.node ce cl cr)
        = CTree.node (divergeFrom k cl.firstKey e) (CTree.node ce cl cr)
            (CTree.leaf k v) := by
      simp only [treeInsert, CTree.firstKey]
      rw [hkd, if_pos hsp, hbD, if_pos rfl]
    rw [hTI, serialize_mask_self cl.firstKey ce (divergeFrom k cl.firstKey e) 0
        (by omega),
      serialize_start k 256 (divergeFrom k cl.firstKey e) 0,
      serialize_start k (divergeFrom k cl.firstKey e) e 0]
    rw [if_pos (show (CTree.node (divergeFrom k cl.firstKey e)
        (CTree.node ce cl cr) (CTree.leaf k v)).endOf
        < (CTree.node ce cl cr).endOf by
      show divergeFrom k cl.firstKey e < ce
      omega)]
    refine ⟨_, rfl, storeInsert_sorted _ _ _ (storeInsert_sorted _ _ _
      (storeInsert_sorted _ _ _ hsort)), ?_⟩
    intro b
    rw [storeLookup_insert, storeLookup_insert, storeLookup_insert]
    rw [lookup_entries_node,
      show (CTree.node ce cl cr).firstKey = cl.firstKey from rfl,
      show (CTree.leaf k v).nodeEntries hashFn
        = [(ProofPath.serialize ⟨k, 256, 0⟩, .hashVal (hashFn v))] from rfl,
      storeLookup_cons, storeLookup_nil]
    rw [show CTree.branchOf hashFn (CTree.node ce cl cr) (CTree.leaf k v)
        = ⟨(CTree.node ce cl cr).hashOf hashFn, hashFn v,
            ProofPath.serialize ⟨cl.firstKey, ce, 0⟩,
            ProofPath.serialize ⟨k, 256, 0⟩⟩ from rfl]
    by_cases h1 : b = valuePath k
    · rw [if_pos h1,
        if_neg (show ¬(ProofPath.serialize ⟨k, divergeFrom k cl.firstKey e, 0⟩
            = b) from fun hc => serialize_ne_valuePath _ k (hc.trans h1)),
        if_pos h1.symm]
    · rw [if_neg h1]
      by_cases h2 : ProofPath.serialize ⟨k, divergeFrom k cl.firstKey e, 0⟩ = b
      · rw [if_pos h2, if_pos (hsplitkey.symm.trans h2)]
      · rw [if_neg h2,
          if_neg (show ¬(ProofPath.serialize
              ⟨cl.firstKey, divergeFrom k cl.firstKey e, 0⟩ = b)
            from fun hc => h2 (hsplitkey.trans hc)),
          if_neg (show ¬(valuePath k = b) from fun hc => h1 hc.symm)]
        by_cases h3 : ProofPath.serialize ⟨k, 256, 0⟩ = b
        · have hnone : storeLookup ((CTree.node ce cl cr).nodeEntries hashFn) b
              = none :=
            storeLookup_eq_none_of_forall_ne _ _ (fun p hp => by
              rw [← h3]
              exact hknotin p hp)
          rw [if_pos h3, hnone, if_pos h3]
        · rw [if_neg h3]
          rcases hlk : storeLookup ((CTree.node ce cl cr).nodeEntries hashFn) b
            with _ | w
          · rw [if_neg h3]
          · obtain ⟨p, hp, hp1, hp2⟩ := storeLookup_find hlk
            have hval := hstore p hp
            rw [hp1, hp2] at hval
            exact hval

/-- `insert_branch` against a stored child subtree: recursion over the fuel.
The returned shortened length is reported exactly when the insertion splits
the child edge, and the store afterwards holds the node entries of the
updated subtree over the previous contents. -/
theorem insertBranch_correct (hashFn : Bytes → Bytes) (k : KeyBits) (v : Bytes)
    (hk : k.length = 256) :
    ∀ (fuel e : Nat) (ch : CTree) (B : BranchNode) (s : Store),
      TWF (e + 1) ch → e < 256 → agreeBelow (e + 1) k ch.firstKey →
      B.childPath ((⟨k, 256, e⟩ : ProofPath).bit 0)
        = readPath (ch.nodePath.serialize) →
      B.childHash ((⟨k, 256, e⟩ : ProofPath).bit 0) = ch.hashOf hashFn →
      (∀ p ∈ ch.nodeEntries hashFn, storeLookup s p.1 = some p.2) →
      storeSorted s → 256 ≤ fuel + e →
      ∃ s',
        insertBranch hashFn fuel s B ⟨k, 256, e⟩ k v
          = some (s',
              (if (treeInsert k v ch).endOf < ch.endOf
               then some ((treeInsert k v ch).endOf - e)
               else none),
              (treeInsert k v ch).hashOf hashFn) ∧
        storeSorted s' ∧
        (∀ b, storeLookup s' b =
          if b = valuePath k then some (.userVal v)
          else match storeLookup ((treeInsert k v ch).nodeEntries hashFn) b with
            | some w => some w
            | none => storeLookup s b) := by
  intro fuel
  induction fuel with
  | zero =>
    intro e ch B s hTW he hagk hcp hch hstore hsort hfuel
    exact absurd hfuel (by omega)
  | succ fuel ih =>
    intro e ch B s hTW he hagk hcp hch hstore hsort hfuel
    cases ch with
    | leaf k₀ v₀ =>
      exact insertBranch_correct_leaf hashFn k v hk fuel e k₀ v₀ B s hTW he hagk
        hcp hch hstore hsort
    | node ce cl cr =>
      rcases Nat.lt_or_ge (divergeFrom k cl.firstKey e) ce with hsp | hdes
      · exact insertBranch_correct_split hashFn k v hk fuel e ce cl cr B s hTW he
          hagk hcp hch hstore hsort hsp
      · have hce : ce < 256 := by
          cases hTW with
          | node hde he2 hl hr hag hbl hbr => exact he2
        have hece : e + 1 ≤ ce := TWF_endOf_ge hTW
        have hl : TWF (ce + 1) cl := by
          cases hTW with
          | node hde he2 hl hr hag hbl hbr => exact hl
        have hr : TWF (ce + 1) cr := by
          cases hTW with
          | node hde he2 hl hr hag hbl hbr => exact hr
        have hagLR : ∀ q ∈ cl.keysOf ++ cr.keysOf, agreeBelow ce q cl.firstKey := by
          cases hTW with
          | node hde he2 hl hr hag hbl hbr => exact hag
        have hbitl : ∀ q ∈ cl.keysOf, q.getD ce false = false := by
          cases hTW with
          | node hde he2 hl hr hag hbl hbr => exact hbl
        have hbitr : ∀ q ∈ cr.keysOf, q.getD ce false = true := by
          cases hTW with
          | node hde he2 hl hr hag hbl hbr => exact hbr
        have hclbit : cl.firstKey.getD ce false = false :=
          hbitl cl.firstKey (firstKey_mem cl)
        have hcrbit : cr.firstKey.getD ce false = true :=
          hbitr cr.firstKey (firstKey_mem cr)
        have hagk' : agreeBelow (e + 1) k cl.firstKey := hagk
        have hag0 : agreeOn k cl.firstKey 0 e := fun j hj1 hj2 => hagk' j (by omega)
        have hspec := divergeFrom_spec k cl.firstKey e (by omega)
        have hDge : e ≤ divergeFrom k cl.firstKey e :=
          divergeFrom_ge k cl.firstKey e (by omega)
        have hkd : keyDiverge k cl.firstKey = divergeFrom k cl.firstKey e :=
          keyDiverge_eq_from k cl.firstKey e (by omega) hag0
        have hagce : agreeBelow ce k cl.firstKey := by
          intro j hj
          rcases Nat.lt_or_ge j (e + 1) with hj' | hj'
          · exact hagk' j hj'
          · exact hspec.1 j (by omega) (by omega)
        have hchildPath : (B.childPath ((⟨k, 256, e⟩ : ProofPath).bit 0)).startFrom e
            = ⟨ProofPath.maskBits ce cl.firstKey, ce, e⟩ := by
          rw [hcp, readPath_nodePath hTW]
          rfl
        have hcpl : (⟨ProofPath.maskBits ce cl.firstKey, ce, e⟩
            : ProofPath).commonPrefixLen ⟨k, 256, e⟩
            = min (ce - e) (divergeFrom k cl.firstKey e - e) :=
          child_cpl k (CTree.node ce cl cr) e hTW hk hagk
        have hroot : storeLookup s (ProofPath.serialize ⟨cl.firstKey, ce, 0⟩)
            = some (.branchVal (CTree.branchOf hashFn cl cr)) :=
          hstore _ (by rw [nodeEntries_node]; exact List.mem_cons_self _ _)
        have hget : getNodeUnchecked s ⟨ProofPath.maskBits ce cl.firstKey, ce, e⟩
            = some (Node.branchN (CTree.branchOf hashFn cl cr)) :=
          getNode_child hashFn s hTW hroot e
        simp only [insertBranch, insertLeaf, valueHash]
        rw [hchildPath, hcpl, len_mk]
        rw [show min (ce - e) (divergeFrom k cl.firstKey e - e) = ce - e
          from by omega]
        rw [if_pos (show (ce - e : Nat) = ce - e from rfl)]
        rw [isLeaf_mk]
        rw [if_neg (show ¬(((ce : Nat) == 256) = true) from fun hc =>
          absurd (show ce = 256 from by simpa using hc) (by omega))]
        simp only [hget]
        rw [suffix_mk, bit_mk]
        rw [show e + (ce - e) = ce from by omega]
        rcases (Bool.eq_false_or_eq_true (k.getD ce false)).symm with hbit | hbit
        · -- descend left
          have hagcl : agreeBelow (ce + 1) k cl.firstKey := by
            intro j hj
            rcases Nat.lt_or_ge j ce with hj' | hj'
            · exact hagce j hj'
            · have hje : j = ce := by omega
              subst hje
              rw [hbit, hclbit]
          have hkdge : ce + 1 ≤ keyDiverge k cl.firstKey := by
            rw [keyDiverge_eq_from k cl.firstKey 0 (by omega)
              (fun j hj1 hj2 => absurd hj2 (by omega))]
            exact le_divergeFrom_of_agree k cl.firstKey 0 (ce + 1) (by omega)
              (by omega) (fun j hj1 hj2 => hagcl j hj2)
          have hTIend := treeInsert_endOf k v cl
          have hclEnd : ce + 1 ≤ cl.endOf := TWF_endOf_ge hl
          have hTIendGe : ce + 1 ≤ (treeInsert k v cl).endOf := by omega
          have hTWcl' : TWF (ce + 1) (treeInsert k v cl) :=
            treeInsert_TWF k v hk hl hagcl
          have hfka := treeInsert_firstKey_agree k v hk hl hagcl
          have hserhead : ProofPath.serialize
              ⟨ProofPath.maskBits ce cl.firstKey, ce, e⟩
              = ProofPath.serialize ⟨(treeInsert k v cl).firstKey, ce, 0⟩ := by
            rw [serialize_mask_self cl.firstKey ce e 0 (by omega)]
            exact serialize_congr ⟨cl.firstKey, ce, 0⟩
              ⟨(treeInsert k v cl).firstKey, ce, 0⟩ rfl
              (fun j hj1 hj2 => by
                have hj2' : j < ce := hj2
                exact (hfka j hj1 (by omega)).symm)
          have hTI : treeInsert k v (CTree.node ce cl cr)
              = CTree.node ce (treeInsert k v cl) cr := by
            simp only [treeInsert, CTree.firstKey]
            rw [hkd, if_neg (show ¬(divergeFrom k cl.firstKey e < ce) from by omega),
              if_neg (show ¬(k.getD ce false = true) from fun hc => by
                rw [hbit] at hc
                exact Bool.false_ne_true hc)]
          obtain ⟨s₁, heq, hsort₁, hform⟩ := ih ce cl (CTree.branchOf hashFn cl cr) s
            hl hce hagcl
            (by
              rw [bit_mk]
              simp only [Nat.add_zero]
              rw [if_neg (show ¬(k.getD ce false = true) from fun hc => by
                rw [hbit] at hc
                exact Bool.false_ne_true hc)]
              exact branchOf_childPath_left hashFn cl cr)
            (by
              rw [bit_mk]
              simp only [Nat.add_zero]
              rw [if_neg (show ¬(k.getD ce false = true) from fun hc => by
                rw [hbit] at hc
                exact Bool.false_ne_true hc)]
              exact branchOf_childHash_left hashFn cl cr)
            (fun p hp => hstore p (by
              rw [nodeEntries_node]
              exact List.mem_cons_of_mem _ (List.mem_append_left _ hp)))
            hsort (by omega)
          rw [hTI]
          rw [if_neg (show ¬((CTree.node ce (treeInsert k v cl) cr).endOf
              < (CTree.node ce cl cr).endOf) from by
            show ¬(ce < ce)
            omega)]
          rw [if_neg (show ¬(k.getD ce false = true) from fun hc => by
            rw [hbit] at hc
            exact Bool.false_ne_true hc)]
          suffices htail : storeSorted (storeInsert s₁
              (ProofPath.serialize ⟨ProofPath.maskBits ce cl.firstKey, ce, e⟩)
              (.branchVal (CTree.branchOf hashFn (treeInsert k v cl) cr))) ∧
            (∀ b, storeLookup (storeInsert s₁
                (ProofPath.serialize ⟨ProofPath.maskBits ce cl.firstKey, ce, e⟩)
                (.branchVal (CTree.branchOf hashFn (treeInsert k v cl) cr))) b
              = if b = valuePath k then some (.userVal v)
                else match storeLookup
                    ((CTree.node ce (treeInsert k v cl) cr).nodeEntries hashFn) b with
                  | some w => some w
                  | none => storeLookup s b) by
            by_cases hshr : (treeInsert k v cl).endOf < cl.endOf
            · rw [if_pos hshr] at heq
              simp only [heq]
              rw [prefixAt_mk, show ce + ((treeInsert k v cl).endOf - ce)
                  = (treeInsert k v cl).endOf from by omega]
              rw [branchOf_setChild_left hashFn cl cr (treeInsert k v cl)
                ⟨k, (treeInsert k v cl).endOf, ce⟩
                ((treeInsert k v cl).hashOf hashFn)
                (serialize_member hTWcl' (treeInsert_mem_self k v hk hl) ce) rfl]
              exact ⟨_, rfl, htail.1, htail.2⟩
            · rw [if_neg hshr] at heq
              simp only [heq]
              rw [branchOf_setChildHash_left hashFn cl cr (treeInsert k v cl)
                ((treeInsert k v cl).hashOf hashFn) rfl (by
                  rw [nodePath_eq, nodePath_eq]
                  exact serialize_congr ⟨cl.firstKey, cl.endOf, 0⟩
                    ⟨(treeInsert k v cl).firstKey, (treeInsert k v cl).endOf, 0⟩
                    (show cl.endOf = (treeInsert k v cl).endOf from by omega)
                    (fun j hj1 hj2 => by
                      have hj2' : j < cl.endOf := hj2
                      exact (hfka j hj1 (by omega)).symm))]
              exact ⟨_, rfl, htail.1, htail.2⟩
          refine ⟨storeInsert_sorted _ _ _ hsort₁, ?_⟩
          intro b
          rw [storeLookup_insert, lookup_entries_node, hform, hserhead]
          by_cases hv : b = valuePath k
          · rw [if_neg (show ¬(ProofPath.serialize
                ⟨(treeInsert k v cl).firstKey, ce, 0⟩ = b) from fun hc =>
                serialize_ne_valuePath _ k (hc.trans hv)), if_pos hv, if_pos hv]
          · rw [if_neg hv, if_neg hv]
            by_cases hhd : ProofPath.serialize
                ⟨(treeInsert k v cl).firstKey, ce, 0⟩ = b
            · rw [if_pos hhd, if_pos hhd]
            · rw [if_neg hhd, if_neg hhd]
              rcases h5 : storeLookup ((treeInsert k v cl).nodeEntries hashFn) b
                with _ | w
              · rcases h6 : storeLookup (cr.nodeEntries hashFn) b with _ | w
                · rfl
                · obtain ⟨p, hp, hp1, hp2⟩ := storeLookup_find h6
                  have hval := hstore p (by
                    rw [nodeEntries_node]
                    exact List.mem_cons_of_mem _ (List.mem_append_right _ hp))
                  rw [hp1, hp2] at hval
                  exact hval
              · rfl
        · -- descend right
          have hagcr : agreeBelow (ce + 1) k cr.firstKey := by
            intro j hj
            rcases Nat.lt_or_ge j ce with hj' | hj'
            · rw [hagce j hj']
              exact (hagLR cr.firstKey
                (List.mem_append_right _ (firstKey_mem cr)) j hj').symm
            · have hje : j = ce := by omega
              subst hje
              rw [hbit, hcrbit]
          have hkdge : ce + 1 ≤ keyDiverge k cr.firstKey := by
            rw [keyDiverge_eq_from k cr.firstKey 0 (by omega)
              (fun j hj1 hj2 => absurd hj2 (by omega))]
            exact le_divergeFrom_of_agree k cr.firstKey 0 (ce + 1) (by omega)
              (by omega) (fun j hj1 hj2 => hagcr j hj2)
          have hTIend := treeInsert_endOf k v cr
          have hcrEnd : ce + 1 ≤ cr.endOf := TWF_endOf_ge hr
          have hTIendGe : ce + 1 ≤ (treeInsert k v cr).endOf := by omega
          have hTWcr' : TWF (ce + 1) (treeInsert k v cr) :=
            treeInsert_TWF k v hk hr hagcr
          have hfka := treeInsert_firstKey_agree k v hk hr hagcr
          have hserhead : ProofPath.serialize
              ⟨ProofPath.maskBits ce cl.firstKey, ce, e⟩
              = ProofPath.serialize ⟨cl.firstKey, ce, 0⟩ :=
            serialize_mask_self cl.firstKey ce e 0 (by omega)
          have hTI : treeInsert k v (CTree.node ce cl cr)
              = CTree.node ce cl (treeInsert k v cr) := by
            simp only [treeInsert, CTree.firstKey]
            rw [hkd, if_neg (show ¬(divergeFrom k cl.firstKey e < ce) from by omega),
              if_pos hbit]
          obtain ⟨s₁, heq, hsort₁, hform⟩ := ih ce cr (CTree.branchOf hashFn cl cr) s
            hr hce hagcr
            (by
              rw [bit_mk]
              simp only [Nat.add_zero]
              rw [if_pos hbit]
              exact branchOf_childPath_right hashFn cl cr)
            (by
              rw [bit_mk]
              simp only [Nat.add_zero]
              rw [if_pos hbit]
              exact branchOf_childHash_right hashFn cl cr)
            (fun p hp => hstore p (by
              rw [nodeEntries_node]
              exact List.mem_cons_of_mem _ (List.mem_append_right _ hp)))
            hsort (by omega)
          rw [hTI]
          rw [if_neg (show ¬((CTree.node ce cl (treeInsert k v cr)).endOf
              < (CTree.node ce cl cr).endOf) from by
            show ¬(ce < ce)
            omega)]
          rw [if_pos hbit]
          suffices htail : storeSorted (storeInsert s₁
              (ProofPath.serialize ⟨ProofPath.maskBits ce cl.firstKey, ce, e⟩)
              (.branchVal (CTree.branchOf hashFn cl (treeInsert k v cr)))) ∧
            (∀ b, storeLookup (storeInsert s₁
                (ProofPath.serialize ⟨ProofPath.maskBits ce cl.firstKey, ce, e⟩)
                (.branchVal (CTree.branchOf hashFn cl (treeInsert k v cr)))) b
              = if b = valuePath k then some (.userVal v)
                else match storeLookup
                    ((CTree.node ce cl (treeInsert k v cr)).nodeEntries hashFn) b with
                  | some w => some w
                  | none => storeLookup s b) by
            by_cases hshr : (treeInsert k v cr).endOf < cr.endOf
            · rw [if_pos hshr] at heq
              simp only [heq]
              rw [prefixAt_mk, show ce + ((treeInsert k v cr).endOf - ce)
                  = (treeInsert k v cr).endOf from by omega]
              rw [branchOf_setChild_right hashFn cl cr (treeInsert k v cr)
                ⟨k, (treeInsert k v cr).endOf, ce⟩
                ((treeInsert k v cr).hashOf hashFn)
                (serialize_member hTWcr' (treeInsert_mem_self k v hk hr) ce) rfl]
              exact ⟨_, rfl, htail.1, htail.2⟩
            · rw [if_neg hshr] at heq
              simp only [heq]
              rw [branchOf_setChildHash_right hashFn cl cr (treeInsert k v cr)
                ((treeInsert k v cr).hashOf hashFn) rfl (by
                  rw [nodePath_eq, nodePath_eq]
                  exact serialize_congr ⟨cr.firstKey, cr.endOf, 0⟩
                    ⟨(treeInsert k v cr).firstKey, (treeInsert k v cr).endOf, 0⟩
                    (show cr.endOf = (treeInsert k v cr).endOf from by omega)
                    (fun j hj1 hj2 => by
                      have hj2' : j < cr.endOf := hj2
                      exact (hfka j hj1 (by omega)).symm))]
              exact ⟨_, rfl, htail.1, htail.2⟩
          refine ⟨storeInsert_sorted _ _ _ hsort₁, ?_⟩
          intro b
          rw [storeLookup_insert, lookup_entries_node, hform, hserhead]
          by_cases hv : b = valuePath k
          · rw [if_neg (show ¬(ProofPath.serialize ⟨cl.firstKey, ce, 0⟩ = b)
                from fun hc => serialize_ne_valuePath _ k (hc.trans hv)),
              if_pos hv, if_pos hv]
          · rw [if_neg hv, if_neg hv]
            by_cases hhd : ProofPath.serialize ⟨cl.firstKey, ce, 0⟩ = b
            · rw [if_pos hhd, if_pos hhd]
            · rw [if_neg hhd, if_neg hhd]
              rcases h5 : storeLookup (cl.nodeEntries hashFn) b with _ | w
              · rfl
              · rcases h6 : storeLookup ((treeInsert k v cr).nodeEntries hashFn) b
                  with _ | w'
                · obtain ⟨p, hp, hp1, hp2⟩ := storeLookup_find h5
                  have hval := hstore p (by
                    rw [nodeEntries_node]
                    exact List.mem_cons_of_mem _ (List.mem_append_left _ hp))
                  rw [hp1, hp2] at hval
                  exact hval
                · exfalso
                  have hTWT : TWF (e + 1) (CTree.node ce cl (treeInsert k v cr)) := by
                    rw [← hTI]
                    exact treeInsert_TWF k v hk hTW hagk
                  have hdisj := nodeEntries_keys_disjoint hashFn hTWT
                  obtain ⟨p, hp, hp1, _⟩ := storeLookup_find h5
                  obtain ⟨q, hq, hq1, _⟩ := storeLookup_find h6
                  exact hdisj b (by
                      rw [← hp1]
                      exact List.mem_map_of_mem _ hp)
                    (by
                      rw [← hq1]
                      exact List.mem_map_of_mem _ hq)

/-- `common_prefix` of the root path (start 0) against a full proof path. -/
theorem root_cpl (k : KeyBits) (t : CTree) {d : Nat} (hTW : TWF d t)
    (hk : k.length = 256) :
    (⟨ProofPath.maskBits t.endOf t.firstKey, t.endOf, 0⟩
        : ProofPath).commonPrefixLen ⟨k, 256, 0⟩
      = min t.endOf (divergeFrom k t.firstKey 0) := by
  have hch : t.endOf ≤ 256 := TWF_endOf_le hTW
  have hcpl := commonPrefixLen_spec
    ⟨ProofPath.maskBits t.endOf t.firstKey, t.endOf, 0⟩ ⟨k, 256, 0⟩ rfl
    (fun j hj1 hj2 => absurd (show j < 0 from hj2) (by omega))
    (by show (0 : Nat) ≤ t.endOf; omega) (by show (0 : Nat) ≤ 256; omega)
    (by show t.endOf ≤ 256; omega) le_rfl
  have hcpl' : (⟨ProofPath.maskBits t.endOf t.firstKey, t.endOf, 0⟩
      : ProofPath).commonPrefixLen ⟨k, 256, 0⟩
      = min (min (t.endOf - 0) (256 - 0))
        (divergeFrom (ProofPath.maskBits t.endOf t.firstKey) k 0 - 0) := hcpl
  rw [hcpl']
  rcases Nat.lt_or_ge (divergeFrom k t.firstKey 0) t.endOf with hdv | hdv
  · rw [divergeFrom_mask_lt t.firstKey k 0 t.endOf (by omega) hch hdv]
    have := divergeFrom_le k t.firstKey 0 (by omega)
    omega
  · have hmge := divergeFrom_mask_ge t.firstKey k 0 t.endOf (by omega) hch hdv
    have hmle := divergeFrom_le (ProofPath.maskBits t.endOf t.firstKey) k 0
      (by omega)
    omega

/-- Insertion never loses a stored node key: every node-entry key of the old
subtree is still a node-entry key after `treeInsert`. -/
theorem treeInsert_entries_keys (hashFn : Bytes → Bytes) (k : KeyBits) (v : Bytes)
    (hk : k.length = 256) :
    ∀ {d : Nat} {c : CTree}, TWF d c → agreeBelow d k c.firstKey →
    ∀ b, b ∈ ((c.nodeEntries hashFn).map Prod.fst) →
      b ∈ (((treeInsert k v c).nodeEntries hashFn).map Prod.fst) := by
  intro d c h
  induction h with
  | leaf hk₀ hd =>
    rename_i d' k₀ v₀
    intro hag b hb
    simp only [CTree.nodeEntries, List.map_cons, List.map_nil,
      List.mem_singleton] at hb
    simp only [treeInsert]
    by_cases h256 : keyDiverge k k₀ = 256
    · rw [if_pos h256]
      simp only [CTree.nodeEntries, List.map_cons, List.map_nil,
        List.mem_singleton]
      exact hb
    · rw [if_neg h256]
      by_cases hbit : k.getD (keyDiverge k k₀) false = true
      · rw [if_pos hbit]
        rw [nodeEntries_node, List.map_cons, List.map_append]
        exact List.mem_cons_of_mem _ (List.mem_append_left _ (by
          simp only [CTree.nodeEntries, List.map_cons, List.map_nil,
            List.mem_singleton]
          exact hb))
      · rw [if_neg hbit]
        rw [nodeEntries_node, List.map_cons, List.map_append]
        exact List.mem_cons_of_mem _ (List.mem_append_right _ (by
          simp only [CTree.nodeEntries, List.map_cons, List.map_nil,
            List.mem_singleton]
          exact hb))
  | node hde he hl hr hag hbl hbr ihl ihr =>
    rename_i d' e l r
    intro hagk b hb
    have hagk' : agreeBelow d' k l.firstKey := hagk
    simp only [treeInsert, CTree.firstKey]
    by_cases hsp : keyDiverge k l.firstKey < e
    · rw [if_pos hsp]
      by_cases hbit : k.getD (keyDiverge k l.firstKey) false = true
      · rw [if_pos hbit]
        rw [nodeEntries_node, List.map_cons, List.map_append]
        exact List.mem_cons_of_mem _ (List.mem_append_left _ hb)
      · rw [if_neg hbit]
        rw [nodeEntries_node, List.map_cons, List.map_append]
        exact List.mem_cons_of_mem _ (List.mem_append_right _ hb)
    · rw [if_neg hsp]
      have hagE : agreeBelow e k l.firstKey := by
        intro j hj
        have hge : e ≤ divergeFrom k l.firstKey 0 := by
          rw [keyDiverge_eq] at hsp
          omega
        exact (divergeFrom_spec k l.firstKey 0 (by omega)).1 j (by omega)
          (by omega)
      rw [nodeEntries_node, List.map_cons] at hb
      by_cases hbit : k.getD e false = true
      · rw [if_pos hbit]
        have hagr : agreeBelow (e + 1) k r.firstKey := by
          intro j hj
          rcases Nat.lt_or_ge j e with hj' | hj'
          · rw [hagE j hj']
            exact (hag r.firstKey
              (List.mem_append_right _ (firstKey_mem r)) j hj').symm
          · have hje : j = e := by omega
            rw [hje, hbit, hbr r.firstKey (firstKey_mem r)]
        rw [nodeEntries_node, List.map_cons]
        rcases List.mem_cons.mp hb with hb' | hb'
        · rw [hb']
          exact List.mem_cons_self _ _
        · rw [List.map_append] at hb'
          rw [List.map_append]
          rcases List.mem_append.mp hb' with hb'' | hb''
          · exact List.mem_cons_of_mem _ (List.mem_append_left _ hb'')
          · exact List.mem_cons_of_mem _
              (List.mem_append_right _ (ihr hagr b hb''))
      · rw [if_neg hbit]
        have hagl : agreeBelow (e + 1) k l.firstKey := by
          intro j hj
          rcases Nat.lt_or_ge j e with hj' | hj'
          · exact hagE j hj'
          · have hje : j = e := by omega
            rw [hje, hbl l.firstKey (firstKey_mem l)]
            rcases Bool.eq_false_or_eq_true (k.getD e false) with hkb | hkb
            · exact absurd hkb hbit
            · exact hkb
        have hkdl : e + 1 ≤ keyDiverge k l.firstKey := by
          rw [keyDiverge_eq]
          exact le_divergeFrom_of_agree k l.firstKey 0 (e + 1) (by omega)
            (by omega) (fun j hj1 hj2 => hagl j hj2)
        have hTIendGe : e + 1 ≤ (treeInsert k v l).endOf := by
          have := treeInsert_endOf k v l
          have := TWF_endOf_ge hl
          omega
        have hfka := treeInsert_firstKey_agree k v hk hl hagl
        have hhead : ProofPath.serialize ⟨l.firstKey, e, 0⟩
            = ProofPath.serialize ⟨(treeInsert k v l).firstKey, e, 0⟩ :=
          serialize_congr ⟨l.firstKey, e, 0⟩ ⟨(treeInsert k v l).firstKey, e, 0⟩
            rfl (fun j hj1 hj2 => by
              have hj2' : j < e := hj2
              exact (hfka j hj1 (by omega)).symm)
        rw [nodeEntries_node, List.map_cons]
        rcases List.mem_cons.mp hb with hb' | hb'
        · rw [hb', hhead]
          exact List.mem_cons_self _ _
        · rw [List.map_append] at hb'
          rw [List.map_append]
          rcases List.mem_append.mp hb' with hb'' | hb''
          · exact List.mem_cons_of_mem _
              (List.mem_append_left _ (ihl hagl b hb''))
          · exact List.mem_cons_of_mem _ (List.mem_append_right _ hb'')

/-- Effect of `put` on the value-key layer: the value of `k` is overridden,
every other lookup is unchanged. -/
theorem valueEntries_update (f : KeyBits → Bytes) (k : KeyBits) (v : Bytes)
    (hk : k.length = 256) {ks : List KeyBits} (hsort : SortedKeys ks) :
    ∀ b, storeLookup (valueEntries (updateF f k v) (insortKey k ks)) b
      = if b = valuePath k then some (.userVal v)
        else storeLookup (valueEntries f ks) b := by
  have hlen' : ∀ q ∈ insortKey k ks, q.length = 256 := by
    intro q hq
    rcases (insortKey_mem k ks q).mp hq with h | h
    · rw [h]
      exact hk
    · exact hsort.2 q h
  intro b
  by_cases hb : b = valuePath k
  · rw [if_pos hb, hb,
      valueEntries_lookup (updateF f k v) _ k hk hlen',
      if_pos ((insortKey_mem k ks k).mpr (Or.inl rfl)),
      show updateF f k v k = v from if_pos rfl]
  · rw [if_neg hb]
    rcases hold : storeLookup (valueEntries f ks) b with _ | w
    · apply storeLookup_eq_none_of_forall_ne
      intro p hp
      obtain ⟨q, hq, rfl⟩ := List.mem_map.mp hp
      intro hc
      have hc' : valuePath q = b := hc
      rcases (insortKey_mem k ks q).mp hq with hqk | hqk
      · rw [hqk] at hc'
        exact hb hc'.symm
      · rw [← hc', valueEntries_lookup f ks q (hsort.2 q hqk) hsort.2,
          if_pos hqk] at hold
        exact Option.noConfusion hold
    · obtain ⟨p, hp, hp1, hp2⟩ := storeLookup_find hold
      obtain ⟨q, hq, rfl⟩ := List.mem_map.mp hp
      have hp1' : valuePath q = b := hp1
      have hp2' : StoredValue.userVal (f q) = w := hp2
      have hqk : q ≠ k := fun he => hb (by rw [← hp1', he])
      rw [← hp1',
        valueEntries_lookup (updateF f k v) _ q (hsort.2 q hq) hlen',
        if_pos ((insortKey_mem k ks q).mpr (Or.inr hq)),
        show updateF f k v q = f q from if_neg hqk, hp2']

/-- `put` on the empty map stores the leaf and the value. -/
theorem mapPut_correct_nil (hashFn : Bytes → Bytes) (f : KeyBits → Bytes)
    (k : KeyBits) (v : Bytes) :
    mapPut hashFn (buildState hashFn f []) k v
      = some (buildState hashFn (updateF f k v) (insortKey k [])) := by
  have huf : updateF f k v k = v := if_pos rfl
  show some (storeInsert (storeInsert [] (ProofPath.serialize ⟨k, 256, 0⟩)
      (.hashVal (hashFn v))) (valuePath k) (.userVal v))
    = some (storeInsert (storeInsert [] (ProofPath.serialize ⟨k, 256, 0⟩)
      (.hashVal (hashFn (updateF f k v k)))) (valuePath k)
      (.userVal (updateF f k v k)))
  rw [huf]

/-- `put` when the stored root is a leaf: either an overwrite of the same
key or a fresh two-leaf branch at the diverging bit. -/
theorem mapPut_correct_leafroot (hashFn : Bytes → Bytes) (f : KeyBits → Bytes)
    (ks : List KeyBits) (k : KeyBits) (v : Bytes) (hk : k.length = 256)
    (hsort : SortedKeys ks) (hne : ks ≠ []) (k₀ : KeyBits) (v₀ : Bytes)
    (hTc : buildTree f ks = .leaf k₀ v₀) :
    mapPut hashFn (buildState hashFn f ks) k v
      = some (buildState hashFn (updateF f k v) (insortKey k ks)) := by
  obtain ⟨hkeys, htwf, hvals⟩ := buildTree_spec f ks hne hsort
  rw [hTc] at hkeys htwf hvals
  have hks : ks = [k₀] := by
    rw [← hkeys]
    rfl
  have hk₀ : k₀.length = 256 := hsort.2 k₀ (by rw [hks]; exact List.mem_singleton_self _)
  have hsort' := insortKey_sorted k hk ks hsort
  have hne' : insortKey k ks ≠ [] := by
    intro hc
    have hmm := (insortKey_mem k ks k).mpr (Or.inl rfl)
    rw [hc] at hmm
    simp at hmm
  have hcpl : (⟨ProofPath.maskBits 256 k₀, 256, 0⟩ : ProofPath).commonPrefixLen
      ⟨k, 256, 0⟩ = min 256 (divergeFrom k k₀ 0) :=
    root_cpl k (CTree.leaf k₀ v₀) htwf hk
  simp only [mapPut, ProofPath.ofKey, getRootNode_buildState hashFn f hsort hne,
    hTc, CTree.nodeOf, readPath_nodePath htwf, CTree.endOf, CTree.firstKey,
    insertLeaf, valueHash, hashOfHash, len_mk, Nat.sub_zero]
  rw [hcpl]
  rw [show min 256 (divergeFrom k k₀ 0) = divergeFrom k k₀ 0 from by
    have := divergeFrom_le k k₀ 0 (by omega)
    omega]
  rw [← keyDiverge_eq]
  by_cases hkk : k = k₀
  · subst hkk
    have h256 : keyDiverge k k = 256 := (keyDiverge_eq_256_iff k k hk hk).mpr rfl
    rw [h256, if_neg (show ¬((256 : Nat) < 256) from by omega)]
    have hirr : ¬(keyLt k k = true) := fun hv' => by
      have h1 := ((keyLt_iff k k).mp hv').1
      rw [h256] at h1
      exact absurd h1 (by omega)
    have hks' : insortKey k ks = [k] := by
      rw [hks, insortKey_cons, if_neg hirr, if_pos rfl]
    have hTI : buildTree (updateF f k v) (insortKey k ks) = CTree.leaf k v := by
      rw [buildTree_insort f k v hk hsort hne, hTc]
      simp only [treeInsert]
      rw [if_pos h256]
    refine congrArg some (storeExt (storeInsert_sorted _ _ _ (storeInsert_sorted _ _ _
      (buildState_sorted _ _ _))) (buildState_sorted _ _ _) ?_)
    intro b
    rw [storeLookup_insert, storeLookup_insert,
      buildState_lookup hashFn f hsort hne,
      buildState_lookup hashFn (updateF f k v) hsort' hne', hTI, hTc]
    rw [show (CTree.leaf k v).nodeEntries hashFn
        = [(ProofPath.serialize ⟨k, 256, 0⟩, .hashVal (hashFn v))] from rfl,
      show (CTree.leaf k v₀).nodeEntries hashFn
        = [(ProofPath.serialize ⟨k, 256, 0⟩, .hashVal (hashFn v₀))] from rfl,
      storeLookup_cons, storeLookup_cons, storeLookup_nil,
      valueEntries_update f k v hk hsort b]
    by_cases hb1 : valuePath k = b
    · rw [if_pos hb1, if_neg (show ¬(ProofPath.serialize ⟨k, 256, 0⟩ = b) from
        fun hc => serialize_ne_valuePath _ k (hc.trans hb1.symm)),
        if_pos hb1.symm]
    · rw [if_neg hb1, if_neg (show ¬(b = valuePath k) from fun hc => hb1 hc.symm)]
      by_cases hb2 : ProofPath.serialize ⟨k, 256, 0⟩ = b
      · rw [if_pos hb2, if_pos hb2]
      · rw [if_neg hb2, if_neg hb2, if_neg hb2]
  · have h256 : keyDiverge k k₀ ≠ 256 :=
      fun hc => hkk ((keyDiverge_eq_256_iff k k₀ hk hk₀).mp hc)
    have hDle : keyDiverge k k₀ ≤ 256 := by
      rw [keyDiverge_eq]
      exact divergeFrom_le k k₀ 0 (by omega)
    have hDlt : keyDiverge k k₀ < 256 := by omega
    have hspec0 := divergeFrom_spec k k₀ 0 (by omega)
    have hdiff : k.getD (keyDiverge k k₀) false ≠ k₀.getD (keyDiverge k k₀) false := by
      rw [keyDiverge_eq]
      exact hspec0.2 (by rw [keyDiverge_eq] at hDlt; exact hDlt)
    have hfullne : ProofPath.serialize (⟨k, 256, 0⟩ : ProofPath)
        ≠ ProofPath.serialize ⟨k₀, 256, 0⟩ := by
      intro hc
      obtain ⟨-, hmask⟩ := serialize_inj hc
      apply hkk
      apply getD_ext_of_length false (by omega)
      intro j
      rcases Nat.lt_or_ge j 256 with hj | hj
      · have hcg : (ProofPath.maskBits 256 k).getD j false
            = (ProofPath.maskBits 256 k₀).getD j false :=
          congrArg (fun m => List.getD m j false) hmask
        rw [maskBits_getD_lt 256 k j hj hj,
          maskBits_getD_lt 256 k₀ j hj hj] at hcg
        exact hcg
      · rw [List.getD_eq_getElem?_getD, List.getD_eq_getElem?_getD,
          List.getElem?_eq_none (by omega), List.getElem?_eq_none (by omega)]
    have hsplit : ProofPath.serialize (⟨k, keyDiverge k k₀, 0⟩ : ProofPath)
        = ProofPath.serialize ⟨k₀, keyDiverge k k₀, 0⟩ :=
      serialize_congr ⟨k, keyDiverge k k₀, 0⟩ ⟨k₀, keyDiverge k k₀, 0⟩ rfl
        (fun j hj1 hj2 => by
          have hj2' : j < keyDiverge k k₀ := hj2
          rw [keyDiverge_eq] at hj2'
          exact hspec0.1 j (by omega) hj2')
    rw [if_pos hDlt, prefixAt_mk, suffix_mk, suffix_mk, bit_mk, bit_mk]
    simp only [Nat.zero_add]
    rw [maskBits_getD_lt 256 k₀ (keyDiverge k k₀) hDlt hDlt]
    have hBI := buildTree_insort f k v hk hsort hne
    rw [hTc] at hBI
    rcases (Bool.eq_false_or_eq_true (k.getD (keyDiverge k k₀) false)).symm
      with hbD | hbD
    · have hb0 : k₀.getD (keyDiverge k k₀) false = true :=
        bit_eq_true_of_diff hdiff hbD
      rw [if_neg (show ¬(k.getD (keyDiverge k k₀) false = true) from fun hc => by
          rw [hbD] at hc
          exact Bool.false_ne_true hc),
        if_pos hb0, setChild_comp_lr]
      rw [serialize_start k 256 (keyDiverge k k₀) 0,
        serialize_mask_self k₀ 256 (keyDiverge k k₀) 0 le_rfl]
      have hTI : buildTree (updateF f k v) (insortKey k ks)
          = CTree.node (keyDiverge k k₀) (CTree.leaf k v) (CTree.leaf k₀ v₀) := by
        rw [hBI]
        simp only [treeInsert]
        rw [if_neg h256, if_neg (show ¬(k.getD (keyDiverge k k₀) false = true)
          from fun hc => by
            rw [hbD] at hc
            exact Bool.false_ne_true hc)]
      refine congrArg some (storeExt (storeInsert_sorted _ _ _
        (storeInsert_sorted _ _ _ (storeInsert_sorted _ _ _
          (buildState_sorted _ _ _)))) (buildState_sorted _ _ _) ?_)
      intro b
      rw [storeLookup_insert, storeLookup_insert, storeLookup_insert,
        buildState_lookup hashFn f hsort hne,
        buildState_lookup hashFn (updateF f k v) hsort' hne', hTI, hTc,
        lookup_entries_node,
        show (CTree.leaf k v).firstKey = k from rfl,
        show (CTree.leaf k v).nodeEntries hashFn
          = [(ProofPath.serialize ⟨k, 256, 0⟩, .hashVal (hashFn v))] from rfl,
        show (CTree.leaf k₀ v₀).nodeEntries hashFn
          = [(ProofPath.serialize ⟨k₀, 256, 0⟩, .hashVal (hashFn v₀))] from rfl,
        storeLookup_cons, storeLookup_cons, storeLookup_nil,
        valueEntries_update f k v hk hsort b,
        show CTree.branchOf hashFn (CTree.leaf k v) (CTree.leaf k₀ v₀)
          = ⟨hashFn v, hashFn v₀, ProofPath.serialize ⟨k, 256, 0⟩,
              ProofPath.serialize ⟨k₀, 256, 0⟩⟩ from rfl]
      by_cases hh : ProofPath.serialize ⟨k, keyDiverge k k₀, 0⟩ = b
      · rw [if_pos hh, if_pos hh]
      · rw [if_neg hh, if_neg hh]
        by_cases hv1 : valuePath k = b
        · rw [if_pos hv1,
            if_neg (show ¬(ProofPath.serialize ⟨k, 256, 0⟩ = b) from
              fun hc => serialize_ne_valuePath _ k (hc.trans hv1.symm)),
            if_neg (show ¬(ProofPath.serialize ⟨k₀, 256, 0⟩ = b) from
              fun hc => serialize_ne_valuePath _ k (hc.trans hv1.symm)),
            if_pos hv1.symm]
        · rw [if_neg hv1,
            if_neg (show ¬(b = valuePath k) from fun hc => hv1 hc.symm)]
          by_cases hA : ProofPath.serialize ⟨k, 256, 0⟩ = b
          · rw [if_pos hA, if_pos hA]
          · rw [if_neg hA, if_neg hA]
    · have hb0 : k₀.getD (keyDiverge k k₀) false = false :=
        bit_eq_false_of_diff hdiff hbD
      rw [if_pos hbD,
        if_neg (show ¬(k₀.getD (keyDiverge k k₀) false = true) from fun hc => by
          rw [hb0] at hc
          exact Bool.false_ne_true hc),
        setChild_comp_rl]
      rw [serialize_start k 256 (keyDiverge k k₀) 0,
        serialize_mask_self k₀ 256 (keyDiverge k k₀) 0 le_rfl]
      have hTI : buildTree (updateF f k v) (insortKey k ks)
          = CTree.node (keyDiverge k k₀) (CTree.leaf k₀ v₀) (CTree.leaf k v) := by
        rw [hBI]
        simp only [treeInsert]
        rw [if_neg h256, if_pos hbD]
      refine congrArg some (storeExt (storeInsert_sorted _ _ _
        (storeInsert_sorted _ _ _ (storeInsert_sorted _ _ _
          (buildState_sorted _ _ _)))) (buildState_sorted _ _ _) ?_)
      intro b
      rw [storeLookup_insert, storeLookup_insert, storeLookup_insert,
        buildState_lookup hashFn f hsort hne,
        buildState_lookup hashFn (updateF f k v) hsort' hne', hTI, hTc,
        lookup_entries_node,
        show (CTree.leaf k₀ v₀).firstKey = k₀ from rfl,
        show (CTree.leaf k v).nodeEntries hashFn
          = [(ProofPath.serialize ⟨k, 256, 0⟩, .hashVal (hashFn v))] from rfl,
        show (CTree.leaf k₀ v₀).nodeEntries hashFn
          = [(ProofPath.serialize ⟨k₀, 256, 0⟩, .hashVal (hashFn v₀))] from rfl,
        storeLookup_cons, storeLookup_cons, storeLookup_nil,
        valueEntries_update f k v hk hsort b,
        show CTree.branchOf hashFn (CTree.leaf k₀ v₀) (CTree.leaf k v)
          = ⟨hashFn v₀, hashFn v, ProofPath.serialize ⟨k₀, 256, 0⟩,
              ProofPath.serialize ⟨k, 256, 0⟩⟩ from rfl]
      by_cases hh : ProofPath.serialize ⟨k, keyDiverge k k₀, 0⟩ = b
      · rw [if_pos hh, if_pos (hsplit.symm.trans hh)]
      · rw [if_neg hh,
          if_neg (show ¬(ProofPath.serialize ⟨k₀, keyDiverge k k₀, 0⟩ = b) from
            fun hc => hh (hsplit.trans hc))]
        by_cases hv1 : valuePath k = b
        · rw [if_pos hv1,
            if_neg (show ¬(ProofPath.serialize ⟨k₀, 256, 0⟩ = b) from
              fun hc => serialize_ne_valuePath _ k (hc.trans hv1.symm)),
            if_neg (show ¬(ProofPath.serialize ⟨k, 256, 0⟩ = b) from
              fun hc => serialize_ne_valuePath _ k (hc.trans hv1.symm)),
            if_pos hv1.symm]
        · rw [if_neg hv1,
            if_neg (show ¬(b = valuePath k) from fun hc => hv1 hc.symm)]
          by_cases hA : ProofPath.serialize ⟨k, 256, 0⟩ = b
          · rw [if_pos hA,
              if_neg (show ¬(ProofPath.serialize ⟨k₀, 256, 0⟩ = b) from
                fun hc => hfullne (hA.trans hc.symm)),
              if_pos hA]
          · rw [if_neg hA, if_neg hA]
            by_cases hA0 : ProofPath.serialize ⟨k₀, 256, 0⟩ = b
            · rw [if_pos hA0]
            · rw [if_neg hA0]

/-- `put` when the stored root is a branch: either a split above the root or
a recursive insertion through `insert_branch`. -/
theorem mapPut_correct_branchroot (hashFn : Bytes → Bytes) (f : KeyBits → Bytes)
    (ks : List KeyBits) (k : KeyBits) (v : Bytes) (hk : k.length = 256)
    (hsort : SortedKeys ks) (hne : ks ≠ []) (ce : Nat) (cl cr : CTree)
    (hTc : buildTree f ks = .node ce cl cr) :
    mapPut hashFn (buildState hashFn f ks) k v
      = some (buildState hashFn (updateF f k v) (insortKey k ks)) := by
  obtain ⟨hkeys, htwf, hvals⟩ := buildTree_spec f ks hne hsort
  rw [hTc] at hkeys htwf hvals
  have hce : ce < 256 := by
    cases htwf with
    | node hde he2 hl hr hag hbl hbr => exact he2
  have hl : TWF (ce + 1) cl := by
    cases htwf with
    | node hde he2 hl hr hag hbl hbr => exact hl
  have hr : TWF (ce + 1) cr := by
    cases htwf with
    | node hde he2 hl hr hag hbl hbr => exact hr
  have hagLR : ∀ q ∈ cl.keysOf ++ cr.keysOf, agreeBelow ce q cl.firstKey := by
    cases htwf with
    | node hde he2 hl hr hag hbl hbr => exact hag
  have hbitl : ∀ q ∈ cl.keysOf, q.getD ce false = false := by
    cases htwf with
    | node hde he2 hl hr hag hbl hbr => exact hbl
  have hbitr : ∀ q ∈ cr.keysOf, q.getD ce false = true := by
    cases htwf with
    | node hde he2 hl hr hag hbl hbr => exact hbr
  have hclbit : cl.firstKey.getD ce false = false :=
    hbitl cl.firstKey (firstKey_mem cl)
  have hcrbit : cr.firstKey.getD ce false = true :=
    hbitr cr.firstKey (firstKey_mem cr)
  have hsort' := insortKey_sorted k hk ks hsort
  have hne' : insortKey k ks ≠ [] := by
    intro hc
    have hmm := (insortKey_mem k ks k).mpr (Or.inl rfl)
    rw [hc] at hmm
    simp at hmm
  have hBI := buildTree_insort f k v hk hsort hne
  rw [hTc] at hBI
  have hcpl : (⟨ProofPath.maskBits ce cl.firstKey, ce, 0⟩
      : ProofPath).commonPrefixLen ⟨k, 256, 0⟩
      = min ce (divergeFrom k cl.firstKey 0) :=
    root_cpl k (CTree.node ce cl cr) htwf hk
  have hkd : keyDiverge k cl.firstKey = divergeFrom k cl.firstKey 0 :=
    keyDiverge_eq _ _
  have hspec0 := divergeFrom_spec k cl.firstKey 0 (by omega)
  simp only [mapPut, ProofPath.ofKey, getRootNode_buildState hashFn f hsort hne,
    hTc, CTree.nodeOf, readPath_nodePath htwf, CTree.endOf, CTree.firstKey,
    insertLeaf, valueHash, len_mk, Nat.sub_zero]
  rw [hcpl]
  rcases Nat.lt_or_ge (divergeFrom k cl.firstKey 0) ce with hsp | hdes
  · -- split above the root
    have hD256 : divergeFrom k cl.firstKey 0 < 256 := by omega
    have hdiff : k.getD (divergeFrom k cl.firstKey 0) false
        ≠ cl.firstKey.getD (divergeFrom k cl.firstKey 0) false := hspec0.2 hD256
    have hknotin : ∀ p ∈ (CTree.node ce cl cr).nodeEntries hashFn,
        p.1 ≠ ProofPath.serialize ⟨k, 256, 0⟩ :=
      entries_key_ne_diverged hashFn htwf
        (show divergeFrom k cl.firstKey 0 < (CTree.node ce cl cr).endOf from hsp)
        (by omega) hdiff 256 (by omega)
    have hkeysplit : ProofPath.serialize
        ⟨ProofPath.maskBits ce cl.firstKey, divergeFrom k cl.firstKey 0, 0⟩
        = ProofPath.serialize ⟨k, divergeFrom k cl.firstKey 0, 0⟩ :=
      serialize_congr _ _ rfl (fun j hj1 hj2 => by
        have hj2' : j < divergeFrom k cl.firstKey 0 := hj2
        rw [maskBits_getD_lt ce cl.firstKey j (by omega) (by omega)]
        exact (hspec0.1 j (by omega) hj2').symm)
    have hsplit2 : ProofPath.serialize
        (⟨k, divergeFrom k cl.firstKey 0, 0⟩ : ProofPath)
        = ProofPath.serialize ⟨cl.firstKey, divergeFrom k cl.firstKey 0, 0⟩ :=
      serialize_congr _ _ rfl (fun j hj1 hj2 => by
        have hj2' : j < divergeFrom k cl.firstKey 0 := hj2
        exact hspec0.1 j (by omega) hj2')
    rw [show min ce (divergeFrom k cl.firstKey 0) = divergeFrom k cl.firstKey 0
      from by omega]
    rw [if_neg (show ¬(divergeFrom k cl.firstKey 0 = ce) from by omega)]
    rw [prefixAt_mk, suffix_mk, suffix_mk, bit_mk, bit_mk]
    simp only [Nat.zero_add]
    rw [maskBits_getD_lt ce cl.firstKey (divergeFrom k cl.firstKey 0)
      (by omega) (by omega), hkeysplit]
    rcases (Bool.eq_false_or_eq_true
        (k.getD (divergeFrom k cl.firstKey 0) false)).symm with hbD | hbD
    · have hb0 : cl.firstKey.getD (divergeFrom k cl.firstKey 0) false = true :=
        bit_eq_true_of_diff hdiff hbD
      rw [if_neg (show ¬(k.getD (divergeFrom k cl.firstKey 0) false = true)
          from fun hc => by
            rw [hbD] at hc
            exact Bool.false_ne_true hc),
        if_pos hb0, setChild_comp_rl]
      rw [serialize_start k 256 (divergeFrom k cl.firstKey 0) 0,
        serialize_mask_self cl.firstKey ce (divergeFrom k cl.firstKey 0) 0
          (by omega)]
      have hTI : buildTree (updateF f k v) (insortKey k ks)
          = CTree.node (divergeFrom k cl.firstKey 0) (CTree.leaf k v)
              (CTree.node ce cl cr) := by
        rw [hBI]
        simp only [treeInsert, CTree.firstKey]
        rw [hkd, if_pos hsp,
          if_neg (show ¬(k.getD (divergeFrom k cl.firstKey 0) false = true)
            from fun hc => by
              rw [hbD] at hc
              exact Bool.false_ne_true hc)]
      refine congrArg some (storeExt (storeInsert_sorted _ _ _
        (storeInsert_sorted _ _ _ (storeInsert_sorted _ _ _
          (buildState_sorted _ _ _)))) (buildState_sorted _ _ _) ?_)
      intro b
      rw [storeLookup_insert, storeLookup_insert, storeLookup_insert,
        buildState_lookup hashFn (updateF f k v) hsort' hne', hTI,
        buildState_lookup hashFn f hsort hne, hTc,
        lookup_entries_node hashFn (divergeFrom k cl.firstKey 0)
          (CTree.leaf k v) (CTree.node ce cl cr) b,
        show (CTree.leaf k v).firstKey = k from rfl,
        show (CTree.leaf k v).nodeEntries hashFn
          = [(ProofPath.serialize ⟨k, 256, 0⟩, .hashVal (hashFn v))] from rfl,
        storeLookup_cons, storeLookup_nil,
        valueEntries_update f k v hk hsort b,
        show CTree.branchOf hashFn (CTree.leaf k v) (CTree.node ce cl cr)
          = ⟨hashFn v, BranchNode.nodeHash hashFn (CTree.branchOf hashFn cl cr),
              ProofPath.serialize ⟨k, 256, 0⟩,
              ProofPath.serialize ⟨cl.firstKey, ce, 0⟩⟩ from rfl]
      by_cases hh : ProofPath.serialize ⟨k, divergeFrom k cl.firstKey 0, 0⟩ = b
      · rw [if_pos hh, if_pos hh]
      · rw [if_neg hh, if_neg hh]
        by_cases hv : valuePath k = b
        · rw [if_pos hv,
            if_neg (show ¬(ProofPath.serialize ⟨k, 256, 0⟩ = b) from
              fun hc => serialize_ne_valuePath _ k (hc.trans hv.symm)),
            ← hv, nodeEntries_lookup_valuePath hashFn htwf k,
            if_pos (show valuePath k = valuePath k from rfl)]
        · rw [if_neg hv, if_neg (show ¬(b = valuePath k) from fun hc => hv hc.symm)]
          by_cases hA : ProofPath.serialize ⟨k, 256, 0⟩ = b
          · rw [if_pos hA, if_pos hA]
          · rw [if_neg hA, if_neg hA]
    · have hb0 : cl.firstKey.getD (divergeFrom k cl.firstKey 0) false = false :=
        bit_eq_false_of_diff hdiff hbD
      rw [if_pos hbD,
        if_neg (show ¬(cl.firstKey.getD (divergeFrom k cl.firstKey 0) false
            = true) from fun hc => by
          rw [hb0] at hc
          exact Bool.false_ne_true hc),
        setChild_comp_lr]
      rw [serialize_start k 256 (divergeFrom k cl.firstKey 0) 0,
        serialize_mask_self cl.firstKey ce (divergeFrom k cl.firstKey 0) 0
          (by omega)]
      have hTI : buildTree (updateF f k v) (insortKey k ks)
          = CTree.node (divergeFrom k cl.firstKey 0) (CTree.node ce cl cr)
              (CTree.leaf k v) := by
        rw [hBI]
        simp only [treeInsert, CTree.firstKey]
        rw [hkd, if_pos hsp, if_pos hbD]
      refine congrArg some (storeExt (storeInsert_sorted _ _ _
        (storeInsert_sorted _ _ _ (storeInsert_sorted _ _ _
          (buildState_sorted _ _ _)))) (buildState_sorted _ _ _) ?_)
      intro b
      rw [storeLookup_insert, storeLookup_insert, storeLookup_insert,
        buildState_lookup hashFn (updateF f k v) hsort' hne', hTI,
        buildState_lookup hashFn f hsort hne, hTc,
        lookup_entries_node hashFn (divergeFrom k cl.firstKey 0)
          (CTree.node ce cl cr) (CTree.leaf k v) b,
        show (CTree.node ce cl cr).firstKey = cl.firstKey from rfl,
        show (CTree.leaf k v).nodeEntries hashFn
          = [(ProofPath.serialize ⟨k, 256, 0⟩, .hashVal (hashFn v))] from rfl,
        storeLookup_cons, storeLookup_nil,
        valueEntries_update f k v hk hsort b,
        show CTree.branchOf hashFn (CTree.node ce cl cr) (CTree.leaf k v)
          = ⟨BranchNode.nodeHash hashFn (CTree.branchOf hashFn cl cr), hashFn v,
              ProofPath.serialize ⟨cl.firstKey, ce, 0⟩,
              ProofPath.serialize ⟨k, 256, 0⟩⟩ from rfl]
      by_cases hh : ProofPath.serialize ⟨k, divergeFrom k cl.firstKey 0, 0⟩ = b
      · rw [if_pos hh, if_pos (hsplit2.symm.trans hh)]
      · rw [if_neg hh,
          if_neg (show ¬(ProofPath.serialize
              ⟨cl.firstKey, divergeFrom k cl.firstKey 0, 0⟩ = b) from
            fun hc => hh (hsplit2.trans hc))]
        by_cases hv : valuePath k = b
        · rw [if_pos hv,
            if_neg (show ¬(ProofPath.serialize ⟨k, 256, 0⟩ = b) from
              fun hc => serialize_ne_valuePath _ k (hc.trans hv.symm)),
            ← hv, nodeEntries_lookup_valuePath hashFn htwf k,
            if_pos (show valuePath k = valuePath k from rfl)]
        · rw [if_neg hv, if_neg (show ¬(b = valuePath k) from fun hc => hv hc.symm)]
          by_cases hA : ProofPath.serialize ⟨k, 256, 0⟩ = b
          · have hnone : storeLookup ((CTree.node ce cl cr).nodeEntries hashFn) b
                = none :=
              storeLookup_eq_none_of_forall_ne _ _ (fun p hp => by
                rw [← hA]
                exact hknotin p hp)
            rw [if_pos hA, hnone, if_pos hA]
          · rw [if_neg hA, if_neg hA]
            rcases h5 : storeLookup ((CTree.node ce cl cr).nodeEntries hashFn) b
              with _ | w
            · rfl
            · rfl
  · -- descend into the root branch
    have hagce : agreeBelow ce k cl.firstKey :=
      fun j hj => hspec0.1 j (by omega) (by omega)
    have hstoreB : ∀ p ∈ (CTree.node ce cl cr).nodeEntries hashFn,
        storeLookup (buildState hashFn f ks) p.1 = some p.2 := by
      intro p hp
      rw [buildState_lookup hashFn f hsort hne, hTc]
      have hlk : storeLookup ((CTree.node ce cl cr).nodeEntries hashFn) p.1
          = some p.2 :=
        (storeLookup_some_iff_mem (nodeEntries_keys_nodup hashFn htwf) _ _).mpr hp
      rw [hlk]
    rw [show min ce (divergeFrom k cl.firstKey 0) = ce from by omega]
    rw [if_pos (show (ce : Nat) = ce from rfl)]
    rw [suffix_mk, bit_mk]
    simp only [Nat.zero_add, Nat.add_zero]
    rcases (Bool.eq_false_or_eq_true (k.getD ce false)).symm with hbit | hbit
    · -- descend left
      have hagcl : agreeBelow (ce + 1) k cl.firstKey := by
        intro j hj
        rcases Nat.lt_or_ge j ce with hj' | hj'
        · exact hagce j hj'
        · have hje : j = ce := by omega
          rw [hje, hbit, hclbit]
      have hkdge : ce + 1 ≤ keyDiverge k cl.firstKey := by
        rw [hkd]
        exact le_divergeFrom_of_agree k cl.firstKey 0 (ce + 1) (by omega)
          (by omega) (fun j hj1 hj2 => hagcl j hj2)
      have hTIend := treeInsert_endOf k v cl
      have hclEnd : ce + 1 ≤ cl.endOf := TWF_endOf_ge hl
      have hTIendGe : ce + 1 ≤ (treeInsert k v cl).endOf := by omega
      have hTWcl' : TWF (ce + 1) (treeInsert k v cl) :=
        treeInsert_TWF k v hk hl hagcl
      have hfka := treeInsert_firstKey_agree k v hk hl hagcl
      have hserhead0 : ProofPath.serialize ⟨cl.firstKey, ce, 0⟩
          = ProofPath.serialize ⟨(treeInsert k v cl).firstKey, ce, 0⟩ :=
        serialize_congr ⟨cl.firstKey, ce, 0⟩
          ⟨(treeInsert k v cl).firstKey, ce, 0⟩ rfl
          (fun j hj1 hj2 => by
            have hj2' : j < ce := hj2
            exact (hfka j hj1 (by omega)).symm)
      have hTI : buildTree (updateF f k v) (insortKey k ks)
          = CTree.node ce (treeInsert k v cl) cr := by
        rw [hBI]
        simp only [treeInsert, CTree.firstKey]
        rw [hkd, if_neg (show ¬(divergeFrom k cl.firstKey 0 < ce) from by omega),
          if_neg (show ¬(k.getD ce false = true) from fun hc => by
            rw [hbit] at hc
            exact Bool.false_ne_true hc)]
      obtain ⟨s₁, heq, hsort₁, hform⟩ := insertBranch_correct hashFn k v hk 257 ce
        cl (CTree.branchOf hashFn cl cr) (buildState hashFn f ks) hl hce hagcl
        (by
          rw [bit_mk]
          simp only [Nat.add_zero]
          rw [if_neg (show ¬(k.getD ce false = true) from fun hc => by
            rw [hbit] at hc
            exact Bool.false_ne_true hc)]
          exact branchOf_childPath_left hashFn cl cr)
        (by
          rw [bit_mk]
          simp only [Nat.add_zero]
          rw [if_neg (show ¬(k.getD ce false = true) from fun hc => by
            rw [hbit] at hc
            exact Bool.false_ne_true hc)]
          exact branchOf_childHash_left hashFn cl cr)
        (fun p hp => hstoreB p (by
          rw [nodeEntries_node]
          exact List.mem_cons_of_mem _ (List.mem_append_left _ hp)))
        (buildState_sorted _ _ _) (by omega)
      rw [if_neg (show ¬(k.getD ce false = true) from fun hc => by
        rw [hbit] at hc
        exact Bool.false_ne_true hc)]
      suffices htail :
          some (storeInsert s₁
            (ProofPath.serialize ⟨ProofPath.maskBits ce cl.firstKey, ce, 0⟩)
            (.branchVal (CTree.branchOf hashFn (treeInsert k v cl) cr)))
          = some (buildState hashFn (updateF f k v) (insortKey k ks)) by
        by_cases hshr : (treeInsert k v cl).endOf < cl.endOf
        · rw [if_pos hshr] at heq
          simp only [heq]
          rw [prefixAt_mk, show ce + ((treeInsert k v cl).endOf - ce)
              = (treeInsert k v cl).endOf from by omega]
          rw [branchOf_setChild_left hashFn cl cr (treeInsert k v cl)
            ⟨k, (treeInsert k v cl).endOf, ce⟩
            ((treeInsert k v cl).hashOf hashFn)
            (serialize_member hTWcl' (treeInsert_mem_self k v hk hl) ce) rfl]
          exact htail
        · rw [if_neg hshr] at heq
          simp only [heq]
          rw [branchOf_setChildHash_left hashFn cl cr (treeInsert k v cl)
            ((treeInsert k v cl).hashOf hashFn) rfl (by
              rw [nodePath_eq, nodePath_eq]
              exact serialize_congr ⟨cl.firstKey, cl.endOf, 0⟩
                ⟨(treeInsert k v cl).firstKey, (treeInsert k v cl).endOf, 0⟩
                (show cl.endOf = (treeInsert k v cl).endOf from by omega)
                (fun j hj1 hj2 => by
                  have hj2' : j < cl.endOf := hj2
                  exact (hfka j hj1 (by omega)).symm))]
          exact htail
      refine congrArg some (storeExt (storeInsert_sorted _ _ _ hsort₁)
        (buildState_sorted _ _ _) ?_)
      intro b
      rw [storeLookup_insert, hform,
        buildState_lookup hashFn (updateF f k v) hsort' hne', hTI,
        buildState_lookup hashFn f hsort hne, hTc,
        lookup_entries_node hashFn ce (treeInsert k v cl) cr b,
        lookup_entries_node hashFn ce cl cr b,
        valueEntries_update f k v hk hsort b,
        serialize_mask_self cl.firstKey ce 0 0 (by omega),
        hserhead0]
      by_cases hh : ProofPath.serialize ⟨(treeInsert k v cl).firstKey, ce, 0⟩ = b
      · rw [if_pos hh, if_pos hh]
      · rw [if_neg hh, if_neg hh, if_neg hh]
        by_cases hv : b = valuePath k
        · rw [if_pos hv, if_pos hv, hv,
            nodeEntries_lookup_valuePath hashFn hTWcl' k,
            nodeEntries_lookup_valuePath hashFn hr k]
        · rw [if_neg hv, if_neg hv]
          rcases h5 : storeLookup ((treeInsert k v cl).nodeEntries hashFn) b
            with _ | w
          · have hclnone : storeLookup (cl.nodeEntries hashFn) b = none := by
              apply storeLookup_eq_none_of_forall_ne
              intro p hp hc
              have hmem : b ∈ (cl.nodeEntries hashFn).map Prod.fst := by
                rw [← hc]
                exact List.mem_map_of_mem _ hp
              have hmem' := treeInsert_entries_keys hashFn k v hk hl hagcl b hmem
              have hsome := storeLookup_isSome_of_mem hmem'
              rw [h5] at hsome
              simp at hsome
            rw [hclnone]
          · rfl
    · -- descend right
      have hagcr : agreeBelow (ce + 1) k cr.firstKey := by
        intro j hj
        rcases Nat.lt_or_ge j ce with hj' | hj'
        · rw [hagce j hj']
          exact (hagLR cr.firstKey
            (List.mem_append_right _ (firstKey_mem cr)) j hj').symm
        · have hje : j = ce := by omega
          rw [hje, hbit, hcrbit]
      have hkdge : ce + 1 ≤ keyDiverge k cr.firstKey := by
        rw [keyDiverge_eq]
        exact le_divergeFrom_of_agree k cr.firstKey 0 (ce + 1) (by omega)
          (by omega) (fun j hj1 hj2 => hagcr j hj2)
      have hTIend := treeInsert_endOf k v cr
      have hcrEnd : ce + 1 ≤ cr.endOf := TWF_endOf_ge hr
      have hTIendGe : ce + 1 ≤ (treeInsert k v cr).endOf := by omega
      have hTWcr' : TWF (ce + 1) (treeInsert k v cr) :=
        treeInsert_TWF k v hk hr hagcr
      have hfka := treeInsert_firstKey_agree k v hk hr hagcr
      have hTIeq : treeInsert k v (CTree.node ce cl cr)
          = CTree.node ce cl (treeInsert k v cr) := by
        simp only [treeInsert, CTree.firstKey]
        rw [hkd, if_neg (show ¬(divergeFrom k cl.firstKey 0 < ce) from by omega),
          if_pos hbit]
      have hTI : buildTree (updateF f k v) (insortKey k ks)
          = CTree.node ce cl (treeInsert k v cr) := by
        rw [hBI, hTIeq]
      have hTWT : TWF 0 (CTree.node ce cl (treeInsert k v cr)) := by
        rw [← hTIeq]
        exact treeInsert_TWF k v hk htwf (fun j hj => absurd hj (by omega))
      obtain ⟨s₁, heq, hsort₁, hform⟩ := insertBranch_correct hashFn k v hk 257 ce
        cr (CTree.branchOf hashFn cl cr) (buildState hashFn f ks) hr hce hagcr
        (by
          rw [bit_mk]
          simp only [Nat.add_zero]
          rw [if_pos hbit]
          exact branchOf_childPath_right hashFn cl cr)
        (by
          rw [bit_mk]
          simp only [Nat.add_zero]
          rw [if_pos hbit]
          exact branchOf_childHash_right hashFn cl cr)
        (fun p hp => hstoreB p (by
          rw [nodeEntries_node]
          exact List.mem_cons_of_mem _ (List.mem_append_right _ hp)))
        (buildState_sorted _ _ _) (by omega)
      rw [if_pos hbit]
      suffices htail :
          some (storeInsert s₁
            (ProofPath.serialize ⟨ProofPath.maskBits ce cl.firstKey, ce, 0⟩)
            (.branchVal (CTree.branchOf hashFn cl (treeInsert k v cr))))
          = some (buildState hashFn (updateF f k v) (insortKey k ks)) by
        by_cases hshr : (treeInsert k v cr).endOf < cr.endOf
        · rw [if_pos hshr] at heq
          simp only [heq]
          rw [prefixAt_mk, show ce + ((treeInsert k v cr).endOf - ce)
              = (treeInsert k v cr).endOf from by omega]
          rw [branchOf_setChild_right hashFn cl cr (treeInsert k v cr)
            ⟨k, (treeInsert k v cr).endOf, ce⟩
            ((treeInsert k v cr).hashOf hashFn)
            (serialize_member hTWcr' (treeInsert_mem_self k v hk hr) ce) rfl]
          exact htail
        · rw [if_neg hshr] at heq
          simp only [heq]
          rw [branchOf_setChildHash_right hashFn cl cr (treeInsert k v cr)
            ((treeInsert k v cr).hashOf hashFn) rfl (by
              rw [nodePath_eq, nodePath_eq]
              exact serialize_congr ⟨cr.firstKey, cr.endOf, 0⟩
                ⟨(treeInsert k v cr).firstKey, (treeInsert k v cr).endOf, 0⟩
                (show cr.endOf = (treeInsert k v cr).endOf from by omega)
                (fun j hj1 hj2 => by
                  have hj2' : j < cr.endOf := hj2
                  exact (hfka j hj1 (by omega)).symm))]
          exact htail
      refine congrArg some (storeExt (storeInsert_sorted _ _ _ hsort₁)
        (buildState_sorted _ _ _) ?_)
      intro b
      rw [storeLookup_insert, hform,
        buildState_lookup hashFn (updateF f k v) hsort' hne', hTI,
        buildState_lookup hashFn f hsort hne, hTc,
        lookup_entries_node hashFn ce cl (treeInsert k v cr) b,
        lookup_entries_node hashFn ce cl cr b,
        valueEntries_update f k v hk hsort b,
        serialize_mask_self cl.firstKey ce 0 0 (by omega)]
      by_cases hh : ProofPath.serialize ⟨cl.firstKey, ce, 0⟩ = b
      · rw [if_pos hh, if_pos hh]
      · rw [if_neg hh, if_neg hh, if_neg hh]
        by_cases hv : b = valuePath k
        · rw [if_pos hv, if_pos hv, hv,
            nodeEntries_lookup_valuePath hashFn hl k,
            nodeEntries_lookup_valuePath hashFn hTWcr' k]
        · rw [if_neg hv, if_neg hv]
          rcases h5 : storeLookup ((treeInsert k v cr).nodeEntries hashFn) b
            with _ | w
          · have hcrnone : storeLookup (cr.nodeEntries hashFn) b = none := by
              apply storeLookup_eq_none_of_forall_ne
              intro p hp hc
              have hmem : b ∈ (cr.nodeEntries hashFn).map Prod.fst := by
                rw [← hc]
                exact List.mem_map_of_mem _ hp
              have hmem' := treeInsert_entries_keys hashFn k v hk hr hagcr b hmem
              have hsome := storeLookup_isSome_of_mem hmem'
              rw [h5] at hsome
              simp at hsome
            rw [hcrnone]
          · rcases h6 : storeLookup (cl.nodeEntries hashFn) b with _ | w'
            · rfl
            · exfalso
              have hdisj := nodeEntries_keys_disjoint hashFn hTWT
              obtain ⟨p, hp, hp1, _⟩ := storeLookup_find h6
              obtain ⟨q, hq, hq1, _⟩ := storeLookup_find h5
              exact hdisj b (by
                  rw [← hp1]
                  exact List.mem_map_of_mem _ hp)
                (by
                  rw [← hq1]
                  exact List.mem_map_of_mem _ hq)

/-- `treeRemove` empties only the one-leaf tree of the removed key. -/
theorem treeRemove_none_leaf (k : KeyBits) {d : Nat} {c : CTree} (h : TWF d c)
    (hrm : treeRemove k c = none) : ∃ v', c = CTree.leaf k v' := by
  cases c with
  | leaf k₀ v₀ =>
    refine ⟨v₀, ?_⟩
    simp only [treeRemove] at hrm
    by_cases hkk : k = k₀
    · rw [hkk]
    · rw [if_neg hkk] at hrm
      exact Option.noConfusion hrm
  | node e l r =>
    exfalso
    have hkeq := (treeRemove_keysOf k h).2 hrm
    have hlen : (l.keysOf ++ r.keysOf).length = ([k] : List KeyBits).length :=
      congrArg List.length hkeq
    rw [List.length_append] at hlen
    have hl1 : 0 < l.keysOf.length := List.length_pos.mpr (keysOf_ne_nil l)
    have hr1 : 0 < r.keysOf.length := List.length_pos.mpr (keysOf_ne_nil r)
    simp at hlen
    omega

/-- `remove_node` against a stored child subtree: a missing key leaves the
store untouched and reports `KeyNotFound`; removing the only key of a leaf
child erases its two records; otherwise the child is rebuilt following
`treeRemove`, reporting the collapse to the caller. -/
theorem removeNode_correct (hashFn : Bytes → Bytes) (k : KeyBits)
    (hk : k.length = 256) :
    ∀ (fuel e : Nat) (ch : CTree) (B : BranchNode) (s : Store),
      TWF (e + 1) ch → e < 256 → agreeBelow (e + 1) k ch.firstKey →
      B.childPath ((⟨k, 256, e⟩ : ProofPath).bit 0)
        = readPath (ch.nodePath.serialize) →
      (∀ p ∈ ch.nodeEntries hashFn, storeLookup s p.1 = some p.2) →
      storeSorted s → 256 ≤ fuel + e →
      (treeRemove k ch = none →
        ∃ s', removeNode hashFn fuel s B ⟨k, 256, e⟩ k = some (s', .leaf) ∧
          storeSorted s' ∧
          (∀ b, storeLookup s' b =
            if b = valuePath k then none
            else if b = ProofPath.serialize ⟨k, 256, 0⟩ then none
            else storeLookup s b)) ∧
      (k ∉ ch.keysOf →
        removeNode hashFn fuel s B ⟨k, 256, e⟩ k = some (s, .keyNotFound)) ∧
      (∀ ch', treeRemove k ch = some ch' → k ∈ ch.keysOf →
        ∃ s' act, removeNode hashFn fuel s B ⟨k, 256, e⟩ k = some (s', act) ∧
          (act = RemoveAction.branch (readPath (ch'.nodePath.serialize))
              (ch'.hashOf hashFn) ∨
            (act = RemoveAction.updateHash (ch'.hashOf hashFn) ∧
              ch'.nodePath.serialize = ch.nodePath.serialize)) ∧
          storeSorted s' ∧
          (∀ b, storeLookup s' b =
            if b = valuePath k then none
            else match storeLookup (ch'.nodeEntries hashFn) b with
              | some w => some w
              | none =>
                if b ∈ (ch.nodeEntries hashFn).map Prod.fst then none
                else storeLookup s b)) := by
  intro fuel
  induction fuel with
  | zero =>
    intro e ch B s hTW he hagk hcp hstore hsort hfuel
    exact absurd hfuel (by omega)
  | succ fuel ih =>
    intro e ch B s hTW he hagk hcp hstore hsort hfuel
    cases ch with
    | leaf k₀ v₀ =>
      have hk₀ : k₀.length = 256 := by
        cases hTW with
        | leaf hh _ => exact hh
      have hagk' : agreeBelow (e + 1) k k₀ := hagk
      have hag0 : agreeOn k k₀ 0 e := fun j hj1 hj2 => hagk' j (by omega)
      have hchildPath : (B.childPath ((⟨k, 256, e⟩ : ProofPath).bit 0)).startFrom e
          = ⟨ProofPath.maskBits 256 k₀, 256, e⟩ := by
        rw [hcp, readPath_nodePath hTW]
        rfl
      have hcpl : (⟨ProofPath.maskBits 256 k₀, 256, e⟩
          : ProofPath).commonPrefixLen ⟨k, 256, e⟩
          = min (256 - e) (divergeFrom k k₀ e - e) :=
        child_cpl k (CTree.leaf k₀ v₀) e hTW hk hagk
      simp only [removeNode]
      rw [hchildPath, hcpl, len_mk]
      by_cases hkk : k = k₀
      · subst hkk
        have hD : divergeFrom k k e = 256 :=
          (divergeFrom_eq_iff k k e 256 (by omega) le_rfl).mpr
            ⟨fun j _ _ => rfl, fun hc => absurd hc (by omega)⟩
        rw [hD, show min (256 - e) (256 - e) = 256 - e from by omega,
          if_pos (show (256 - e : Nat) = 256 - e from rfl)]
        have hroot : storeLookup s (ProofPath.serialize ⟨k, 256, 0⟩)
            = some (.hashVal (hashFn v₀)) :=
          hstore _ (List.mem_singleton_self _)
        have hget : getNodeUnchecked s ⟨ProofPath.maskBits 256 k, 256, e⟩
            = some (Node.leafN (hashFn v₀)) :=
          getNode_child hashFn s hTW hroot e
        simp only [hget]
        refine ⟨?_, ?_, ?_⟩
        · intro _
          refine ⟨_, rfl, storeErase_sorted _ _ (storeErase_sorted _ _ hsort), ?_⟩
          intro b
          rw [show removeLeaf s ⟨k, 256, e⟩ k
              = storeErase (storeErase s (ProofPath.serialize ⟨k, 256, e⟩))
                (valuePath k) from rfl,
            serialize_start k 256 e 0,
            storeLookup_erase _ _ _
              (storeSorted_nodup (storeErase_sorted _ _ hsort)),
            storeLookup_erase _ _ _ (storeSorted_nodup hsort)]
          by_cases hv : b = valuePath k
          · rw [if_pos hv, if_pos hv.symm]
          · rw [if_neg hv, if_neg (show ¬(valuePath k = b) from fun hc => hv hc.symm)]
            by_cases hA : b = ProofPath.serialize ⟨k, 256, 0⟩
            · rw [if_pos hA, if_pos hA.symm]
            · rw [if_neg hA,
                if_neg (show ¬(ProofPath.serialize ⟨k, 256, 0⟩ = b) from
                  fun hc => hA hc.symm)]
        · intro hnm
          exact absurd (show k ∈ (CTree.leaf k v₀).keysOf from
            List.mem_singleton_self k) hnm
        · intro ch' hrm _
          rw [show treeRemove k (CTree.leaf k v₀) = none from by
            simp [treeRemove]] at hrm
          exact Option.noConfusion hrm
      · have hDlt : divergeFrom k k₀ e < 256 := by
          rcases Nat.lt_or_ge (divergeFrom k k₀ e) 256 with h | h
          · exact h
          · exfalso
            have hle := divergeFrom_le k k₀ e (by omega)
            have h256 : divergeFrom k k₀ e = 256 := by omega
            have hag := ((divergeFrom_eq_iff k k₀ e 256 (by omega) le_rfl).mp
              h256).1
            apply hkk
            apply getD_ext_of_length false (by omega)
            intro j
            rcases Nat.lt_or_ge j 256 with hj | hj
            · rcases Nat.lt_or_ge j e with hj' | hj'
              · exact hag0 j (by omega) hj'
              · exact hag j hj' hj
            · rw [List.getD_eq_getElem?_getD, List.getD_eq_getElem?_getD,
                List.getElem?_eq_none (by omega), List.getElem?_eq_none (by omega)]
        have hDge := divergeFrom_ge k k₀ e (show e ≤ 256 from by omega)
        rw [show min (256 - e) (divergeFrom k k₀ e - e)
            = divergeFrom k k₀ e - e from by omega]
        rw [if_neg (show ¬(divergeFrom k k₀ e - e = 256 - e) from by omega)]
        refine ⟨?_, fun _ => rfl, ?_⟩
        · intro hno
          rw [show treeRemove k (CTree.leaf k₀ v₀) = some (CTree.leaf k₀ v₀) from by
            simp only [treeRemove]
            rw [if_neg hkk]] at hno
          exact Option.noConfusion hno
        · intro ch' hrm hmm
          exact absurd (List.mem_singleton.mp
            (show k ∈ [k₀] from hmm)) hkk
    | node ce cl cr =>
      have hce : ce < 256 := by
        cases hTW with
        | node hde he2 hl hr hag hbl hbr => exact he2
      have hece : e + 1 ≤ ce := TWF_endOf_ge hTW
      have hl : TWF (ce + 1) cl := by
        cases hTW with
        | node hde he2 hl hr hag hbl hbr => exact hl
      have hr : TWF (ce + 1) cr := by
        cases hTW with
        | node hde he2 hl hr hag hbl hbr => exact hr
      have hagLR : ∀ q ∈ cl.keysOf ++ cr.keysOf, agreeBelow ce q cl.firstKey := by
        cases hTW with
        | node hde he2 hl hr hag hbl hbr => exact hag
      have hbitl : ∀ q ∈ cl.keysOf, q.getD ce false = false := by
        cases hTW with
        | node hde he2 hl hr hag hbl hbr => exact hbl
      have hbitr : ∀ q ∈ cr.keysOf, q.getD ce false = true := by
        cases hTW with
        | node hde he2 hl hr hag hbl hbr => exact hbr
      have hclbit : cl.firstKey.getD ce false = false :=
        hbitl cl.firstKey (firstKey_mem cl)
      have hcrbit : cr.firstKey.getD ce false = true :=
        hbitr cr.firstKey (firstKey_mem cr)
      have hagk' : agreeBelow (e + 1) k cl.firstKey := hagk
      have hag0 : agreeOn k cl.firstKey 0 e := fun j hj1 hj2 => hagk' j (by omega)
      have hspec := divergeFrom_spec k cl.firstKey e (by omega)
      have hDge : e ≤ divergeFrom k cl.firstKey e :=
        divergeFrom_ge k cl.firstKey e (by omega)
      have hchildPath : (B.childPath ((⟨k, 256, e⟩ : ProofPath).bit 0)).startFrom e
          = ⟨ProofPath.maskBits ce cl.firstKey, ce, e⟩ := by
        rw [hcp, readPath_nodePath hTW]
        rfl
      have hcpl : (⟨ProofPath.maskBits ce cl.firstKey, ce, e⟩
          : ProofPath).commonPrefixLen ⟨k, 256, e⟩
          = min (ce - e) (divergeFrom k cl.firstKey e - e) :=
        child_cpl k (CTree.node ce cl cr) e hTW hk hagk
      have hrEnd : ce + 1 ≤ cr.endOf := TWF_endOf_ge hr
      have hlEnd : ce + 1 ≤ cl.endOf := TWF_endOf_ge hl
      simp only [removeNode]
      rw [hchildPath, hcpl, len_mk]
      rcases Nat.lt_or_ge (divergeFrom k cl.firstKey e) ce with hsp | hdes
      · rw [show min (ce - e) (divergeFrom k cl.firstKey e - e)
            = divergeFrom k cl.firstKey e - e from by omega]
        rw [if_neg (show ¬(divergeFrom k cl.firstKey e - e = ce - e) from by omega)]
        have hknot : k ∉ (CTree.node ce cl cr).keysOf := by
          intro hmm
          have hag := TWF_agree hTW k hmm
          have hge := le_divergeFrom_of_agree k (CTree.node ce cl cr).firstKey e ce
            (by omega) (by omega) (fun j hj1 hj2 => hag j (by omega)
              (show j < (CTree.node ce cl cr).endOf from hj2))
          have hge' : ce ≤ divergeFrom k cl.firstKey e := hge
          omega
        refine ⟨?_, fun _ => rfl, ?_⟩
        · intro hno
          have hkeq := (treeRemove_keysOf k hTW).2 hno
          exact absurd (show k ∈ (CTree.node ce cl cr).keysOf from by
            rw [hkeq]
            exact List.mem_singleton_self k) hknot
        · intro ch' hrm hmm
          exact absurd hmm hknot
      · rw [show min (ce - e) (divergeFrom k cl.firstKey e - e) = ce - e
          from by omega]
        rw [if_pos (show (ce - e : Nat) = ce - e from rfl)]
        have hroot : storeLookup s (ProofPath.serialize ⟨cl.firstKey, ce, 0⟩)
            = some (.branchVal (CTree.branchOf hashFn cl cr)) :=
          hstore _ (by rw [nodeEntries_node]; exact List.mem_cons_self _ _)
        have hget : getNodeUnchecked s ⟨ProofPath.maskBits ce cl.firstKey, ce, e⟩
            = some (Node.branchN (CTree.branchOf hashFn cl cr)) :=
          getNode_child hashFn s hTW hroot e
        simp only [hget]
        rw [suffix_mk, show e + (ce - e) = ce from by omega, bit_mk]
        simp only [Nat.add_zero]
        have hagce : agreeBelow ce k cl.firstKey := by
          intro j hj
          rcases Nat.lt_or_ge j (e + 1) with hj' | hj'
          · exact hagk' j hj'
          · exact hspec.1 j (by omega) (by omega)
        rcases (Bool.eq_false_or_eq_true (k.getD ce false)).symm with hbit | hbit
        · -- k goes left
          rw [if_neg (show ¬(k.getD ce false = true) from fun hc => by
            rw [hbit] at hc
            exact Bool.false_ne_true hc)]
          have hagcl : agreeBelow (ce + 1) k cl.firstKey := by
            intro j hj
            rcases Nat.lt_or_ge j ce with hj' | hj'
            · exact hagce j hj'
            · have hje : j = ce := by omega
              rw [hje, hbit, hclbit]
          obtain ⟨ihA, ihB, ihC⟩ := ih ce cl (CTree.branchOf hashFn cl cr) s hl hce
            hagcl
            (by
              rw [bit_mk]
              simp only [Nat.add_zero]
              rw [if_neg (show ¬(k.getD ce false = true) from fun hc => by
                rw [hbit] at hc
                exact Bool.false_ne_true hc)]
              exact branchOf_childPath_left hashFn cl cr)
            (fun p hp => hstore p (by
              rw [nodeEntries_node]
              exact List.mem_cons_of_mem _ (List.mem_append_left _ hp)))
            hsort (by omega)
          by_cases hmem : k ∈ cl.keysOf
          · rcases hrm : treeRemove k cl with _ | gch'
            · -- the left child is the leaf of k and disappears
              obtain ⟨v', hcleaf⟩ := treeRemove_none_leaf k hl hrm
              have hclfk : cl.firstKey = k := by
                rw [hcleaf]
                rfl
              have hclE : cl.nodeEntries hashFn
                  = [(ProofPath.serialize ⟨k, 256, 0⟩, .hashVal (hashFn v'))] := by
                rw [hcleaf]
                rfl
              obtain ⟨sA, heq, hsortA, hformA⟩ := ihA hrm
              simp only [heq]
              have hrmch : treeRemove k (CTree.node ce cl cr) = some cr := by
                simp only [treeRemove]
                rw [if_neg (show ¬(k.getD ce false = true) from fun hc => by
                  rw [hbit] at hc
                  exact Bool.false_ne_true hc), hrm]
              refine ⟨?_, ?_, ?_⟩
              · intro hno
                rw [hrmch] at hno
                exact Option.noConfusion hno
              · intro hnm
                exact absurd (show k ∈ (CTree.node ce cl cr).keysOf from
                  List.mem_append_left _ hmem) hnm
              · intro ch' hrm2 _
                rw [hrmch] at hrm2
                injection hrm2 with hch'
                subst hch'
                refine ⟨_, _, rfl, Or.inl rfl, storeErase_sorted _ _ hsortA, ?_⟩
                intro b
                rw [serialize_mask_self cl.firstKey ce e 0 (by omega),
                  storeLookup_erase _ _ _ (storeSorted_nodup hsortA), hformA]
                by_cases hv : b = valuePath k
                · rw [if_pos hv, if_pos hv,
                    if_neg (show ¬(ProofPath.serialize ⟨cl.firstKey, ce, 0⟩ = b)
                      from fun hc => serialize_ne_valuePath _ k (hc.trans hv))]
                · rw [if_neg hv, if_neg hv]
                  by_cases hhd : ProofPath.serialize ⟨cl.firstKey, ce, 0⟩ = b
                  · rw [if_pos hhd]
                    have hcrnone : storeLookup (cr.nodeEntries hashFn) b = none :=
                      storeLookup_eq_none_of_forall_ne _ _ (fun p hp hc =>
                        entries_key_ne_short hashFn hr cl.firstKey ce (by omega)
                          p hp (hc.trans hhd.symm))
                    rw [hcrnone,
                      if_pos (show b ∈ ((CTree.node ce cl cr).nodeEntries
                          hashFn).map Prod.fst from by
                        rw [nodeEntries_node, List.map_cons, ← hhd]
                        exact List.mem_cons_self _ _)]
                  · rw [if_neg hhd]
                    by_cases hA : b = ProofPath.serialize ⟨k, 256, 0⟩
                    · rw [if_pos hA]
                      have hcrnone : storeLookup (cr.nodeEntries hashFn) b
                          = none :=
                        storeLookup_eq_none_of_forall_ne _ _ (fun p hp hc =>
                          entries_key_ne_diverged hashFn hr
                            (show ce < cr.endOf from by omega) (by omega)
                            (show k.getD ce false ≠ cr.firstKey.getD ce false
                              from by
                                rw [hbit, hcrbit]
                                exact Bool.false_ne_true)
                            256 (by omega) p hp (hc.trans hA))
                      rw [hcrnone,
                        if_pos (show b ∈ ((CTree.node ce cl cr).nodeEntries
                            hashFn).map Prod.fst from by
                          rw [nodeEntries_node, List.map_cons]
                          refine List.mem_cons_of_mem _ ?_
                          rw [List.map_append]
                          refine List.mem_append_left _ ?_
                          rw [hclE, hA]
                          exact List.mem_singleton_self _)]
                    · rw [if_neg hA]
                      rcases h6 : storeLookup (cr.nodeEntries hashFn) b with _ | w
                      · rw [if_neg (show ¬(b ∈ ((CTree.node ce cl cr).nodeEntries
                            hashFn).map Prod.fst) from by
                          intro hc
                          rw [nodeEntries_node, List.map_cons] at hc
                          rcases List.mem_cons.mp hc with hc' | hc'
                          · exact hhd (show ProofPath.serialize
                              ⟨cl.firstKey, ce, 0⟩ = b from hc'.symm)
                          · rw [List.map_append] at hc'
                            rcases List.mem_append.mp hc' with hc'' | hc''
                            · rw [hclE] at hc''
                              simp only [List.map_cons, List.map_nil] at hc''
                              exact hA (List.mem_singleton.mp hc'')
                            · have hs6 := storeLookup_isSome_of_mem hc''
                              rw [h6] at hs6
                              simp at hs6)]
                      · obtain ⟨p, hp, hp1, hp2⟩ := storeLookup_find h6
                        have hval := hstore p (by
                          rw [nodeEntries_node]
                          exact List.mem_cons_of_mem _
                            (List.mem_append_right _ hp))
                        rw [hp1, hp2] at hval
                        exact hval
            · -- removal strictly inside the left child
              obtain ⟨sA, actA, heq, hact, hsortA, hformA⟩ := ihC gch' hrm hmem
              have hTWg' : TWF (ce + 1) gch' := treeRemove_TWF k hl hrm
              have hg'keys := (treeRemove_keysOf k hl).1 gch' hrm
              have hg'fk : gch'.firstKey ∈ cl.keysOf := by
                have hm := firstKey_mem gch'
                rw [hg'keys] at hm
                exact List.mem_of_mem_erase hm
              have hserX : ProofPath.serialize ⟨gch'.firstKey, ce, 0⟩
                  = ProofPath.serialize ⟨cl.firstKey, ce, 0⟩ :=
                serialize_congr _ _ rfl (fun j hj1 hj2 => by
                  have hj2' : j < ce := hj2
                  exact hagLR gch'.firstKey (List.mem_append_left _ hg'fk) j hj2')
              have hrmch : treeRemove k (CTree.node ce cl cr)
                  = some (CTree.node ce gch' cr) := by
                simp only [treeRemove]
                rw [if_neg (show ¬(k.getD ce false = true) from fun hc => by
                  rw [hbit] at hc
                  exact Bool.false_ne_true hc), hrm]
              have hbranch : (CTree.branchOf hashFn cl cr).setChild ChildKind.left
                  ((readPath (gch'.nodePath.serialize)).startFrom ce)
                  (gch'.hashOf hashFn)
                  = CTree.branchOf hashFn gch' cr :=
                branchOf_setChild_left hashFn cl cr gch' _ _
                  (by
                    rw [readPath_nodePath hTWg', startFrom_mk, nodePath_eq]
                    exact serialize_mask_self gch'.firstKey gch'.endOf ce 0
                      (TWF_endOf_le hTWg'))
                  rfl
              have hFORM : ∀ b, storeLookup (storeInsert sA
                  (ProofPath.serialize ⟨ProofPath.maskBits ce cl.firstKey, ce, e⟩)
                  (.branchVal (CTree.branchOf hashFn gch' cr))) b
                = if b = valuePath k then none
                  else match storeLookup ((CTree.node ce gch' cr).nodeEntries
                      hashFn) b with
                    | some w => some w
                    | none =>
                      if b ∈ ((CTree.node ce cl cr).nodeEntries hashFn).map
                          Prod.fst then none
                      else storeLookup s b := by
                intro b
                rw [storeLookup_insert, hformA,
                  serialize_mask_self cl.firstKey ce e 0 (by omega),
                  lookup_entries_node hashFn ce gch' cr b, hserX]
                by_cases hh : ProofPath.serialize ⟨cl.firstKey, ce, 0⟩ = b
                · rw [if_pos hh, if_pos hh,
                    if_neg (show ¬(b = valuePath k) from fun hc =>
                      serialize_ne_valuePath (⟨cl.firstKey, ce, 0⟩ : ProofPath)
                        k (hh.trans hc))]
                · rw [if_neg hh, if_neg hh]
                  by_cases hv : b = valuePath k
                  · rw [if_pos hv, if_pos hv]
                  · rw [if_neg hv, if_neg hv]
                    rcases h5 : storeLookup (gch'.nodeEntries hashFn) b
                      with _ | w
                    · rcases h6 : storeLookup (cr.nodeEntries hashFn) b
                        with _ | w
                      · by_cases hbm : b ∈ (cl.nodeEntries hashFn).map Prod.fst
                        · rw [if_pos hbm,
                            if_pos (show b ∈ ((CTree.node ce cl cr).nodeEntries
                                hashFn).map Prod.fst from by
                              rw [nodeEntries_node, List.map_cons]
                              refine List.mem_cons_of_mem _ ?_
                              rw [List.map_append]
                              exact List.mem_append_left _ hbm)]
                        · rw [if_neg hbm,
                            if_neg (show ¬(b ∈ ((CTree.node ce cl
                                cr).nodeEntries hashFn).map Prod.fst) from by
                              intro hc
                              rw [nodeEntries_node, List.map_cons] at hc
                              rcases List.mem_cons.mp hc with hc' | hc'
                              · exact hh (show ProofPath.serialize
                                  ⟨cl.firstKey, ce, 0⟩ = b from hc'.symm)
                              · rw [List.map_append] at hc'
                                rcases List.mem_append.mp hc' with hc'' | hc''
                                · exact hbm hc''
                                · have hs6 := storeLookup_isSome_of_mem hc''
                                  rw [h6] at hs6
                                  simp at hs6)]
                      · obtain ⟨p, hp, hp1, hp2⟩ := storeLookup_find h6
                        have hval := hstore p (by
                          rw [nodeEntries_node]
                          exact List.mem_cons_of_mem _
                            (List.mem_append_right _ hp))
                        rw [hp1, hp2] at hval
                        have hbnotcl : b ∉ (cl.nodeEntries hashFn).map
                            Prod.fst := by
                          intro hc
                          have hd := nodeEntries_keys_disjoint hashFn hTW b hc
                          apply hd
                          rw [← hp1]
                          exact List.mem_map_of_mem _ hp
                        rw [if_neg hbnotcl]
                        exact hval
                    · rfl
              rcases hact with hactB | ⟨hactU, hpatheq⟩
              · subst hactB
                simp only [heq]
                rw [hbranch]
                refine ⟨?_, ?_, ?_⟩
                · intro hno
                  rw [hrmch] at hno
                  exact Option.noConfusion hno
                · intro hnm
                  exact absurd (show k ∈ (CTree.node ce cl cr).keysOf from
                    List.mem_append_left _ hmem) hnm
                · intro ch' hrm2 _
                  rw [hrmch] at hrm2
                  injection hrm2 with hch'
                  subst hch'
                  exact ⟨_, _, rfl, Or.inr ⟨rfl, by
                      rw [nodePath_eq, nodePath_eq]
                      exact hserX⟩,
                    storeInsert_sorted _ _ _ hsortA, hFORM⟩
              · subst hactU
                simp only [heq]
                rw [branchOf_setChildHash_left hashFn cl cr gch'
                  (gch'.hashOf hashFn) rfl (by
                    rw [nodePath_eq, nodePath_eq] at hpatheq ⊢
                    exact hpatheq.symm)]
                refine ⟨?_, ?_, ?_⟩
                · intro hno
                  rw [hrmch] at hno
                  exact Option.noConfusion hno
                · intro hnm
                  exact absurd (show k ∈ (CTree.node ce cl cr).keysOf from
                    List.mem_append_left _ hmem) hnm
                · intro ch' hrm2 _
                  rw [hrmch] at hrm2
                  injection hrm2 with hch'
                  subst hch'
                  exact ⟨_, _, rfl, Or.inr ⟨rfl, by
                      rw [nodePath_eq, nodePath_eq]
                      exact hserX⟩,
                    storeInsert_sorted _ _ _ hsortA, hFORM⟩
          · -- the key is not below this child
            have hknotch : k ∉ (CTree.node ce cl cr).keysOf := by
              intro hmm
              exact hmem ((mem_keys_side hTW hmm).2 hbit)
            have heqB := ihB hmem
            simp only [heqB]
            refine ⟨?_, fun _ => by trivial, ?_⟩
            · intro hno
              have hkeq := (treeRemove_keysOf k hTW).2 hno
              exact absurd (show k ∈ (CTree.node ce cl cr).keysOf from by
                rw [hkeq]
                exact List.mem_singleton_self k) hknotch
            · intro ch' hrm2 hmm2
              exact absurd hmm2 hknotch
        · -- k goes right
          rw [if_pos hbit]
          have hagcr : agreeBelow (ce + 1) k cr.firstKey := by
            intro j hj
            rcases Nat.lt_or_ge j ce with hj' | hj'
            · rw [hagce j hj']
              exact (hagLR cr.firstKey
                (List.mem_append_right _ (firstKey_mem cr)) j hj').symm
            · have hje : j = ce := by omega
              rw [hje, hbit, hcrbit]
          obtain ⟨ihA, ihB, ihC⟩ := ih ce cr (CTree.branchOf hashFn cl cr) s hr hce
            hagcr
            (by
              rw [bit_mk]
              simp only [Nat.add_zero]
              rw [if_pos hbit]
              exact branchOf_childPath_right hashFn cl cr)
            (fun p hp => hstore p (by
              rw [nodeEntries_node]
              exact List.mem_cons_of_mem _ (List.mem_append_right _ hp)))
            hsort (by omega)
          by_cases hmem : k ∈ cr.keysOf
          · rcases hrm : treeRemove k cr with _ | gch'
            · obtain ⟨v', hcleaf⟩ := treeRemove_none_leaf k hr hrm
              have hcrE : cr.nodeEntries hashFn
                  = [(ProofPath.serialize ⟨k, 256, 0⟩, .hashVal (hashFn v'))] := by
                rw [hcleaf]
                rfl
              obtain ⟨sA, heq, hsortA, hformA⟩ := ihA hrm
              simp only [heq]
              have hrmch : treeRemove k (CTree.node ce cl cr) = some cl := by
                simp only [treeRemove]
                rw [if_pos hbit, hrm]
              refine ⟨?_, ?_, ?_⟩
              · intro hno
                rw [hrmch] at hno
                exact Option.noConfusion hno
              · intro hnm
                exact absurd (show k ∈ (CTree.node ce cl cr).keysOf from
                  List.mem_append_right _ hmem) hnm
              · intro ch' hrm2 _
                rw [hrmch] at hrm2
                injection hrm2 with hch'
                subst hch'
                refine ⟨_, _, rfl, Or.inl rfl, storeErase_sorted _ _ hsortA, ?_⟩
                intro b
                rw [serialize_mask_self cl.firstKey ce e 0 (by omega),
                  storeLookup_erase _ _ _ (storeSorted_nodup hsortA), hformA]
                by_cases hv : b = valuePath k
                · rw [if_pos hv, if_pos hv,
                    if_neg (show ¬(ProofPath.serialize ⟨cl.firstKey, ce, 0⟩ = b)
                      from fun hc => serialize_ne_valuePath _ k (hc.trans hv))]
                · rw [if_neg hv, if_neg hv]
                  by_cases hhd : ProofPath.serialize ⟨cl.firstKey, ce, 0⟩ = b
                  · rw [if_pos hhd]
                    have hclnone : storeLookup (cl.nodeEntries hashFn) b = none :=
                      storeLookup_eq_none_of_forall_ne _ _ (fun p hp hc =>
                        entries_key_ne_short hashFn hl cl.firstKey ce (by omega)
                          p hp (hc.trans hhd.symm))
                    rw [hclnone,
                      if_pos (show b ∈ ((CTree.node ce cl cr).nodeEntries
                          hashFn).map Prod.fst from by
                        rw [nodeEntries_node, List.map_cons, ← hhd]
                        exact List.mem_cons_self _ _)]
                  · rw [if_neg hhd]
                    by_cases hA : b = ProofPath.serialize ⟨k, 256, 0⟩
                    · rw [if_pos hA]
                      have hclnone : storeLookup (cl.nodeEntries hashFn) b
                          = none :=
                        storeLookup_eq_none_of_forall_ne _ _ (fun p hp hc =>
                          entries_key_ne_diverged hashFn hl
                            (show ce < cl.endOf from by omega) (by omega)
                            (show k.getD ce false ≠ cl.firstKey.getD ce false
                              from by
                                rw [hbit, hclbit]
                                simp)
                            256 (by omega) p hp (hc.trans hA))
                      rw [hclnone,
                        if_pos (show b ∈ ((CTree.node ce cl cr).nodeEntries
                            hashFn).map Prod.fst from by
                          rw [nodeEntries_node, List.map_cons]
                          refine List.mem_cons_of_mem _ ?_
                          rw [List.map_append]
                          refine List.mem_append_right _ ?_
                          rw [hcrE, hA]
                          exact List.mem_singleton_self _)]
                    · rw [if_neg hA]
                      rcases h6 : storeLookup (cl.nodeEntries hashFn) b with _ | w
                      · rw [if_neg (show ¬(b ∈ ((CTree.node ce cl cr).nodeEntries
                            hashFn).map Prod.fst) from by
                          intro hc
                          rw [nodeEntries_node, List.map_cons] at hc
                          rcases List.mem_cons.mp hc with hc' | hc'
                          · exact hhd (show ProofPath.serialize
                              ⟨cl.firstKey, ce, 0⟩ = b from hc'.symm)
                          · rw [List.map_append] at hc'
                            rcases List.mem_append.mp hc' with hc'' | hc''
                            · have hs6 := storeLookup_isSome_of_mem hc''
                              rw [h6] at hs6
                              simp at hs6
                            · rw [hcrE] at hc''
                              simp only [List.map_cons, List.map_nil] at hc''
                              exact hA (List.mem_singleton.mp hc''))]
                      · obtain ⟨p, hp, hp1, hp2⟩ := storeLookup_find h6
                        have hval := hstore p (by
                          rw [nodeEntries_node]
                          exact List.mem_cons_of_mem _
                            (List.mem_append_left _ hp))
                        rw [hp1, hp2] at hval
                        exact hval
            · obtain ⟨sA, actA, heq, hact, hsortA, hformA⟩ := ihC gch' hrm hmem
              have hTWg' : TWF (ce + 1) gch' := treeRemove_TWF k hr hrm
              have hrmch : treeRemove k (CTree.node ce cl cr)
                  = some (CTree.node ce cl gch') := by
                simp only [treeRemove]
                rw [if_pos hbit, hrm]
              have hbranch : (CTree.branchOf hashFn cl cr).setChild ChildKind.right
                  ((readPath (gch'.nodePath.serialize)).startFrom ce)
                  (gch'.hashOf hashFn)
                  = CTree.branchOf hashFn cl gch' :=
                branchOf_setChild_right hashFn cl cr gch' _ _
                  (by
                    rw [readPath_nodePath hTWg', startFrom_mk, nodePath_eq]
                    exact serialize_mask_self gch'.firstKey gch'.endOf ce 0
                      (TWF_endOf_le hTWg'))
                  rfl
              have hFORM : ∀ b, storeLookup (storeInsert sA
                  (ProofPath.serialize ⟨ProofPath.maskBits ce cl.firstKey, ce, e⟩)
                  (.branchVal (CTree.branchOf hashFn cl gch'))) b
                = if b = valuePath k then none
                  else match storeLookup ((CTree.node ce cl gch').nodeEntries
                      hashFn) b with
                    | some w => some w
                    | none =>
                      if b ∈ ((CTree.node ce cl cr).nodeEntries hashFn).map
                          Prod.fst then none
                      else storeLookup s b := by
                intro b
                rw [storeLookup_insert, hformA,
                  serialize_mask_self cl.firstKey ce e 0 (by omega),
                  lookup_entries_node hashFn ce cl gch' b]
                by_cases hh : ProofPath.serialize ⟨cl.firstKey, ce, 0⟩ = b
                · rw [if_pos hh, if_pos hh,
                    if_neg (show ¬(b = valuePath k) from fun hc =>
                      serialize_ne_valuePath (⟨cl.firstKey, ce, 0⟩ : ProofPath)
                        k (hh.trans hc))]
                · rw [if_neg hh, if_neg hh]
                  by_cases hv : b = valuePath k
                  · rw [if_pos hv, if_pos hv]
                  · rw [if_neg hv, if_neg hv]
                    rcases h5 : storeLookup (gch'.nodeEntries hashFn) b with _ | w
                    · rcases h6 : storeLookup (cl.nodeEntries hashFn) b with _ | w
                      · by_cases hbm : b ∈ (cr.nodeEntries hashFn).map Prod.fst
                        · rw [if_pos hbm,
                            if_pos (show b ∈ ((CTree.node ce cl cr).nodeEntries
                                hashFn).map Prod.fst from by
                              rw [nodeEntries_node, List.map_cons]
                              refine List.mem_cons_of_mem _ ?_
                              rw [List.map_append]
                              exact List.mem_append_right _ hbm)]
                        · rw [if_neg hbm,
                            if_neg (show ¬(b ∈ ((CTree.node ce cl
                                cr).nodeEntries hashFn).map Prod.fst) from by
                              intro hc
                              rw [nodeEntries_node, List.map_cons] at hc
                              rcases List.mem_cons.mp hc with hc' | hc'
                              · exact hh (show ProofPath.serialize
                                  ⟨cl.firstKey, ce, 0⟩ = b from hc'.symm)
                              · rw [List.map_append] at hc'
                                rcases List.mem_append.mp hc' with hc'' | hc''
                                · have hs6 := storeLookup_isSome_of_mem hc''
                                  rw [h6] at hs6
                                  simp at hs6
                                · exact hbm hc'')]
                      · obtain ⟨p, hp, hp1, hp2⟩ := storeLookup_find h6
                        have hval := hstore p (by
                          rw [nodeEntries_node]
                          exact List.mem_cons_of_mem _
                            (List.mem_append_left _ hp))
                        rw [hp1, hp2] at hval
                        have hbnotcr : b ∉ (cr.nodeEntries hashFn).map
                            Prod.fst := by
                          intro hc
                          have hd := nodeEntries_keys_disjoint hashFn hTW b
                            (by
                              rw [← hp1]
                              exact List.mem_map_of_mem _ hp)
                          exact hd hc
                        rw [if_neg hbnotcr]
                        exact hval
                    · rcases h6 : storeLookup (cl.nodeEntries hashFn) b with _ | w'
                      · rfl
                      · exfalso
                        have hTWT : TWF (e + 1) (CTree.node ce cl gch') :=
                          treeRemove_TWF k hTW hrmch
                        have hdisj := nodeEntries_keys_disjoint hashFn hTWT
                        obtain ⟨p, hp, hp1, _⟩ := storeLookup_find h6
                        obtain ⟨q, hq, hq1, _⟩ := storeLookup_find h5
                        exact hdisj b (by
                            rw [← hp1]
                            exact List.mem_map_of_mem _ hp)
                          (by
                            rw [← hq1]
                            exact List.mem_map_of_mem _ hq)
              rcases hact with hactB | ⟨hactU, hpatheq⟩
              · subst hactB
                simp only [heq]
                rw [hbranch]
                refine ⟨?_, ?_, ?_⟩
                · intro hno
                  rw [hrmch] at hno
                  exact Option.noConfusion hno
                · intro hnm
                  exact absurd (show k ∈ (CTree.node ce cl cr).keysOf from
                    List.mem_append_right _ hmem) hnm
                · intro ch' hrm2 _
                  rw [hrmch] at hrm2
                  injection hrm2 with hch'
                  subst hch'
                  exact ⟨_, _, rfl, Or.inr ⟨rfl, rfl⟩,
                    storeInsert_sorted _ _ _ hsortA, hFORM⟩
              · subst hactU
                simp only [heq]
                rw [branchOf_setChildHash_right hashFn cl cr gch'
                  (gch'.hashOf hashFn) rfl (by
                    rw [nodePath_eq, nodePath_eq] at hpatheq ⊢
                    exact hpatheq.symm)]
                refine ⟨?_, ?_, ?_⟩
                · intro hno
                  rw [hrmch] at hno
                  exact Option.noConfusion hno
                · intro hnm
                  exact absurd (show k ∈ (CTree.node ce cl cr).keysOf from
                    List.mem_append_right _ hmem) hnm
                · intro ch' hrm2 _
                  rw [hrmch] at hrm2
                  injection hrm2 with hch'
                  subst hch'
                  exact ⟨_, _, rfl, Or.inr ⟨rfl, rfl⟩,
                    storeInsert_sorted _ _ _ hsortA, hFORM⟩
          · have hknotch : k ∉ (CTree.node ce cl cr).keysOf := by
              intro hmm
              exact hmem ((mem_keys_side hTW hmm).1 hbit)
            have heqB := ihB hmem
            simp only [heqB]
            refine ⟨?_, fun _ => by trivial, ?_⟩
            · intro hno
              have hkeq := (treeRemove_keysOf k hTW).2 hno
              exact absurd (show k ∈ (CTree.node ce cl cr).keysOf from by
                rw [hkeq]
                exact List.mem_singleton_self k) hknotch
            · intro ch' hrm2 hmm2
              exact absurd hmm2 hknotch

/-- Effect of `remove` on the value-key layer: the value of `k` disappears,
every other lookup is unchanged. -/
theorem valueEntries_erase (f : KeyBits → Bytes) (k : KeyBits)
    (hk : k.length = 256) {ks : List KeyBits} (hsort : SortedKeys ks) :
    ∀ b, storeLookup (valueEntries f (ks.erase k)) b
      = if b = valuePath k then none
        else storeLookup (valueEntries f ks) b := by
  have hnd := sortedKeys_nodup hsort
  have hlen' : ∀ q ∈ ks.erase k, q.length = 256 :=
    fun q hq => hsort.2 q (List.mem_of_mem_erase hq)
  intro b
  by_cases hb : b = valuePath k
  · rw [if_pos hb, hb, valueEntries_lookup f _ k hk hlen',
      if_neg (show ¬(k ∈ ks.erase k) from fun hc =>
        absurd rfl ((List.Nodup.mem_erase_iff hnd).mp hc).1)]
  · rw [if_neg hb]
    rcases hold : storeLookup (valueEntries f ks) b with _ | w
    · apply storeLookup_eq_none_of_forall_ne
      intro p hp
      obtain ⟨q, hq, rfl⟩ := List.mem_map.mp hp
      intro hc
      have hc' : valuePath q = b := hc
      have hqks : q ∈ ks := List.mem_of_mem_erase hq
      rw [← hc', valueEntries_lookup f ks q (hsort.2 q hqks) hsort.2,
        if_pos hqks] at hold
      exact Option.noConfusion hold
    · obtain ⟨p, hp, hp1, hp2⟩ := storeLookup_find hold
      obtain ⟨q, hq, rfl⟩ := List.mem_map.mp hp
      have hp1' : valuePath q = b := hp1
      have hp2' : StoredValue.userVal (f q) = w := hp2
      have hqk : q ≠ k := fun he => hb (by rw [← hp1', he])
      rw [← hp1', valueEntries_lookup f _ q (hsort.2 q hq) hlen',
        if_pos ((List.Nodup.mem_erase_iff hnd).mpr ⟨hqk, hq⟩), hp2']

/-- `remove` on the empty map is a no-op. -/
theorem mapRemove_correct_nil (hashFn : Bytes → Bytes) (f : KeyBits → Bytes)
    (k : KeyBits) :
    mapRemove hashFn (buildState hashFn f []) k
      = some (buildState hashFn f (([] : List KeyBits).erase k)) := rfl

/-- `remove` when the stored root is a leaf: the leaf and its value vanish
for the matching key, any other key is a no-op. -/
theorem mapRemove_correct_leafroot (hashFn : Bytes → Bytes) (f : KeyBits → Bytes)
    (ks : List KeyBits) (k : KeyBits) (hk : k.length = 256)
    (hsort : SortedKeys ks) (hne : ks ≠ []) (k₀ : KeyBits) (v₀ : Bytes)
    (hTc : buildTree f ks = .leaf k₀ v₀) :
    mapRemove hashFn (buildState hashFn f ks) k
      = some (buildState hashFn f (ks.erase k)) := by
  obtain ⟨hkeys, htwf, hvals⟩ := buildTree_spec f ks hne hsort
  rw [hTc] at hkeys htwf hvals
  have hks : ks = [k₀] := by
    rw [← hkeys]
    rfl
  have hk₀ : k₀.length = 256 :=
    hsort.2 k₀ (by rw [hks]; exact List.mem_singleton_self _)
  have hcplpe : (⟨k, 256, 0⟩ : ProofPath).commonPrefixLen
      ⟨ProofPath.maskBits 256 k₀, 256, 0⟩ = min 256 (divergeFrom k k₀ 0) := by
    have hcpl := commonPrefixLen_spec ⟨k, 256, 0⟩
      ⟨ProofPath.maskBits 256 k₀, 256, 0⟩ rfl
      (fun j hj1 hj2 => absurd (show j < 0 from hj2) (by omega))
      (by show (0 : Nat) ≤ 256; omega) (by show (0 : Nat) ≤ 256; omega)
      le_rfl le_rfl
    have hcpl' : (⟨k, 256, 0⟩ : ProofPath).commonPrefixLen
        ⟨ProofPath.maskBits 256 k₀, 256, 0⟩
        = min (min (256 - 0) (256 - 0))
          (divergeFrom k (ProofPath.maskBits 256 k₀) 0 - 0) := hcpl
    rw [hcpl']
    have h1 : divergeFrom k (ProofPath.maskBits 256 k₀) 0
        = divergeFrom (ProofPath.maskBits 256 k₀) k 0 :=
      divergeFrom_symm _ _ 0 (by omega)
    rcases Nat.lt_or_ge (divergeFrom k k₀ 0) 256 with hdv | hdv
    · have h3 := divergeFrom_mask_lt k₀ k 0 256 (by omega) le_rfl hdv
      omega
    · have h3 := divergeFrom_mask_ge k₀ k 0 256 (by omega) le_rfl hdv
      have h4 := divergeFrom_le (ProofPath.maskBits 256 k₀) k 0 (by omega)
      have h5 := divergeFrom_le k k₀ 0 (by omega)
      omega
  simp only [mapRemove, ProofPath.ofKey, getRootNode_buildState hashFn f hsort hne,
    hTc, CTree.nodeOf, readPath_nodePath htwf, CTree.endOf, CTree.firstKey]
  rw [show (⟨k, 256, 0⟩ : ProofPath).pathEq ⟨ProofPath.maskBits 256 k₀, 256, 0⟩
      = (min 256 (divergeFrom k k₀ 0) == 256) from by
    unfold ProofPath.pathEq ProofPath.startsWith
    rw [hcplpe, len_mk, len_mk]
    rfl]
  by_cases hkk : k = k₀
  · subst hkk
    have hD : divergeFrom k k 0 = 256 :=
      (divergeFrom_eq_iff k k 0 256 (by omega) le_rfl).mpr
        ⟨fun j _ _ => rfl, fun hc => absurd hc (by omega)⟩
    rw [hD, show min 256 256 = 256 from rfl,
      if_pos (show ((256 : Nat) == 256) = true from rfl)]
    rw [show ks.erase k = [] from by rw [hks]; exact List.erase_cons_head k []]
    refine congrArg some (storeExt
      (storeErase_sorted _ _ (storeErase_sorted _ _ (buildState_sorted _ _ _)))
      List.chain'_nil ?_)
    intro b
    rw [show removeLeaf (buildState hashFn f ks) ⟨k, 256, 0⟩ k
        = storeErase (storeErase (buildState hashFn f ks)
          (ProofPath.serialize ⟨k, 256, 0⟩)) (valuePath k) from rfl,
      storeLookup_erase _ _ _
        (storeSorted_nodup (storeErase_sorted _ _ (buildState_sorted _ _ _))),
      storeLookup_erase _ _ _ (storeSorted_nodup (buildState_sorted _ _ _))]
    show _ = (none : Option StoredValue)
    by_cases hv : valuePath k = b
    · rw [if_pos hv]
    · rw [if_neg hv]
      by_cases hA : ProofPath.serialize ⟨k, 256, 0⟩ = b
      · rw [if_pos hA]
      · rw [if_neg hA, buildState_lookup hashFn f hsort hne, hTc,
          show (CTree.leaf k v₀).nodeEntries hashFn
            = [(ProofPath.serialize ⟨k, 256, 0⟩, .hashVal (hashFn v₀))] from rfl,
          storeLookup_cons, storeLookup_nil, if_neg hA,
          show valueEntries f ks = [(valuePath k, .userVal (f k))] from by
            rw [hks]
            rfl,
          storeLookup_cons, storeLookup_nil, if_neg hv]
  · have hD256 : divergeFrom k k₀ 0 < 256 := by
      rcases Nat.lt_or_ge (divergeFrom k k₀ 0) 256 with h | h
      · exact h
      · exfalso
        have hle := divergeFrom_le k k₀ 0 (by omega)
        have h256 : divergeFrom k k₀ 0 = 256 := by omega
        have hag := ((divergeFrom_eq_iff k k₀ 0 256 (by omega) le_rfl).mp h256).1
        apply hkk
        apply getD_ext_of_length false (by omega)
        intro j
        rcases Nat.lt_or_ge j 256 with hj | hj
        · exact hag j (by omega) hj
        · rw [List.getD_eq_getElem?_getD, List.getD_eq_getElem?_getD,
            List.getElem?_eq_none (by omega), List.getElem?_eq_none (by omega)]
    rw [show min 256 (divergeFrom k k₀ 0) = divergeFrom k k₀ 0 from by omega,
      if_neg (show ¬((divergeFrom k k₀ 0 == 256) = true) from fun hc =>
        absurd (show divergeFrom k k₀ 0 = 256 from by simpa using hc)
          (by omega))]
    rw [List.erase_of_not_mem (show k ∉ ks from by
      rw [hks]
      intro hc
      exact hkk (List.mem_singleton.mp hc))]

/-- `remove` when the stored root is a branch: the key either diverges from
the root prefix (no-op), is absent from the selected subtree (no-op), removes
the last key of the selected subtree (the root collapses onto the sibling), or
is removed inside the subtree (the root record is updated in place). -/
theorem mapRemove_correct_branchroot (hashFn : Bytes → Bytes) (f : KeyBits → Bytes)
    (ks : List KeyBits) (k : KeyBits) (hk : k.length = 256)
    (hsort : SortedKeys ks) (hne : ks ≠ []) (ce : Nat) (cl cr : CTree)
    (hTc : buildTree f ks = .node ce cl cr) :
    mapRemove hashFn (buildState hashFn f ks) k
      = some (buildState hashFn f (ks.erase k)) := by
  obtain ⟨hkeys, htwf, hvals⟩ := buildTree_spec f ks hne hsort
  rw [hTc] at hkeys htwf hvals
  have hce : ce < 256 := by
    cases htwf with
    | node hde he2 hl hr hag hbl hbr => exact he2
  have hl : TWF (ce + 1) cl := by
    cases htwf with
    | node hde he2 hl hr hag hbl hbr => exact hl
  have hr : TWF (ce + 1) cr := by
    cases htwf with
    | node hde he2 hl hr hag hbl hbr => exact hr
  have hagLR : ∀ q ∈ cl.keysOf ++ cr.keysOf, agreeBelow ce q cl.firstKey := by
    cases htwf with
    | node hde he2 hl hr hag hbl hbr => exact hag
  have hbitl : ∀ q ∈ cl.keysOf, q.getD ce false = false := by
    cases htwf with
    | node hde he2 hl hr hag hbl hbr => exact hbl
  have hbitr : ∀ q ∈ cr.keysOf, q.getD ce false = true := by
    cases htwf with
    | node hde he2 hl hr hag hbl hbr => exact hbr
  have hclbit : cl.firstKey.getD ce false = false :=
    hbitl cl.firstKey (firstKey_mem cl)
  have hcrbit : cr.firstKey.getD ce false = true :=
    hbitr cr.firstKey (firstKey_mem cr)
  have hclEnd : ce + 1 ≤ cl.endOf := TWF_endOf_ge hl
  have hcrEnd : ce + 1 ≤ cr.endOf := TWF_endOf_ge hr
  have hcpl : (⟨ProofPath.maskBits ce cl.firstKey, ce, 0⟩
      : ProofPath).commonPrefixLen ⟨k, 256, 0⟩
      = min ce (divergeFrom k cl.firstKey 0) :=
    root_cpl k (CTree.node ce cl cr) htwf hk
  have hspec0 := divergeFrom_spec k cl.firstKey 0 (by omega)
  simp only [mapRemove, ProofPath.ofKey, getRootNode_buildState hashFn f hsort hne,
    hTc, CTree.nodeOf, readPath_nodePath htwf, CTree.endOf, CTree.firstKey,
    len_mk, Nat.sub_zero]
  rcases Nat.lt_or_ge (divergeFrom k cl.firstKey 0) ce with hsp | hdes
  · -- the key diverges from the root prefix: nothing to remove
    have hknot : k ∉ ks := by
      intro hc
      have hmK : k ∈ cl.keysOf ++ cr.keysOf := by
        have hmK' : k ∈ (CTree.node ce cl cr).keysOf := by
          rw [hkeys]
          exact hc
        exact hmK'
      have hge := le_divergeFrom_of_agree k cl.firstKey 0 ce (by omega) (by omega)
        (fun j hj1 hj2 => hagLR k hmK j hj2)
      omega
    rw [hcpl,
      show min ce (divergeFrom k cl.firstKey 0) = divergeFrom k cl.firstKey 0
        from by omega,
      if_neg (show ¬(divergeFrom k cl.firstKey 0 = ce) from by omega),
      List.erase_of_not_mem hknot]
  · -- the key shares the whole root prefix
    have hmin : min ce (divergeFrom k cl.firstKey 0) = ce := by omega
    have hagce : agreeBelow ce k cl.firstKey :=
      fun j hj => hspec0.1 j (by omega) (by omega)
    have hstoreB : ∀ p ∈ (CTree.node ce cl cr).nodeEntries hashFn,
        storeLookup (buildState hashFn f ks) p.1 = some p.2 := by
      intro p hp
      rw [buildState_lookup hashFn f hsort hne, hTc]
      have hlk : storeLookup ((CTree.node ce cl cr).nodeEntries hashFn) p.1
          = some p.2 :=
        (storeLookup_some_iff_mem (nodeEntries_keys_nodup hashFn htwf) _ _).mpr hp
      rw [hlk]
    simp only [hcpl, hmin, suffix_mk, Nat.zero_add]
    rw [if_pos trivial]
    rcases (Bool.eq_false_or_eq_true (k.getD ce false)).symm with hbit | hbit
    · -- the key selects the left child
      have hagcl : agreeBelow (ce + 1) k cl.firstKey := by
        intro j hj
        rcases Nat.lt_or_ge j ce with hj' | hj'
        · exact hagce j hj'
        · have hje : j = ce := by omega
          rw [hje, hbit, hclbit]
      have hbitCK : (⟨k, 256, ce⟩ : ProofPath).bit 0 = ChildKind.left := by
        rw [bit_mk]
        simp only [Nat.add_zero]
        rw [if_neg (show ¬(k.getD ce false = true) from fun hc => by
          rw [hbit] at hc
          exact Bool.false_ne_true hc)]
      have hstartP : (⟨k, 256, ce⟩ : ProofPath).start = ce := rfl
      have hchildPath : (CTree.branchOf hashFn cl cr).childPath
          ((⟨k, 256, ce⟩ : ProofPath).bit 0) = readPath (cl.nodePath.serialize) := by
        rw [hbitCK]
        exact branchOf_childPath_left hashFn cl cr
      have hstoreCl : ∀ p ∈ cl.nodeEntries hashFn,
          storeLookup (buildState hashFn f ks) p.1 = some p.2 :=
        fun p hp => hstoreB p (by
          rw [nodeEntries_node]
          exact List.mem_cons_of_mem _ (List.mem_append_left _ hp))
      simp only [hbitCK, hstartP]
      obtain ⟨hRA, hRB, hRC⟩ := removeNode_correct hashFn k hk 257 ce cl
        (CTree.branchOf hashFn cl cr) (buildState hashFn f ks) hl hce hagcl
        hchildPath hstoreCl (buildState_sorted _ _ _) (by omega)
      by_cases hmem : k ∈ cl.keysOf
      · rcases hrm : treeRemove k cl with _ | gch'
        · -- the left child was the leaf of k: the root collapses onto cr
          obtain ⟨sA, heqA, hsortA, hformA⟩ := hRA hrm
          obtain ⟨v', hclE⟩ := treeRemove_none_leaf k hl hrm
          have hclentries : cl.nodeEntries hashFn
              = [(ProofPath.serialize ⟨k, 256, 0⟩, .hashVal (hashFn v'))] := by
            rw [hclE]
            rfl
          have hrmch : treeRemove k (CTree.node ce cl cr) = some cr := by
            simp only [treeRemove]
            rw [hbit, if_neg Bool.false_ne_true, hrm]
          have hBTA : cr = buildTree f (ks.erase k) :=
            buildTree_erase f k hsort hne (by rw [hTc]; exact hrmch)
          have hkeyscr : cr.keysOf = ks.erase k := by
            rw [(treeRemove_keysOf k htwf).1 cr hrmch, hkeys]
          have hne'' : ks.erase k ≠ [] := by
            intro hc
            apply keysOf_ne_nil cr
            rw [hkeyscr, hc]
          have hsort'' := erase_sorted k hsort
          simp only [heqA]
          refine congrArg some (storeExt (storeErase_sorted _ _ hsortA)
            (buildState_sorted _ _ _) ?_)
          intro b
          rw [storeLookup_erase _ _ _ (storeSorted_nodup hsortA), hformA b,
            buildState_lookup hashFn f hsort'' hne'', ← hBTA,
            buildState_lookup hashFn f hsort hne, hTc,
            lookup_entries_node hashFn ce cl cr b,
            valueEntries_erase f k hk hsort b,
            serialize_mask_self cl.firstKey ce 0 0 (by omega)]
          by_cases hh : ProofPath.serialize ⟨cl.firstKey, ce, 0⟩ = b
          · rw [if_pos hh]
            have hcrnone : storeLookup (cr.nodeEntries hashFn) b = none :=
              storeLookup_eq_none_of_forall_ne _ _ (fun p hp hc =>
                entries_key_ne_short hashFn hr cl.firstKey ce (by omega) p hp
                  (hc.trans hh.symm))
            simp only [hcrnone]
            rw [if_neg (show ¬(b = valuePath k) from fun hc =>
                serialize_ne_valuePath (⟨cl.firstKey, ce, 0⟩ : ProofPath) k
                  (hh.trans hc)),
              ← hh, valueEntries_lookup_serialize]
          · rw [if_neg hh]
            by_cases hv : b = valuePath k
            · rw [if_pos hv, hv]
              simp only [nodeEntries_lookup_valuePath hashFn hr k]
              rw [if_pos trivial]
            · rw [if_neg hv]
              by_cases hA : b = ProofPath.serialize ⟨k, 256, 0⟩
              · rw [if_pos hA]
                have hdiffb : k.getD ce false ≠ cr.firstKey.getD ce false := by
                  rw [hbit, hcrbit]
                  exact fun hc => Bool.noConfusion hc
                have hcrnone : storeLookup (cr.nodeEntries hashFn) b = none :=
                  storeLookup_eq_none_of_forall_ne _ _ (fun p hp hc =>
                    entries_key_ne_diverged hashFn hr (by omega) (by omega)
                      hdiffb 256 (by omega) p hp (hc.trans hA))
                simp only [hcrnone]
                rw [if_neg hv, hA, valueEntries_lookup_serialize]
              · rw [if_neg hA, if_neg hh, hclentries, storeLookup_cons,
                  storeLookup_nil,
                  if_neg (show ¬(ProofPath.serialize ⟨k, 256, 0⟩ = b) from
                    fun hc => hA hc.symm)]
                rcases h6 : storeLookup (cr.nodeEntries hashFn) b with _ | w
                · simp only [h6]
                  rw [if_neg hv]
                · simp only [h6]
        · -- the key was removed inside the left subtree
          obtain ⟨sA, act, heqA, hact, hsortA, hformA⟩ := hRC gch' hrm hmem
          have hTWg : TWF (ce + 1) gch' := treeRemove_TWF k hl hrm
          have hgkeys : gch'.keysOf = cl.keysOf.erase k :=
            (treeRemove_keysOf k hl).1 gch' hrm
          have hgfk_mem : gch'.firstKey ∈ cl.keysOf :=
            List.mem_of_mem_erase (hgkeys ▸ firstKey_mem gch')
          have hserhead : ProofPath.serialize ⟨cl.firstKey, ce, 0⟩
              = ProofPath.serialize ⟨gch'.firstKey, ce, 0⟩ :=
            serialize_congr _ _ rfl (fun j hj1 hj2 => by
              have hj2' : j < ce := hj2
              exact (TWF_agree hl gch'.firstKey hgfk_mem j hj1 (by omega)).symm)
          have hrmch : treeRemove k (CTree.node ce cl cr)
              = some (CTree.node ce gch' cr) := by
            simp only [treeRemove]
            rw [hbit, if_neg Bool.false_ne_true, hrm]
          have hBTA : CTree.node ce gch' cr = buildTree f (ks.erase k) :=
            buildTree_erase f k hsort hne (by rw [hTc]; exact hrmch)
          have hkeysN : (CTree.node ce gch' cr).keysOf = ks.erase k := by
            rw [(treeRemove_keysOf k htwf).1 _ hrmch, hkeys]
          have hne'' : ks.erase k ≠ [] := by
            intro hc
            apply keysOf_ne_nil (CTree.node ce gch' cr)
            rw [hkeysN, hc]
          have hsort'' := erase_sorted k hsort
          have hpser : ProofPath.serialize
              ((readPath (gch'.nodePath.serialize)).startFrom ce)
              = gch'.nodePath.serialize := by
            rw [readPath_nodePath hTWg, startFrom_mk, nodePath_eq]
            exact serialize_mask_self gch'.firstKey gch'.endOf ce 0
              (TWF_endOf_le hTWg)
          suffices htail :
              some (storeInsert sA
                (ProofPath.serialize ⟨ProofPath.maskBits ce cl.firstKey, ce, 0⟩)
                (.branchVal (CTree.branchOf hashFn gch' cr)))
              = some (buildState hashFn f (ks.erase k)) by
            rcases hact with hactB | ⟨hactU, hpatheq⟩
            · subst hactB
              simp only [heqA]
              rw [branchOf_setChild_left hashFn cl cr gch' _ _ hpser rfl]
              exact htail
            · subst hactU
              simp only [heqA]
              rw [branchOf_setChildHash_left hashFn cl cr gch' _ rfl hpatheq.symm]
              exact htail
          refine congrArg some (storeExt (storeInsert_sorted _ _ _ hsortA)
            (buildState_sorted _ _ _) ?_)
          intro b
          rw [storeLookup_insert, hformA b,
            buildState_lookup hashFn f hsort'' hne'', ← hBTA,
            lookup_entries_node hashFn ce gch' cr b,
            buildState_lookup hashFn f hsort hne, hTc,
            lookup_entries_node hashFn ce cl cr b,
            valueEntries_erase f k hk hsort b,
            serialize_mask_self cl.firstKey ce 0 0 (by omega), hserhead]
          by_cases hh : ProofPath.serialize ⟨gch'.firstKey, ce, 0⟩ = b
          · rw [if_pos hh, if_pos hh]
          · rw [if_neg hh, if_neg hh, if_neg hh]
            by_cases hv : b = valuePath k
            · rw [if_pos hv, hv]
              simp only [nodeEntries_lookup_valuePath hashFn hTWg k,
                nodeEntries_lookup_valuePath hashFn hr k]
              rw [if_pos trivial]
            · rw [if_neg hv]
              rcases h5 : storeLookup (gch'.nodeEntries hashFn) b with _ | w
              · simp only [h5]
                by_cases hbm : b ∈ (cl.nodeEntries hashFn).map Prod.fst
                · rw [if_pos hbm]
                  obtain ⟨p, hp, hpb⟩ := List.mem_map.mp hbm
                  have hcrnone : storeLookup (cr.nodeEntries hashFn) b = none :=
                    storeLookup_eq_none_of_forall_ne _ _ (fun q hq hc =>
                      nodeEntries_keys_disjoint hashFn htwf b hbm (by
                        rw [← hc]
                        exact List.mem_map_of_mem _ hq))
                  obtain ⟨ep, β, h1, h2, h3, h4, h5'⟩ :=
                    nodeEntries_shape hashFn hl p hp
                  have hVE : storeLookup (valueEntries f ks) b = none := by
                    rw [← hpb, h1]
                    exact valueEntries_lookup_serialize f ks _
                  simp only [hcrnone]
                  rw [if_neg hv, hVE]
                · rw [if_neg hbm]
                  have hclnone : storeLookup (cl.nodeEntries hashFn) b = none :=
                    storeLookup_eq_none_of_forall_ne _ _ (fun q hq hc =>
                      hbm (by
                        rw [← hc]
                        exact List.mem_map_of_mem _ hq))
                  simp only [hclnone]
                  rcases h6 : storeLookup (cr.nodeEntries hashFn) b with _ | w
                  · simp only [h6]
                    rw [if_neg hv]
                  · simp only [h6]
              · simp only [h5]
      · -- the key is not stored: remove_node reports KeyNotFound
        have hknotks : k ∉ ks := by
          intro hc
          apply hmem
          refine (mem_keys_side htwf ?_).2 hbit
          rw [hkeys]
          exact hc
        have heqB := hRB hmem
        simp only [heqB]
        rw [List.erase_of_not_mem hknotks]
    · -- the key selects the right child
      have hagcr : agreeBelow (ce + 1) k cr.firstKey := by
        intro j hj
        rcases Nat.lt_or_ge j ce with hj' | hj'
        · rw [hagce j hj']
          exact (hagLR cr.firstKey
            (List.mem_append_right _ (firstKey_mem cr)) j hj').symm
        · have hje : j = ce := by omega
          rw [hje, hbit, hcrbit]
      have hbitCK : (⟨k, 256, ce⟩ : ProofPath).bit 0 = ChildKind.right := by
        rw [bit_mk]
        simp only [Nat.add_zero]
        rw [if_pos hbit]
      have hstartP : (⟨k, 256, ce⟩ : ProofPath).start = ce := rfl
      have hchildPath : (CTree.branchOf hashFn cl cr).childPath
          ((⟨k, 256, ce⟩ : ProofPath).bit 0) = readPath (cr.nodePath.serialize) := by
        rw [hbitCK]
        exact branchOf_childPath_right hashFn cl cr
      have hstoreCr : ∀ p ∈ cr.nodeEntries hashFn,
          storeLookup (buildState hashFn f ks) p.1 = some p.2 :=
        fun p hp => hstoreB p (by
          rw [nodeEntries_node]
          exact List.mem_cons_of_mem _ (List.mem_append_right _ hp))
      simp only [hbitCK, hstartP]
      obtain ⟨hRA, hRB, hRC⟩ := removeNode_correct hashFn k hk 257 ce cr
        (CTree.branchOf hashFn cl cr) (buildState hashFn f ks) hr hce hagcr
        hchildPath hstoreCr (buildState_sorted _ _ _) (by omega)
      by_cases hmem : k ∈ cr.keysOf
      · rcases hrm : treeRemove k cr with _ | gch'
        · -- the right child was the leaf of k: the root collapses onto cl
          obtain ⟨sA, heqA, hsortA, hformA⟩ := hRA hrm
          obtain ⟨v', hcrE⟩ := treeRemove_none_leaf k hr hrm
          have hcrentries : cr.nodeEntries hashFn
              = [(ProofPath.serialize ⟨k, 256, 0⟩, .hashVal (hashFn v'))] := by
            rw [hcrE]
            rfl
          have hrmch : treeRemove k (CTree.node ce cl cr) = some cl := by
            simp only [treeRemove]
            rw [hbit, if_pos rfl, hrm]
          have hBTA : cl = buildTree f (ks.erase k) :=
            buildTree_erase f k hsort hne (by rw [hTc]; exact hrmch)
          have hkeyscl : cl.keysOf = ks.erase k := by
            rw [(treeRemove_keysOf k htwf).1 cl hrmch, hkeys]
          have hne'' : ks.erase k ≠ [] := by
            intro hc
            apply keysOf_ne_nil cl
            rw [hkeyscl, hc]
          have hsort'' := erase_sorted k hsort
          simp only [heqA]
          refine congrArg some (storeExt (storeErase_sorted _ _ hsortA)
            (buildState_sorted _ _ _) ?_)
          intro b
          rw [storeLookup_erase _ _ _ (storeSorted_nodup hsortA), hformA b,
            buildState_lookup hashFn f hsort'' hne'', ← hBTA,
            buildState_lookup hashFn f hsort hne, hTc,
            lookup_entries_node hashFn ce cl cr b,
            valueEntries_erase f k hk hsort b,
            serialize_mask_self cl.firstKey ce 0 0 (by omega)]
          by_cases hh : ProofPath.serialize ⟨cl.firstKey, ce, 0⟩ = b
          · rw [if_pos hh]
            have hclnone : storeLookup (cl.nodeEntries hashFn) b = none :=
              storeLookup_eq_none_of_forall_ne _ _ (fun p hp hc =>
                entries_key_ne_short hashFn hl cl.firstKey ce (by omega) p hp
                  (hc.trans hh.symm))
            simp only [hclnone]
            rw [if_neg (show ¬(b = valuePath k) from fun hc =>
                serialize_ne_valuePath (⟨cl.firstKey, ce, 0⟩ : ProofPath) k
                  (hh.trans hc)),
              ← hh, valueEntries_lookup_serialize]
          · rw [if_neg hh]
            by_cases hv : b = valuePath k
            · rw [if_pos hv, hv]
              simp only [nodeEntries_lookup_valuePath hashFn hl k]
              rw [if_pos trivial]
            · rw [if_neg hv]
              by_cases hA : b = ProofPath.serialize ⟨k, 256, 0⟩
              · rw [if_pos hA]
                have hdiffb : k.getD ce false ≠ cl.firstKey.getD ce false := by
                  rw [hbit, hclbit]
                  exact fun hc => Bool.noConfusion hc
                have hclnone : storeLookup (cl.nodeEntries hashFn) b = none :=
                  storeLookup_eq_none_of_forall_ne _ _ (fun p hp hc =>
                    entries_key_ne_diverged hashFn hl (by omega) (by omega)
                      hdiffb 256 (by omega) p hp (hc.trans hA))
                simp only [hclnone]
                rw [if_neg hv, hA, valueEntries_lookup_serialize]
              · rw [if_neg hA, if_neg hh]
                rcases h6 : storeLookup (cl.nodeEntries hashFn) b with _ | w
                · simp only [h6]
                  rw [hcrentries, storeLookup_cons, storeLookup_nil,
                    if_neg (show ¬(ProofPath.serialize ⟨k, 256, 0⟩ = b) from
                      fun hc => hA hc.symm), if_neg hv]
                · simp only [h6]
        · -- the key was removed inside the right subtree
          obtain ⟨sA, act, heqA, hact, hsortA, hformA⟩ := hRC gch' hrm hmem
          have hTWg : TWF (ce + 1) gch' := treeRemove_TWF k hr hrm
          have hrmch : treeRemove k (CTree.node ce cl cr)
              = some (CTree.node ce cl gch') := by
            simp only [treeRemove]
            rw [hbit, if_pos rfl, hrm]
          have hBTA : CTree.node ce cl gch' = buildTree f (ks.erase k) :=
            buildTree_erase f k hsort hne (by rw [hTc]; exact hrmch)
          have hkeysN : (CTree.node ce cl gch').keysOf = ks.erase k := by
            rw [(treeRemove_keysOf k htwf).1 _ hrmch, hkeys]
          have hne'' : ks.erase k ≠ [] := by
            intro hc
            apply keysOf_ne_nil (CTree.node ce cl gch')
            rw [hkeysN, hc]
          have hsort'' := erase_sorted k hsort
          have hTWN : TWF 0 (CTree.node ce cl gch') := by
            rw [hBTA]
            exact (buildTree_spec f _ hne'' hsort'').2.1
          have hpser : ProofPath.serialize
              ((readPath (gch'.nodePath.serialize)).startFrom ce)
              = gch'.nodePath.serialize := by
            rw [readPath_nodePath hTWg, startFrom_mk, nodePath_eq]
            exact serialize_mask_self gch'.firstKey gch'.endOf ce 0
              (TWF_endOf_le hTWg)
          suffices htail :
              some (storeInsert sA
                (ProofPath.serialize ⟨ProofPath.maskBits ce cl.firstKey, ce, 0⟩)
                (.branchVal (CTree.branchOf hashFn cl gch')))
              = some (buildState hashFn f (ks.erase k)) by
            rcases hact with hactB | ⟨hactU, hpatheq⟩
            · subst hactB
              simp only [heqA]
              rw [branchOf_setChild_right hashFn cl cr gch' _ _ hpser rfl]
              exact htail
            · subst hactU
              simp only [heqA]
              rw [branchOf_setChildHash_right hashFn cl cr gch' _ rfl hpatheq.symm]
              exact htail
          refine congrArg some (storeExt (storeInsert_sorted _ _ _ hsortA)
            (buildState_sorted _ _ _) ?_)
          intro b
          rw [storeLookup_insert, hformA b,
            buildState_lookup hashFn f hsort'' hne'', ← hBTA,
            lookup_entries_node hashFn ce cl gch' b,
            buildState_lookup hashFn f hsort hne, hTc,
            lookup_entries_node hashFn ce cl cr b,
            valueEntries_erase f k hk hsort b,
            serialize_mask_self cl.firstKey ce 0 0 (by omega)]
          by_cases hh : ProofPath.serialize ⟨cl.firstKey, ce, 0⟩ = b
          · rw [if_pos hh, if_pos hh]
          · rw [if_neg hh, if_neg hh, if_neg hh]
            by_cases hv : b = valuePath k
            · rw [if_pos hv, hv]
              simp only [nodeEntries_lookup_valuePath hashFn hl k,
                nodeEntries_lookup_valuePath hashFn hTWg k]
              rw [if_pos trivial]
            · rw [if_neg hv]
              rcases h5 : storeLookup (gch'.nodeEntries hashFn) b with _ | w
              · simp only [h5]
                by_cases hbm : b ∈ (cr.nodeEntries hashFn).map Prod.fst
                · rw [if_pos hbm]
                  obtain ⟨p, hp, hpb⟩ := List.mem_map.mp hbm
                  have hclnone : storeLookup (cl.nodeEntries hashFn) b = none :=
                    storeLookup_eq_none_of_forall_ne _ _ (fun q hq hc =>
                      nodeEntries_keys_disjoint hashFn htwf b (by
                        rw [← hc]
                        exact List.mem_map_of_mem _ hq) hbm)
                  obtain ⟨ep, β, h1, h2, h3, h4, h5'⟩ :=
                    nodeEntries_shape hashFn hr p hp
                  have hVE : storeLookup (valueEntries f ks) b = none := by
                    rw [← hpb, h1]
                    exact valueEntries_lookup_serialize f ks _
                  simp only [hclnone]
                  rw [if_neg hv, hVE]
                · rw [if_neg hbm]
                  rcases h6 : storeLookup (cl.nodeEntries hashFn) b with _ | w
                  · simp only [h6]
                    have hcrnone : storeLookup (cr.nodeEntries hashFn) b = none :=
                      storeLookup_eq_none_of_forall_ne _ _ (fun q hq hc =>
                        hbm (by
                          rw [← hc]
                          exact List.mem_map_of_mem _ hq))
                    simp only [hcrnone]
                    rw [if_neg hv]
                  · simp only [h6]
              · simp only [h5]
                have hbgch : b ∈ (gch'.nodeEntries hashFn).map Prod.fst := by
                  obtain ⟨p, hp, hp1, hp2⟩ := storeLookup_find h5
                  rw [← hp1]
                  exact List.mem_map_of_mem _ hp
                have hclnone : storeLookup (cl.nodeEntries hashFn) b = none :=
                  storeLookup_eq_none_of_forall_ne _ _ (fun q hq hc =>
                    nodeEntries_keys_disjoint hashFn hTWN b (by
                      rw [← hc]
                      exact List.mem_map_of_mem _ hq) hbgch)
                simp only [hclnone]
      · -- the key is not stored: remove_node reports KeyNotFound
        have hknotks : k ∉ ks := by
          intro hc
          apply hmem
          refine (mem_keys_side htwf ?_).1 hbit
          rw [hkeys]
          exact hc
        have heqB := hRB hmem
        simp only [heqB]
        rw [List.erase_of_not_mem hknotks]

/-- `put` refines sorted insertion on the canonical state, for every root
shape. -/
theorem mapPut_correct (hashFn : Bytes → Bytes) (f : KeyBits → Bytes)
    (ks : List KeyBits) (k : KeyBits) (v : Bytes) (hk : k.length = 256)
    (hsort : SortedKeys ks) :
    mapPut hashFn (buildState hashFn f ks) k v
      = some (buildState hashFn (updateF f k v) (insortKey k ks)) := by
  by_cases hne : ks = []
  · subst hne
    exact mapPut_correct_nil hashFn f k v
  · cases hTc : buildTree f ks with
    | leaf k₀ v₀ =>
      exact mapPut_correct_leafroot hashFn f ks k v hk hsort hne k₀ v₀ hTc
    | node ce cl cr =>
      exact mapPut_correct_branchroot hashFn f ks k v hk hsort hne ce cl cr hTc

/-- `remove` refines erasure of the key on the canonical state, for every
root shape. -/
theorem mapRemove_correct (hashFn : Bytes → Bytes) (f : KeyBits → Bytes)
    (ks : List KeyBits) (k : KeyBits) (hk : k.length = 256)
    (hsort : SortedKeys ks) :
    mapRemove hashFn (buildState hashFn f ks) k
      = some (buildState hashFn f (ks.erase k)) := by
  by_cases hne : ks = []
  · subst hne
    exact mapRemove_correct_nil hashFn f k
  · cases hTc : buildTree f ks with
    | leaf k₀ v₀ =>
      exact mapRemove_correct_leafroot hashFn f ks k hk hsort hne k₀ v₀ hTc
    | node ce cl cr =>
      exact mapRemove_correct_branchroot hashFn f ks k hk hsort hne ce cl cr hTc

/-- `get` on a canonical state returns the assigned value of a stored key and
`none` otherwise. -/
theorem mapGet_buildState (hashFn : Bytes → Bytes) (f : KeyBits → Bytes)
    {ks : List KeyBits} (hsort : SortedKeys ks) (k : KeyBits)
    (hk : k.length = 256) :
    mapGet (buildState hashFn f ks) k = if k ∈ ks then some (f k) else none := by
  by_cases hne : ks = []
  · subst hne
    rw [if_neg (List.not_mem_nil k)]
    rfl
  · unfold mapGet
    rw [buildState_lookup_valuePath hashFn f hsort hne k hk]
    by_cases hm : k ∈ ks
    · rw [if_pos hm, if_pos hm]
    · rw [if_neg hm, if_neg hm]

/-- Every reachable state is a canonical state of a sorted key set. -/
theorem reachable_WF (hashFn : Bytes → Bytes) {s : Store}
    (h : Reachable hashFn s) : ∃ ks f, SortedKeys ks ∧ s = buildState hashFn f ks := by
  induction h with
  | empty =>
    exact ⟨[], fun _ => [], ⟨List.chain'_nil,
      fun q hq => absurd hq (List.not_mem_nil q)⟩, rfl⟩
  | putStep hre hk hput ih =>
    obtain ⟨ks, f, hsort, hEq⟩ := ih
    subst hEq
    rename_i k v
    rw [mapPut_correct hashFn f ks k v hk hsort] at hput
    injection hput with hput
    exact ⟨insortKey k ks, updateF f k v, insortKey_sorted k hk ks hsort, hput.symm⟩
  | removeStep hre hk hrem ih =>
    obtain ⟨ks, f, hsort, hEq⟩ := ih
    subst hEq
    rename_i k
    rw [mapRemove_correct hashFn f ks k hk hsort] at hrem
    injection hrem with hrem
    exact ⟨ks.erase k, f, erase_sorted k hsort, hrem.symm⟩

/-- Strictly sorted key lists with the same members are equal. -/
theorem sortedKeys_ext : ∀ {a b : List KeyBits}, SortedKeys a → SortedKeys b →
    (∀ q, q ∈ a ↔ q ∈ b) → a = b := by
  intro a
  induction a with
  | nil =>
    intro b _ _ hmem
    cases b with
    | nil => rfl
    | cons y bs =>
      exact absurd ((hmem y).mpr (List.mem_cons_self _ _)) (List.not_mem_nil y)
  | cons x as ih =>
    intro b hsa hsb hmem
    cases b with
    | nil =>
      exact absurd ((hmem x).mp (List.mem_cons_self _ _)) (List.not_mem_nil x)
    | cons y bs =>
      have hxlt : ∀ q ∈ as, keyLt x q = true :=
        (List.pairwise_cons.mp (sortedKeys_pairwise hsa)).1
      have hylt : ∀ q ∈ bs, keyLt y q = true :=
        (List.pairwise_cons.mp (sortedKeys_pairwise hsb)).1
      have hxy : x = y := by
        rcases List.mem_cons.mp ((hmem x).mp (List.mem_cons_self _ _)) with h1 | h1
        · exact h1
        · rcases List.mem_cons.mp ((hmem y).mpr (List.mem_cons_self _ _))
            with h2 | h2
          · exact h2.symm
          · have h3 := hylt x h1
            have h4 := hxlt y h2
            rw [keyLt_asymm h4] at h3
            exact absurd h3 Bool.false_ne_true
      subst hxy
      have hta : SortedKeys as :=
        ⟨hsa.1.tail, fun q hq => hsa.2 q (List.mem_cons_of_mem _ hq)⟩
      have htb : SortedKeys bs :=
        ⟨hsb.1.tail, fun q hq => hsb.2 q (List.mem_cons_of_mem _ hq)⟩
      have hmem' : ∀ q, q ∈ as ↔ q ∈ bs := by
        intro q
        constructor
        · intro hq
          have hqx : q ≠ x := by
            intro hc
            rw [hc] at hq
            have h5 := hxlt x hq
            rw [keyLt_irrefl] at h5
            exact absurd h5 (by simp)
          rcases List.mem_cons.mp ((hmem q).mp (List.mem_cons_of_mem _ hq))
            with h1 | h1
          · exact absurd h1 hqx
          · exact h1
        · intro hq
          have hqx : q ≠ x := by
            intro hc
            rw [hc] at hq
            have h5 := hylt x hq
            rw [keyLt_irrefl] at h5
            exact absurd h5 (by simp)
          rcases List.mem_cons.mp ((hmem q).mpr (List.mem_cons_of_mem _ hq))
            with h1 | h1
          · exact absurd h1 hqx
          · exact h1
      rw [ih hta htb hmem']

/-- The canonical tree only depends on the assignment's values at the stored
keys. -/
theorem buildTree_congr (f g : KeyBits → Bytes) {ks : List KeyBits}
    (hsort : SortedKeys ks) (hne : ks ≠ []) (hfg : ∀ q ∈ ks, f q = g q) :
    buildTree f ks = buildTree g ks := by
  obtain ⟨hk1, ht1, hv1⟩ := buildTree_spec f ks hne hsort
  obtain ⟨hk2, ht2, hv2⟩ := buildTree_spec g ks hne hsort
  exact TWF_unique g _ _ ht1 ht2 (by rw [hk1, hk2])
    (valuesFrom_congr (fun q hq => hfg q (by rw [← hk1]; exact hq)) hv1)
    hv2

/-- The canonical state only depends on the assignment's values at the stored
keys. -/
theorem buildState_congr (hashFn : Bytes → Bytes) (f g : KeyBits → Bytes)
    {ks : List KeyBits} (hsort : SortedKeys ks) (hfg : ∀ q ∈ ks, f q = g q) :
    buildState hashFn f ks = buildState hashFn g ks := by
  by_cases hne : ks = []
  · subst hne
    rfl
  · have hBT := buildTree_congr f g hsort hne hfg
    have hve : valueEntries f ks = valueEntries g ks :=
      List.map_congr_left (fun q hq => by rw [hfg q hq])
    unfold buildState
    simp only [hBT, hve]

/-- `put` of a whole list of pairs onto a canonical state folds sorted
insertion and pointwise update over the list. -/
theorem putAll_buildState (hashFn : Bytes → Bytes) :
    ∀ (l : List (KeyBits × Bytes)) (f : KeyBits → Bytes) (ks : List KeyBits),
      SortedKeys ks → (∀ p ∈ l, p.1.length = 256) →
      putAll hashFn (buildState hashFn f ks) l
        = some (buildState hashFn
            (l.foldl (fun f' p => updateF f' p.1 p.2) f)
            (l.foldl (fun ks' p => insortKey p.1 ks') ks))
  | [], f, ks, _, _ => rfl
  | (k, v) :: rest, f, ks, hsort, hlen => by
    simp only [putAll, List.foldl_cons]
    rw [mapPut_correct hashFn f ks k v (hlen (k, v) (List.mem_cons_self _ _)) hsort]
    exact putAll_buildState hashFn rest (updateF f k v) (insortKey k ks)
      (insortKey_sorted k (hlen (k, v) (List.mem_cons_self _ _)) ks hsort)
      (fun p hp => hlen p (List.mem_cons_of_mem _ hp))

/-- Membership in the folded sorted insertion of a pair list. -/
theorem mem_foldIns : ∀ (l : List (KeyBits × Bytes)) (ks : List KeyBits)
    (q : KeyBits),
    q ∈ l.foldl (fun ks' p => insortKey p.1 ks') ks ↔
      q ∈ ks ∨ q ∈ l.map Prod.fst
  | [], ks, q => by simp
  | (k, v) :: rest, ks, q => by
    rw [List.foldl_cons, mem_foldIns rest (insortKey k ks) q, insortKey_mem]
    simp only [List.map_cons, List.mem_cons]
    tauto

/-- Sortedness of the folded sorted insertion of a pair list. -/
theorem foldIns_sorted : ∀ (l : List (KeyBits × Bytes)) (ks : List KeyBits),
    SortedKeys ks → (∀ p ∈ l, p.1.length = 256) →
    SortedKeys (l.foldl (fun ks' p => insortKey p.1 ks') ks)
  | [], ks, hsort, _ => hsort
  | (k, v) :: rest, ks, hsort, hlen => by
    rw [List.foldl_cons]
    exact foldIns_sorted rest (insortKey k ks)
      (insortKey_sorted k (hlen (k, v) (List.mem_cons_self _ _)) ks hsort)
      (fun p hp => hlen p (List.mem_cons_of_mem _ hp))

/-- The folded update leaves unlisted keys untouched. -/
theorem foldUpd_not_mem : ∀ (l : List (KeyBits × Bytes)) (f : KeyBits → Bytes)
    (q : KeyBits), q ∉ l.map Prod.fst →
    l.foldl (fun f' p => updateF f' p.1 p.2) f q = f q
  | [], f, q, _ => rfl
  | (k, v) :: rest, f, q, hq => by
    rw [List.foldl_cons, foldUpd_not_mem rest (updateF f k v) q (fun hc =>
      hq (by
        rw [List.map_cons]
        exact List.mem_cons_of_mem _ hc))]
    exact if_neg (fun hc => hq (by
      rw [List.map_cons, hc]
      exact List.mem_cons_self _ _))

/-- The folded update assigns each listed key its listed value when the keys
are pairwise distinct. -/
theorem foldUpd_mem : ∀ (l : List (KeyBits × Bytes)) (f : KeyBits → Bytes)
    (q : KeyBits) (v : Bytes), (l.map Prod.fst).Nodup → (q, v) ∈ l →
    l.foldl (fun f' p => updateF f' p.1 p.2) f q = v
  | [], _, q, v, _, hm => absurd hm (List.not_mem_nil _)
  | (k, w) :: rest, f, q, v, hnd, hm => by
    rw [List.map_cons] at hnd
    rcases List.mem_cons.mp hm with h1 | h1
    · injection h1 with h1k h1v
      subst h1k
      subst h1v
      rw [List.foldl_cons,
        foldUpd_not_mem rest (updateF f q v) q (List.nodup_cons.mp hnd).1]
      exact if_pos rfl
    · rw [List.foldl_cons]
      exact foldUpd_mem rest (updateF f k w) q v (List.nodup_cons.mp hnd).2 h1

/-! ## Claim C8 — `prefix` borders -/

/-- C8, counterexample: on the path of an all-zero key with start offset 1,
`prefix(255)` has `n = 255 < 256` yet produces a leaf (its end border is
256), contradicting the claim that every `n < 256` produces a branch. -/
theorem C8_counterexample :
    ((ProofPath.ofKey (List.replicate 256 false)).suffix 1).len = 255 ∧
    ((((ProofPath.ofKey (List.replicate 256 false)).suffix 1)).prefixAt 255).isLeaf
      = true := by
  constructor <;> rfl

/-- C8 (amended): for `n ≤ length`, `prefix(n)` keeps the start border and has
end border `start + n`; the result is a leaf exactly when its end border
`start + n` equals 256 (so for `n = 256` it is a leaf, but also for `n < 256`
whenever `start = 256 - n`), and a branch otherwise. -/
theorem C8_prefix_borders (p : ProofPath) (n : Nat) (_hn : n ≤ p.len) :
    (p.prefixAt n).start = p.start ∧ (p.prefixAt n).endp = p.start + n ∧
    ((p.prefixAt n).isLeaf = true ↔ p.start + n = 256) := by
  refine ⟨rfl, rfl, ?_⟩
  simp [ProofPath.prefixAt, ProofPath.isLeaf]

theorem C8_prefix_borders_witness :
    ((ProofPath.ofKey (List.replicate 256 false)).prefixAt 3).start
        = (ProofPath.ofKey (List.replicate 256 false)).start ∧
    ((ProofPath.ofKey (List.replicate 256 false)).prefixAt 3).endp
        = (ProofPath.ofKey (List.replicate 256 false)).start + 3 ∧
    (((ProofPath.ofKey (List.replicate 256 false)).prefixAt 3).isLeaf = true ↔
      (ProofPath.ofKey (List.replicate 256 false)).start + 3 = 256) :=
  C8_prefix_borders (ProofPath.ofKey (List.replicate 256 false)) 3 (by decide)

/-! ## Claim C9 — `BranchNode::set_child` -/

/-- C9, counterexample: storing a leaf path whose start offset is 8 and
reading it back yields a path with start offset 0, which is not equal (in the
sense of the source's `PartialEq`, nor structurally) to the stored path. -/
theorem C9_counterexample :
    (((BranchNode.empty.setChild .left
          ((ProofPath.ofKey (List.replicate 256 true)).suffix 8)
          (List.replicate 32 5)).childPath .left).pathEq
        ((ProofPath.ofKey (List.replicate 256 true)).suffix 8)) = false ∧
    (BranchNode.empty.setChild .left
          ((ProofPath.ofKey (List.replicate 256 true)).suffix 8)
          (List.replicate 32 5)).childPath .left
        ≠ (ProofPath.ofKey (List.replicate 256 true)).suffix 8 := by
  refine ⟨rfl, fun h => absurd (congrArg ProofPath.start h) (by decide)⟩

/-- C9 (amended): after `set_child(c, p, h)` with a leaf path `p` (32-byte key
material), `child_hash(c)` returns `h`, and `child_path(c)` returns `p` with
its transient start offset reset to 0 — hence a path equal to `p` exactly
when `p.start = 0`, as in the source's own unit test; the hash and path of
the opposite child are unchanged. -/
theorem C9_set_child (b : BranchNode) (c : ChildKind) (p : ProofPath) (h : Bytes)
    (hleaf : p.isLeaf = true) (hlen : p.key.length = 256) :
    (b.setChild c p h).childHash c = h ∧
    (b.setChild c p h).childPath c = p.startFrom 0 ∧
    (p.start = 0 → (b.setChild c p h).childPath c = p) ∧
    (b.setChild c p h).childHash c.flip = b.childHash c.flip ∧
    (b.setChild c p h).childPath c.flip = b.childPath c.flip := by
  have hcp : readPath p.serialize = p.startFrom 0 := readPath_serialize_leaf p hleaf hlen
  have hzero : p.start = 0 → p.startFrom 0 = p := by
    intro h0
    cases p
    simp_all [ProofPath.startFrom]
  cases c
  · exact ⟨rfl, hcp, fun h0 => hcp.trans (hzero h0), rfl, rfl⟩
  · exact ⟨rfl, hcp, fun h0 => hcp.trans (hzero h0), rfl, rfl⟩

theorem C9_set_child_witness :
    (BranchNode.empty.setChild .right (ProofPath.ofKey (List.replicate 256 false))
        (List.replicate 32 3)).childHash .right = List.replicate 32 3 ∧
    (BranchNode.empty.setChild .right (ProofPath.ofKey (List.replicate 256 false))
        (List.replicate 32 3)).childPath .right
      = (ProofPath.ofKey (List.replicate 256 false)).startFrom 0 ∧
    ((ProofPath.ofKey (List.replicate 256 false)).start = 0 →
      (BranchNode.empty.setChild .right (ProofPath.ofKey (List.replicate 256 false))
          (List.replicate 32 3)).childPath .right
        = ProofPath.ofKey (List.replicate 256 false)) ∧
    (BranchNode.empty.setChild .right (ProofPath.ofKey (List.replicate 256 false))
        (List.replicate 32 3)).childHash ChildKind.right.flip
      = BranchNode.empty.childHash ChildKind.right.flip ∧
    (BranchNode.empty.setChild .right (ProofPath.ofKey (List.replicate 256 false))
        (List.replicate 32 3)).childPath ChildKind.right.flip
      = BranchNode.empty.childPath ChildKind.right.flip :=
  C9_set_child BranchNode.empty .right (ProofPath.ofKey (List.replicate 256 false))
    (List.replicate 32 3) rfl (by simp [ProofPath.ofKey])

/-! ## Claim C3 — `root_hash` shape -/

/-- C3: `root_hash()` returns `Hash::zero` on the empty map, the hash of the
serialized root path concatenated with the value hash when the root node is a
leaf, and the hash of the 132-byte wire image when the root node is a
branch. -/
theorem C3_root_hash (hashFn : Bytes → Bytes) :
    merkleRoot hashFn [] = some zeroHash ∧
    (∀ s p vh, getRootNode s = some (some (p, .leafN vh)) →
      merkleRoot hashFn s = some (hashFn (p.serialize ++ vh))) ∧
    (∀ s p b, getRootNode s = some (some (p, .branchN b)) →
      merkleRoot hashFn s = some (hashFn b.image)) := by
  refine ⟨rfl, ?_, ?_⟩
  · intro s p vh h
    unfold merkleRoot
    rw [h]
  · intro s p b h
    unfold merkleRoot
    rw [h]
    rfl

theorem C3_root_hash_witness :
    merkleRoot (fun _ => List.replicate 32 1) [] = some zeroHash ∧
    merkleRoot (fun _ => List.replicate 32 1)
        [(ProofPath.serialize ⟨List.replicate 256 false, 256, 0⟩,
          .hashVal (List.replicate 32 9))]
      = some ((fun _ => List.replicate 32 1)
          ((readPath (ProofPath.serialize ⟨List.replicate 256 false, 256, 0⟩)).serialize
            ++ List.replicate 32 9)) := by
  have t := C3_root_hash (fun _ => List.replicate 32 1)
  exact ⟨t.1, t.2.1
    [(ProofPath.serialize ⟨List.replicate 256 false, 256, 0⟩,
      .hashVal (List.replicate 32 9))]
    (readPath (ProofPath.serialize ⟨List.replicate 256 false, 256, 0⟩))
    (List.replicate 32 9) (by decide)⟩

/-! ## Claim C5 — reads through a Fork-backed view -/

/-- C5: a read through a view backed by a Fork returns the `Put` value or
`None` for a `Delete` recorded in the view's changes; with no recorded change
it returns `None` when the `emptied` flag is set (for every snapshot, i.e.
without consulting it), and otherwise the underlying snapshot's value for the
view's keyed key. -/
theorem C5_fork_reads (ch : ViewChanges) (ab : Option Bytes)
    (snap : Bytes → Option Bytes) (key : Bytes) :
    (∀ v, changesGet ch key = some (.put v) → getBytes (some ch) ab snap key = some v) ∧
    (changesGet ch key = some .delete → getBytes (some ch) ab snap key = none) ∧
    (changesGet ch key = none → ch.emptied = true →
      getBytes (some ch) ab snap key = none) ∧
    (changesGet ch key = none → ch.emptied = false →
      getBytes (some ch) ab snap key = snap (keyedKey ab key)) := by
  refine ⟨?_, ?_, ?_, ?_⟩
  · intro v h
    simp [getBytes, h]
  · intro h
    simp [getBytes, h]
  · intro h he
    simp [getBytes, h, he]
  · intro h he
    simp [getBytes, h, he]

theorem C5_fork_reads_witness :
    (changesGet ⟨[([1], .put [7])], false⟩ [1] = some (.put [7]) →
      getBytes (some ⟨[([1], .put [7])], false⟩) none (fun _ => none) [1] = some [7]) ∧
    (changesGet ⟨[([1], .delete)], false⟩ [1] = some .delete →
      getBytes (some ⟨[([1], .delete)], false⟩) none (fun _ => some [9]) [1] = none) ∧
    (changesGet ⟨[], true⟩ [1] = none → (⟨[], true⟩ : ViewChanges).emptied = true →
      getBytes (some ⟨[], true⟩) none (fun _ => some [9]) [1] = none) ∧
    (changesGet ⟨[], false⟩ [1] = none → (⟨[], false⟩ : ViewChanges).emptied = false →
      getBytes (some ⟨[], false⟩) (some [5]) (fun b => some b) [1]
        = (fun b => some b) (keyedKey (some [5]) [1])) :=
  ⟨fun h => (C5_fork_reads ⟨[([1], .put [7])], false⟩ none (fun _ => none) [1]).1 [7] h,
   fun h => (C5_fork_reads ⟨[([1], .delete)], false⟩ none (fun _ => some [9]) [1]).2.1 h,
   fun h h' => (C5_fork_reads ⟨[], true⟩ none (fun _ => some [9]) [1]).2.2.1 h h',
   fun h h' => (C5_fork_reads ⟨[], false⟩ (some [5]) (fun b => some b) [1]).2.2.2 h h'⟩

/-! ## Claim C6 — metadata kind guard -/

/-- C6: opening an index at an address whose stored metadata record disagrees
with the requested kind or family flag panics (the `assert_eq`), for both
snapshot- and fork-backed accesses; it never succeeds and returns no
recoverable error. -/
theorem C6_metadata_guard (s : MetadataStore) (isFork : Bool) (t t' : IndexType)
    (hp hf : Bool) (hstored₁ : s.indexTypeEntry = some t)
    (hstored₂ : s.hasParentEntry = some hp) (hne : t ≠ t' ∨ hp ≠ hf) :
    buildIndex s isFork t' hf = none := by
  have : (⟨t', hf⟩ : IndexMetadata) ≠ ⟨t, hp⟩ := by
    intro h
    injection h with h1 h2
    rcases hne with h | h <;> exact h (by simp [h1, h2])
  simp [buildIndex, checkOrCreateMetadata, indexMetadataGet, hstored₁, hstored₂, this]

theorem C6_metadata_guard_witness :
    buildIndex ⟨some .map, some false⟩ true .list false = none :=
  C6_metadata_guard ⟨some .map, some false⟩ true .map .list false false rfl rfl
    (Or.inl (by decide))

/-! ## Claim C10 — opening over a snapshot with absent metadata -/

/-- C10: opening a typed index over a Snapshot at an address with no stored
metadata record succeeds without panicking and performs no write — the
metadata store (and hence everything observable through the snapshot) is
returned unchanged, so the record remains absent. -/
theorem C10_snapshot_open (s : MetadataStore) (t : IndexType) (hf : Bool)
    (habsent : s.indexTypeEntry = none) :
    buildIndex s false t hf = some s := by
  simp [buildIndex, checkOrCreateMetadata, indexMetadataGet, habsent]

theorem C10_snapshot_open_witness :
    buildIndex ⟨none, none⟩ false .proofMap true = some ⟨none, none⟩ :=
  C10_snapshot_open ⟨none, none⟩ .proofMap true rfl


/-! ## Claim C1 — order independence of the root hash -/

/-- C1: inserting any finite list of key/value pairs with pairwise distinct
256-bit keys into an empty map through `put` succeeds in every order, and any
permutation of the insertion order yields a state with the same
`merkle_root`. -/
theorem C1_order_independence (hashFn : Bytes → Bytes)
    (l l' : List (KeyBits × Bytes)) (hlen : ∀ p ∈ l, p.1.length = 256)
    (hnd : (l.map Prod.fst).Nodup) (hperm : l.Perm l') :
    ∃ s s', putAll hashFn [] l = some s ∧ putAll hashFn [] l' = some s' ∧
      merkleRoot hashFn s = merkleRoot hashFn s' := by
  have hlen' : ∀ p ∈ l', p.1.length = 256 :=
    fun p hp => hlen p (hperm.mem_iff.mpr hp)
  have hnd' : (l'.map Prod.fst).Nodup := ((hperm.map Prod.fst).nodup_iff).mp hnd
  have hsort0 : SortedKeys [] :=
    ⟨List.chain'_nil, fun q hq => absurd hq (List.not_mem_nil q)⟩
  have h1 := putAll_buildState hashFn l (fun _ => []) [] hsort0 hlen
  have h2 := putAll_buildState hashFn l' (fun _ => []) [] hsort0 hlen'
  rw [show buildState hashFn (fun _ => []) [] = [] from rfl] at h1 h2
  refine ⟨_, _, h1, h2, ?_⟩
  have hmemEq : ∀ q, q ∈ l.foldl (fun ks' p => insortKey p.1 ks') [] ↔
      q ∈ l'.foldl (fun ks' p => insortKey p.1 ks') [] := by
    intro q
    rw [mem_foldIns, mem_foldIns]
    constructor
    · intro h
      rcases h with h | h
      · exact absurd h (List.not_mem_nil q)
      · exact Or.inr ((hperm.map Prod.fst).mem_iff.mp h)
    · intro h
      rcases h with h | h
      · exact absurd h (List.not_mem_nil q)
      · exact Or.inr ((hperm.map Prod.fst).mem_iff.mpr h)
  have hkeq : l.foldl (fun ks' p => insortKey p.1 ks') []
      = l'.foldl (fun ks' p => insortKey p.1 ks') [] :=
    sortedKeys_ext (foldIns_sorted l [] hsort0 hlen)
      (foldIns_sorted l' [] hsort0 hlen') hmemEq
  have hstate : buildState hashFn
      (l.foldl (fun f' p => updateF f' p.1 p.2) (fun _ => []))
      (l.foldl (fun ks' p => insortKey p.1 ks') [])
      = buildState hashFn
        (l'.foldl (fun f' p => updateF f' p.1 p.2) (fun _ => []))
        (l'.foldl (fun ks' p => insortKey p.1 ks') []) := by
    rw [hkeq]
    refine buildState_congr hashFn _ _ (foldIns_sorted l' [] hsort0 hlen') ?_
    intro q hq
    have hqm : q ∈ l'.map Prod.fst := by
      rcases (mem_foldIns l' [] q).mp hq with h | h
      · exact absurd h (List.not_mem_nil q)
      · exact h
    obtain ⟨p, hp, hpq⟩ := List.mem_map.mp hqm
    obtain ⟨q1, v1⟩ := p
    have hq1 : q1 = q := hpq
    subst hq1
    rw [foldUpd_mem l _ q1 v1 hnd (hperm.mem_iff.mpr hp),
      foldUpd_mem l' _ q1 v1 hnd' hp]
  rw [hstate]

theorem C1_order_independence_witness :
    ∃ s s', putAll (fun _ => List.replicate 32 0) []
        [(List.replicate 256 false, [1]), (true :: List.replicate 255 false, [2])]
        = some s ∧
      putAll (fun _ => List.replicate 32 0) []
        [(true :: List.replicate 255 false, [2]), (List.replicate 256 false, [1])]
        = some s' ∧
      merkleRoot (fun _ => List.replicate 32 0) s
        = merkleRoot (fun _ => List.replicate 32 0) s' :=
  C1_order_independence (fun _ => List.replicate 32 0) _ _ (by decide) (by decide)
    (List.Perm.swap (true :: List.replicate 255 false, [2])
      (List.replicate 256 false, [1]) [])

/-! ## Claim C2 — put/get/remove round trip -/

/-- C2: on every reachable ProofMap state, after `put(k, v)` a `get(k)`
returns `Some v`, and after the subsequent `remove(k)` a `get(k)` returns
`None`; neither operation panics. -/
theorem C2_roundtrip (hashFn : Bytes → Bytes) (s : Store)
    (h : Reachable hashFn s) (k : KeyBits) (hk : k.length = 256) (v : Bytes) :
    ∃ s₁ s₂, mapPut hashFn s k v = some s₁ ∧ mapGet s₁ k = some v ∧
      mapRemove hashFn s₁ k = some s₂ ∧ mapGet s₂ k = none := by
  obtain ⟨ks, f, hsort, rfl⟩ := reachable_WF hashFn h
  have hsort' := insortKey_sorted k hk ks hsort
  refine ⟨_, _, mapPut_correct hashFn f ks k v hk hsort, ?_,
    mapRemove_correct hashFn (updateF f k v) (insortKey k ks) k hk hsort', ?_⟩
  · rw [mapGet_buildState hashFn (updateF f k v) hsort' k hk,
      if_pos ((insortKey_mem k ks k).mpr (Or.inl rfl))]
    show some (if k = k then v else f k) = some v
    rw [if_pos rfl]
  · rw [mapGet_buildState hashFn (updateF f k v) (erase_sorted k hsort') k hk,
      if_neg (fun hc => absurd rfl
        ((List.Nodup.mem_erase_iff (sortedKeys_nodup hsort')).mp hc).1)]

theorem C2_roundtrip_witness :
    ∃ s₁ s₂, mapPut (fun _ => List.replicate 32 0) []
        (List.replicate 256 false) [5] = some s₁ ∧
      mapGet s₁ (List.replicate 256 false) = some [5] ∧
      mapRemove (fun _ => List.replicate 32 0) s₁ (List.replicate 256 false)
        = some s₂ ∧
      mapGet s₂ (List.replicate 256 false) = none :=
  C2_roundtrip (fun _ => List.replicate 32 0) [] Reachable.empty
    (List.replicate 256 false) (by decide) [5]

/-! ## Claim C4 — root discovery through ordered iteration -/

/-- C4: on every reachable ProofMap state, `get_root_path` returns `None`
exactly on the empty store; on a non-empty store the first stored key in
ascending byte order is the serialization of the returned root path, and the
root node is stored under that path (so `get_root_node` finds it there). -/
theorem C4_root_discovery (hashFn : Bytes → Bytes) (s : Store)
    (h : Reachable hashFn s) :
    (s = [] → getRootPath s = none) ∧
    (s ≠ [] → ∃ p n, getRootPath s = some p ∧
      (s.map Prod.fst).head? = some p.serialize ∧
      getRootNode s = some (some (p, n))) := by
  obtain ⟨ks, f, hsort, rfl⟩ := reachable_WF hashFn h
  constructor
  · intro he
    rw [he]
    rfl
  · intro hne'
    have hne : ks ≠ [] := by
      intro hc
      apply hne'
      rw [hc]
      rfl
    refine ⟨readPath ((buildTree f ks).nodePath.serialize),
      (buildTree f ks).nodeOf hashFn, ?_, ?_,
      getRootNode_buildState hashFn f hsort hne⟩
    · unfold getRootPath
      rw [buildState_head hashFn f hsort hne]
      rfl
    · rw [serialize_readPath_serialize _ (by
        rw [nodePath_eq]
        exact TWF_endOf_le (buildTree_spec f ks hne hsort).2.1)]
      rw [List.head?_map, buildState_head hashFn f hsort hne]
      rfl

theorem C4_root_discovery_witness :
    ((buildState (fun _ => List.replicate 32 0) (fun _ => [3])
        [List.replicate 256 false] = []) →
      getRootPath (buildState (fun _ => List.replicate 32 0) (fun _ => [3])
        [List.replicate 256 false]) = none) ∧
    (buildState (fun _ => List.replicate 32 0) (fun _ => [3])
        [List.replicate 256 false] ≠ [] →
      ∃ p n, getRootPath (buildState (fun _ => List.replicate 32 0)
          (fun _ => [3]) [List.replicate 256 false]) = some p ∧
        ((buildState (fun _ => List.replicate 32 0) (fun _ => [3])
          [List.replicate 256 false]).map Prod.fst).head? = some p.serialize ∧
        getRootNode (buildState (fun _ => List.replicate 32 0) (fun _ => [3])
          [List.replicate 256 false]) = some (some (p, n))) :=
  C4_root_discovery (fun _ => List.replicate 32 0) _
    (@Reachable.putStep (fun _ => List.replicate 32 0) []
      (buildState (fun _ => List.replicate 32 0) (fun _ => [3])
        [List.replicate 256 false])
      (List.replicate 256 false) [3] Reachable.empty (by decide) (by decide))

/-! ## Claim C7 — removing an absent key is a no-op -/

/-- C7: on every reachable ProofMap state that does not contain the 256-bit
key `k`, `remove(k)` succeeds (no panic) and returns the state unchanged —
every stored node key, branch record and value key survives verbatim. -/
theorem C7_remove_absent (hashFn : Bytes → Bytes) (s : Store)
    (h : Reachable hashFn s) (k : KeyBits) (hk : k.length = 256)
    (habs : mapGet s k = none) :
    mapRemove hashFn s k = some s := by
  obtain ⟨ks, f, hsort, rfl⟩ := reachable_WF hashFn h
  have hknot : k ∉ ks := by
    intro hc
    rw [mapGet_buildState hashFn f hsort k hk, if_pos hc] at habs
    exact Option.noConfusion habs
  rw [mapRemove_correct hashFn f ks k hk hsort, List.erase_of_not_mem hknot]

theorem C7_remove_absent_witness :
    mapRemove (fun _ => List.replicate 32 0) [] (List.replicate 256 false)
      = some [] :=
  C7_remove_absent (fun _ => List.replicate 32 0) [] Reachable.empty
    (List.replicate 256 false) (by decide) rfl

end Exonum
